import Mathlib

/-! KV-cache management, attention index logic, rotary embeddings and fused linear
layers of `fused_llm_infer.cpp`, the work queue, handles and collectives of
`ProcessGroupMPI.cpp`, and `BrgemmExtTPP` of `ext_tpp.h`.

A shallow embedding of `LLMBlock::self_mha`, `kv_concat`, the incremental
decode `attn`, the tile plan and the causal-mask loop of the prefill `attn`,
`wt_tensor_for_first_token`, `apply_rotary_pos_emb_gptj`,
`apply_rotary_pos_emb_llama`, the loop nest of the fused linear layers with
`fc_plain`, the queue operations of `ProcessGroupMPI` with the completion of
the work handles, `AsyncWork`, the call-site checks of the collectives, the
communicator loop of `createProcessGroupMPI`, and the constructor and call
operator of `BrgemmExtTPP`.

Modelling conventions.

* A tensor is its shape together with a logical accessor. Code that goes
  through `GetVLAPtr` computes a row-major element offset and reads or writes
  the storage at that offset; this is modelled by `load` / `storeRow`, which
  decode the offset against the tensor's own shape. An offset outside the
  storage reads a value supplied by a `oob` function (the contents of the
  surrounding memory) and a write outside the storage is dropped.
* Floating-point tile primitives (`xsmm_functors.h`) are parameters of the
  model (`DecodeTPP`, `prefill`): the development is about data movement,
  indices and shapes, which do not depend on their arithmetic.
* A raised torch error or a failed `TPP_ASSERT` is the result `none`.
* Code that only moves data through flat pointers (`wt_tensor_for_first_token`,
  the rotary kernels, `fc_plain`) is modelled on storages addressed by element
  offset. Where a statement needs the laws of arithmetic (the rotary round
  trip, the affine map of `fc_plain`), the float operations are read as the
  operations of a commutative ring or a semiring; rounding is outside these
  statements.
* The threads that share the queue of `ProcessGroupMPI` are modelled by the
  interleavings of their critical sections.
* A raised error of `ProcessGroupMPI.cpp` is a result `Except.error`; values
  returned by the MPI library (`MPI_Test`, `MPI_Wait`, `MPI_Comm_create`) are
  parameters of the model.
-/

namespace TppLlm

/-! ## Tensors -/

/-- A rank-4 tensor `[B, N, S, H]` (batch, heads, sequence, head dim). -/
structure Tensor4 (α : Type) where
  B : Nat
  N : Nat
  S : Nat
  H : Nat
  elem : Nat → Nat → Nat → Nat → α

/-- A rank-3 tensor `[B, S, C]` (batch, sequence, hidden). -/
structure Tensor3 (α : Type) where
  B : Nat
  S : Nat
  C : Nat
  elem : Nat → Nat → Nat → α

/-- A rank-2 tensor of `long` (the beam-index table `[Capacity, Batch]`).
A rank-1 tensor `[n]` is represented as `[n, 1]`. -/
structure Tensor2 where
  R : Nat
  C : Nat
  elem : Nat → Nat → Int

/-- The additive attention mask, as flat storage. -/
structure Mask (α : Type) where
  numel : Nat
  data : Int → α

def Tensor4.numel {α : Type} (t : Tensor4 α) : Nat := t.B * t.N * t.S * t.H

def Tensor2.numel (t : Tensor2) : Nat := t.R * t.C

/-- Row-major element offset of the logical index `[b][n][s][h]`. -/
def Tensor4.flatIdx {α : Type} (t : Tensor4 α) (b n s h : Nat) : Nat :=
  ((b * t.N + n) * t.S + s) * t.H + h

/-- Element offset of `p[i0][i1][i2]` for `p = GetVLAPtr<T>(t, {d1, d2, d3})`. -/
def vlaOff (d1 d2 d3 : Nat) (i0 : Int) (i1 i2 : Nat) : Int :=
  ((i0 * d1 + i1) * d2 + i2) * d3

/-- Read of the storage of `t` at element offset `p`. -/
def Tensor4.load {α : Type} (t : Tensor4 α) (oob : Int → α) (p : Int) : α :=
  if 0 ≤ p ∧ p < t.numel then
    t.elem (p.toNat / t.H / t.S / t.N) (p.toNat / t.H / t.S % t.N)
      (p.toNat / t.H % t.S) (p.toNat % t.H)
  else oob p

/-- Read of `len` consecutive elements starting at offset `p`. -/
def Tensor4.loadRow {α : Type} (t : Tensor4 α) (oob : Int → α) (p : Int) (len : Nat) :
    List α :=
  (List.range len).map fun (h : Nat) => t.load oob (p + (h : Int))

/-- Write of the elements of `row` to the storage of `t` starting at offset `p`
(`cpy_tpp(src, dst)`); the part that falls outside the storage is dropped. -/
def Tensor4.storeRow {α : Type} (t : Tensor4 α) (p : Int) (row : List α) : Tensor4 α :=
  { t with
    elem := fun b n s h =>
      if b < t.B ∧ n < t.N ∧ s < t.S ∧ h < t.H ∧ p ≤ (t.flatIdx b n s h : Int) ∧
          (t.flatIdx b n s h : Int) < p + row.length then
        row.getD ((t.flatIdx b n s h : Int) - p).toNat (t.elem b n s h)
      else t.elem b n s h }

/-- The `H` elements `f 0, ..., f (H-1)` of a row given by its accessor. -/
def rowOf {α : Type} (H : Nat) (f : Nat → α) : List α := (List.range H).map f

/-- Logical write of a row of `H` elements at `[b][n][s]`. -/
def Tensor4.setRow {α : Type} (t : Tensor4 α) (H b n s : Nat) (row : List α) : Tensor4 α :=
  { t with
    elem := fun b' n' s' h =>
      if b' = b ∧ n' = n ∧ s' = s ∧ h < H then row.getD h (t.elem b' n' s' h)
      else t.elem b' n' s' h }

/-- Read of the storage of a `long` tensor at element offset `p`. -/
def Tensor2.load (t : Tensor2) (oob : Int → Int) (p : Int) : Int :=
  if 0 ≤ p ∧ p < t.numel then t.elem (p.toNat / t.C) (p.toNat % t.C) else oob p

/-- Broadcasting rule of `copy_` for one dimension. -/
def bcOk (src dst : Nat) : Bool := src = dst || src = 1

/-- Source index used by a broadcasting `copy_`. -/
def bcIdx (src i : Nat) : Nat := if src = 1 then 0 else i

/-- Torch `dst.slice(2, 0, stop, 1).copy_(src)`. -/
def Tensor4.slice2_copy {α : Type} (dst : Tensor4 α) (stop : Nat) (src : Tensor4 α) :
    Option (Tensor4 α) :=
  let len := min stop dst.S
  if bcOk src.B dst.B && bcOk src.N dst.N && bcOk src.S len && bcOk src.H dst.H then
    some { dst with
      elem := fun b n s h =>
        if b < dst.B ∧ n < dst.N ∧ s < len ∧ h < dst.H then
          src.elem (bcIdx src.B b) (bcIdx src.N n) (bcIdx src.S s) (bcIdx src.H h)
        else dst.elem b n s h }
  else none

/-- Torch `dst.slice(0, 0, stop, 1).copy_(src)` on the beam-index table. -/
def Tensor2.slice0_copy (dst : Tensor2) (stop : Nat) (src : Tensor2) : Option Tensor2 :=
  let len := min stop dst.R
  if bcOk src.R len && bcOk src.C dst.C then
    some { dst with
      elem := fun r c =>
        if r < len ∧ c < dst.C then src.elem (bcIdx src.R r) (bcIdx src.C c)
        else dst.elem r c }
  else none

/-- Torch `t.slice(2, 0, stop, 1)`: a view on the first `stop` sequence positions. -/
def Tensor4.slice2 {α : Type} (t : Tensor4 α) (stop : Nat) : Tensor4 α :=
  { t with S := min stop t.S }

/-- Torch `at::arange(B).unsqueeze(0).expand({capacity, B}).contiguous()`. -/
def arange_expand (capacity B : Nat) : Tensor2 :=
  { R := capacity, C := B, elem := fun _ c => (c : Int) }

/-- Torch `t.view({B, S, N, H}).permute({0, 2, 1, 3}).contiguous()` of a `[B, S, N*H]`
tensor given by its accessor. -/
def view_heads {α : Type} (B S N H : Nat) (f : Nat → Nat → Nat → α) : Tensor4 α :=
  { B := B, N := N, S := S, H := H, elem := fun b n s h => f b s (n * H + h) }

/-- Torch `t.view({B, N, S, H}).permute({0, 2, 1, 3}).contiguous().view({B, S, N * H})`. -/
def merge_heads {α : Type} (B S N H : Nat) (t : Tensor4 α) : Tensor3 α :=
  { B := B, S := S, C := N * H, elem := fun b s c => t.elem b (c / H) s (c % H) }

/-! ## `kv_concat` -/

/-- A pointer stored in the `ptrs` array of `kv_concat`: the element offset of a
row inside the storage of `t_in1` or of `t_in2`. -/
inductive RowPtr where
  | in1 (off : Int)
  | in2 (off : Int)
  deriving DecidableEq, Repr

/-- The `ptrs` array of `kv_concat`, filled by the three nested loops
(`ptrs[p++] = in1[j1][k][i]`, then `ptrs[p++] = in2[j][k][i]`). -/
def kv_concat_ptrs (B N S1 S2 F : Nat) (indirect : Bool) (beam_idx : Nat → Int) :
    List RowPtr :=
  (List.range B).flatMap fun j =>
    (List.range N).flatMap fun k =>
      (List.range S1).map (fun i =>
          RowPtr.in1 (vlaOff N S1 F (if indirect then beam_idx j else (j : Int)) k i)) ++
        (List.range S2).map (fun i => RowPtr.in2 (vlaOff N S2 F (j : Int) k i))

/-- The function `kv_concat<T>(t_in1, t_in2, 2, t_beam_idx)`. `fresh` is the content of
the `new_empty` output before it is filled. -/
def kv_concat {α : Type} (oob : Int → α) (oobI : Int → Int)
    (fresh : Nat → Nat → Nat → Nat → α)
    (t_in1 t_in2 : Tensor4 α) (t_beam_idx : Tensor2) : Option (Tensor4 α) :=
  let indirect : Bool := decide (t_beam_idx.numel > 0)
  let B := if indirect then t_beam_idx.R else t_in1.B
  let N := t_in1.N
  let S := t_in1.S + t_in2.S
  let F := t_in1.H
  if B ≠ t_in2.B then none
  else
    let ptrs := kv_concat_ptrs B N t_in1.S t_in2.S F indirect
      (fun j => t_beam_idx.load oobI (j : Int))
    some
      { B := B, N := N, S := S, H := F,
        elem := fun b n s h =>
          if b < B ∧ n < N ∧ s < S ∧ h < F then
            match ptrs.get? ((b * N + n) * S + s) with
            | some (RowPtr.in1 off) => t_in1.load oob (off + h)
            | some (RowPtr.in2 off) => t_in2.load oob (off + h)
            | none => fresh b n s h
          else fresh b n s h }

/-! ## Beam back-tracing (`self_mha`, decode branch) -/

/-- Pointwise update of a one-dimensional array. -/
def upd {β : Type} (f : Nat → β) (a : Nat) (v : β) : Nat → β :=
  fun x => if x = a then v else f x

/-- The read `b_ptr[j][v]` with `b_ptr = GetVLAPtr<long>(t_beam_idx, {B})`. -/
def b_ptr (t_beam_idx : Tensor2) (oobI : Int → Int) (B : Nat) (j : Nat) (v : Int) : Int :=
  t_beam_idx.load oobI ((j : Int) * B + v)

/-- Body of the outer loop of the back-tracing code for beam row `i`:
`beam_idx[i][offset-1] = b_ptr[offset-1][i]`, then for `j = offset-2, ..., 0`
`beam_idx[i][j] = b_ptr[j][beam_idx[i][j+1]]`; `row` is the row `beam_idx[i]` of the
`new_empty` table. -/
def back_trace_row (t_beam_idx : Tensor2) (oobI : Int → Int) (B offset i : Nat)
    (row : Nat → Int) : Nat → Int :=
  (List.range (offset - 1)).reverse.foldl
    (fun r j => upd r j (b_ptr t_beam_idx oobI B j (r (j + 1))))
    (upd row (offset - 1) (b_ptr t_beam_idx oobI B (offset - 1) (i : Int)))

/-- The back-tracing loop nest: the table `t_new_beam_idx` of shape `[B, offset]`. -/
def back_trace (t_beam_idx : Tensor2) (oobI : Int → Int) (B offset : Nat)
    (fresh : Nat → Nat → Int) : Nat → Nat → Int :=
  (List.range B).foldl
    (fun tab i => upd tab i (back_trace_row t_beam_idx oobI B offset i (tab i))) fresh

/-! ## Incremental decode attention (`attn` with a cache) -/

/-- The tile primitives and float operations used by the decode `attn`; their
definitions live in `xsmm_functors.h`. `R` stands for `float`. -/
structure DecodeTPP (α R : Type) where
  /-- The value `1.0 / sqrtf(H)`. -/
  rsqrt : Nat → R
  /-- The constant `0.0f`. -/
  zero : R
  /-- The constant `-1e9f`. -/
  neg1e9 : R
  /-- Float multiplication (`AS[sk] *= one_by_sqrt_H`). -/
  mul : R → R → R
  /-- The update `AS[sk] += AM[b][sk]`. -/
  add_mask : R → α → R
  /-- `ConvertTPP<T, float>(H)`. -/
  cvt_b2f : List α → List R
  /-- `ConvertTPP<float, T>(H)`. -/
  cvt_f2b : List R → List α
  /-- `MulReduceTPP<float, T, float>(1, H)`; the last argument is the prior content
  of the output cell. -/
  dot : List R → List α → R → R
  /-- `ScaleAddTPP<T, float>(H)` applied to (input row, accumulator, scale). -/
  scale_add : List α → List R → R → List R
  /-- `SoftMaxFwdTPP<float, float>(1, 1, FSk_aligned)`, in place. -/
  softmax : List R → List R
  /-- Torch conversion of one element to `at::kFloat`. -/
  to_float : α → R
  /-- Torch conversion of one element back to the tensor dtype. -/
  to_T : R → α

/-- The value `(FSk + 0x3FL) & ~0x3FL`. -/
def fsk_aligned (FSk : Nat) : Nat := (FSk + 63) / 64 * 64

/-- One iteration of the score loop over `sk`: the score stored in `AS[sk]` and the
key cache after the iteration. -/
def score_step {α R : Type} (ops : DecodeTPP α R) (oob : Int → α) (N CSk H : Nat)
    (q : List R) (t_KL : Tensor4 α) (t_AM : Mask α) (beam_idx : Nat → Nat → Int)
    (offset FSk b n : Nat) (KL_C : Tensor4 α) (sk : Nat) : R × Tensor4 α :=
  let r : R × Tensor4 α :=
    if sk < offset then
      (ops.dot q (KL_C.loadRow oob (vlaOff N CSk H (beam_idx b sk) n sk) H) ops.zero, KL_C)
    else
      (ops.dot q (rowOf H (t_KL.elem b n 0)) ops.zero,
        KL_C.storeRow (vlaOff N CSk H (b : Int) n sk) (rowOf H (t_KL.elem b n 0)))
  let a := ops.mul r.1 (ops.rsqrt H)
  (if t_AM.numel > 0 then ops.add_mask a (t_AM.data ((b : Int) * FSk + sk)) else a, r.2)

/-- One iteration of the weighted-sum loop over `sk`: the accumulator and the value
cache after the iteration; `w` is `AS[sk]` after the softmax. -/
def value_step {α R : Type} (ops : DecodeTPP α R) (oob : Int → α) (N CSk H : Nat)
    (t_VL : Tensor4 α) (beam_idx : Nat → Nat → Int) (offset b n : Nat)
    (w : Nat → R) (st : List R × Tensor4 α) (sk : Nat) : List R × Tensor4 α :=
  if sk < offset then
    (ops.scale_add (st.2.loadRow oob (vlaOff N CSk H (beam_idx b sk) n sk) H) st.1 (w sk), st.2)
  else
    (ops.scale_add (rowOf H (t_VL.elem b n 0)) st.1 (w sk),
      st.2.storeRow (vlaOff N CSk H (b : Int) n sk) (rowOf H (t_VL.elem b n 0)))

/-- Body of the `(b, n)` loop of the stack path (`FSk <= 256`). The state is
(key cache, value cache, `t_CL`). -/
def attn_decode_small_iter {α R : Type} (ops : DecodeTPP α R) (oob : Int → α)
    (N CSk H : Nat) (t_QL t_KL : Tensor4 α) (t_AM : Mask α) (t_VL : Tensor4 α)
    (beam_idx : Nat → Nat → Int) (offset FSk : Nat)
    (st : Tensor4 α × Tensor4 α × Tensor4 α) (bn : Nat × Nat) :
    Tensor4 α × Tensor4 α × Tensor4 α :=
  let tmp_QL := ops.cvt_b2f (rowOf H (t_QL.elem bn.1 bn.2 0))
  let sc := (List.range FSk).foldl
    (fun (s : List R × Tensor4 α) sk =>
      let r := score_step ops oob N CSk H tmp_QL t_KL t_AM beam_idx offset FSk bn.1 bn.2 s.2 sk
      (s.1 ++ [r.1], r.2))
    ([], st.1)
  let AS := ops.softmax (sc.1 ++ List.replicate (fsk_aligned FSk - FSk) ops.neg1e9)
  let va := (List.range FSk).foldl
    (value_step ops oob N CSk H t_VL beam_idx offset bn.1 bn.2 (fun sk => AS.getD sk ops.zero))
    (List.replicate H ops.zero, st.2.1)
  (sc.2, va.2, st.2.2.setRow H bn.1 bn.2 0 (ops.cvt_f2b va.1))

/-- Body of the first `(b, n, sk)` loop nest of the heap path (`FSk > 256`), for one
`(b, n)`. The state is (`t_AS`, key cache). -/
def attn_decode_large_iter1 {α R : Type} (ops : DecodeTPP α R) (oob : Int → α)
    (N CSk H : Nat) (XL : Nat → Nat → List R) (t_KL : Tensor4 α) (t_AM : Mask α)
    (beam_idx : Nat → Nat → Int) (offset FSk : Nat)
    (st : (Nat → Nat → Nat → R) × Tensor4 α) (bn : Nat × Nat) :
    (Nat → Nat → Nat → R) × Tensor4 α :=
  (List.range FSk).foldl
    (fun (s : (Nat → Nat → Nat → R) × Tensor4 α) sk =>
      let r := score_step ops oob N CSk H (XL bn.1 bn.2) t_KL t_AM beam_idx offset FSk
        bn.1 bn.2 s.2 sk
      (fun b n k => if b = bn.1 ∧ n = bn.2 ∧ k = sk then r.1 else s.1 b n k, r.2))
    st

/-- Body of the second `(b, n)` loop of the heap path. The state is (`t_XL`, value
cache). -/
def attn_decode_large_iter2 {α R : Type} (ops : DecodeTPP α R) (oob : Int → α)
    (N CSk H : Nat) (AS : Nat → Nat → Nat → R) (t_VL : Tensor4 α)
    (beam_idx : Nat → Nat → Int) (offset FSk : Nat)
    (st : (Nat → Nat → List R) × Tensor4 α) (bn : Nat × Nat) :
    (Nat → Nat → List R) × Tensor4 α :=
  let P := ops.softmax
    (rowOf FSk (AS bn.1 bn.2) ++ List.replicate (fsk_aligned FSk - FSk) ops.neg1e9)
  let va := (List.range FSk).foldl
    (value_step ops oob N CSk H t_VL beam_idx offset bn.1 bn.2 (fun sk => P.getD sk ops.zero))
    (List.replicate H ops.zero, st.2)
  (fun b n => if b = bn.1 ∧ n = bn.2 then va.1 else st.1 b n, va.2)

/-- The decode `attn<T>(t_QL, t_KL, t_AM, t_VL, t_KL_cache, t_VL_cache, beam_idx, offset)`.
Returns `t_CL` and the two caches, which the C++ code updates in place. `freshCL` and
`freshAS` are the contents of the `empty_like` / `new_empty` temporaries. -/
def attn_decode {α R : Type} (ops : DecodeTPP α R) (oob : Int → α)
    (freshCL : Nat → Nat → Nat → Nat → α) (freshAS : Nat → Nat → Nat → R)
    (t_QL t_KL : Tensor4 α) (t_AM : Mask α) (t_VL t_KL_cache t_VL_cache : Tensor4 α)
    (beam_idx : Nat → Nat → Int) (offset : Nat) :
    Option (Tensor4 α × Tensor4 α × Tensor4 α) :=
  let B := t_QL.B
  let N := t_QL.N
  let H := t_QL.H
  if t_QL.S = 1 ∧ t_KL.S = 1 then
    let FSk := offset + t_KL.S
    let CSk := t_KL_cache.S
    if FSk ≤ 256 then
      let st := (List.product (List.range B) (List.range N)).foldl
        (attn_decode_small_iter ops oob N CSk H t_QL t_KL t_AM t_VL beam_idx offset FSk)
        (t_KL_cache, t_VL_cache, { t_QL with elem := freshCL })
      some (st.2.2, st.1, st.2.1)
    else
      let XL : Nat → Nat → List R := fun b n => (rowOf H (t_QL.elem b n 0)).map ops.to_float
      let s1 := (List.product (List.range B) (List.range N)).foldl
        (attn_decode_large_iter1 ops oob N CSk H XL t_KL t_AM beam_idx offset FSk)
        (freshAS, t_KL_cache)
      let s2 := (List.product (List.range B) (List.range N)).foldl
        (attn_decode_large_iter2 ops oob N CSk H s1.1 t_VL beam_idx offset FSk)
        (XL, t_VL_cache)
      some ({ t_QL with elem := fun b n _ h => ops.to_T ((s2.1 b n).getD h ops.zero) },
        s1.2, s2.2)
  else none

/-! ## `LLMBlock::self_mha` -/

/-- Contents of uninitialised allocations and of the memory around tensors. -/
structure Mem (α R : Type) where
  /-- Memory read by an element offset outside a tensor of `T`. -/
  oob : Int → α
  /-- Memory read by an element offset outside a tensor of `long`. -/
  oobI : Int → Int
  /-- Content of `t_key_past.new_empty(...)`. -/
  freshK : Nat → Nat → Nat → Nat → α
  /-- Content of `t_value_past.new_empty(...)`. -/
  freshV : Nat → Nat → Nat → Nat → α
  /-- Content of the `new_empty` output of `kv_concat`. -/
  freshCat : Nat → Nat → Nat → Nat → α
  /-- Content of `at::empty_like(t_QL)`. -/
  freshCL : Nat → Nat → Nat → Nat → α
  /-- Content of `t_beam_idx.new_empty({B, offset})`. -/
  freshI : Nat → Nat → Int
  /-- Content of `t_QL.new_empty({B, N, FSk_aligned}, at::kFloat)`. -/
  freshAS : Nat → Nat → Nat → R

/-- The members `N`, `H` of the block and the global `KV_CACHE_INC_SIZE`
(`env2int("KV_CACHE_INC_SIZE", 128)`). -/
structure BlockCfg where
  N : Nat
  H : Nat
  KV_CACHE_INC_SIZE : Int

/-- The arguments `t_QL`, `t_KL`, `t_VL` of `self_mha`: three tensors of the common
shape `[B, S, N*H]` (the callers produce them with `qkv_gemm` from one hidden state). -/
structure QKV (α : Type) where
  B : Nat
  S : Nat
  q : Nat → Nat → Nat → α
  k : Nat → Nat → Nat → α
  v : Nat → Nat → Nat → α

/-- The argument `t_cache`: a vector of `csz` tensors; the entries at index `csz` and
beyond do not exist and their fields are ignored. Entry 3 is the scalar `t_offset`. -/
structure CacheTuple (α : Type) where
  csz : Nat
  c0 : Tensor4 α
  c1 : Tensor4 α
  c2 : Tensor2
  c3 : Int
  c4 : Tensor4 α
  c5 : Tensor4 α

/-- The returned vector: three tensors on the simple path, seven on the cached path. -/
inductive MhaOut (α : Type) where
  | simple (t_CL : Tensor3 α) (t_KL t_VL : Tensor4 α)
  | cached (t_CL : Tensor3 α) (t_KL t_VL : Tensor4 α) (t_beam_idx : Tensor2)
      (t_offset : Int) (t_key_past t_value_past : Tensor4 α)

/-- Number of tensors in the returned vector. -/
def MhaOut.size {α : Type} : MhaOut α → Nat
  | MhaOut.simple _ _ _ => 3
  | MhaOut.cached _ _ _ _ _ _ _ => 7

/-- The cache tuple a caller builds from the returned vector (all entries but the
first). -/
def MhaOut.toCache {α : Type} : MhaOut α → CacheTuple α
  | MhaOut.simple _ k v =>
      { csz := 2, c0 := k, c1 := v, c2 := { R := 0, C := 0, elem := fun _ _ => 0 },
        c3 := 0, c4 := k, c5 := v }
  | MhaOut.cached _ k v bi off kp vp =>
      { csz := 6, c0 := k, c1 := v, c2 := bi, c3 := off, c4 := kp, c5 := vp }

/-- The first tensor of the returned vector, the attention output `t_CL`. -/
def MhaOut.t_CL {α : Type} : MhaOut α → Tensor3 α
  | MhaOut.simple t _ _ => t
  | MhaOut.cached t _ _ _ _ _ _ => t

/-- The member `t_dummy` (`t.new_empty({0})`). -/
def t_dummy {α : Type} [Zero α] : Tensor4 α :=
  { B := 0, N := 0, S := 0, H := 0, elem := fun _ _ _ _ => 0 }

/-- The member `t_dummy_int`. -/
def t_dummy_int : Tensor2 := { R := 0, C := 0, elem := fun _ _ => 0 }

/-- Torch `t.new_zeros({B, N, capacity, H})`. -/
def new_zeros {α : Type} [Zero α] (B N capacity H : Nat) : Tensor4 α :=
  { B := B, N := N, S := capacity, H := H, elem := fun _ _ _ _ => 0 }

/-- Branch `csz < 4` of `self_mha`. -/
def self_mha_simple {α R : Type} (mem : Mem α R)
    (prefill : Tensor4 α → Tensor4 α → Mask α → Tensor4 α → Tensor4 α)
    (B S N H : Nat) (t_QL t_KL t_VL : Tensor4 α) (t_am : Mask α)
    (t_key_past t_value_past : Tensor4 α) (t_beam_idx : Tensor2) : Option (MhaOut α) :=
  (if t_key_past.numel > 0 then
      kv_concat mem.oob mem.oobI mem.freshCat t_key_past t_KL t_beam_idx
    else some t_KL).bind fun KL =>
  (if t_value_past.numel > 0 then
      kv_concat mem.oob mem.oobI mem.freshCat t_value_past t_VL t_beam_idx
    else some t_VL).bind fun VL =>
  some (MhaOut.simple (merge_heads B S N H (prefill t_QL KL t_am VL)) KL VL)

/-- Branch `offset == 0` of `self_mha` (first call of a cache-tracking session). -/
def self_mha_init {α : Type} [Zero α] (cfg : BlockCfg)
    (prefill : Tensor4 α → Tensor4 α → Mask α → Tensor4 α → Tensor4 α)
    (B S : Nat) (t_QL t_KL t_VL : Tensor4 α) (t_am : Mask α) (t_offset : Int) :
    Option (MhaOut α) :=
  let t_CL := prefill t_QL t_KL t_am t_VL
  let capacity : Int := (S : Int) + cfg.KV_CACHE_INC_SIZE
  if capacity < 0 then none
  else
    ((new_zeros B cfg.N capacity.toNat cfg.H).slice2_copy S t_KL).bind fun t_key_past =>
    ((new_zeros B cfg.N capacity.toNat cfg.H).slice2_copy S t_VL).bind fun t_value_past =>
    some (MhaOut.cached (merge_heads B S cfg.N cfg.H t_CL) t_KL t_VL
      (arange_expand capacity.toNat B) (t_offset + S) t_key_past t_value_past)

/-- The reallocation block of the decode branch (`if (capacity <= offset)`). -/
def kv_realloc {α R : Type} (cfg : BlockCfg) (mem : Mem α R) (B : Nat) (offset : Int)
    (t_key_past t_value_past : Tensor4 α) (t_beam_idx : Tensor2) :
    Option (Tensor4 α × Tensor4 α × Tensor2) :=
  if (t_key_past.S : Int) ≤ offset then
    let new_capacity : Int := offset + cfg.KV_CACHE_INC_SIZE
    if new_capacity < 0 then none
    else
      (Tensor4.slice2_copy
        { B := B, N := cfg.N, S := new_capacity.toNat, H := cfg.H, elem := mem.freshK }
        offset.toNat t_key_past).bind fun kp =>
      (Tensor4.slice2_copy
        { B := B, N := cfg.N, S := new_capacity.toNat, H := cfg.H, elem := mem.freshV }
        offset.toNat t_value_past).bind fun vp =>
      ((arange_expand new_capacity.toNat B).slice0_copy offset.toNat t_beam_idx).bind fun bi =>
      some (kp, vp, bi)
  else some (t_key_past, t_value_past, t_beam_idx)

/-- Branch `offset != 0` of `self_mha` (decode step on a cache of length 6). -/
def self_mha_decode {α R : Type} (cfg : BlockCfg) (ops : DecodeTPP α R) (mem : Mem α R)
    (B S : Nat) (t_QL t_KL t_VL : Tensor4 α) (t_am : Mask α) (t_beam_idx : Tensor2)
    (offset : Int) (t_key_past t_value_past : Tensor4 α) : Option (MhaOut α) :=
  (kv_realloc cfg mem B offset t_key_past t_value_past t_beam_idx).bind fun c =>
  if offset < 0 then none
  else
    (attn_decode ops mem.oob mem.freshCL mem.freshAS t_QL t_KL t_am t_VL c.1 c.2.1
      (back_trace c.2.2 mem.oobI B offset.toNat mem.freshI) offset.toNat).bind fun r =>
    some (MhaOut.cached (merge_heads B S cfg.N cfg.H r.1)
      (r.2.1.slice2 (offset + 1).toNat) (r.2.2.slice2 (offset + 1).toNat)
      c.2.2 (offset + 1) r.2.1 r.2.2)

/-- The method `LLMBlock::self_mha<T>(t_QL, t_KL, t_VL, t_am, t_cache)`. -/
def self_mha {α R : Type} [Zero α] (cfg : BlockCfg) (ops : DecodeTPP α R) (mem : Mem α R)
    (prefill : Tensor4 α → Tensor4 α → Mask α → Tensor4 α → Tensor4 α)
    (x : QKV α) (t_am : Mask α) (t_cache : CacheTuple α) : Option (MhaOut α) :=
  let csz := t_cache.csz
  let t_QL := view_heads x.B x.S cfg.N cfg.H x.q
  let t_KL := view_heads x.B x.S cfg.N cfg.H x.k
  let t_VL := view_heads x.B x.S cfg.N cfg.H x.v
  if csz > 3 then
    if csz ≠ 6 then none
    else if t_cache.c3 = 0 then
      self_mha_init cfg prefill x.B x.S t_QL t_KL t_VL t_am t_cache.c3
    else
      self_mha_decode cfg ops mem x.B x.S t_QL t_KL t_VL t_am t_cache.c2 t_cache.c3
        t_cache.c4 t_cache.c5
  else
    self_mha_simple mem prefill x.B x.S cfg.N cfg.H t_QL t_KL t_VL t_am
      (if csz > 0 then t_cache.c0 else t_dummy)
      (if csz > 1 then t_cache.c1 else t_dummy)
      (if csz > 2 then t_cache.c2 else t_dummy_int)

/-! ## Prefill `attn`: tile iteration and causal masking -/

/-- The values taken by `x` in `for (x = 0; x < n; x += step)`, for `step > 0`. -/
def loop_starts (n step : Nat) : List Nat :=
  (List.range ((n + step - 1) / step)).map fun i => i * step

/-- The key-tile size `Skb = (!inline_trans ? 1024 : SK_BLOCK_SIZE)` with
`inline_trans = ((Sq + Sqb - 1) / Sqb == 1)` and `Sqb = 64`. -/
def prefill_Skb (SK_BLOCK_SIZE Sq : Nat) : Nat :=
  if (Sq + 64 - 1) / 64 = 1 then SK_BLOCK_SIZE else 1024

/-- The padded key length `Sk_pad = (Sk + SK_ALIGN - 1) & ~(SK_ALIGN - 1)` with
`SK_ALIGN = (VBS == 1 ? 1 : 64)`; `VBS` is `get_vnni_block_size<T>()`. -/
def prefill_Sk_pad (VBS Sk : Nat) : Nat :=
  if VBS = 1 then Sk else (Sk + 63) / 64 * 64

/-- A score tile visited by the prefill loop nest: first query row `sq`, first key
column `sk`, row count `qbs` and column count `kbs`. -/
structure ScoreTile where
  sq : Nat
  sk : Nat
  qbs : Nat
  kbs : Nat
  deriving DecidableEq, Repr

/-- The tiles visited by the loops over `sq` and `sk` of the prefill `attn`, for one
batch entry and head. -/
def prefill_tiles (SK_BLOCK_SIZE VBS Sq Sk : Nat) : List ScoreTile :=
  (loop_starts Sq 64).flatMap fun sq =>
    (loop_starts Sk (prefill_Skb SK_BLOCK_SIZE Sq)).map fun sk =>
      { sq := sq, sk := sk,
        qbs := if Sq - sq ≥ 64 then 64 else Sq - sq,
        kbs := if Sk - sk ≥ prefill_Skb SK_BLOCK_SIZE Sq then prefill_Skb SK_BLOCK_SIZE Sq
               else prefill_Sk_pad VBS Sk - sk }

/-- The member `Sqb_aligned = (Sqb + SQB_ALIGN - 1) & ~(SQB_ALIGN - 1)` of the
`AttnKernels` instance used for a tile of `qbs` query rows. -/
def sqb_aligned (qbs : Nat) : Nat := (qbs + 15) / 16 * 16

/-- The element offsets, relative to `&AS[0][0]` of the tile `float AS[Sqb_aligned][kbs]`,
written by the causal-mask loop
`for sq1 < qbs: for (sk1 = sq + sq1 + offset + 1; sk1 < sk + kbs; sk1++) AS[sq1][sk1 - sk] = -1e9f`,
in program order. -/
def causal_mask_writes (t : ScoreTile) (offset : Int) : List Int :=
  (List.range t.qbs).flatMap fun (sq1 : Nat) =>
    (List.range (((t.sk : Int) + t.kbs) - ((t.sq : Int) + sq1 + offset + 1)).toNat).map
      fun (i : Nat) => (sq1 : Int) * t.kbs + (((t.sq : Int) + sq1 + offset + 1 + (i : Int)) - t.sk)

/-- The memory around the score tile after the causal-mask loop; `neg` is `-1e9f`. -/
def causal_mask {R : Type} (neg : R) (t : ScoreTile) (offset : Int) (AS : Int → R) :
    Int → R :=
  (causal_mask_writes t offset).foldl (fun m p x => if x = p then neg else m x) AS

/-! ## Example inputs -/

/-- A beam-index table with three time steps and two beams; the beams are swapped at
time step 1. -/
def exBeamSwap : Tensor2 :=
  { R := 3, C := 2, elem := fun r c => if r = 1 then 1 - (c : Int) else (c : Int) }

/-- Integer stand-ins for the float primitives, for evaluating the model on examples. -/
def exOps : DecodeTPP Int Int :=
  { rsqrt := fun _ => 1, zero := 0, neg1e9 := -1000000000, mul := fun a b => a * b,
    add_mask := fun a m => a + m, cvt_b2f := id, cvt_f2b := id,
    dot := fun q k acc => acc + (List.zipWith (fun a b => a * b) q k).sum,
    scale_add := fun v acc w => List.zipWith (fun a c => c + w * a) v acc,
    softmax := id, to_float := id, to_T := id }

/-- Memory contents used in the examples. -/
def exMem : Mem Int Int :=
  { oob := fun _ => -1, oobI := fun _ => -1, freshK := fun _ _ _ _ => -2,
    freshV := fun _ _ _ _ => -3, freshCat := fun _ _ _ _ => -4, freshCL := fun _ _ _ _ => -5,
    freshI := fun _ _ => -6, freshAS := fun _ _ _ => -7 }

/-- A stand-in for the prefill attention output. -/
def exPrefill : Tensor4 Int → Tensor4 Int → Mask Int → Tensor4 Int → Tensor4 Int :=
  fun q _ _ _ => q

/-- A block with one head of dimension one and the given growth increment. -/
def exCfg (inc : Int) : BlockCfg := { N := 1, H := 1, KV_CACHE_INC_SIZE := inc }

/-- Inputs of shape `[B, S, 1]` whose key at `[b][s]` is `100 * b + s + base`. -/
def exQKV (B S : Nat) (base : Int) : QKV Int :=
  { B := B, S := S, q := fun _ _ _ => 1,
    k := fun b s _ => 100 * (b : Int) + (s : Int) + base,
    v := fun b s _ => -(100 * (b : Int) + (s : Int) + base) }

/-- The absent attention mask. -/
def exMask : Mask Int := { numel := 0, data := fun _ => 0 }

/-- A past key or value of shape `[2, 1, 1, 1]` whose entry in batch row `b` is `b`. -/
def exPast : Tensor4 Int :=
  { B := 2, N := 1, S := 1, H := 1, elem := fun b _ _ _ => (b : Int) }

/-- A cache tuple of length 3: past key, past value and a beam index `[1, 0]`. -/
def exCache3 : CacheTuple Int :=
  { csz := 3, c0 := exPast, c1 := exPast,
    c2 := { R := 2, C := 1, elem := fun r _ => 1 - (r : Int) },
    c3 := 0, c4 := exPast, c5 := exPast }

/-- A cache tuple of length 2: past key and past value. -/
def exCache2 : CacheTuple Int :=
  { csz := 2, c0 := exPast, c1 := exPast, c2 := t_dummy_int, c3 := 0, c4 := exPast,
    c5 := exPast }

/-- The cache tuple of length 6 with offset 0 that starts a session. -/
def exCacheEmpty : CacheTuple Int :=
  { csz := 6, c0 := t_dummy, c1 := t_dummy, c2 := t_dummy_int, c3 := 0, c4 := t_dummy,
    c5 := t_dummy }

/-! ## Auxiliary notions used in the statements -/

/-- The net effect of the decode `attn` on a cache: for every `(b, n)` the row of the new
token is copied to `cache[b][n][offset]` through `GetVLAPtr<T>(cache, {N, CSk, H})`. -/
def cache_fill {α : Type} (B N CSk H offset : Nat) (t_new : Tensor4 α) (cache : Tensor4 α) :
    Tensor4 α :=
  (List.product (List.range B) (List.range N)).foldl
    (fun c bn => c.storeRow (vlaOff N CSk H (bn.1 : Int) bn.2 offset)
      (rowOf H (t_new.elem bn.1 bn.2 0)))
    cache

/-- Two tensors have the same shape. -/
def SameDims {α : Type} (a b : Tensor4 α) : Prop :=
  a.B = b.B ∧ a.N = b.N ∧ a.S = b.S ∧ a.H = b.H

/-- The tensor `c` has the shape of `c0` and the same elements at every sequence position
other than `offset`. -/
def Frame {α : Type} (offset : Nat) (c0 c : Tensor4 α) : Prop :=
  SameDims c c0 ∧
    ∀ b n s h, b < c0.B → n < c0.N → s < c0.S → h < c0.H → s ≠ offset →
      c.elem b n s h = c0.elem b n s h

/-- Two caches hold the same elements at the sequence positions below `offset`. -/
def AgreeBelow {α : Type} (B N H offset : Nat) (c1 c2 : Tensor4 α) : Prop :=
  ∀ b n s h, b < B → n < N → s < offset → h < H → c1.elem b n s h = c2.elem b n s h

/-- A cache tuple in the state reached after a successful step of a cache-tracking
session over batch size `B`: six entries, key and value buffers of one shape
`[B, N, Capacity, H]`, a beam-index table of shape `[Capacity, B]` and
`1 ≤ offset ≤ Capacity`. -/
def ValidCache {α : Type} (cfg : BlockCfg) (B : Nat) (c : CacheTuple α) : Prop :=
  c.csz = 6 ∧ 1 ≤ c.c3 ∧ c.c3 ≤ (c.c4.S : Int) ∧
    c.c4.B = B ∧ c.c4.N = cfg.N ∧ c.c4.H = cfg.H ∧ SameDims c.c5 c.c4 ∧
    c.c2.R = c.c4.S ∧ c.c2.C = B

/-- The tokens `lo, ..., lo + len - 1` of a sequence of inputs. -/
def QKV.tokens {α : Type} (x : QKV α) (lo len : Nat) : QKV α :=
  { B := x.B, S := len, q := fun b s c => x.q b (lo + s) c,
    k := fun b s c => x.k b (lo + s) c, v := fun b s c => x.v b (lo + s) c }

/-- A cache-tracking session: step 0 is `self_mha` on the inputs `x0` with the cache
tuple `c0`; step `i + 1` is `self_mha` on the inputs `xs i` with the cache tuple built from
the vector returned by step `i`. The result is the vector returned by step `n`. -/
def session {α R : Type} [Zero α] (cfg : BlockCfg) (ops : DecodeTPP α R) (mem : Mem α R)
    (prefill : Tensor4 α → Tensor4 α → Mask α → Tensor4 α → Tensor4 α)
    (x0 : QKV α) (am0 : Mask α) (c0 : CacheTuple α) (xs : Nat → QKV α) (ams : Nat → Mask α) :
    Nat → Option (MhaOut α)
  | 0 => self_mha cfg ops mem prefill x0 am0 c0
  | n + 1 =>
    (session cfg ops mem prefill x0 am0 c0 xs ams n).bind fun o =>
      self_mha cfg ops mem prefill (xs n) (ams n) o.toCache

/-- The concatenation along the sequence axis of the keys supplied to step 0 (`x0`) and to
the decode steps (`xs 0`, `xs 1`, ...), in the layout `[b][n][s][h]`. -/
def session_keys {α : Type} (cfg : BlockCfg) (x0 : QKV α) (xs : Nat → QKV α) :
    Nat → Nat → Nat → Nat → α :=
  fun b n s h =>
    if s < x0.S then x0.k b s (n * cfg.H + h) else (xs (s - x0.S)).k b 0 (n * cfg.H + h)

/-- The concatenation along the sequence axis of the values supplied to step 0 and to the
decode steps. -/
def session_values {α : Type} (cfg : BlockCfg) (x0 : QKV α) (xs : Nat → QKV α) :
    Nat → Nat → Nat → Nat → α :=
  fun b n s h =>
    if s < x0.S then x0.v b s (n * cfg.H + h) else (xs (s - x0.S)).v b 0 (n * cfg.H + h)

/-- A valid cache tuple for batch size 2 whose buffers are full: offset 1, capacity 1. -/
def exCacheFull : CacheTuple Int :=
  { csz := 6, c0 := exPast, c1 := exPast, c2 := arange_expand 1 2, c3 := 1, c4 := exPast,
    c5 := exPast }

/-- A valid cache tuple with the same content as `exCacheFull` at position 0 and ample
capacity 4. -/
def exCacheAmple : CacheTuple Int :=
  { csz := 6, c0 := exPast, c1 := exPast, c2 := arange_expand 4 2, c3 := 1,
    c4 := { B := 2, N := 1, S := 4, H := 1, elem := fun b _ _ _ => (b : Int) },
    c5 := { B := 2, N := 1, S := 4, H := 1, elem := fun b _ _ _ => (b : Int) } }

/-- Memory contents in which the element outside a storage, at element offset `p` from its
start, holds the value `p`. -/
def exMemAddr : Mem Int Int := { exMem with oob := fun p => p }

/-- A beam-index table with `R` rows for batch size 2 whose entry for beam row 1 is 2,
which is not a batch row. -/
def exBadBeam (R : Nat) : Tensor2 :=
  { R := R, C := 2, elem := fun _ c => if c = 1 then 2 else 0 }

/-- The cache tuple `exCacheFull` with the beam-index table `exBadBeam`. -/
def exCacheBadBeam : CacheTuple Int := { exCacheFull with c2 := exBadBeam 1 }

/-- The cache tuple `exCacheAmple` with the beam-index table `exBadBeam`. -/
def exCacheBadBeamAmple : CacheTuple Int := { exCacheAmple with c2 := exBadBeam 4 }

/-- A cache tuple whose offset 3 exceeds the capacity 2 of its buffers. -/
def exCacheOver : CacheTuple Int :=
  { csz := 6, c0 := exPast, c1 := exPast, c2 := arange_expand 2 2, c3 := 3,
    c4 := { B := 2, N := 1, S := 2, H := 1, elem := fun b _ _ _ => (b : Int) },
    c5 := { B := 2, N := 1, S := 2, H := 1, elem := fun b _ _ _ => (b : Int) } }

/-- A new key or value token of shape `[2, 1, 1, 1]` whose entry in batch row `b` is
`10 + b`. -/
def exNewTok : Tensor4 Int :=
  { B := 2, N := 1, S := 1, H := 1, elem := fun b _ _ _ => 10 + (b : Int) }

/-- A cache buffer of shape `[2, 1, 4, 1]` whose entry `[b][0][s][0]` is `100 * b + s`. -/
def exBuf : Tensor4 Int :=
  { B := 2, N := 1, S := 4, H := 1, elem := fun b _ s _ => 100 * (b : Int) + (s : Int) }

/-! ## The two code paths of the decode `attn` as functions -/

/-- The branch `if (FSk <= 256)` of the decode `attn` (per-thread stack buffers `AS`,
`tmp_QL`, `tmp_CL`), as a function of the arguments of `attn`: the returned `t_CL` and the
key and value caches after the call. -/
def attn_decode_small {α R : Type} (ops : DecodeTPP α R) (oob : Int → α)
    (freshCL : Nat → Nat → Nat → Nat → α)
    (t_QL t_KL : Tensor4 α) (t_AM : Mask α) (t_VL t_KL_cache t_VL_cache : Tensor4 α)
    (beam_idx : Nat → Nat → Int) (offset : Nat) : Tensor4 α × Tensor4 α × Tensor4 α :=
  let B := t_QL.B
  let N := t_QL.N
  let H := t_QL.H
  let FSk := offset + t_KL.S
  let CSk := t_KL_cache.S
  let st := (List.product (List.range B) (List.range N)).foldl
    (attn_decode_small_iter ops oob N CSk H t_QL t_KL t_AM t_VL beam_idx offset FSk)
    (t_KL_cache, t_VL_cache, { t_QL with elem := freshCL })
  (st.2.2, st.1, st.2.1)

/-- The `else` branch of the decode `attn` (heap tensors `t_AS` and `t_XL`, two loop
nests), as a function of the arguments of `attn`. -/
def attn_decode_large {α R : Type} (ops : DecodeTPP α R) (oob : Int → α)
    (freshAS : Nat → Nat → Nat → R)
    (t_QL t_KL : Tensor4 α) (t_AM : Mask α) (t_VL t_KL_cache t_VL_cache : Tensor4 α)
    (beam_idx : Nat → Nat → Int) (offset : Nat) : Tensor4 α × Tensor4 α × Tensor4 α :=
  let B := t_QL.B
  let N := t_QL.N
  let H := t_QL.H
  let FSk := offset + t_KL.S
  let CSk := t_KL_cache.S
  let XL : Nat → Nat → List R := fun b n => (rowOf H (t_QL.elem b n 0)).map ops.to_float
  let s1 := (List.product (List.range B) (List.range N)).foldl
    (attn_decode_large_iter1 ops oob N CSk H XL t_KL t_AM beam_idx offset FSk)
    (freshAS, t_KL_cache)
  let s2 := (List.product (List.range B) (List.range N)).foldl
    (attn_decode_large_iter2 ops oob N CSk H s1.1 t_VL beam_idx offset FSk)
    (XL, t_VL_cache)
  ({ t_QL with elem := fun b n _ h => ops.to_T ((s2.1 b n).getD h ops.zero) }, s1.2, s2.2)

/-- The scores `AS[0 .. FSk)` of the pair `(b, n)` for the query row `q`, computed by the
score loop on the key cache `KC`. -/
def decode_scores {α R : Type} (ops : DecodeTPP α R) (oob : Int → α) (N CSk H : Nat)
    (q : List R) (t_KL : Tensor4 α) (t_AM : Mask α) (beam_idx : Nat → Nat → Int)
    (offset FSk : Nat) (KC : Tensor4 α) (b n : Nat) : List R :=
  ((List.range FSk).foldl
    (fun (s : List R × Tensor4 α) sk =>
      let r := score_step ops oob N CSk H q t_KL t_AM beam_idx offset FSk b n s.2 sk
      (s.1 ++ [r.1], r.2))
    ([], KC)).1

/-- The weighted sum of the pair `(b, n)` for the scores `sc`, computed by the softmax and
the weighted-sum loop on the value cache `VC`. -/
def decode_values {α R : Type} (ops : DecodeTPP α R) (oob : Int → α) (N CSk H : Nat)
    (t_VL : Tensor4 α) (beam_idx : Nat → Nat → Int) (offset FSk : Nat) (sc : List R)
    (VC : Tensor4 α) (b n : Nat) : List R :=
  let AS := ops.softmax (sc ++ List.replicate (fsk_aligned FSk - FSk) ops.neg1e9)
  ((List.range FSk).foldl
    (value_step ops oob N CSk H t_VL beam_idx offset b n (fun sk => AS.getD sk ops.zero))
    (List.replicate H ops.zero, VC)).1

/-! ## `wt_tensor_for_first_token` -/

/-- A contiguous tensor of arbitrary rank: its sizes and its storage, addressed by element
offset. -/
structure FlatTensor (α : Type) where
  sizes : List Nat
  data : Nat → α

/-- The value `t.dim()`. -/
def FlatTensor.dim {α : Type} (t : FlatTensor α) : Nat := t.sizes.length

/-- The value `t.sizes()[i]`. -/
def FlatTensor.size {α : Type} (t : FlatTensor α) (i : Nat) : Nat := t.sizes.getD i 0

def FlatTensor.numel {α : Type} (t : FlatTensor α) : Nat := t.sizes.prod

/-- Row-major element offset of the index `[i0][i1][i2][i3][i4]` of a rank-5 tensor whose
sizes after the first are `d1, d2, d3, d4`. -/
def idx5 (d1 d2 d3 d4 i0 i1 i2 i3 i4 : Nat) : Nat :=
  (((i0 * d1 + i1) * d2 + i2) * d3 + i3) * d4 + i4

/-- The element `t[i0][i1][i2][i3][i4]` of a contiguous rank-5 tensor. -/
def FlatTensor.get5 {α : Type} (t : FlatTensor α) (i0 i1 i2 i3 i4 : Nat) : α :=
  t.data (idx5 (t.size 1) (t.size 2) (t.size 3) (t.size 4) i0 i1 i2 i3 i4)

/-- Element offset of `p[i0][i1][i2][i3]` for `p = GetVLAPtr<T>(t, {d1, d2, d3, d4})`. -/
def vlaOff4 (d1 d2 d3 d4 i0 i1 i2 i3 : Nat) : Nat :=
  (((i0 * d1 + i1) * d2 + i2) * d3 + i3) * d4

/-- Modelled from the spec: one call `cpy_tpp(src, dst)` of
`CpyTPP<T>(rows, cols, ldi, ldo)` copies a tile of `rows` rows of `cols` elements with
leading dimensions `ldi` (input) and `ldo` (output). The element copies it performs, as
pairs (destination offset, source offset). -/
def cpy_tpp_copies (rows cols ldi ldo src dst : Nat) : List (Nat × Nat) :=
  (List.range rows).flatMap fun r =>
    (List.range cols).map fun c => (dst + r * ldo + c, src + r * ldi + c)

/-- The element copies of the loop nest of `wt_tensor_for_first_token`:
`for i < K1/RBS, j < C1, k < RBS: cpy_tpp(in[i][k][j][0], out[i][j][0][k])` with
`in = GetVLAPtr<T>(t, {RBS, C1, C2, K2 * C3})`,
`out = GetVLAPtr<T>(t_new, {C1, C2, RBS, K2 * C3})` and
`cpy_tpp = CpyTPP<T>(C2, K2*C3, K2*C3, RBS*K2*C3)`, `RBS = 4`. -/
def first_token_copies (K1 C1 C2 K2 C3 : Nat) : List (Nat × Nat) :=
  (List.range (K1 / 4)).flatMap fun i =>
    (List.range C1).flatMap fun j =>
      (List.range 4).flatMap fun k =>
        cpy_tpp_copies C2 (K2 * C3) (K2 * C3) (4 * K2 * C3)
          (vlaOff4 4 C1 C2 (K2 * C3) i k j 0) (vlaOff4 C1 C2 4 (K2 * C3) i j 0 k)

/-- Storage `dst` after the element copies `l` from the storage `src`. -/
def apply_copies {α : Type} (src : Nat → α) (l : List (Nat × Nat)) (dst : Nat → α) :
    Nat → α :=
  l.foldl (fun m w => upd m w.1 (src w.2)) dst

/-- The value returned by `wt_tensor_for_first_token`: the tensor, and whether it is the
argument `t` itself (`return t;`) rather than the allocation `t_new`. -/
structure FirstTokenOut (α : Type) where
  is_input : Bool
  tensor : FlatTensor α

/-- The function `wt_tensor_for_first_token<T>(t)`; `fresh` is the content of
`t.new_empty({K1/RBS, C1, C2, RBS*K2, C3})`. The storage of `t` is only read. -/
def wt_tensor_for_first_token {α : Type} (fresh : Nat → α) (t : FlatTensor α) :
    FirstTokenOut α :=
  if t.dim < 5 then { is_input := true, tensor := t }
  else
    let K1 := t.size 0
    if K1 % 4 ≠ 0 then { is_input := true, tensor := t }
    else
      let C1 := t.size 1
      let C2 := t.size 2
      let K2 := t.size 3
      let C3 := t.size 4
      { is_input := false,
        tensor :=
          { sizes := [K1 / 4, C1, C2, 4 * K2, C3],
            data := apply_copies t.data (first_token_copies K1 C1 C2 K2 C3) fresh } }

/-- The reference formulation kept in the source under `#if 0`:
`t.view({K1/RBS, RBS, C1, C2, K2, C3}).permute({0, 2, 3, 1, 4, 5}).contiguous()
.view({K1/RBS, C1, C2, RBS*K2, C3})`. The element at offset `p` of the result is the
element `[i][k][j][c][k2][c3]` of the view of `t`, where `[i][j][c][k][k2][c3]` is the index
with offset `p` in the permuted shape `[K1/RBS, C1, C2, RBS, K2, C3]`. -/
def first_token_ref {α : Type} (t : FlatTensor α) : FlatTensor α :=
  let K1 := t.size 0
  let C1 := t.size 1
  let C2 := t.size 2
  let K2 := t.size 3
  let C3 := t.size 4
  { sizes := [K1 / 4, C1, C2, 4 * K2, C3],
    data := fun p =>
      let c3 := p % C3
      let k2 := p / C3 % K2
      let k := p / C3 / K2 % 4
      let c := p / C3 / K2 / 4 % C2
      let j := p / C3 / K2 / 4 / C2 % C1
      let i := p / C3 / K2 / 4 / C2 / C1
      t.data (((((i * 4 + k) * C1 + j) * C2 + c) * K2 + k2) * C3 + c3) }

/-- A rank-5 weight of shape `[8, 1, 2, 1, 2]` whose element at offset `p` is `p`. -/
def exWt : FlatTensor Int := { sizes := [8, 1, 2, 1, 2], data := fun p => (p : Int) }

/-- A rank-4 weight. -/
def exWt4 : FlatTensor Int := { sizes := [8, 1, 2, 2], data := fun p => (p : Int) }

/-! ## Rotary position embeddings -/

/-- The float operations of the rotary kernels; `R` stands for `float`, `α` for the element
type `T` of the tensor. -/
structure RotaryOps (α R : Type) where
  /-- Conversion of a loaded element (`float in0 = in[b][s][n][h]`). -/
  toF : α → R
  /-- Conversion of a stored element (`in[b][s][n][h] = out0`). -/
  ofF : R → α
  mul : R → R → R
  sub : R → R → R
  add : R → R → R

/-- The read `emb_pos[p][j]` of `apply_rotary_pos_emb_gptj`, with
`emb_pos = GetVLAPtr<float>(t_emb_pos, {HR})`; `emb` is the storage of the table and the
memory around it, by element offset. -/
def emb_pos_gptj {R : Type} (emb : Int → R) (HR : Nat) (p : Int) (j : Nat) : R :=
  emb (p * (HR : Int) + (j : Int))

/-- Body of the loop `for (h = 0, h2 = 0; h < HR; h += 2, h2++)` of
`apply_rotary_pos_emb_gptj` for the row starting at element offset `base` of the storage
`mem` of `t_in`; `p` is the local `int p`. -/
def rotary_gptj_pair {α R : Type} (ops : RotaryOps α R) (MP HR : Nat) (emb : Int → R)
    (p : Int) (base : Nat) (mem : Nat → α) (h2 : Nat) : Nat → α :=
  let h := 2 * h2
  let in0 := ops.toF (mem (base + h))
  let in1 := ops.toF (mem (base + (h + 1)))
  if p ≥ (MP : Int) then mem
  else
    let sin := emb_pos_gptj emb HR p h2
    let cos := emb_pos_gptj emb HR p (HR / 2 + h2)
    let out0 := ops.sub (ops.mul in0 cos) (ops.mul in1 sin)
    let out1 := ops.add (ops.mul in1 cos) (ops.mul in0 sin)
    upd (upd mem (base + h) (ops.ofF out0)) (base + (h + 1)) (ops.ofF out1)

/-- The conversion of a `long` to `int` in `int p = pos[b][s]`: the value modulo `2^32`
in the range `[-2^31, 2^31)`. -/
def long_to_int (x : Int) : Int := (x + 2147483648) % 4294967296 - 2147483648

/-- The function `apply_rotary_pos_emb_gptj<T>(t_in, t_emb_pos, t_pos, N, H)` on the storage
`mem` of `t_in` (`[B][S][N][H]`, updated in place); `MP` and `HR` are the sizes of
`t_emb_pos`, `pos` is the storage of `t_pos` (of type `long`) read as `pos[b][s]` through
`GetVLAPtr<long>(t_pos, {S})` and narrowed by `int p = pos[b][s]`. The inner loop runs for
`h = 0, 2, ...` below `HR`. -/
def apply_rotary_pos_emb_gptj {α R : Type} (ops : RotaryOps α R) (B S N H MP HR : Nat)
    (emb : Int → R) (pos : Nat → Int) (mem : Nat → α) : Nat → α :=
  (List.product (List.product (List.range B) (List.range S)) (List.range N)).foldl
    (fun m bsn =>
      (List.range ((HR + 1) / 2)).foldl
        (rotary_gptj_pair ops MP HR emb (long_to_int (pos (bsn.1.1 * S + bsn.1.2)))
          (((bsn.1.1 * S + bsn.1.2) * N + bsn.2) * H))
        m)
    mem

/-- Feature `h` of a row after the loop of `apply_rotary_pos_emb_gptj` over its first `m`
pairs, from the content `row` of the row before the loop. -/
def gptj_rotated {α R : Type} (ops : RotaryOps α R) (MP HR : Nat) (emb : Int → R) (p : Int)
    (m : Nat) (row : Nat → α) (h : Nat) : α :=
  if p ≥ (MP : Int) ∨ 2 * m ≤ h then row h
  else
    let x := ops.toF (row (2 * (h / 2)))
    let y := ops.toF (row (2 * (h / 2) + 1))
    let sin := emb_pos_gptj emb HR p (h / 2)
    let cos := emb_pos_gptj emb HR p (HR / 2 + h / 2)
    if h % 2 = 0 then ops.ofF (ops.sub (ops.mul x cos) (ops.mul y sin))
    else ops.ofF (ops.add (ops.mul y cos) (ops.mul x sin))

/-- The rotary kernels on a commutative ring, without conversions (`T = float`, with the
float operations read as exact arithmetic). -/
def ringRotaryOps (R : Type) [CommRing R] : RotaryOps R R :=
  { toF := id, ofF := id, mul := fun a b => a * b, sub := fun a b => a - b,
    add := fun a b => a + b }

/-- Integer arithmetic in place of the float operations, for evaluating the model on
examples. -/
def exRot : RotaryOps Int Int :=
  { toF := id, ofF := id, mul := fun a b => a * b, sub := fun a b => a - b,
    add := fun a b => a + b }

/-- A row of two features, 3 and 5. -/
def exRow : Nat → Int := fun x => if x = 0 then 3 else 5

/-- A GPT-J table with one position and rotary width 2: `sin = 1` at offset 0, `cos = 0` at
offset 1. -/
def exEmb : Int → Int := fun o => if o = 0 then 1 else 0

/-- The table `exEmb` with the sin entry negated. -/
def exEmbNeg : Int → Int := fun o => if o = 0 then -1 else 0

/-- The state of a `ProcessGroupMPI` that the queue operations touch: the deque `queue_`
of (work entry, handle) pairs, the flag `stop_`, and the sequence of pairs that the worker
thread has taken from the queue and run so far. -/
structure PGState (ε : Type) where
  queue_ : List ε
  stop_ : Bool
  ran : List ε

/-- The state after the constructor: `stop_(false)` and an empty queue. -/
def PGState.init (ε : Type) : PGState ε := { queue_ := [], stop_ := false, ran := [] }

/-- The critical section of `ProcessGroupMPI::enqueue`:
`queue_.push_back(std::make_tuple(std::move(entry), work))`. -/
def ProcessGroupMPI.enqueue {ε : Type} (st : PGState ε) (w : ε) : PGState ε :=
  { st with queue_ := st.queue_ ++ [w] }

/-- One iteration of the loop `while (!stop_)` of `ProcessGroupMPI::runLoop`: with an empty
queue the thread waits and the state is unchanged; otherwise the front pair is moved out
(`queue_.front()`, `queue_.pop_front()`) and run. -/
def ProcessGroupMPI.runLoop {ε : Type} (st : PGState ε) : PGState ε :=
  if st.stop_ then st
  else
    match st.queue_ with
    | [] => st
    | w :: rest => { st with queue_ := rest, ran := st.ran ++ [w] }

/-- The critical section of `ProcessGroupMPI::destroy`: it waits until the queue is empty
and then sets `stop_`; while the queue is not empty the state is unchanged. -/
def ProcessGroupMPI.destroy {ε : Type} (st : PGState ε) : PGState ε :=
  if st.queue_.isEmpty then { st with stop_ := true } else st

/-- The steps of the threads that share the queue; each is one critical section under
`pgMutex_`. -/
inductive PGStep (ε : Type) where
  | enqueue (w : ε)
  | runLoop
  | destroy

/-- The effect of one step. -/
def PGState.step {ε : Type} (st : PGState ε) : PGStep ε → PGState ε
  | PGStep.enqueue w => ProcessGroupMPI.enqueue st w
  | PGStep.runLoop => ProcessGroupMPI.runLoop st
  | PGStep.destroy => ProcessGroupMPI.destroy st

/-- The state after an interleaving of steps, starting from the constructed object. -/
def PGState.run {ε : Type} (acts : List (PGStep ε)) : PGState ε :=
  acts.foldl PGState.step (PGState.init ε)

/-- The pairs appended to the queue by an interleaving, in the order of the appends. -/
def PGStep.appended {ε : Type} (acts : List (PGStep ε)) : List ε :=
  acts.filterMap fun a =>
    match a with
    | PGStep.enqueue w => some w
    | _ => none

/-! ## The fused linear layers -/

/-- A call of a tile kernel on the output tile `out[s1][nk]` made by the loop body of a
fused linear layer. `rows` is the row count of the kernel instance: `BSb = 64`, or
`rem = BS % 64` for the `_rem` instance. -/
inductive TileCall where
  /-- The call `copy_bias_tpp(bias[nk], out[s1][nk])`. -/
  | copy_bias (rows s1 nk : Nat)
  /-- The call `zero_tpp(out[s1][nk])`. -/
  | zero (rows s1 nk : Nat)
  /-- The call `brgemm_tpp(in[s1][nc], wt_V[nk][nc], out[s1][nk], count, ...)`. -/
  | brgemm (rows s1 nc nk count : Nat)
  /-- The epilogue kernels of the function on `out[s1][nk]` (`mul_tpp`; `sadd_tpp`;
  `add_tpp` then `sadd_tpp`; `gelu_fwd_tpp`; `silu_fwd_tpp`; `relu_fwd_tpp`). -/
  | epilogue (rows s1 nk : Nat)

/-- The output tile `(s1, nk)` a call works on. -/
def TileCall.tile : TileCall → Nat × Nat
  | TileCall.copy_bias _ s1 nk => (s1, nk)
  | TileCall.zero _ s1 nk => (s1, nk)
  | TileCall.brgemm _ s1 _ nk _ => (s1, nk)
  | TileCall.epilogue _ s1 nk => (s1, nk)

/-- The tile-kernel calls of one iteration `(nc, s1, nk)` of the loop body shared by
`fc_plain`, `fc_mul`, `fc_add_scale`, `fc_add2_scale`, `fc_gelu`, `fc_silu`, `fc_relu` and
`qkv_gemm`, on a tile of `rows` rows. `epi` tells whether the function has an epilogue
(`fc_plain` and `qkv_gemm` have none); `with_bias` is `t_bias.numel() > 0`. -/
def fused_linear_tile (epi with_bias : Bool) (Nc Ncb rows nc s1 nk : Nat) : List TileCall :=
  let count := if nc + Ncb < Nc then Ncb else Nc - nc
  (if nc = 0 then
      (if with_bias then [TileCall.copy_bias rows s1 nk] else [TileCall.zero rows s1 nk])
    else []) ++
    [TileCall.brgemm rows s1 nc nk count] ++
    (if epi = true ∧ ¬ (nc + Ncb < Nc) then [TileCall.epilogue rows s1 nk] else [])

/-- The loop body: `is_rem = (s1 + BSb > BS)` selects the kernel instances of `BSb = 64`
rows or the `_rem` instances of `rem = BS % 64` rows. -/
def fused_linear_body (epi with_bias : Bool) (Nc Ncb BS nc s1 nk : Nat) : List TileCall :=
  if ¬ (s1 + 64 > BS) then fused_linear_tile epi with_bias Nc Ncb 64 nc s1 nk
  else fused_linear_tile epi with_bias Nc Ncb (BS % 64) nc s1 nk

/-- Modelled from the spec: `ThreadedLoop<3>({{0, Nc, Ncb, false}, {0L, BS, BSb}, {Nk}},
loop_scheme)` with the schemes `"aCb"` and `"aCB"` runs the body for the contraction-block
starts `nc = 0, Ncb, ...` below `Nc` in the outer loop, the row-block starts
`s1 = 0, BSb, ...` below `BS` in the middle loop and `nk < Nk` in the inner loop. The
iterations are taken in sequence; the list collects what the body produces. -/
def threaded_loop3 {β : Type} (Nc Ncb BS BSb Nk : Nat) (body : Nat → Nat → Nat → List β) :
    List β :=
  (loop_starts Nc Ncb).flatMap fun nc =>
    (loop_starts BS BSb).flatMap fun s1 =>
      (List.range Nk).flatMap fun nk => body nc s1 nk

/-- The sequence of tile-kernel calls of a fused linear layer. -/
def fused_linear_calls (epi with_bias : Bool) (Nc Ncb BS Nk : Nat) : List TileCall :=
  threaded_loop3 Nc Ncb BS 64 Nk (fused_linear_body epi with_bias Nc Ncb BS)

/-- The value `count = nc + Ncb < Nc ? Ncb : Nc - nc`. -/
def block_count (Nc Ncb nc : Nat) : Nat := if nc + Ncb < Nc then Ncb else Nc - nc

/-- The row count of the tile that starts at row `s1`. -/
def tile_rows (BS s1 : Nat) : Nat := if s1 + 64 > BS then BS % 64 else 64

/-- The row count of the kernel instance of a call. -/
def TileCall.rows : TileCall → Nat
  | TileCall.copy_bias rows _ _ => rows
  | TileCall.zero rows _ _ => rows
  | TileCall.brgemm rows _ _ _ _ => rows
  | TileCall.epilogue rows _ _ => rows

/-- An update of one element of the output: overwrite it, or add to its content. -/
inductive CellOp (R : Type) where
  | set (v : R)
  | add (v : R)

/-- The content of an element after an update. -/
def CellOp.apply {R : Type} [Add R] : CellOp R → R → R
  | CellOp.set v, _ => v
  | CellOp.add v, x => x + v

/-- The element updates of a kernel on the tile `out[s1][nk]` of `rows` rows and `Hk`
columns with leading dimension `K = Nk * Hk`, where `out = GetVLAPtr<T>(t_out, {Nk, Hk})`:
the element `(r, hk)` of the tile, at element offset `(s1 * Nk + nk) * Hk + r * K + hk`,
gets the update `v r hk`. -/
def tile_cells {R : Type} (Nk Hk rows s1 nk : Nat) (v : Nat → Nat → CellOp R) :
    List (Nat × CellOp R) :=
  (List.range rows).flatMap fun r =>
    (List.range Hk).flatMap fun hk => [((s1 * Nk + nk) * Hk + r * (Nk * Hk) + hk, v r hk)]

/-- Modelled from the spec: the tile GEMM primitive
`BrgemmTPP<T, T>(rows, Hk, Hc, Hc, Hk * Hc, C, Hk, K, 1.0, 0, Ncb)`, called as
`brgemm_tpp(A, B, Cout, count, ...)`, is a batch-reduce GEMM with `beta = 1`: it adds to the
element `(r, hk)` of the output tile the sum over the `count` blocks `i` and over `hc < Hc`
of `A[i * Hc + r * C + hc] * B[i * (Hk * Hc) + hc * Hk + hk]` (block strides `Hc` and
`Hk * Hc`, leading dimensions `C` and `Hk`). The value added, for `A` at offset `a` of the
input and `B` at offset `b` of the weight, in exact arithmetic. -/
def brgemm_acc {R : Type} [Semiring R] (inp wt : Nat → R) (Hc Hk C a b count r hk : Nat) : R :=
  ((List.range count).map fun i =>
    ((List.range Hc).map fun hc =>
      inp (a + i * Hc + r * C + hc) * wt (b + i * (Hk * Hc) + hc * Hk + hk)).sum).sum

/-- Modelled from the spec: the element updates of the tile kernels of `fc_plain`, with
`in = GetVLAPtr<T>(t_in, {Nc, Hc})`, `wt_V = GetVLAPtr<T>(t_wt_V, {Nc, Hc * Hk})` and
`bias = GetVLAPtr<T>(t_bias, {Hk})`. `CpyBiasTPP<T>(rows, Hk, K)` copies the `Hk` elements
at `bias[nk]` into every row of the tile, `SetZeroTPP<T>(rows, Hk, K)` zeroes the tile and
the GEMM accumulates `brgemm_acc`. `fc_plain` has no epilogue. -/
def TileCall.cells {R : Type} [Semiring R] (inp wt bias : Nat → R) (C Nc Hc Nk Hk : Nat) :
    TileCall → List (Nat × CellOp R)
  | TileCall.copy_bias rows s1 nk =>
    tile_cells Nk Hk rows s1 nk fun _ hk => CellOp.set (bias (nk * Hk + hk))
  | TileCall.zero rows s1 nk => tile_cells Nk Hk rows s1 nk fun _ _ => CellOp.set 0
  | TileCall.brgemm rows s1 nc nk count =>
    tile_cells Nk Hk rows s1 nk fun r hk =>
      CellOp.add (brgemm_acc inp wt Hc Hk C ((s1 * Nc + nc) * Hc) ((nk * Nc + nc) * (Hc * Hk))
        count r hk)
  | TileCall.epilogue _ _ _ => []

/-- The function `fc_plain<T>(t_in, t_wt, t_bias, t_out)` on the storages of its arguments:
`inp` of `t_in` (`[B, S, C]`), `wt` of the blocked weight (`[Nk, Nc, Hc, Hk]`, which
`wt_tensor_for_fwd` returns as it is for a full-precision type), `bias` of `t_bias`
(`bias_numel` elements) and `out` of `t_out` (`[B, S, Nk * Hk]`), which is updated in
place. `large_cache_opt` and `NCB_BLOCK_SIZE` are the globals of that name. -/
def fc_plain {R : Type} [Semiring R] (large_cache_opt : Bool) (NCB_BLOCK_SIZE : Nat)
    (B S C Nk Nc Hk bias_numel : Nat) (inp wt bias : Nat → R) (out : Nat → R) : Nat → R :=
  let BS := B * S
  let Hc := C / Nc
  let Ncb := if large_cache_opt then NCB_BLOCK_SIZE else Nc
  let with_bias := decide (bias_numel > 0)
  ((fused_linear_calls false with_bias Nc Ncb BS Nk).flatMap
      (TileCall.cells inp wt bias C Nc Hc Nk Hk)).foldl
    (fun m u => upd m u.1 (u.2.apply (m u.1))) out

/-! ## Completion of the work handles by the worker thread -/

/-- The completion calls that `runLoop` makes on a handle (`WorkMPI`):
`finishWorkMPI()` and `finishWorkMPIError(eptr)`. -/
inductive Mark (X : Type) where
  | finishWorkMPI
  | finishWorkMPIError (eptr : X)
  deriving DecidableEq, Repr

/-- The outcomes of the three calls of the `try` statement of `runLoop`, for the pair they
are made on: `none` when the call returns, `some e` when it throws `e`. -/
structure TryCalls (ε X : Type) where
  /-- The call `workEntry->run(workEntry)`. -/
  run : ε → Option X
  /-- The call `work->finishWorkMPI()` (`future_->markCompleted(...)`, then `finish()`). -/
  finishWorkMPI : ε → Option X
  /-- The call `work->finishWorkMPIError(eptr)` (`future_->setError(eptr)`, then
  `finish(eptr)`). -/
  finishWorkMPIError : ε → X → Option X

/-- The `try` statement of `runLoop` for the pair `w` moved out of the queue:
`try { workEntry->run(workEntry); work->finishWorkMPI(); }
catch (...) { work->finishWorkMPIError(std::current_exception()); }`.
An exception of `run` skips `finishWorkMPI` and enters the handler; an exception of
`finishWorkMPI`, which is inside the `try` block, enters the handler too. The result is
the list of the completion calls made on the handle, in program order, and the exception
that leaves the statement, which is one thrown by the handler. -/
def runLoop_try {ε X : Type} (calls : TryCalls ε X) (w : ε) : List (Mark X) × Option X :=
  match calls.run w with
  | some e => ([Mark.finishWorkMPIError e], calls.finishWorkMPIError w e)
  | none =>
    match calls.finishWorkMPI w with
    | none => ([Mark.finishWorkMPI], none)
    | some e =>
      ([Mark.finishWorkMPI, Mark.finishWorkMPIError e], calls.finishWorkMPIError w e)

/-- The queue state together with the position of the worker thread: `current` is the
pair moved out of the queue whose `try` statement has not finished (the thread is
outside the lock), `marks` lists the pairs whose `try` statement has finished, each with
the completion calls made on its handle, and `escaped` is the exception that has left
`runLoop`, which has no handler around the loop: the thread function ends with it and the
program is terminated. -/
structure PGWorker (ε X : Type) where
  pg : PGState ε
  current : Option ε
  marks : List (ε × List (Mark X))
  escaped : Option X

/-- The steps of the threads, with an iteration of `runLoop` split at `lock.unlock()`:
`take` is the critical section of the iteration (test of `stop_`, `queue_.front()`,
`queue_.pop_front()`), `finish` is the `try` statement that follows it. -/
inductive WorkerStep (ε : Type) where
  | enqueue (w : ε)
  | take
  | finish
  | destroy

/-- The effect of one step. The worker thread is at the head of its loop only when no pair
is in flight, and no step is made once the program is terminated. -/
def PGWorker.step {ε X : Type} (calls : TryCalls ε X) (st : PGWorker ε X)
    (a : WorkerStep ε) : PGWorker ε X :=
  if st.escaped.isSome then st
  else
    match a with
    | WorkerStep.enqueue w => { st with pg := ProcessGroupMPI.enqueue st.pg w }
    | WorkerStep.take =>
      match st.current with
      | some _ => st
      | none =>
        { st with
          pg := ProcessGroupMPI.runLoop st.pg
          current := if st.pg.stop_ then none else st.pg.queue_.head? }
    | WorkerStep.finish =>
      match st.current with
      | none => st
      | some w =>
        { st with
          current := none
          marks := st.marks ++ [(w, (runLoop_try calls w).1)]
          escaped := (runLoop_try calls w).2 }
    | WorkerStep.destroy => { st with pg := ProcessGroupMPI.destroy st.pg }

/-- The state after an interleaving of steps, starting from the constructed object. -/
def PGWorker.run {ε X : Type} (calls : TryCalls ε X) (acts : List (WorkerStep ε)) :
    PGWorker ε X :=
  acts.foldl (PGWorker.step calls)
    { pg := PGState.init ε, current := none, marks := [], escaped := none }

/-- The completion calls made on the handle of a pair match the outcomes of the calls:
`finishWorkMPIError` alone when `run` throws, `finishWorkMPI` alone when `run` and
`finishWorkMPI` return, and `finishWorkMPI` followed by `finishWorkMPIError` when `run`
returns and `finishWorkMPI` throws. -/
def MarksMatch {ε X : Type} (calls : TryCalls ε X) (p : ε × List (Mark X)) : Prop :=
  (∀ e, calls.run p.1 = some e → p.2 = [Mark.finishWorkMPIError e]) ∧
  (calls.run p.1 = none → calls.finishWorkMPI p.1 = none → p.2 = [Mark.finishWorkMPI]) ∧
  (∀ e, calls.run p.1 = none → calls.finishWorkMPI p.1 = some e →
    p.2 = [Mark.finishWorkMPI, Mark.finishWorkMPIError e])

/-- The invariant of the worker model: the pairs taken from the queue are those whose
`try` statement has finished, in order, followed by the pair in flight; the completion
calls of every finished pair match the outcomes; and no pair is in flight once an
exception has left `runLoop`. -/
def PGWorker.Inv {ε X : Type} (calls : TryCalls ε X) (st : PGWorker ε X) : Prop :=
  st.pg.ran = st.marks.map Prod.fst ++ st.current.toList ∧
  (∀ p, p ∈ st.marks → MarksMatch calls p) ∧
  (st.escaped.isSome = true → st.current = none)

/-! ## Asynchronous handles (`AsyncWork`) -/

/-- The value of `MPI_SUCCESS`. -/
def MPI_SUCCESS : Int := 0

/-- The macro `MPI_CHECK(cmd)`: `int mpiStatus = cmd; if (mpiStatus != MPI_SUCCESS)
TORCH_CHECK(false, ...)`. -/
def MPI_CHECK (mpiStatus : Int) : Except String Unit :=
  if mpiStatus ≠ MPI_SUCCESS then Except.error "MPI error" else Except.ok ()

/-- The members of `AsyncWork` that its functions read and write: `request_` (`none`
stands for `MPI_REQUEST_NULL`), `status_.MPI_ERROR`, and `exception_` (`some code` once
`populateException` has run). -/
structure AsyncWork (Req : Type) where
  request_ : Option Req
  MPI_ERROR : Int
  exception_ : Option Int

/-- The destructor `AsyncWork::~AsyncWork()`: the result is `true` when it calls
`std::terminate()`. -/
def AsyncWork.dtor {Req : Type} (w : AsyncWork Req) : Bool :=
  w.request_.isSome

/-- The function `AsyncWork::isCompleted()`. `MPI_Test r` gives the return value of
`MPI_Test(&request_, &flag, &status_)` on the pending request `r`, the value of
`request_` after the call and the value of `status_.MPI_ERROR` after the call. The
result is the handle after the call and the returned value or the raised error. -/
def AsyncWork.isCompleted {Req : Type} (MPI_Test : Req → Int × Option Req × Int)
    (w : AsyncWork Req) : AsyncWork Req × Except String Bool :=
  match w.request_ with
  | none => (w, Except.ok true)
  | some r =>
    let t := MPI_Test r
    let w1 : AsyncWork Req := { w with request_ := t.2.1, MPI_ERROR := t.2.2 }
    match MPI_CHECK t.1 with
    | Except.error e => (w1, Except.error e)
    | Except.ok _ =>
      if w1.request_.isSome then (w1, Except.ok false)
      else if w1.MPI_ERROR ≠ MPI_SUCCESS then
        ({ w1 with exception_ := some w1.MPI_ERROR }, Except.ok true)
      else (w1, Except.ok true)

/-- The function `AsyncWork::isSuccess()`. -/
def AsyncWork.isSuccess {Req : Type} (w : AsyncWork Req) : Except String Bool :=
  if w.request_.isSome then
    Except.error "Invalid call to AsyncWork::isSuccess before work has completed"
  else Except.ok (decide (w.MPI_ERROR = MPI_SUCCESS))

/-- The function `AsyncWork::wait(timeout)`. `MPI_Wait r` gives the return value of
`MPI_Wait(&request_, &status_)` on the pending request `r`, the value of `request_` after
the call and the value of `status_.MPI_ERROR` after the call. -/
def AsyncWork.wait {Req : Type} (MPI_Wait : Req → Int × Option Req × Int)
    (w : AsyncWork Req) : AsyncWork Req × Except String Bool :=
  match w.request_ with
  | none => (w, Except.ok true)
  | some r =>
    let t := MPI_Wait r
    let w1 : AsyncWork Req := { w with request_ := t.2.1, MPI_ERROR := t.2.2 }
    match MPI_CHECK t.1 with
    | Except.error e => (w1, Except.error e)
    | Except.ok _ =>
      if w1.MPI_ERROR = MPI_SUCCESS then (w1, Except.ok true)
      else ({ w1 with exception_ := some w1.MPI_ERROR }, Except.error "MPI error")

/-! ## Collectives rejected at the call site -/

/-- The values of `at::ScalarType` named in `ProcessGroupMPI.cpp`. -/
inductive ScalarType where
  | kByte | kChar | kDouble | kFloat | kInt | kLong | kShort | kBFloat16 | kHalf
  deriving DecidableEq, Repr

/-- The values of `ReduceOp::RedOpType` of c10d. -/
inductive ReduceOp where
  | SUM | AVG | PRODUCT | MIN | MAX | BAND | BOR | BXOR | PREMUL_SUM
  deriving DecidableEq, Repr

/-- What the call-site checks read from an `at::Tensor`. -/
structure TensorArg where
  is_contiguous : Bool
  is_sparse : Bool
  is_cuda : Bool
  scalar_type : ScalarType
  deriving DecidableEq, Repr

/-- The pair pushed to the queue by a collective: the `WorkEntry` built from the tensors
(`src`, `dst`), the reduction operator captured by its run function, and the profiling
title given to `enqueue`. -/
structure WorkEntry where
  title : String
  src : List TensorArg
  dst : List TensorArg
  reduceOp : ReduceOp
  deriving DecidableEq, Repr

/-- The function `checkSingleTensorHelper(tensor)`; `cudaAware` is the value of
`cudaAwareMpiCheck()`. -/
def checkSingleTensorHelper (cudaAware : Bool) (t : TensorArg) : Except String Unit :=
  if !t.is_contiguous then Except.error "input tensor has to be contiguous"
  else if t.is_sparse then Except.error "input tensor has to be dense"
  else if t.is_cuda && !cudaAware then
    Except.error "CUDA tensor detected and the MPI used doesn't have CUDA-aware MPI support"
  else Except.ok ()

/-- The function `checkSingleTensor(tensors)`. -/
def checkSingleTensor (cudaAware : Bool) (tensors : List TensorArg) : Except String Unit :=
  if tensors.length ≠ 1 then
    Except.error "MPI process group does not support multi-GPU collectives"
  else
    match tensors.head? with
    | some t => checkSingleTensorHelper cudaAware t
    | none => Except.ok ()

/-- The test `(tensors[0].scalar_type() == at::kBFloat16 || tensors[0].scalar_type() ==
at::kHalf) && opts.reduceOp != ReduceOp::SUM` of `allreduce` and `reduce`. -/
def low_prec_non_sum (tensors : List TensorArg) (reduceOp : ReduceOp) : Bool :=
  match tensors.head? with
  | some t =>
    (t.scalar_type == ScalarType.kBFloat16 || t.scalar_type == ScalarType.kHalf) &&
      reduceOp != ReduceOp.SUM
  | none => false

/-- The function `ProcessGroupMPI::allreduce(tensors, opts)`: the state of the group after
the call, and the raised error if there is one. -/
def ProcessGroupMPI.allreduce (cudaAware : Bool) (st : PGState WorkEntry)
    (tensors : List TensorArg) (reduceOp : ReduceOp) : PGState WorkEntry × Except String Unit :=
  match checkSingleTensor cudaAware tensors with
  | Except.error e => (st, Except.error e)
  | Except.ok _ =>
    if low_prec_non_sum tensors reduceOp then
      (st, Except.error
        "ProcessGroupMPI::allreduce: Only SUM op is supported for BFloat16 or Half type")
    else
      (ProcessGroupMPI.enqueue st
        { title := "mpi:all_reduce", src := tensors, dst := tensors, reduceOp := reduceOp },
        Except.ok ())

/-- The function `ProcessGroupMPI::reduce(tensors, opts)`. -/
def ProcessGroupMPI.reduce (cudaAware : Bool) (st : PGState WorkEntry)
    (tensors : List TensorArg) (reduceOp : ReduceOp) : PGState WorkEntry × Except String Unit :=
  match checkSingleTensor cudaAware tensors with
  | Except.error e => (st, Except.error e)
  | Except.ok _ =>
    if low_prec_non_sum tensors reduceOp then
      (st, Except.error
        "ProcessGroupMPI::reduce: Only SUM op is supported for BFloat16 or Half type")
    else
      (ProcessGroupMPI.enqueue st
        { title := "mpi:reduce", src := tensors, dst := tensors, reduceOp := reduceOp },
        Except.ok ())

/-- The function `ProcessGroupMPI::allreduce_coalesced(tensors, opts)`. -/
def ProcessGroupMPI.allreduce_coalesced (st : PGState WorkEntry) (_tensors : List TensorArg)
    (_reduceOp : ReduceOp) : PGState WorkEntry × Except String Unit :=
  (st, Except.error "allreduce_coalesced is currently not supported with MPI")

/-- The function `ProcessGroupMPI::reduce_scatter(outputTensors, inputTensors, opts)`. -/
def ProcessGroupMPI.reduce_scatter (st : PGState WorkEntry) (_outputTensors : List TensorArg)
    (_inputTensors : List (List TensorArg)) (_reduceOp : ReduceOp) :
    PGState WorkEntry × Except String Unit :=
  (st, Except.error "ProcessGroupMPI does not support reduce_scatter")

/-! ## Creation of the communicator in `createProcessGroupMPI` -/

/-- The constant `kMaxNumRetries`. -/
def kMaxNumRetries : Nat := 3

/-- The state of the loop over `c10::irange(kMaxNumRetries)`: the flag
`groupComm_updated`, the number of calls of `MPI_Comm_create` made so far, and whether
`break` was executed. -/
structure CommCreateLoop where
  groupComm_updated : Bool
  calls : Nat
  broke : Bool
  deriving DecidableEq, Repr

/-- The loop
`for (i : irange(kMaxNumRetries)) { if (MPI_Comm_create(...)) { groupComm_updated = true; break; } }`.
`rets k` is the value returned by the call number `k` of `MPI_Comm_create` (counted from
0); an `int` is true in a condition when it is not 0. -/
def comm_create_loop (rets : Nat → Int) : CommCreateLoop :=
  (List.range kMaxNumRetries).foldl
    (fun st _ =>
      if st.broke then st
      else if rets st.calls ≠ 0 then
        { groupComm_updated := true, calls := st.calls + 1, broke := true }
      else { st with calls := st.calls + 1 })
    { groupComm_updated := false, calls := 0, broke := false }

/-- The part of `createProcessGroupMPI` for a non-empty rank list, from the loop to
`MPI_CHECK(groupComm_updated)` (the other MPI calls of the branch return `MPI_SUCCESS`):
the number of calls of `MPI_Comm_create` and the result of the check, whose argument is
the flag converted to `int`. -/
def createProcessGroupMPI_comm (rets : Nat → Int) : Nat × Except String Unit :=
  let l := comm_create_loop rets
  (l.calls, MPI_CHECK (if l.groupComm_updated then 1 else 0))

/-! ## `BrgemmExtTPP` -/

/-- The two enumerators of `XformTPP::XFORM_TYPE` (declared in `xsmm_functors.h`) that
`BrgemmExtTPP` compares with. -/
structure XformEnum (X : Type) where
  XFORM_NONE_TPP : X
  XFORM_N2V_TPP : X

/-- The arguments a `BrgemmTPP<Tin, Tout>` was built with. -/
structure BrgemmArgs (R : Type) where
  M : Nat
  N : Nat
  K : Nat
  str_a : Nat
  str_b : Nat
  beta : R
  a_trans : Int
  unroll_hint : Int
  deriving DecidableEq, Repr

/-- The members of a `BrgemmExtTPP<Tin, Tout>` after its constructor. A member kernel is
`none` while it is default-constructed (`brgemm()`, `xform()`, `add()`) and carries its
constructor arguments once assigned; `xform_is_vnni` is `xform_type == VNNI`. `R` stands
for `float`. -/
structure BrgemmExtTPP (X R : Type) where
  M : Nat
  N : Nat
  K : Nat
  beta : R
  c_trans : X
  brgemm : Option (BrgemmArgs R)
  xform : Option (Nat × Nat × X)
  add : Option (Nat × Nat)
  xform_is_vnni : Bool

/-- The constructor `BrgemmExtTPP(M, N, K, str_a, str_b, beta, c_trans, a_trans,
unroll_hint)`. The initialiser list copies the parameters into the members; inside the
body the names `beta` and `c_trans` denote the parameters, so the assignment
`c_trans = XformTPP::XFORM_NONE_TPP` changes the local `c_trans_param` and leaves the
member as initialised. `out_is_f32` is `XsmmDtype<Tout>() == LIBXSMM_DATATYPE_F32`. -/
def BrgemmExtTPP.new {X R : Type} [DecidableEq X] [DecidableEq R] [Zero R] (E : XformEnum X)
    (out_is_f32 : Bool) (M N K str_a str_b : Nat) (beta : R) (c_trans : X)
    (a_trans unroll_hint : Int) : BrgemmExtTPP X R :=
  let c_trans_member := c_trans
  let c_trans_param :=
    if out_is_f32 ∧ c_trans = E.XFORM_N2V_TPP then E.XFORM_NONE_TPP else c_trans
  let beta_ : R := if c_trans_param ≠ E.XFORM_NONE_TPP then 0 else beta
  { M := M, N := N, K := K, beta := beta, c_trans := c_trans_member,
    brgemm := some { M := M, N := N, K := K, str_a := str_a, str_b := str_b, beta := beta_,
                     a_trans := a_trans, unroll_hint := unroll_hint },
    xform := if c_trans_param ≠ E.XFORM_NONE_TPP then some (M, N, c_trans_param) else none,
    add := if beta_ ≠ beta then some (M, N) else none,
    xform_is_vnni := decide (c_trans_param = E.XFORM_N2V_TPP) }

/-- The buffers named in `BrgemmExtTPP::operator()`: the argument `C` and the local arrays
`tmp_C` and `tmp`. -/
inductive ExtBuf where
  | C | tmp_C | tmp
  deriving DecidableEq, Repr

/-- A call of a member kernel made by `BrgemmExtTPP::operator()`. -/
inductive ExtCall where
  /-- The call `brgemm(A, B, out, count, no_tile_cfg)`. -/
  | brgemm (out : ExtBuf)
  /-- The call `xform(src, dst)`. -/
  | xform (src dst : ExtBuf)
  /-- The call `add(a, b, out)`. -/
  | add (a b out : ExtBuf)
  deriving DecidableEq, Repr

/-- The calls made by `BrgemmExtTPP::operator()(A, B, C, count, no_tile_cfg)`, in program
order; `c_trans` and `beta` are the members. -/
def BrgemmExtTPP.call {X R : Type} [DecidableEq X] [DecidableEq R] [Zero R] (E : XformEnum X)
    (o : BrgemmExtTPP X R) : List ExtCall :=
  if o.c_trans = E.XFORM_NONE_TPP then [ExtCall.brgemm ExtBuf.C]
  else
    ExtCall.brgemm ExtBuf.tmp_C ::
      (if o.beta = 0 then [ExtCall.xform ExtBuf.tmp_C ExtBuf.C]
       else [ExtCall.xform ExtBuf.tmp_C ExtBuf.tmp, ExtCall.add ExtBuf.C ExtBuf.tmp ExtBuf.C])

/-! ## Prefill `attn`: tile sizes, kernel instances and padding -/

/-- The flag `inline_trans = ((Sq + Sqb - 1) / Sqb == 1)` with `Sqb = 64`. -/
def prefill_inline_trans (Sq : Nat) : Bool := decide ((Sq + 64 - 1) / 64 = 1)

/-- The value of the global `SK_BLOCK_SIZE = env2int("SK_BLOCK_SIZE", 64)`; `env` is the
value of the environment variable when it is set. -/
def SK_BLOCK_SIZE (env : Option Nat) : Nat := env.getD 64

/-- The constant `SK_ALIGN = (VBS == 1 ? 1 : 64)`. -/
def prefill_SK_ALIGN (VBS : Nat) : Nat := if VBS = 1 then 1 else 64

/-- The row count `qbs = (Sq - sq >= Sqb ? Sqb : Sq - sq)` of the query tile at `sq`. -/
def prefill_qbs (Sq sq : Nat) : Nat := if Sq - sq ≥ 64 then 64 else Sq - sq

/-- The column count `kbs = (Sk - sk >= Skb ? Skb : Sk_pad - sk)` of the key tile at
`sk`. -/
def prefill_kbs (Skb Sk_pad Sk sk : Nat) : Nat := if Sk - sk ≥ Skb then Skb else Sk_pad - sk

/-- An `AttnKernels` instance: the constructor arguments `Sqb`, `Skb` and `pad` that size
its kernels, and the member `Sqb_aligned`, which the constructor leaves unset when it
returns early (`if (Sqb == 0 || Skb == 0) return;`). -/
structure AttnKernels where
  Sqb : Nat
  Skb : Nat
  pad : Nat
  Sqb_aligned : Option Nat
  deriving DecidableEq, Repr

/-- The constructor `AttnKernels(Sqb, Skb, H, pad, kl_in_vnni, vl_in_vnni, am_is_2d)`. -/
def AttnKernels.new (Sqb Skb pad : Nat) : AttnKernels :=
  { Sqb := Sqb, Skb := Skb, pad := pad,
    Sqb_aligned := if Sqb = 0 ∨ Skb = 0 then none else some (sqb_aligned Sqb) }

/-- The array `attn_kern[4]` of the prefill `attn`, with `qrem = Sq % Sqb`,
`krem = Sk % Skb` and `pad = Sk_pad - Sk`. -/
def attn_kern (SK_BLOCK_SIZE VBS Sq Sk : Nat) : List AttnKernels :=
  let Skb := prefill_Skb SK_BLOCK_SIZE Sq
  let qrem := Sq % 64
  let krem := Sk % Skb
  let pad := prefill_Sk_pad VBS Sk - Sk
  [AttnKernels.new 64 Skb 0, AttnKernels.new 64 (krem + pad) pad,
    AttnKernels.new qrem Skb 0, AttnKernels.new qrem (krem + pad) pad]

/-- The index `qid = (sq + Sqb > Sq) ? 1 : 0`. -/
def prefill_qid (Sq sq : Nat) : Nat := if sq + 64 > Sq then 1 else 0

/-- The index `kid = qid * 2 + ((sk + Skb > Sk) ? 1 : 0)` of the instance used for the
tile at `(sq, sk)`. -/
def prefill_kid (SK_BLOCK_SIZE Sq Sk sq sk : Nat) : Nat :=
  prefill_qid Sq sq * 2 + (if sk + prefill_Skb SK_BLOCK_SIZE Sq > Sk then 1 else 0)

/-- The column indices `sk1 - sk` written in row `sq1` of the score tile by the loop
`for (sk1 = sq + sq1 + offset + 1; sk1 < sk + kbs; sk1++) AS[sq1][sk1 - sk] = -1e9f`, in
program order. -/
def causal_mask_columns (t : ScoreTile) (offset : Int) (sq1 : Nat) : List Int :=
  (List.range (((t.sk : Int) + t.kbs) - ((t.sq : Int) + sq1 + offset + 1)).toNat).map
    fun (i : Nat) => ((t.sq : Int) + sq1 + offset + 1 + (i : Int)) - t.sk

/-- The extension of the mask when `Sk != Sk_pad`:
`t_tmp.fill_(-10000.0); t_AM = at::cat({t_AM.view({B, -1}), t_tmp}, -1)` for a mask with one
row per batch entry and `at::cat({t_AM, t_tmp}, -1)` for a 2-d mask. `rows` are the rows of
the mask along its last dimension and `m10000` is the value `-10000.0`. -/
def prefill_extend_mask {R : Type} (m10000 : R) (Sk Sk_pad : Nat) (rows : List (List R)) :
    List (List R) :=
  if Sk ≠ Sk_pad then rows.map fun r => r ++ List.replicate (Sk_pad - Sk) m10000 else rows

/-! ## Memory accesses of the back-tracing loop -/

/-- An access made by the back-tracing loop: a read `b_ptr[j][v]` of the storage of
`t_beam_idx` at the element offset `j * B + v`, or a read or write of `beam_idx[i][col]`
in the new table of shape `[B, offset]`. -/
inductive TraceAccess where
  | b_ptr (p : Int)
  | beam_idx (i : Nat) (col : Nat)
  deriving DecidableEq, Repr

/-- Whether an access is inside its table: the storage of `t_beam_idx` has `numel`
elements, the new table has `B` rows of `offset` entries. -/
def TraceAccess.inside (numel B offset : Nat) : TraceAccess → Bool
  | TraceAccess.b_ptr p => decide (0 ≤ p ∧ p < (numel : Int))
  | TraceAccess.beam_idx i col => decide (i < B ∧ col < offset)

/-- The body of the outer loop of the back-tracing code for beam row `i`, as
`back_trace_row`, together with the accesses it makes, in program order. -/
def back_trace_row_log (t_beam_idx : Tensor2) (oobI : Int → Int) (B offset i : Nat)
    (row : Nat → Int) : (Nat → Int) × List TraceAccess :=
  (List.range (offset - 1)).reverse.foldl
    (fun s j =>
      (upd s.1 j (b_ptr t_beam_idx oobI B j (s.1 (j + 1))),
        s.2 ++ [TraceAccess.beam_idx i (j + 1),
          TraceAccess.b_ptr ((j : Int) * B + s.1 (j + 1)), TraceAccess.beam_idx i j]))
    (upd row (offset - 1) (b_ptr t_beam_idx oobI B (offset - 1) (i : Int)),
      [TraceAccess.b_ptr (((offset - 1 : Nat) : Int) * B + (i : Int)),
        TraceAccess.beam_idx i (offset - 1)])

/-- The accesses made by the back-tracing loop nest, in program order. -/
def back_trace_log (t_beam_idx : Tensor2) (oobI : Int → Int) (B offset : Nat)
    (fresh : Nat → Nat → Int) : List TraceAccess :=
  (List.range B).flatMap fun i => (back_trace_row_log t_beam_idx oobI B offset i (fresh i)).2

/-! ## Example inputs of the later sections -/

/-- A contiguous dense host tensor of the given type. -/
def exTensor (ty : ScalarType) : TensorArg :=
  { is_contiguous := true, is_sparse := false, is_cuda := false, scalar_type := ty }

/-! ## Index arithmetic of row-major storage -/

theorem mul_add_div_self (x h H : Nat) (hh : h < H) : (x * H + h) / H = x := by
  have hpos : 0 < H := by omega
  rw [Nat.add_comm, Nat.add_mul_div_right _ _ hpos, Nat.div_eq_of_lt hh, Nat.zero_add]

theorem mul_add_mod_self (x h H : Nat) (hh : h < H) : (x * H + h) % H = h := by
  rw [Nat.add_comm, Nat.add_mul_mod_self_right, Nat.mod_eq_of_lt hh]

theorem mul_add_lt (x h X H : Nat) (hx : x < X) (hh : h < H) : x * H + h < X * H := by
  calc x * H + h < x * H + H := by omega
    _ = (x + 1) * H := by ring
    _ ≤ X * H := Nat.mul_le_mul_right H hx

theorem flatIdx_lt {α : Type} (t : Tensor4 α) (b n s h : Nat) (hb : b < t.B) (hn : n < t.N)
    (hs : s < t.S) (hh : h < t.H) : t.flatIdx b n s h < t.numel := by
  unfold Tensor4.flatIdx Tensor4.numel
  exact mul_add_lt _ _ _ _ (mul_add_lt _ _ _ _ (mul_add_lt _ _ _ _ hb hn) hs) hh

theorem flatIdx_decode {α : Type} (t : Tensor4 α) (b n s h : Nat) (hn : n < t.N)
    (hs : s < t.S) (hh : h < t.H) :
    t.flatIdx b n s h % t.H = h ∧ t.flatIdx b n s h / t.H % t.S = s ∧
      t.flatIdx b n s h / t.H / t.S % t.N = n ∧ t.flatIdx b n s h / t.H / t.S / t.N = b := by
  unfold Tensor4.flatIdx
  rw [mul_add_mod_self _ _ _ hh, mul_add_div_self _ _ _ hh, mul_add_mod_self _ _ _ hs,
    mul_add_div_self _ _ _ hs, mul_add_mod_self _ _ _ hn, mul_add_div_self _ _ _ hn]
  exact ⟨rfl, rfl, rfl, rfl⟩

theorem vlaOff_eq_flatIdx {α : Type} (t : Tensor4 α) (b n s h : Nat) :
    vlaOff t.N t.S t.H (b : Int) n s + (h : Int) = ((t.flatIdx b n s h : Nat) : Int) := by
  unfold vlaOff Tensor4.flatIdx
  push_cast
  ring

/-- A `GetVLAPtr` read at a logical index inside the shape is the logical element. -/
theorem load_vlaOff {α : Type} (t : Tensor4 α) (oob : Int → α) (b n s h : Nat)
    (hb : b < t.B) (hn : n < t.N) (hs : s < t.S) (hh : h < t.H) :
    t.load oob (vlaOff t.N t.S t.H (b : Int) n s + (h : Int)) = t.elem b n s h := by
  rw [vlaOff_eq_flatIdx]
  have hlt := flatIdx_lt t b n s h hb hn hs hh
  obtain ⟨h1, h2, h3, h4⟩ := flatIdx_decode t b n s h hn hs hh
  unfold Tensor4.load
  rw [if_pos ⟨by omega, by exact_mod_cast hlt⟩]
  simp only [Int.toNat_ofNat, h1, h2, h3, h4]

theorem loadRow_vlaOff {α : Type} (t : Tensor4 α) (oob : Int → α) (b n s : Nat)
    (hb : b < t.B) (hn : n < t.N) (hs : s < t.S) :
    t.loadRow oob (vlaOff t.N t.S t.H (b : Int) n s) t.H = rowOf t.H (t.elem b n s) := by
  unfold Tensor4.loadRow rowOf
  apply List.map_congr_left
  intro h hh
  exact load_vlaOff t oob b n s h hb hn hs (List.mem_range.mp hh)

theorem rowIdx_inj (N S b n s b0 n0 s0 : Nat) (hn : n < N) (hs : s < S) (hn0 : n0 < N)
    (hs0 : s0 < S) (h : (b * N + n) * S + s = (b0 * N + n0) * S + s0) :
    b = b0 ∧ n = n0 ∧ s = s0 := by
  have e1 : s = s0 := by
    have := congrArg (· % S) h
    simpa [mul_add_mod_self _ _ _ hs, mul_add_mod_self _ _ _ hs0] using this
  have e2 : b * N + n = b0 * N + n0 := by
    have := congrArg (· / S) h
    simpa [mul_add_div_self _ _ _ hs, mul_add_div_self _ _ _ hs0] using this
  have e3 : n = n0 := by
    have := congrArg (· % N) e2
    simpa [mul_add_mod_self _ _ _ hn, mul_add_mod_self _ _ _ hn0] using this
  have e4 : b = b0 := by
    have := congrArg (· / N) e2
    simpa [mul_add_div_self _ _ _ hn, mul_add_div_self _ _ _ hn0] using this
  exact ⟨e4, e3, e1⟩

theorem block_iff (X X0 H h : Nat) (hh : h < H) :
    (X0 * H ≤ X * H + h ∧ X * H + h < X0 * H + H) ↔ X = X0 := by
  constructor
  · rintro ⟨h1, h2⟩
    rcases Nat.lt_trichotomy X X0 with hlt | heq | hgt
    · have := mul_add_lt X h X0 H hlt hh
      omega
    · exact heq
    · have : (X0 + 1) * H ≤ X * H := Nat.mul_le_mul_right H hgt
      have e : (X0 + 1) * H = X0 * H + H := by ring
      omega
  · rintro rfl
    omega

/-- A `cpy_tpp` through `GetVLAPtr` to a row inside the shape overwrites exactly that
logical row. -/
theorem storeRow_vlaOff {α : Type} (t : Tensor4 α) (row : List α) (b0 n0 s0 : Nat)
    (hrow : row.length = t.H) (hn0 : n0 < t.N) (hs0 : s0 < t.S)
    (b n s h : Nat) (hb : b < t.B) (hn : n < t.N) (hs : s < t.S) (hh : h < t.H) :
    (t.storeRow (vlaOff t.N t.S t.H (b0 : Int) n0 s0) row).elem b n s h =
      if b = b0 ∧ n = n0 ∧ s = s0 then row.getD h (t.elem b n s h) else t.elem b n s h := by
  have hp : vlaOff t.N t.S t.H (b0 : Int) n0 s0 = (((b0 * t.N + n0) * t.S + s0) * t.H : Nat) := by
    unfold vlaOff; push_cast; ring
  have hq : t.flatIdx b n s h = ((b * t.N + n) * t.S + s) * t.H + h := rfl
  have hblk := block_iff ((b * t.N + n) * t.S + s) ((b0 * t.N + n0) * t.S + s0) t.H h hh
  unfold Tensor4.storeRow
  simp only [hp, hrow, hq]
  by_cases hX : (b * t.N + n) * t.S + s = (b0 * t.N + n0) * t.S + s0
  · obtain ⟨e1, e2, e3⟩ := rowIdx_inj _ _ _ _ _ _ _ _ hn hs hn0 hs0 hX
    have hc := hblk.mpr hX
    rw [if_pos ⟨hb, hn, hs, hh, by exact_mod_cast hc.1, by exact_mod_cast hc.2⟩,
      if_pos ⟨e1, e2, e3⟩]
    congr 1
    rw [hX]
    omega
  · have hne : ¬ (b = b0 ∧ n = n0 ∧ s = s0) := by
      rintro ⟨rfl, rfl, rfl⟩
      exact hX rfl
    rw [if_neg hne, if_neg]
    rintro ⟨-, -, -, -, h1, h2⟩
    exact hX (hblk.mp ⟨by exact_mod_cast h1, by exact_mod_cast h2⟩)

theorem rowOf_length {α : Type} (H : Nat) (f : Nat → α) : (rowOf H f).length = H := by
  simp [rowOf]

theorem rowOf_getD {α : Type} (H : Nat) (f : Nat → α) (h : Nat) (d : α) (hh : h < H) :
    (rowOf H f).getD h d = f h := by
  simp [rowOf, List.getD_eq_getElem?_getD, List.getElem?_map, List.getElem?_range hh]

/-! ## Beam back-tracing -/

theorem b_ptr_eq_elem (T : Tensor2) (oobI : Int → Int) (B j : Nat) (v : Int)
    (hC : T.C = B) (hj : j < T.R) (h0 : 0 ≤ v) (hv : v < B) :
    b_ptr T oobI B j v = T.elem j v.toNat := by
  obtain ⟨w, rfl⟩ := Int.eq_ofNat_of_zero_le h0
  have hw : w < B := by exact_mod_cast hv
  have hlt : j * B + w < T.R * T.C := by
    rw [hC]; exact mul_add_lt j w T.R B hj hw
  have hcast : (j : Int) * (B : Int) + (w : Int) = ((j * B + w : Nat) : Int) := by push_cast; ring
  unfold b_ptr Tensor2.load Tensor2.numel
  rw [hcast, if_pos ⟨by omega, by exact_mod_cast hlt⟩]
  simp only [Int.toNat_ofNat, hC, mul_add_div_self _ _ _ hw, mul_add_mod_self _ _ _ hw]

theorem back_trace_fold (T : Tensor2) (oobI : Int → Int) (B : Nat) (m : Nat) :
    ∀ r0 : Nat → Int,
      (∀ t, m ≤ t → (List.range m).reverse.foldl
          (fun r j => upd r j (b_ptr T oobI B j (r (j + 1)))) r0 t = r0 t) ∧
      (∀ t, t < m → (List.range m).reverse.foldl
          (fun r j => upd r j (b_ptr T oobI B j (r (j + 1)))) r0 t =
        b_ptr T oobI B t ((List.range m).reverse.foldl
          (fun r j => upd r j (b_ptr T oobI B j (r (j + 1)))) r0 (t + 1))) := by
  induction m with
  | zero => intro r0; simp
  | succ m ih =>
    intro r0
    rw [List.range_succ, List.reverse_append, List.reverse_singleton, List.singleton_append,
      List.foldl_cons]
    obtain ⟨ih1, ih2⟩ := ih (upd r0 m (b_ptr T oobI B m (r0 (m + 1))))
    constructor
    · intro t ht
      rw [ih1 t (by omega)]
      simp only [upd]
      rw [if_neg (by omega)]
    · intro t ht
      by_cases htm : t < m
      · exact ih2 t htm
      · have e : t = m := by omega
        subst e
        rw [ih1 t (le_refl t), ih1 (t + 1) (by omega)]
        have hne : ¬ (t + 1 = t) := by omega
        simp [upd, hne]

theorem back_trace_row_spec (T : Tensor2) (oobI : Int → Int) (B offset i : Nat)
    (row : Nat → Int) (ho : 1 ≤ offset) :
    back_trace_row T oobI B offset i row (offset - 1) = b_ptr T oobI B (offset - 1) (i : Int) ∧
    (∀ t, t + 1 < offset → back_trace_row T oobI B offset i row t =
      b_ptr T oobI B t (back_trace_row T oobI B offset i row (t + 1))) ∧
    (∀ t, offset ≤ t → back_trace_row T oobI B offset i row t = row t) := by
  obtain ⟨h1, h2⟩ := back_trace_fold T oobI B (offset - 1)
    (upd row (offset - 1) (b_ptr T oobI B (offset - 1) (i : Int)))
  unfold back_trace_row
  refine ⟨?_, ?_, ?_⟩
  · rw [h1 _ (le_refl _)]; simp [upd]
  · intro t ht; exact h2 t (by omega)
  · intro t ht
    rw [h1 t (by omega)]
    simp only [upd]
    rw [if_neg (by omega)]

theorem foldl_upd_range {β : Type} (g : Nat → β → β) (n : Nat) :
    ∀ f0 : Nat → β,
      (List.range n).foldl (fun tab i => upd tab i (g i (tab i))) f0 =
        fun i => if i < n then g i (f0 i) else f0 i := by
  induction n with
  | zero => intro f0; simp
  | succ n ih =>
    intro f0
    rw [List.range_succ, List.foldl_append, ih]
    funext i
    simp only [List.foldl_cons, List.foldl_nil, upd]
    by_cases h1 : i = n
    · subst h1; simp
    · by_cases h2 : i < n
      · simp [h1, h2, Nat.lt_succ_of_lt h2]
      · have : ¬ i < n + 1 := by omega
        simp [h1, h2, this]

theorem back_trace_eq (T : Tensor2) (oobI : Int → Int) (B offset : Nat)
    (fresh : Nat → Nat → Int) (b : Nat) (hb : b < B) :
    back_trace T oobI B offset fresh b = back_trace_row T oobI B offset b (fresh b) := by
  unfold back_trace
  rw [foldl_upd_range (fun i r => back_trace_row T oobI B offset i r) B fresh]
  simp [hb]

/-- The recurrence satisfied by the traced table. -/
theorem back_trace_rec (T : Tensor2) (oobI : Int → Int) (B offset : Nat)
    (fresh : Nat → Nat → Int) (ho : 1 ≤ offset) (b : Nat) (hb : b < B) :
    back_trace T oobI B offset fresh b (offset - 1) = b_ptr T oobI B (offset - 1) (b : Int) ∧
    (∀ t, t + 1 < offset → back_trace T oobI B offset fresh b t =
      b_ptr T oobI B t (back_trace T oobI B offset fresh b (t + 1))) := by
  rw [back_trace_eq T oobI B offset fresh b hb]
  obtain ⟨h1, h2, -⟩ := back_trace_row_spec T oobI B offset b (fresh b) ho
  exact ⟨h1, h2⟩

/-- Entries of the traced table below `offset` do not depend on the prior content of
the `new_empty` table. -/
theorem back_trace_fresh_irrel (T : Tensor2) (oobI : Int → Int) (B offset : Nat)
    (fresh fresh2 : Nat → Nat → Int) (b : Nat) (hb : b < B) :
    ∀ k t, t + k + 1 = offset →
      back_trace T oobI B offset fresh b t = back_trace T oobI B offset fresh2 b t := by
  intro k
  induction k with
  | zero =>
    intro t ht
    have ho : 1 ≤ offset := by omega
    have e : t = offset - 1 := by omega
    rw [e, (back_trace_rec T oobI B offset fresh ho b hb).1,
      (back_trace_rec T oobI B offset fresh2 ho b hb).1]
  | succ k ih =>
    intro t ht
    have ho : 1 ≤ offset := by omega
    rw [(back_trace_rec T oobI B offset fresh ho b hb).2 t (by omega),
      (back_trace_rec T oobI B offset fresh2 ho b hb).2 t (by omega), ih (t + 1) (by omega)]

theorem trace_identity_aux (T : Tensor2) (oobI : Int → Int) (B offset : Nat)
    (fresh : Nat → Nat → Int) (hC : T.C = B) (hR : offset ≤ T.R)
    (hid : ∀ t, t < offset → ∀ b, b < B → T.elem t b = (b : Int)) (b : Nat) (hb : b < B) :
    ∀ k t, t + k + 1 = offset → back_trace T oobI B offset fresh b t = (b : Int) := by
  intro k
  induction k with
  | zero =>
    intro t ht
    have ho : 1 ≤ offset := by omega
    have e : t = offset - 1 := by omega
    rw [e, (back_trace_rec T oobI B offset fresh ho b hb).1,
      b_ptr_eq_elem T oobI B (offset - 1) (b : Int) hC (by omega) (by omega)
        (by exact_mod_cast hb)]
    simpa using hid (offset - 1) (by omega) b hb
  | succ k ih =>
    intro t ht
    have ho : 1 ≤ offset := by omega
    rw [(back_trace_rec T oobI B offset fresh ho b hb).2 t (by omega), ih (t + 1) (by omega),
      b_ptr_eq_elem T oobI B t (b : Int) hC (by omega) (by omega) (by exact_mod_cast hb)]
    simpa using hid t (by omega) b hb

/-! ## Torch slice / copy -/

theorem bcIdx_eq (src i : Nat) (h : i < src) : bcIdx src i = i := by
  unfold bcIdx
  split
  · omega
  · rfl

theorem bcOk_self (n : Nat) : bcOk n n = true := by simp [bcOk]

theorem slice2_copy_spec {α : Type} (dst src : Tensor4 α) (stop : Nat) (hB : src.B = dst.B)
    (hN : src.N = dst.N) (hH : src.H = dst.H) (hS : src.S = min stop dst.S) :
    ∃ r, dst.slice2_copy stop src = some r ∧
      r.B = dst.B ∧ r.N = dst.N ∧ r.S = dst.S ∧ r.H = dst.H ∧
      (∀ b n s h, b < dst.B → n < dst.N → s < src.S → h < dst.H →
        r.elem b n s h = src.elem b n s h) ∧
      (∀ b n s h, src.S ≤ s → r.elem b n s h = dst.elem b n s h) := by
  have hc : (bcOk src.B dst.B && bcOk src.N dst.N && bcOk src.S (min stop dst.S) &&
      bcOk src.H dst.H) = true := by
    simp only [← hS, hB, hN, hH, bcOk_self, Bool.and_self]
  unfold Tensor4.slice2_copy
  simp only [hc, if_true]
  refine ⟨_, rfl, rfl, rfl, rfl, rfl, ?_, ?_⟩
  · intro b n s h hb hn hs hh
    simp only [← hS]
    rw [if_pos ⟨hb, hn, hs, hh⟩, bcIdx_eq _ _ (by omega), bcIdx_eq _ _ (by omega),
      bcIdx_eq _ _ hs, bcIdx_eq _ _ (by omega)]
  · intro b n s h hs
    simp only [← hS]
    rw [if_neg]
    rintro ⟨-, -, h3, -⟩
    omega

theorem slice0_copy_spec (dst src : Tensor2) (stop : Nat) (hC : src.C = dst.C)
    (hR : src.R = min stop dst.R) :
    ∃ r, dst.slice0_copy stop src = some r ∧ r.R = dst.R ∧ r.C = dst.C ∧
      (∀ t c, t < src.R → c < dst.C → r.elem t c = src.elem t c) ∧
      (∀ t c, src.R ≤ t → r.elem t c = dst.elem t c) := by
  have hc : (bcOk src.R (min stop dst.R) && bcOk src.C dst.C) = true := by
    simp only [← hR, hC, bcOk_self, Bool.and_self]
  unfold Tensor2.slice0_copy
  simp only [hc, if_true]
  refine ⟨_, rfl, rfl, rfl, ?_, ?_⟩
  · intro t c ht hc
    simp only [← hR]
    rw [if_pos ⟨ht, hc⟩, bcIdx_eq _ _ ht, bcIdx_eq _ _ (by omega)]
  · intro t c ht
    simp only [← hR]
    rw [if_neg]
    rintro ⟨h1, -⟩
    omega

/-! ## `kv_concat` -/

theorem flatMap_range_length {β : Type} (f : Nat → List β) (m : Nat) :
    ∀ B, (∀ j, j < B → (f j).length = m) → ((List.range B).flatMap f).length = B * m := by
  intro B
  induction B with
  | zero => intro _; simp
  | succ B ih =>
    intro h
    rw [List.range_succ, List.flatMap_append, List.length_append, List.flatMap_singleton,
      ih (fun j hj => h j (by omega)), h B (by omega)]
    ring

theorem flatMap_range_getElem? {β : Type} (f : Nat → List β) (m : Nat) :
    ∀ B, (∀ j, j < B → (f j).length = m) → ∀ j r, j < B → r < m →
      ((List.range B).flatMap f)[j * m + r]? = (f j)[r]? := by
  intro B
  induction B with
  | zero => intro _ j r hj; omega
  | succ B ih =>
    intro h j r hj hr
    have hlen := flatMap_range_length f m B (fun j hj => h j (by omega))
    rw [List.range_succ, List.flatMap_append, List.flatMap_singleton]
    by_cases hjB : j < B
    · rw [List.getElem?_append_left (by rw [hlen]; exact mul_add_lt j r B m hjB hr)]
      exact ih (fun j hj => h j (by omega)) j r hjB hr
    · have e : j = B := by omega
      subst e
      rw [List.getElem?_append_right (by rw [hlen]; omega), hlen]
      congr 1
      omega

theorem kv_concat_ptrs_get (B N S1 S2 F : Nat) (indirect : Bool) (beam_idx : Nat → Int)
    (b n s : Nat) (hb : b < B) (hn : n < N) (hs : s < S1 + S2) :
    (kv_concat_ptrs B N S1 S2 F indirect beam_idx).get? ((b * N + n) * (S1 + S2) + s) =
      some (if s < S1 then
          RowPtr.in1 (vlaOff N S1 F (if indirect then beam_idx b else (b : Int)) n s)
        else RowPtr.in2 (vlaOff N S2 F (b : Int) n (s - S1))) := by
  have hinner : ∀ j k, ((List.range S1).map (fun i =>
          RowPtr.in1 (vlaOff N S1 F (if indirect then beam_idx j else (j : Int)) k i)) ++
        (List.range S2).map (fun i => RowPtr.in2 (vlaOff N S2 F (j : Int) k i))).length =
      S1 + S2 := by
    intro j k; simp
  have hmid : ∀ j, ((List.range N).flatMap fun k =>
        (List.range S1).map (fun i =>
          RowPtr.in1 (vlaOff N S1 F (if indirect then beam_idx j else (j : Int)) k i)) ++
        (List.range S2).map (fun i => RowPtr.in2 (vlaOff N S2 F (j : Int) k i))).length =
      N * (S1 + S2) := fun j => flatMap_range_length _ _ N (fun k _ => hinner j k)
  have hidx : (b * N + n) * (S1 + S2) + s = b * (N * (S1 + S2)) + (n * (S1 + S2) + s) := by
    ring
  unfold kv_concat_ptrs
  rw [List.get?_eq_getElem?, hidx,
    flatMap_range_getElem? _ (N * (S1 + S2)) B (fun j _ => hmid j) b _ hb
      (mul_add_lt n s N (S1 + S2) hn hs),
    flatMap_range_getElem? _ (S1 + S2) N (fun k _ => hinner b k) n s hn hs]
  by_cases h1 : s < S1
  · rw [List.getElem?_append_left (by simpa using h1), if_pos h1]
    simp [List.getElem?_range h1]
  · have h2 : s - S1 < S2 := by omega
    rw [List.getElem?_append_right (by simp; omega), if_neg h1]
    simp [List.getElem?_range h2]

/-- Direct (non-indirect) `kv_concat` of tensors of matching shapes is the plain
concatenation along the sequence axis. -/
theorem kv_concat_direct {α : Type} (oob : Int → α) (oobI : Int → Int)
    (fresh : Nat → Nat → Nat → Nat → α) (t_in1 t_in2 : Tensor4 α) (t_beam_idx : Tensor2)
    (hbeam : t_beam_idx.numel = 0) (hB : t_in2.B = t_in1.B) (hN : t_in2.N = t_in1.N)
    (hH : t_in2.H = t_in1.H) :
    ∃ out, kv_concat oob oobI fresh t_in1 t_in2 t_beam_idx = some out ∧
      out.B = t_in1.B ∧ out.N = t_in1.N ∧ out.S = t_in1.S + t_in2.S ∧ out.H = t_in1.H ∧
      ∀ b n s h, b < t_in1.B → n < t_in1.N → s < t_in1.S + t_in2.S → h < t_in1.H →
        out.elem b n s h =
          if s < t_in1.S then t_in1.elem b n s h else t_in2.elem b n (s - t_in1.S) h := by
  have hind : decide (t_beam_idx.numel > 0) = false := by simp [hbeam]
  unfold kv_concat
  simp only [hind, Bool.false_eq_true, if_false, hB, ne_eq, not_true_eq_false]
  refine ⟨_, rfl, rfl, rfl, rfl, rfl, ?_⟩
  intro b n s h hb hn hs hh
  simp only
  rw [if_pos ⟨hb, hn, hs, hh⟩, kv_concat_ptrs_get _ _ _ _ _ _ _ b n s hb hn hs]
  by_cases h1 : s < t_in1.S
  · simp only [if_pos h1, if_false, Bool.false_eq_true]
    exact load_vlaOff t_in1 oob b n s h hb hn h1 hh
  · simp only [if_neg h1]
    have := load_vlaOff t_in2 oob b n (s - t_in1.S) h (by omega) (by omega) (by omega) (by omega)
    rw [hN, hH] at this
    exact this

/-! ## Generic facts on loops -/

theorem foldl_rel {σ τ ι : Type} (Rel : σ → τ → Prop) (f : σ → ι → σ) (g : τ → ι → τ) :
    ∀ (l : List ι), (∀ i, i ∈ l → ∀ s t, Rel s t → Rel (f s i) (g t i)) →
      ∀ s t, Rel s t → Rel (l.foldl f s) (l.foldl g t) := by
  intro l
  induction l with
  | nil => intro _ s t h; exact h
  | cons a l ih =>
    intro hstep s t h
    simp only [List.foldl_cons]
    exact ih (fun i hi => hstep i (List.mem_cons_of_mem a hi)) _ _
      (hstep a (List.mem_cons_self a l) s t h)

theorem foldl_inv {σ ι : Type} (P : σ → Prop) (f : σ → ι → σ) (l : List ι)
    (hstep : ∀ i, i ∈ l → ∀ s, P s → P (f s i)) (s : σ) (h : P s) : P (l.foldl f s) :=
  foldl_rel (fun s _ => P s) f f l (fun i hi s _ hs => hstep i hi s hs) s s h

theorem foldl_establish {σ ι : Type} (P : σ → Prop) (E : ι → σ → Prop) (f : σ → ι → σ) :
    ∀ (l : List ι), (∀ j, j ∈ l → ∀ s, P s → P (f s j) ∧ E j (f s j)) →
      (∀ i j, j ∈ l → ∀ s, P s → E i s → E i (f s j)) →
      ∀ s, P s → P (l.foldl f s) ∧ (∀ i, E i s → E i (l.foldl f s)) ∧
        (∀ i, i ∈ l → E i (l.foldl f s)) := by
  intro l
  induction l with
  | nil =>
    intro _ _ s h
    exact ⟨h, fun _ hi => hi, fun i hi => absurd hi (List.not_mem_nil i)⟩
  | cons a l ih =>
    intro hstep hpres s h
    simp only [List.foldl_cons]
    obtain ⟨hP, hE⟩ := hstep a (List.mem_cons_self a l) s h
    obtain ⟨h1, h2, h3⟩ := ih (fun j hj => hstep j (List.mem_cons_of_mem a hj))
      (fun i j hj => hpres i j (List.mem_cons_of_mem a hj)) (f s a) hP
    refine ⟨h1, fun i hi => h2 i (hpres i a (List.mem_cons_self a l) s h hi), ?_⟩
    intro i hi
    rcases List.mem_cons.mp hi with rfl | hi
    · exact h2 _ hE
    · exact h3 i hi

theorem foldl_id_of {σ ι : Type} (g : σ → ι → σ) :
    ∀ (l : List ι), (∀ i, i ∈ l → ∀ s, g s i = s) → ∀ s, l.foldl g s = s := by
  intro l
  induction l with
  | nil => intro _ s; rfl
  | cons a l ih =>
    intro h s
    simp only [List.foldl_cons]
    rw [h a (List.mem_cons_self a l), ih (fun i hi => h i (List.mem_cons_of_mem a hi))]

/-- A loop over `sk < offset + 1` whose body changes the state at `sk = offset` only. -/
theorem foldl_range_last {σ : Type} (g : σ → Nat → σ) (offset : Nat)
    (h : ∀ sk, sk < offset → ∀ s, g s sk = s) (s : σ) :
    (List.range (offset + 1)).foldl g s = g s offset := by
  rw [List.range_succ, List.foldl_append,
    foldl_id_of g (List.range offset) (fun i hi => h i (List.mem_range.mp hi))]
  rfl

theorem mem_pairs (B N : Nat) (bn : Nat × Nat) :
    bn ∈ List.product (List.range B) (List.range N) ↔ bn.1 < B ∧ bn.2 < N := by
  obtain ⟨b, n⟩ := bn
  simp [List.mem_product]

theorem foldl_proj {σ τ ι : Type} (pr : σ → τ) (f : σ → ι → σ) (g : τ → ι → τ)
    (h : ∀ s i, pr (f s i) = g (pr s) i) :
    ∀ (l : List ι) (s : σ), pr (l.foldl f s) = l.foldl g (pr s) := by
  intro l
  induction l with
  | nil => intro s; rfl
  | cons a l ih =>
    intro s
    simp only [List.foldl_cons]
    rw [ih, h]

/-! ## Effect of the decode `attn` on the caches -/

theorem score_step_snd {α R : Type} (ops : DecodeTPP α R) (oob : Int → α) (N CSk H : Nat)
    (q : List R) (t_KL : Tensor4 α) (t_AM : Mask α) (beam_idx : Nat → Nat → Int)
    (offset FSk b n : Nat) (KL_C : Tensor4 α) (sk : Nat) :
    (score_step ops oob N CSk H q t_KL t_AM beam_idx offset FSk b n KL_C sk).2 =
      if sk < offset then KL_C
      else KL_C.storeRow (vlaOff N CSk H (b : Int) n sk) (rowOf H (t_KL.elem b n 0)) := by
  unfold score_step
  by_cases h : sk < offset <;> simp [h]

theorem value_step_snd {α R : Type} (ops : DecodeTPP α R) (oob : Int → α) (N CSk H : Nat)
    (t_VL : Tensor4 α) (beam_idx : Nat → Nat → Int) (offset b n : Nat) (w : Nat → R)
    (st : List R × Tensor4 α) (sk : Nat) :
    (value_step ops oob N CSk H t_VL beam_idx offset b n w st sk).2 =
      if sk < offset then st.2
      else st.2.storeRow (vlaOff N CSk H (b : Int) n sk) (rowOf H (t_VL.elem b n 0)) := by
  unfold value_step
  by_cases h : sk < offset <;> simp [h]

theorem score_fold_snd {α R σ : Type} (ops : DecodeTPP α R) (oob : Int → α) (N CSk H : Nat)
    (q : List R) (t_KL : Tensor4 α) (t_AM : Mask α) (beam_idx : Nat → Nat → Int)
    (offset b n : Nat) (upd1 : σ → Nat → R → σ) (s : σ × Tensor4 α) :
    ((List.range (offset + 1)).foldl
      (fun (s : σ × Tensor4 α) sk =>
        (upd1 s.1 sk
          (score_step ops oob N CSk H q t_KL t_AM beam_idx offset (offset + 1) b n s.2 sk).1,
        (score_step ops oob N CSk H q t_KL t_AM beam_idx offset (offset + 1) b n s.2 sk).2))
      s).2 =
      s.2.storeRow (vlaOff N CSk H (b : Int) n offset) (rowOf H (t_KL.elem b n 0)) := by
  have h := foldl_proj Prod.snd
    (fun (s : σ × Tensor4 α) sk =>
      (upd1 s.1 sk
        (score_step ops oob N CSk H q t_KL t_AM beam_idx offset (offset + 1) b n s.2 sk).1,
      (score_step ops oob N CSk H q t_KL t_AM beam_idx offset (offset + 1) b n s.2 sk).2))
    (fun KC sk => if sk < offset then KC
      else KC.storeRow (vlaOff N CSk H (b : Int) n sk) (rowOf H (t_KL.elem b n 0)))
    (fun s i => score_step_snd ops oob N CSk H q t_KL t_AM beam_idx offset (offset + 1) b n
      s.2 i) (List.range (offset + 1)) s
  rw [h, foldl_range_last _ offset (fun sk hsk s => by simp [hsk])]
  simp

theorem value_fold_snd {α R : Type} (ops : DecodeTPP α R) (oob : Int → α) (N CSk H : Nat)
    (t_VL : Tensor4 α) (beam_idx : Nat → Nat → Int) (offset b n : Nat) (w : Nat → R)
    (s : List R × Tensor4 α) :
    ((List.range (offset + 1)).foldl
      (value_step ops oob N CSk H t_VL beam_idx offset b n w) s).2 =
      s.2.storeRow (vlaOff N CSk H (b : Int) n offset) (rowOf H (t_VL.elem b n 0)) := by
  have h := foldl_proj Prod.snd (value_step ops oob N CSk H t_VL beam_idx offset b n w)
    (fun VC sk => if sk < offset then VC
      else VC.storeRow (vlaOff N CSk H (b : Int) n sk) (rowOf H (t_VL.elem b n 0)))
    (fun s i => value_step_snd ops oob N CSk H t_VL beam_idx offset b n w s i)
    (List.range (offset + 1)) s
  rw [h, foldl_range_last _ offset (fun sk hsk s => by simp [hsk])]
  simp

theorem small_iter_key {α R : Type} (ops : DecodeTPP α R) (oob : Int → α)
    (N CSk H : Nat) (t_QL t_KL : Tensor4 α) (t_AM : Mask α) (t_VL : Tensor4 α)
    (beam_idx : Nat → Nat → Int) (offset : Nat)
    (st : Tensor4 α × Tensor4 α × Tensor4 α) (bn : Nat × Nat) :
    (attn_decode_small_iter ops oob N CSk H t_QL t_KL t_AM t_VL beam_idx offset (offset + 1)
      st bn).1 =
      st.1.storeRow (vlaOff N CSk H (bn.1 : Int) bn.2 offset)
        (rowOf H (t_KL.elem bn.1 bn.2 0)) := by
  unfold attn_decode_small_iter
  exact score_fold_snd ops oob N CSk H _ t_KL t_AM beam_idx offset bn.1 bn.2
    (fun l _ r => l ++ [r]) ([], st.1)

theorem small_iter_value {α R : Type} (ops : DecodeTPP α R) (oob : Int → α)
    (N CSk H : Nat) (t_QL t_KL : Tensor4 α) (t_AM : Mask α) (t_VL : Tensor4 α)
    (beam_idx : Nat → Nat → Int) (offset : Nat)
    (st : Tensor4 α × Tensor4 α × Tensor4 α) (bn : Nat × Nat) :
    (attn_decode_small_iter ops oob N CSk H t_QL t_KL t_AM t_VL beam_idx offset (offset + 1)
      st bn).2.1 =
      st.2.1.storeRow (vlaOff N CSk H (bn.1 : Int) bn.2 offset)
        (rowOf H (t_VL.elem bn.1 bn.2 0)) := by
  unfold attn_decode_small_iter
  exact value_fold_snd ops oob N CSk H t_VL beam_idx offset bn.1 bn.2 _ _

theorem large_iter1_key {α R : Type} (ops : DecodeTPP α R) (oob : Int → α)
    (N CSk H : Nat) (XL : Nat → Nat → List R) (t_KL : Tensor4 α) (t_AM : Mask α)
    (beam_idx : Nat → Nat → Int) (offset : Nat)
    (st : (Nat → Nat → Nat → R) × Tensor4 α) (bn : Nat × Nat) :
    (attn_decode_large_iter1 ops oob N CSk H XL t_KL t_AM beam_idx offset (offset + 1)
      st bn).2 =
      st.2.storeRow (vlaOff N CSk H (bn.1 : Int) bn.2 offset)
        (rowOf H (t_KL.elem bn.1 bn.2 0)) := by
  unfold attn_decode_large_iter1
  exact score_fold_snd ops oob N CSk H _ t_KL t_AM beam_idx offset bn.1 bn.2
    (fun AS sk r => fun b n k => if b = bn.1 ∧ n = bn.2 ∧ k = sk then r else AS b n k) st

theorem large_iter2_value {α R : Type} (ops : DecodeTPP α R) (oob : Int → α)
    (N CSk H : Nat) (AS : Nat → Nat → Nat → R) (t_VL : Tensor4 α)
    (beam_idx : Nat → Nat → Int) (offset : Nat)
    (st : (Nat → Nat → List R) × Tensor4 α) (bn : Nat × Nat) :
    (attn_decode_large_iter2 ops oob N CSk H AS t_VL beam_idx offset (offset + 1) st bn).2 =
      st.2.storeRow (vlaOff N CSk H (bn.1 : Int) bn.2 offset)
        (rowOf H (t_VL.elem bn.1 bn.2 0)) := by
  unfold attn_decode_large_iter2
  exact value_fold_snd ops oob N CSk H t_VL beam_idx offset bn.1 bn.2 _ _

/-- The caches returned by the decode `attn` are the input caches with the new token
written at position `offset`, on both code paths. -/
theorem attn_decode_caches {α R : Type} (ops : DecodeTPP α R) (oob : Int → α)
    (freshCL : Nat → Nat → Nat → Nat → α) (freshAS : Nat → Nat → Nat → R)
    (t_QL t_KL : Tensor4 α) (t_AM : Mask α) (t_VL KC VC : Tensor4 α)
    (beam_idx : Nat → Nat → Int) (offset : Nat) (hq : t_QL.S = 1) (hk : t_KL.S = 1) :
    ∃ CL, attn_decode ops oob freshCL freshAS t_QL t_KL t_AM t_VL KC VC beam_idx offset =
      some (CL, cache_fill t_QL.B t_QL.N KC.S t_QL.H offset t_KL KC,
        cache_fill t_QL.B t_QL.N KC.S t_QL.H offset t_VL VC) := by
  unfold attn_decode
  simp only [hq, hk, and_self, if_true]
  by_cases hF : offset + 1 ≤ 256
  · simp only [hF, if_true]
    refine ⟨_, congrArg some (Prod.ext rfl (Prod.ext ?_ ?_))⟩
    · exact foldl_proj Prod.fst _ _ (fun s i => small_iter_key ops oob _ _ _ t_QL t_KL t_AM
        t_VL beam_idx offset s i) _ _
    · exact foldl_proj (fun s : Tensor4 α × Tensor4 α × Tensor4 α => s.2.1)
        (attn_decode_small_iter ops oob t_QL.N KC.S t_QL.H t_QL t_KL t_AM t_VL beam_idx offset
          (offset + 1))
        (fun c bn => c.storeRow (vlaOff t_QL.N KC.S t_QL.H (bn.1 : Int) bn.2 offset)
          (rowOf t_QL.H (t_VL.elem bn.1 bn.2 0)))
        (fun s i => small_iter_value ops oob _ _ _ t_QL t_KL t_AM t_VL beam_idx offset s i) _ _
  · simp only [hF, if_false]
    refine ⟨_, congrArg some (Prod.ext rfl (Prod.ext ?_ ?_))⟩
    · exact foldl_proj Prod.snd _ _ (fun s i => large_iter1_key ops oob _ _ _ _ t_KL t_AM
        beam_idx offset s i) _ _
    · exact foldl_proj Prod.snd _ _ (fun s i => large_iter2_value ops oob _ _ _ _ t_VL
        beam_idx offset s i) _ _

theorem frame_refl {α : Type} (offset : Nat) (c : Tensor4 α) : Frame offset c c :=
  ⟨⟨rfl, rfl, rfl, rfl⟩, fun _ _ _ _ _ _ _ _ _ => rfl⟩

theorem frame_storeRow {α : Type} (offset : Nat) (c0 c : Tensor4 α) (row : List α)
    (b0 n0 : Nat) (hF : Frame offset c0 c) (hn0 : n0 < c0.N) (ho : offset < c0.S)
    (hrow : row.length = c0.H) :
    Frame offset c0 (c.storeRow (vlaOff c0.N c0.S c0.H (b0 : Int) n0 offset) row) ∧
      ∀ b n h, b < c0.B → n < c0.N → h < c0.H →
        (c.storeRow (vlaOff c0.N c0.S c0.H (b0 : Int) n0 offset) row).elem b n offset h =
          if b = b0 ∧ n = n0 then row.getD h (c.elem b n offset h) else c.elem b n offset h := by
  obtain ⟨⟨dB, dN, dS, dH⟩, hE⟩ := hF
  have key : ∀ b n s h, b < c0.B → n < c0.N → s < c0.S → h < c0.H →
      (c.storeRow (vlaOff c0.N c0.S c0.H (b0 : Int) n0 offset) row).elem b n s h =
        if b = b0 ∧ n = n0 ∧ s = offset then row.getD h (c.elem b n s h)
        else c.elem b n s h := by
    intro b n s h hb hn hs hh
    have := storeRow_vlaOff c row b0 n0 offset (by omega) (by omega) (by omega) b n s h
      (by omega) (by omega) (by omega) (by omega)
    rw [dN, dS, dH] at this
    exact this
  refine ⟨⟨⟨dB, dN, dS, dH⟩, ?_⟩, ?_⟩
  · intro b n s h hb hn hs hh hne
    rw [key b n s h hb hn hs hh, if_neg (fun hc => hne hc.2.2)]
    exact hE b n s h hb hn hs hh hne
  · intro b n h hb hn hh
    rw [key b n offset h hb hn ho hh]
    simp

theorem cache_fill_dims {α : Type} (B N CSk H offset : Nat) (t_new cache : Tensor4 α) :
    SameDims (cache_fill B N CSk H offset t_new cache) cache := by
  unfold cache_fill
  exact foldl_inv (fun c => SameDims c cache)
    (fun c (bn : Nat × Nat) => c.storeRow (vlaOff N CSk H (bn.1 : Int) bn.2 offset)
      (rowOf H (t_new.elem bn.1 bn.2 0)))
    (List.product (List.range B) (List.range N))
    (fun bn _ c hc => hc) cache ⟨rfl, rfl, rfl, rfl⟩

/-- With a cache of shape `[B, N, CSk, H]` and `offset < CSk`, the decode `attn` writes the
new token at sequence position `offset` and leaves every other position unchanged. -/
theorem cache_fill_elem {α : Type} (offset : Nat) (t_new cache : Tensor4 α)
    (ho : offset < cache.S) (b n s h : Nat) (hb : b < cache.B) (hn : n < cache.N)
    (hs : s < cache.S) (hh : h < cache.H) :
    (cache_fill cache.B cache.N cache.S cache.H offset t_new cache).elem b n s h =
      if s = offset then t_new.elem b n 0 h else cache.elem b n s h := by
  have key := foldl_establish (Frame offset cache)
    (fun (bn : Nat × Nat) (c : Tensor4 α) =>
      ∀ h, h < cache.H → c.elem bn.1 bn.2 offset h = t_new.elem bn.1 bn.2 0 h)
    (fun c bn => c.storeRow (vlaOff cache.N cache.S cache.H (bn.1 : Int) bn.2 offset)
      (rowOf cache.H (t_new.elem bn.1 bn.2 0)))
    (List.product (List.range cache.B) (List.range cache.N))
    (by
      intro j hj c hc
      obtain ⟨hj1, hj2⟩ := (mem_pairs _ _ j).mp hj
      obtain ⟨h1, h2⟩ := frame_storeRow offset cache c (rowOf cache.H (t_new.elem j.1 j.2 0))
        j.1 j.2 hc hj2 ho (rowOf_length _ _)
      refine ⟨h1, ?_⟩
      intro h hh
      rw [h2 j.1 j.2 h hj1 hj2 hh, if_pos ⟨rfl, rfl⟩, rowOf_getD _ _ _ _ hh])
    (by
      intro i j hj c hc hi h hh
      obtain ⟨hj1, hj2⟩ := (mem_pairs _ _ j).mp hj
      obtain ⟨-, h2⟩ := frame_storeRow offset cache c (rowOf cache.H (t_new.elem j.1 j.2 0))
        j.1 j.2 hc hj2 ho (rowOf_length _ _)
      by_cases hin : i.1 < cache.B ∧ i.2 < cache.N
      · rw [h2 i.1 i.2 h hin.1 hin.2 hh]
        by_cases hij : i.1 = j.1 ∧ i.2 = j.2
        · rw [if_pos hij, rowOf_getD _ _ _ _ hh, hij.1, hij.2]
        · rw [if_neg hij]; exact hi h hh
      · have hsame : (c.storeRow (vlaOff cache.N cache.S cache.H (j.1 : Int) j.2 offset)
            (rowOf cache.H (t_new.elem j.1 j.2 0))).elem i.1 i.2 offset h =
            c.elem i.1 i.2 offset h := by
          unfold Tensor4.storeRow
          simp only
          rw [if_neg]
          rintro ⟨h1, h2, -⟩
          exact hin ⟨by rw [← hc.1.1]; exact h1, by rw [← hc.1.2.1]; exact h2⟩
        rw [hsame]; exact hi h hh)
    cache (frame_refl offset cache)
  obtain ⟨hF, -, hE⟩ := key
  unfold cache_fill
  by_cases hso : s = offset
  · subst hso
    rw [if_pos rfl]
    exact hE (b, n) ((mem_pairs _ _ (b, n)).mpr ⟨hb, hn⟩) h hh
  · rw [if_neg hso]
    exact hF.2 b n s h hb hn hs hh hso

/-! ## The steps of `self_mha` -/

theorem kv_realloc_spec {α R : Type} (cfg : BlockCfg) (mem : Mem α R) (B : Nat)
    (c : CacheTuple α) (hv : ValidCache cfg B c) (hinc : 1 ≤ cfg.KV_CACHE_INC_SIZE) :
    ∃ kp vp bi, kv_realloc cfg mem B c.c3 c.c4 c.c5 c.c2 = some (kp, vp, bi) ∧
      (kp.S : Int) = (if (c.c4.S : Int) ≤ c.c3 then c.c3 + cfg.KV_CACHE_INC_SIZE
        else (c.c4.S : Int)) ∧
      kp.B = B ∧ kp.N = cfg.N ∧ kp.H = cfg.H ∧ SameDims vp kp ∧ bi.R = kp.S ∧ bi.C = B ∧
      AgreeBelow B cfg.N cfg.H c.c3.toNat kp c.c4 ∧
      AgreeBelow B cfg.N cfg.H c.c3.toNat vp c.c5 ∧
      (∀ t b, t < c.c3.toNat → b < B → bi.elem t b = c.c2.elem t b) ∧
      (¬ ((c.c4.S : Int) ≤ c.c3) → kp = c.c4 ∧ vp = c.c5 ∧ bi = c.c2) := by
  obtain ⟨-, h1, hle, kB, kN, kH, ⟨vB, vN, vS, vH⟩, bR, bC⟩ := hv
  unfold kv_realloc
  by_cases hcap : (c.c4.S : Int) ≤ c.c3
  · have hneg : ¬ (c.c3 + cfg.KV_CACHE_INC_SIZE < 0) := by omega
    have hmin : c.c4.S = min c.c3.toNat (c.c3 + cfg.KV_CACHE_INC_SIZE).toNat := by omega
    obtain ⟨kp, ek, pB, pN, pS, pH, pE, -⟩ := slice2_copy_spec
      (⟨B, cfg.N, (c.c3 + cfg.KV_CACHE_INC_SIZE).toNat, cfg.H, mem.freshK⟩ : Tensor4 α)
      c.c4 c.c3.toNat kB kN kH hmin
    obtain ⟨vp, ev, qB, qN, qS, qH, qE, -⟩ := slice2_copy_spec
      (⟨B, cfg.N, (c.c3 + cfg.KV_CACHE_INC_SIZE).toNat, cfg.H, mem.freshV⟩ : Tensor4 α)
      c.c5 c.c3.toNat (by rw [vB]; exact kB) (by rw [vN]; exact kN) (by rw [vH]; exact kH)
      (by rw [vS]; exact hmin)
    obtain ⟨bi, eb, rR, rC, rE, -⟩ := slice0_copy_spec
      (arange_expand (c.c3 + cfg.KV_CACHE_INC_SIZE).toNat B) c.c2 c.c3.toNat bC
      (by rw [bR]; exact hmin)
    refine ⟨kp, vp, bi, ?_, ?_, pB, pN, pH, ⟨?_, ?_, ?_, ?_⟩, ?_, rC, ?_, ?_, ?_, ?_⟩
    · simp only [hcap, if_true, hneg, if_false, ek, ev, eb]
      rfl
    · rw [if_pos hcap, pS]; simp only; omega
    · rw [qB, pB]
    · rw [qN, pN]
    · rw [qS, pS]
    · rw [qH, pH]
    · rw [rR, pS]; rfl
    · intro b n s h hb hn hs hh
      exact pE b n s h hb hn (by omega) hh
    · intro b n s h hb hn hs hh
      exact qE b n s h hb hn (by omega) hh
    · intro t b ht hb
      exact rE t b (by omega) hb
    · intro hc; exact absurd hcap hc
  · refine ⟨c.c4, c.c5, c.c2, ?_, ?_, kB, kN, kH, ⟨vB, vN, vS, vH⟩, bR, bC,
      fun _ _ _ _ _ _ _ _ => rfl, fun _ _ _ _ _ _ _ _ => rfl, fun _ _ _ _ => rfl,
      fun _ => ⟨rfl, rfl, rfl⟩⟩
    · simp only [hcap, if_false]
    · rw [if_neg hcap]

theorem view_heads_dims {α : Type} (B S N H : Nat) (f : Nat → Nat → Nat → α) :
    (view_heads B S N H f).B = B ∧ (view_heads B S N H f).N = N ∧
      (view_heads B S N H f).S = S ∧ (view_heads B S N H f).H = H :=
  ⟨rfl, rfl, rfl, rfl⟩

/-- One decode step of `self_mha` on a valid cache tuple, for a growth increment of at
least 1. -/
theorem self_mha_decode_step {α R : Type} [Zero α] (cfg : BlockCfg) (ops : DecodeTPP α R)
    (mem : Mem α R) (prefill : Tensor4 α → Tensor4 α → Mask α → Tensor4 α → Tensor4 α)
    (x : QKV α) (t_am : Mask α) (c : CacheTuple α) (hv : ValidCache cfg x.B c)
    (hx : x.S = 1) (hinc : 1 ≤ cfg.KV_CACHE_INC_SIZE) :
    ∃ t_CL bi kp vp,
      self_mha cfg ops mem prefill x t_am c =
        some (MhaOut.cached t_CL (kp.slice2 (c.c3 + 1).toNat) (vp.slice2 (c.c3 + 1).toNat) bi
          (c.c3 + 1) kp vp) ∧
      (kp.S : Int) = (if (c.c4.S : Int) ≤ c.c3 then c.c3 + cfg.KV_CACHE_INC_SIZE
        else (c.c4.S : Int)) ∧
      kp.B = x.B ∧ kp.N = cfg.N ∧ kp.H = cfg.H ∧ SameDims vp kp ∧ bi.R = kp.S ∧ bi.C = x.B ∧
      (∀ b n s h, b < x.B → n < cfg.N → s ≤ c.c3.toNat → h < cfg.H →
        kp.elem b n s h =
          if s = c.c3.toNat then (view_heads x.B x.S cfg.N cfg.H x.k).elem b n 0 h
          else c.c4.elem b n s h) ∧
      (∀ b n s h, b < x.B → n < cfg.N → s ≤ c.c3.toNat → h < cfg.H →
        vp.elem b n s h =
          if s = c.c3.toNat then (view_heads x.B x.S cfg.N cfg.H x.v).elem b n 0 h
          else c.c5.elem b n s h) ∧
      (∀ t b, t < c.c3.toNat → b < x.B → bi.elem t b = c.c2.elem t b) := by
  obtain ⟨kp, vp, bi, er, hS, hB, hN, hH, ⟨wB, wN, wS, wH⟩, hbR, hbC, hAk, hAv, hAb, -⟩ :=
    kv_realloc_spec cfg mem x.B c hv hinc
  obtain ⟨hcsz, h1, hle, -⟩ := hv
  have hoff : (c.c3.toNat : Int) = c.c3 := Int.toNat_of_nonneg (by omega)
  have hlt : c.c3.toNat < kp.S := by
    have : c.c3 < (kp.S : Int) := by
      rw [hS]; split <;> omega
    omega
  obtain ⟨CL, ea⟩ := attn_decode_caches ops mem.oob mem.freshCL mem.freshAS
    (view_heads x.B x.S cfg.N cfg.H x.q) (view_heads x.B x.S cfg.N cfg.H x.k) t_am
    (view_heads x.B x.S cfg.N cfg.H x.v) kp vp
    (back_trace bi mem.oobI x.B c.c3.toNat mem.freshI) c.c3.toNat hx hx
  have ek : cache_fill x.B cfg.N kp.S cfg.H c.c3.toNat (view_heads x.B x.S cfg.N cfg.H x.k) kp =
      cache_fill kp.B kp.N kp.S kp.H c.c3.toNat (view_heads x.B x.S cfg.N cfg.H x.k) kp := by
    rw [hB, hN, hH]
  have ev : cache_fill x.B cfg.N kp.S cfg.H c.c3.toNat (view_heads x.B x.S cfg.N cfg.H x.v) vp =
      cache_fill vp.B vp.N vp.S vp.H c.c3.toNat (view_heads x.B x.S cfg.N cfg.H x.v) vp := by
    rw [wB, wN, wS, wH, hB, hN, hH]
  have dk := cache_fill_dims x.B cfg.N kp.S cfg.H c.c3.toNat
    (view_heads x.B x.S cfg.N cfg.H x.k) kp
  have dv := cache_fill_dims x.B cfg.N kp.S cfg.H c.c3.toNat
    (view_heads x.B x.S cfg.N cfg.H x.v) vp
  refine ⟨merge_heads x.B x.S cfg.N cfg.H CL, bi,
    cache_fill x.B cfg.N kp.S cfg.H c.c3.toNat (view_heads x.B x.S cfg.N cfg.H x.k) kp,
    cache_fill x.B cfg.N kp.S cfg.H c.c3.toNat (view_heads x.B x.S cfg.N cfg.H x.v) vp,
    ?_, ?_, ?_, ?_, ?_, ?_, ?_, hbC, ?_, ?_, hAb⟩
  · have hne : ¬ (c.c3 = 0) := by omega
    have hnn : ¬ (c.c3 < 0) := by omega
    unfold self_mha self_mha_decode
    simp only [hcsz, hne, er, hnn, if_false, Option.bind]
    simp only [view_heads_dims] at ea
    simp [ea]
  · rw [dk.2.2.1]; exact hS
  · rw [dk.1]; exact hB
  · rw [dk.2.1]; exact hN
  · rw [dk.2.2.2]; exact hH
  · exact ⟨by rw [dv.1, dk.1, wB], by rw [dv.2.1, dk.2.1, wN], by rw [dv.2.2.1, dk.2.2.1, wS],
      by rw [dv.2.2.2, dk.2.2.2, wH]⟩
  · rw [dk.2.2.1]; exact hbR
  · intro b n s h hb hn hs hh
    rw [ek, cache_fill_elem _ _ _ hlt b n s h (by omega) (by omega) (by omega) (by omega)]
    by_cases e : s = c.c3.toNat
    · rw [if_pos e, if_pos e]
    · rw [if_neg e, if_neg e]
      exact hAk b n s h hb hn (by omega) hh
  · intro b n s h hb hn hs hh
    rw [ev, cache_fill_elem _ _ _ (by rw [wS]; exact hlt) b n s h (by omega) (by omega)
      (by omega) (by omega)]
    by_cases e : s = c.c3.toNat
    · rw [if_pos e, if_pos e]
    · rw [if_neg e, if_neg e]
      exact hAv b n s h hb hn (by omega) hh

/-- The first call of a cache-tracking session (`offset == 0`). -/
theorem self_mha_init_step {α R : Type} [Zero α] (cfg : BlockCfg) (ops : DecodeTPP α R)
    (mem : Mem α R) (prefill : Tensor4 α → Tensor4 α → Mask α → Tensor4 α → Tensor4 α)
    (x : QKV α) (t_am : Mask α) (t_cache : CacheTuple α)
    (hcsz : t_cache.csz = 6) (hoff : t_cache.c3 = 0) (hinc : 0 ≤ cfg.KV_CACHE_INC_SIZE) :
    ∃ t_CL t_beam_idx t_key_past t_value_past,
      self_mha cfg ops mem prefill x t_am t_cache =
        some (MhaOut.cached t_CL (view_heads x.B x.S cfg.N cfg.H x.k)
          (view_heads x.B x.S cfg.N cfg.H x.v) t_beam_idx (x.S : Int)
          t_key_past t_value_past) ∧
      (MhaOut.cached t_CL (view_heads x.B x.S cfg.N cfg.H x.k)
          (view_heads x.B x.S cfg.N cfg.H x.v) t_beam_idx (x.S : Int)
          t_key_past t_value_past).size = 7 ∧
      (t_key_past.B = x.B ∧ t_key_past.N = cfg.N ∧
        (t_key_past.S : Int) = x.S + cfg.KV_CACHE_INC_SIZE ∧ t_key_past.H = cfg.H) ∧
      (t_value_past.B = x.B ∧ t_value_past.N = cfg.N ∧
        (t_value_past.S : Int) = x.S + cfg.KV_CACHE_INC_SIZE ∧ t_value_past.H = cfg.H) ∧
      (∀ b n s h, b < x.B → n < cfg.N → s < x.S → h < cfg.H →
        t_key_past.elem b n s h = (view_heads x.B x.S cfg.N cfg.H x.k).elem b n s h ∧
        t_value_past.elem b n s h = (view_heads x.B x.S cfg.N cfg.H x.v).elem b n s h) ∧
      ((t_beam_idx.R : Int) = x.S + cfg.KV_CACHE_INC_SIZE ∧ t_beam_idx.C = x.B ∧
        ∀ t b, t < t_beam_idx.R → b < x.B → t_beam_idx.elem t b = (b : Int)) := by
  have hcap : ¬ ((x.S : Int) + cfg.KV_CACHE_INC_SIZE < 0) := by omega
  have hmin : x.S = min x.S ((x.S : Int) + cfg.KV_CACHE_INC_SIZE).toNat := by omega
  obtain ⟨kp, hk, hkB, hkN, hkS, hkH, hkE, -⟩ := slice2_copy_spec
    (new_zeros x.B cfg.N ((x.S : Int) + cfg.KV_CACHE_INC_SIZE).toNat cfg.H)
    (view_heads x.B x.S cfg.N cfg.H x.k) x.S rfl rfl rfl hmin
  obtain ⟨vp, hv, hvB, hvN, hvS, hvH, hvE, -⟩ := slice2_copy_spec
    (new_zeros x.B cfg.N ((x.S : Int) + cfg.KV_CACHE_INC_SIZE).toNat cfg.H)
    (view_heads x.B x.S cfg.N cfg.H x.v) x.S rfl rfl rfl hmin
  refine ⟨merge_heads x.B x.S cfg.N cfg.H (prefill (view_heads x.B x.S cfg.N cfg.H x.q)
      (view_heads x.B x.S cfg.N cfg.H x.k) t_am (view_heads x.B x.S cfg.N cfg.H x.v)),
    arange_expand ((x.S : Int) + cfg.KV_CACHE_INC_SIZE).toNat x.B, kp, vp,
    ?_, rfl, ⟨hkB, hkN, ?_, hkH⟩, ⟨hvB, hvN, ?_, hvH⟩, ?_, ⟨?_, rfl, ?_⟩⟩
  · unfold self_mha self_mha_init
    simp only [hcsz, hoff, hcap, hk, hv, Option.bind_some, zero_add]
    simp
  · rw [hkS]; simp only [new_zeros]; omega
  · rw [hvS]; simp only [new_zeros]; omega
  · intro b n s h hb hn hs hh
    exact ⟨hkE b n s h hb hn hs hh, hvE b n s h hb hn hs hh⟩
  · simp only [arange_expand]; omega
  · intro t b _ _
    rfl


/-- The state of a session after `n` decode steps, for a growth increment of at least 1:
the step succeeds, the cache tuple is valid, the offset is `S + n`, and the cache buffers
and the returned key and value hold the keys and values supplied so far. -/
theorem session_inv {α R : Type} [Zero α] (cfg : BlockCfg) (ops : DecodeTPP α R)
    (mem : Mem α R) (prefill : Tensor4 α → Tensor4 α → Mask α → Tensor4 α → Tensor4 α)
    (x0 : QKV α) (am0 : Mask α) (c0 : CacheTuple α) (xs : Nat → QKV α) (ams : Nat → Mask α)
    (hcsz : c0.csz = 6) (hoff : c0.c3 = 0) (hS : 1 ≤ x0.S)
    (hxs : ∀ i, (xs i).S = 1 ∧ (xs i).B = x0.B) (hinc : 1 ≤ cfg.KV_CACHE_INC_SIZE) :
    ∀ n, ∃ o, session cfg ops mem prefill x0 am0 c0 xs ams n = some o ∧ o.size = 7 ∧
      ValidCache cfg x0.B o.toCache ∧ o.toCache.c3 = (x0.S : Int) + n ∧
      (o.toCache.c0.B = x0.B ∧ o.toCache.c0.N = cfg.N ∧ o.toCache.c0.S = x0.S + n ∧
        o.toCache.c0.H = cfg.H) ∧
      (o.toCache.c1.B = x0.B ∧ o.toCache.c1.N = cfg.N ∧ o.toCache.c1.S = x0.S + n ∧
        o.toCache.c1.H = cfg.H) ∧
      (∀ b m s h, b < x0.B → m < cfg.N → s < x0.S + n → h < cfg.H →
        o.toCache.c4.elem b m s h = session_keys cfg x0 xs b m s h ∧
        o.toCache.c5.elem b m s h = session_values cfg x0 xs b m s h ∧
        o.toCache.c0.elem b m s h = session_keys cfg x0 xs b m s h ∧
        o.toCache.c1.elem b m s h = session_values cfg x0 xs b m s h) := by
  intro n
  induction n with
  | zero =>
    obtain ⟨t_CL, bi, kp, vp, e, hsz, ⟨kB, kN, kS, kH⟩, ⟨vB, vN, vS, vH⟩, hE, bR, bC, -⟩ :=
      self_mha_init_step cfg ops mem prefill x0 am0 c0 hcsz hoff (by omega)
    refine ⟨_, e, hsz, ⟨rfl, ?_, ?_, kB, kN, kH, ⟨?_, ?_, ?_, ?_⟩, ?_, bC⟩, ?_,
      ⟨rfl, rfl, rfl, rfl⟩, ⟨rfl, rfl, rfl, rfl⟩, ?_⟩
    · simp only [MhaOut.toCache]; omega
    · simp only [MhaOut.toCache]; omega
    · simp only [MhaOut.toCache]; omega
    · simp only [MhaOut.toCache]; omega
    · simp only [MhaOut.toCache]; omega
    · simp only [MhaOut.toCache]; omega
    · simp only [MhaOut.toCache]; omega
    · simp [MhaOut.toCache]
    · intro b m s h hb hm hs hh
      have hs2 : s < x0.S := by omega
      obtain ⟨h1, h2⟩ := hE b m s h hb hm hs2 hh
      simp only [MhaOut.toCache, session_keys, session_values, if_pos hs2]
      exact ⟨h1, h2, rfl, rfl⟩
  | succ n ih =>
    obtain ⟨o, e, -, hv, hc3, -, -, hE⟩ := ih
    obtain ⟨hx1, hxB⟩ := hxs n
    have hv2 : ValidCache cfg (xs n).B o.toCache := by rw [hxB]; exact hv
    obtain ⟨t_CL, bi, kp, vp, e2, kS, kB, kN, kH, ⟨vB, vN, vS, vH⟩, bR, bC, hK, hV, -⟩ :=
      self_mha_decode_step cfg ops mem prefill (xs n) (ams n) o.toCache hv2 hx1 hinc
    obtain ⟨-, h1, hle, -⟩ := hv
    have hoffn : o.toCache.c3.toNat = x0.S + n := by omega
    have hnew : (o.toCache.c3 + 1).toNat = x0.S + (n + 1) := by omega
    have hcap : x0.S + (n + 1) ≤ kp.S := by
      have : o.toCache.c3 + 1 ≤ (kp.S : Int) := by
        rw [kS]; split <;> omega
      omega
    have g1 : (1 : Int) ≤ o.toCache.c3 + 1 := by omega
    have g2 : o.toCache.c3 + 1 ≤ (kp.S : Int) := by omega
    have g3 : o.toCache.c3 + 1 = (x0.S : Int) + ((n + 1 : Nat) : Int) := by
      rw [hc3]; push_cast; ring
    have g4 : min (o.toCache.c3 + 1).toNat kp.S = x0.S + (n + 1) := by rw [hnew]; omega
    have g5 : min (o.toCache.c3 + 1).toNat vp.S = x0.S + (n + 1) := by rw [hnew, vS]; omega
    have g6 : ∀ b m s h, b < x0.B → m < cfg.N → s < x0.S + (n + 1) → h < cfg.H →
        kp.elem b m s h = session_keys cfg x0 xs b m s h ∧
        vp.elem b m s h = session_values cfg x0 xs b m s h ∧
        kp.elem b m s h = session_keys cfg x0 xs b m s h ∧
        vp.elem b m s h = session_values cfg x0 xs b m s h := by
      intro b m s h hb hm hs hh
      have hk := hK b m s h (by rw [hxB]; exact hb) hm (by omega) hh
      have hvv := hV b m s h (by rw [hxB]; exact hb) hm (by omega) hh
      have key : kp.elem b m s h = session_keys cfg x0 xs b m s h ∧
          vp.elem b m s h = session_values cfg x0 xs b m s h := by
        rw [hk, hvv]
        by_cases hs2 : s = o.toCache.c3.toNat
        · have hge : ¬ s < x0.S := by omega
          have hsub : s - x0.S = n := by omega
          rw [if_pos hs2, if_pos hs2]
          unfold session_keys session_values
          rw [if_neg hge, if_neg hge, hsub]
          exact ⟨rfl, rfl⟩
        · simp only [if_neg hs2]
          obtain ⟨a1, a2, -, -⟩ := hE b m s h hb hm (by omega) hh
          exact ⟨a1, a2⟩
      exact ⟨key.1, key.2, key.1, key.2⟩
    have g7 : session cfg ops mem prefill x0 am0 c0 xs ams (n + 1) =
        some (MhaOut.cached t_CL (kp.slice2 (o.toCache.c3 + 1).toNat)
          (vp.slice2 (o.toCache.c3 + 1).toNat) bi (o.toCache.c3 + 1) kp vp) := by
      simp only [session, e, Option.bind]
      exact e2
    exact ⟨MhaOut.cached t_CL (kp.slice2 (o.toCache.c3 + 1).toNat)
        (vp.slice2 (o.toCache.c3 + 1).toNat) bi (o.toCache.c3 + 1) kp vp,
      g7, rfl, ⟨rfl, g1, g2, kB.trans hxB, kN, kH, ⟨vB, vN, vS, vH⟩, bR, bC.trans hxB⟩, g3,
      ⟨kB.trans hxB, kN, g4, kH⟩,
      ⟨(vB.trans kB).trans hxB, vN.trans kN, g5, vH.trans kH⟩, g6⟩

/-! ## The output of the decode `attn` depends on the cache prefix only -/

theorem rowOf_congr {α : Type} (H : Nat) (f g : Nat → α) (h : ∀ i, i < H → f i = g i) :
    rowOf H f = rowOf H g := by
  unfold rowOf
  exact List.map_congr_left (fun i hi => h i (List.mem_range.mp hi))

theorem load_frame {α : Type} (oob : Int → α) (offset : Nat) (c0 c : Tensor4 α)
    (bid : Int) (n sk : Nat) (hF : Frame offset c0 c) (h0 : 0 ≤ bid) (hb : bid < c0.B)
    (hn : n < c0.N) (hsk : sk < offset) (ho : offset < c0.S) :
    c.loadRow oob (vlaOff c0.N c0.S c0.H bid n sk) c0.H =
      rowOf c0.H (c0.elem bid.toNat n sk) := by
  obtain ⟨w, rfl⟩ := Int.eq_ofNat_of_zero_le h0
  have hw : w < c0.B := by exact_mod_cast hb
  obtain ⟨⟨dB, dN, dS, dH⟩, hE⟩ := hF
  have := loadRow_vlaOff c oob w n sk (by omega) (by omega) (by omega)
  rw [dN, dS, dH] at this
  rw [this]
  exact rowOf_congr _ _ _ (fun h hh => hE w n sk h hw hn (by omega) hh (by omega))

theorem score_step_rel {α R : Type} (ops : DecodeTPP α R) (oob : Int → α)
    (B N H offset : Nat) (q : List R) (t_KL : Tensor4 α) (t_AM : Mask α)
    (beam1 beam2 : Nat → Nat → Int) (K1 K2 kc1 kc2 : Tensor4 α) (b n sk : Nat)
    (d1 : K1.B = B ∧ K1.N = N ∧ K1.H = H) (d2 : K2.B = B ∧ K2.N = N ∧ K2.H = H)
    (o1 : offset < K1.S) (o2 : offset < K2.S) (hA : AgreeBelow B N H offset K1 K2)
    (hbeam : ∀ t, t < offset → beam1 b t = beam2 b t ∧ 0 ≤ beam1 b t ∧ beam1 b t < B)
    (hn : n < N) (hsk : sk ≤ offset) (F1 : Frame offset K1 kc1) (F2 : Frame offset K2 kc2) :
    (score_step ops oob N K1.S H q t_KL t_AM beam1 offset (offset + 1) b n kc1 sk).1 =
        (score_step ops oob N K2.S H q t_KL t_AM beam2 offset (offset + 1) b n kc2 sk).1 ∧
      Frame offset K1
        (score_step ops oob N K1.S H q t_KL t_AM beam1 offset (offset + 1) b n kc1 sk).2 ∧
      Frame offset K2
        (score_step ops oob N K2.S H q t_KL t_AM beam2 offset (offset + 1) b n kc2 sk).2 := by
  obtain ⟨b1, n1, h1⟩ := d1
  obtain ⟨b2, n2, h2⟩ := d2
  rw [score_step_snd, score_step_snd]
  by_cases hlt : sk < offset
  · obtain ⟨e, p0, p1⟩ := hbeam sk hlt
    have l1 := load_frame oob offset K1 kc1 (beam1 b sk) n sk F1 p0 (by omega) (by omega) hlt o1
    have l2 := load_frame oob offset K2 kc2 (beam2 b sk) n sk F2 (by omega) (by omega)
      (by omega) hlt o2
    rw [n1, h1] at l1
    rw [n2, h2] at l2
    have hrows : rowOf H (K1.elem (beam1 b sk).toNat n sk) =
        rowOf H (K2.elem (beam2 b sk).toNat n sk) := by
      rw [← e]
      exact rowOf_congr _ _ _ (fun h hh => hA _ n sk h (by omega) hn hlt hh)
    refine ⟨?_, by rw [if_pos hlt]; exact F1, by rw [if_pos hlt]; exact F2⟩
    unfold score_step
    simp only [if_pos hlt, l1, l2, hrows]
  · have hsk2 : sk = offset := by omega
    subst hsk2
    refine ⟨?_, ?_, ?_⟩
    · unfold score_step
      simp only [if_neg hlt]
    · rw [if_neg hlt]
      have := (frame_storeRow sk K1 kc1 (rowOf K1.H (t_KL.elem b n 0)) b n F1 (by omega) o1
        (rowOf_length _ _)).1
      rw [n1, h1] at this
      exact this
    · rw [if_neg hlt]
      have := (frame_storeRow sk K2 kc2 (rowOf K2.H (t_KL.elem b n 0)) b n F2 (by omega) o2
        (rowOf_length _ _)).1
      rw [n2, h2] at this
      exact this

theorem value_step_rel {α R : Type} (ops : DecodeTPP α R) (oob : Int → α)
    (B N H offset : Nat) (t_VL : Tensor4 α) (w : Nat → R)
    (beam1 beam2 : Nat → Nat → Int) (V1 V2 : Tensor4 α) (C1 C2 : Nat)
    (st1 st2 : List R × Tensor4 α) (b n sk : Nat)
    (d1 : V1.B = B ∧ V1.N = N ∧ V1.S = C1 ∧ V1.H = H)
    (d2 : V2.B = B ∧ V2.N = N ∧ V2.S = C2 ∧ V2.H = H)
    (o1 : offset < C1) (o2 : offset < C2) (hA : AgreeBelow B N H offset V1 V2)
    (hbeam : ∀ t, t < offset → beam1 b t = beam2 b t ∧ 0 ≤ beam1 b t ∧ beam1 b t < B)
    (hn : n < N) (hsk : sk ≤ offset) (hacc : st1.1 = st2.1)
    (F1 : Frame offset V1 st1.2) (F2 : Frame offset V2 st2.2) :
    (value_step ops oob N C1 H t_VL beam1 offset b n w st1 sk).1 =
        (value_step ops oob N C2 H t_VL beam2 offset b n w st2 sk).1 ∧
      Frame offset V1 (value_step ops oob N C1 H t_VL beam1 offset b n w st1 sk).2 ∧
      Frame offset V2 (value_step ops oob N C2 H t_VL beam2 offset b n w st2 sk).2 := by
  obtain ⟨b1, n1, s1, h1⟩ := d1
  obtain ⟨b2, n2, s2, h2⟩ := d2
  rw [value_step_snd, value_step_snd]
  by_cases hlt : sk < offset
  · obtain ⟨e, p0, p1⟩ := hbeam sk hlt
    have l1 := load_frame oob offset V1 st1.2 (beam1 b sk) n sk F1 p0 (by omega) (by omega)
      hlt (by omega)
    have l2 := load_frame oob offset V2 st2.2 (beam2 b sk) n sk F2 (by omega) (by omega)
      (by omega) hlt (by omega)
    rw [n1, s1, h1] at l1
    rw [n2, s2, h2] at l2
    have hrows : rowOf H (V1.elem (beam1 b sk).toNat n sk) =
        rowOf H (V2.elem (beam2 b sk).toNat n sk) := by
      rw [← e]
      exact rowOf_congr _ _ _ (fun h hh => hA _ n sk h (by omega) hn hlt hh)
    refine ⟨?_, by rw [if_pos hlt]; exact F1, by rw [if_pos hlt]; exact F2⟩
    unfold value_step
    simp only [if_pos hlt, l1, l2, hrows, hacc]
  · have hsk2 : sk = offset := by omega
    subst hsk2
    refine ⟨?_, ?_, ?_⟩
    · unfold value_step
      simp only [if_neg hlt, hacc]
    · rw [if_neg hlt]
      have := (frame_storeRow sk V1 st1.2 (rowOf V1.H (t_VL.elem b n 0)) b n F1 (by omega)
        (by omega) (rowOf_length _ _)).1
      rw [n1, s1, h1] at this
      exact this
    · rw [if_neg hlt]
      have := (frame_storeRow sk V2 st2.2 (rowOf V2.H (t_VL.elem b n 0)) b n F2 (by omega)
        (by omega) (rowOf_length _ _)).1
      rw [n2, s2, h2] at this
      exact this

theorem score_fold_rel {α R σ : Type} (ops : DecodeTPP α R) (oob : Int → α)
    (B N H offset : Nat) (q : List R) (t_KL : Tensor4 α) (t_AM : Mask α)
    (beam1 beam2 : Nat → Nat → Int) (K1 K2 : Tensor4 α) (b n : Nat)
    (upd1 : σ → Nat → R → σ)
    (d1 : K1.B = B ∧ K1.N = N ∧ K1.H = H) (d2 : K2.B = B ∧ K2.N = N ∧ K2.H = H)
    (o1 : offset < K1.S) (o2 : offset < K2.S) (hA : AgreeBelow B N H offset K1 K2)
    (hbeam : ∀ t, t < offset → beam1 b t = beam2 b t ∧ 0 ≤ beam1 b t ∧ beam1 b t < B)
    (hn : n < N) (s1 s2 : σ × Tensor4 α) (hs : s1.1 = s2.1)
    (F1 : Frame offset K1 s1.2) (F2 : Frame offset K2 s2.2) :
    ((List.range (offset + 1)).foldl
        (fun (s : σ × Tensor4 α) sk =>
          (upd1 s.1 sk
            (score_step ops oob N K1.S H q t_KL t_AM beam1 offset (offset + 1) b n s.2 sk).1,
          (score_step ops oob N K1.S H q t_KL t_AM beam1 offset (offset + 1) b n s.2 sk).2))
        s1).1 =
      ((List.range (offset + 1)).foldl
        (fun (s : σ × Tensor4 α) sk =>
          (upd1 s.1 sk
            (score_step ops oob N K2.S H q t_KL t_AM beam2 offset (offset + 1) b n s.2 sk).1,
          (score_step ops oob N K2.S H q t_KL t_AM beam2 offset (offset + 1) b n s.2 sk).2))
        s2).1 := by
  have h := foldl_rel
    (fun (a c : σ × Tensor4 α) => a.1 = c.1 ∧ Frame offset K1 a.2 ∧ Frame offset K2 c.2)
    (fun (s : σ × Tensor4 α) sk =>
      (upd1 s.1 sk
        (score_step ops oob N K1.S H q t_KL t_AM beam1 offset (offset + 1) b n s.2 sk).1,
      (score_step ops oob N K1.S H q t_KL t_AM beam1 offset (offset + 1) b n s.2 sk).2))
    (fun (s : σ × Tensor4 α) sk =>
      (upd1 s.1 sk
        (score_step ops oob N K2.S H q t_KL t_AM beam2 offset (offset + 1) b n s.2 sk).1,
      (score_step ops oob N K2.S H q t_KL t_AM beam2 offset (offset + 1) b n s.2 sk).2))
    (List.range (offset + 1))
    (by
      intro sk hsk a c hac
      obtain ⟨e, A1, A2⟩ := hac
      obtain ⟨r1, r2, r3⟩ := score_step_rel ops oob B N H offset q t_KL t_AM beam1 beam2 K1 K2
        a.2 c.2 b n sk d1 d2 o1 o2 hA hbeam hn
        (by have := List.mem_range.mp hsk; omega) A1 A2
      exact ⟨by simp only [e, r1], r2, r3⟩)
    s1 s2 ⟨hs, F1, F2⟩
  exact h.1

theorem value_fold_rel {α R : Type} (ops : DecodeTPP α R) (oob : Int → α)
    (B N H offset : Nat) (t_VL : Tensor4 α) (w : Nat → R)
    (beam1 beam2 : Nat → Nat → Int) (V1 V2 : Tensor4 α) (C1 C2 : Nat) (b n : Nat)
    (d1 : V1.B = B ∧ V1.N = N ∧ V1.S = C1 ∧ V1.H = H)
    (d2 : V2.B = B ∧ V2.N = N ∧ V2.S = C2 ∧ V2.H = H)
    (o1 : offset < C1) (o2 : offset < C2) (hA : AgreeBelow B N H offset V1 V2)
    (hbeam : ∀ t, t < offset → beam1 b t = beam2 b t ∧ 0 ≤ beam1 b t ∧ beam1 b t < B)
    (hn : n < N) (s1 s2 : List R × Tensor4 α) (hs : s1.1 = s2.1)
    (F1 : Frame offset V1 s1.2) (F2 : Frame offset V2 s2.2) :
    ((List.range (offset + 1)).foldl (value_step ops oob N C1 H t_VL beam1 offset b n w) s1).1 =
      ((List.range (offset + 1)).foldl (value_step ops oob N C2 H t_VL beam2 offset b n w)
        s2).1 := by
  have h := foldl_rel
    (fun (a c : List R × Tensor4 α) => a.1 = c.1 ∧ Frame offset V1 a.2 ∧ Frame offset V2 c.2)
    (value_step ops oob N C1 H t_VL beam1 offset b n w)
    (value_step ops oob N C2 H t_VL beam2 offset b n w)
    (List.range (offset + 1))
    (by
      intro sk hsk a c hac
      obtain ⟨e, A1, A2⟩ := hac
      exact value_step_rel ops oob B N H offset t_VL w beam1 beam2 V1 V2 C1 C2 a c b n sk
        d1 d2 o1 o2 hA hbeam hn (by have := List.mem_range.mp hsk; omega) e A1 A2)
    s1 s2 ⟨hs, F1, F2⟩
  exact h.1

/-- The frame property is kept by every write of the decode `attn` into a cache of
matching shape. -/
theorem frame_write {α : Type} (B N H offset : Nat) (t_new c0 c : Tensor4 α) (C : Nat)
    (d : c0.B = B ∧ c0.N = N ∧ c0.S = C ∧ c0.H = H) (ho : offset < C) (b n : Nat)
    (hn : n < N) (F : Frame offset c0 c) :
    Frame offset c0
      (c.storeRow (vlaOff N C H (b : Int) n offset) (rowOf H (t_new.elem b n 0))) := by
  obtain ⟨d1, d2, d3, d4⟩ := d
  have := (frame_storeRow offset c0 c (rowOf c0.H (t_new.elem b n 0)) b n F (by omega)
    (by omega) (rowOf_length _ _)).1
  rw [d2, d3, d4] at this
  exact this
theorem small_iter_out_rel {α R : Type} (ops : DecodeTPP α R) (oob : Int → α)
    (B N H offset : Nat) (t_QL t_KL : Tensor4 α) (t_AM : Mask α) (t_VL : Tensor4 α)
    (beam1 beam2 : Nat → Nat → Int) (K1 K2 V1 V2 : Tensor4 α)
    (st1 st2 : Tensor4 α × Tensor4 α × Tensor4 α) (bn : Nat × Nat)
    (d1 : K1.B = B ∧ K1.N = N ∧ K1.H = H) (d2 : K2.B = B ∧ K2.N = N ∧ K2.H = H)
    (e1 : V1.B = B ∧ V1.N = N ∧ V1.S = K1.S ∧ V1.H = H)
    (e2 : V2.B = B ∧ V2.N = N ∧ V2.S = K2.S ∧ V2.H = H)
    (o1 : offset < K1.S) (o2 : offset < K2.S)
    (hAk : AgreeBelow B N H offset K1 K2) (hAv : AgreeBelow B N H offset V1 V2)
    (hbeam : ∀ t, t < offset → beam1 bn.1 t = beam2 bn.1 t ∧ 0 ≤ beam1 bn.1 t ∧
      beam1 bn.1 t < B)
    (hn : bn.2 < N) (hcl : st1.2.2 = st2.2.2)
    (F1 : Frame offset K1 st1.1) (F2 : Frame offset K2 st2.1)
    (G1 : Frame offset V1 st1.2.1) (G2 : Frame offset V2 st2.2.1) :
    (attn_decode_small_iter ops oob N K1.S H t_QL t_KL t_AM t_VL beam1 offset (offset + 1)
        st1 bn).2.2 =
      (attn_decode_small_iter ops oob N K2.S H t_QL t_KL t_AM t_VL beam2 offset (offset + 1)
        st2 bn).2.2 := by
  have hsc := score_fold_rel ops oob B N H offset (ops.cvt_b2f (rowOf H (t_QL.elem bn.1 bn.2 0)))
    t_KL t_AM beam1 beam2 K1 K2 bn.1 bn.2 (fun (l : List R) _ r => l ++ [r]) d1 d2 o1 o2 hAk
    hbeam hn ([], st1.1) ([], st2.1) rfl F1 F2
  unfold attn_decode_small_iter
  dsimp only at hsc ⊢
  rw [hsc, hcl]
  congr 2
  exact value_fold_rel ops oob B N H offset t_VL _ beam1 beam2 V1 V2 K1.S K2.S bn.1 bn.2
    e1 e2 o1 o2 hAv hbeam hn _ _ rfl G1 G2
theorem large_iter1_out_rel {α R : Type} (ops : DecodeTPP α R) (oob : Int → α)
    (B N H offset : Nat) (XL : Nat → Nat → List R) (t_KL : Tensor4 α) (t_AM : Mask α)
    (beam1 beam2 : Nat → Nat → Int) (K1 K2 : Tensor4 α)
    (st1 st2 : (Nat → Nat → Nat → R) × Tensor4 α) (bn : Nat × Nat)
    (d1 : K1.B = B ∧ K1.N = N ∧ K1.H = H) (d2 : K2.B = B ∧ K2.N = N ∧ K2.H = H)
    (o1 : offset < K1.S) (o2 : offset < K2.S) (hAk : AgreeBelow B N H offset K1 K2)
    (hbeam : ∀ t, t < offset → beam1 bn.1 t = beam2 bn.1 t ∧ 0 ≤ beam1 bn.1 t ∧
      beam1 bn.1 t < B)
    (hn : bn.2 < N) (has : st1.1 = st2.1)
    (F1 : Frame offset K1 st1.2) (F2 : Frame offset K2 st2.2) :
    (attn_decode_large_iter1 ops oob N K1.S H XL t_KL t_AM beam1 offset (offset + 1)
        st1 bn).1 =
      (attn_decode_large_iter1 ops oob N K2.S H XL t_KL t_AM beam2 offset (offset + 1)
        st2 bn).1 := by
  have hsc := score_fold_rel ops oob B N H offset (XL bn.1 bn.2) t_KL t_AM beam1 beam2 K1 K2
    bn.1 bn.2
    (fun (AS : Nat → Nat → Nat → R) sk r =>
      fun b n k => if b = bn.1 ∧ n = bn.2 ∧ k = sk then r else AS b n k)
    d1 d2 o1 o2 hAk hbeam hn st1 st2 has F1 F2
  unfold attn_decode_large_iter1
  dsimp only at hsc ⊢
  exact hsc

theorem large_iter2_out_rel {α R : Type} (ops : DecodeTPP α R) (oob : Int → α)
    (B N H offset : Nat) (AS : Nat → Nat → Nat → R) (t_VL : Tensor4 α)
    (beam1 beam2 : Nat → Nat → Int) (V1 V2 : Tensor4 α) (C1 C2 : Nat)
    (st1 st2 : (Nat → Nat → List R) × Tensor4 α) (bn : Nat × Nat)
    (e1 : V1.B = B ∧ V1.N = N ∧ V1.S = C1 ∧ V1.H = H)
    (e2 : V2.B = B ∧ V2.N = N ∧ V2.S = C2 ∧ V2.H = H)
    (o1 : offset < C1) (o2 : offset < C2) (hAv : AgreeBelow B N H offset V1 V2)
    (hbeam : ∀ t, t < offset → beam1 bn.1 t = beam2 bn.1 t ∧ 0 ≤ beam1 bn.1 t ∧
      beam1 bn.1 t < B)
    (hn : bn.2 < N) (hxl : st1.1 = st2.1)
    (G1 : Frame offset V1 st1.2) (G2 : Frame offset V2 st2.2) :
    (attn_decode_large_iter2 ops oob N C1 H AS t_VL beam1 offset (offset + 1) st1 bn).1 =
      (attn_decode_large_iter2 ops oob N C2 H AS t_VL beam2 offset (offset + 1) st2 bn).1 := by
  unfold attn_decode_large_iter2
  dsimp only
  rw [hxl]
  have hva := value_fold_rel ops oob B N H offset t_VL
    (fun sk => (ops.softmax (rowOf (offset + 1) (AS bn.1 bn.2) ++
      List.replicate (fsk_aligned (offset + 1) - (offset + 1)) ops.neg1e9)).getD sk ops.zero)
    beam1 beam2 V1 V2 C1 C2 bn.1 bn.2 e1 e2 o1 o2 hAv hbeam hn
    (List.replicate H ops.zero, st1.2) (List.replicate H ops.zero, st2.2) rfl G1 G2
  rw [hva]

/-- The output `t_CL` of the decode `attn` is the same for two pairs of caches of
possibly different capacities that hold the same elements at the positions below
`offset`, read through beam tables that agree below `offset` and hold valid rows. -/
theorem attn_decode_out_congr {α R : Type} (ops : DecodeTPP α R) (oob : Int → α)
    (freshCL : Nat → Nat → Nat → Nat → α) (freshAS : Nat → Nat → Nat → R)
    (t_QL t_KL : Tensor4 α) (t_AM : Mask α) (t_VL K1 V1 K2 V2 : Tensor4 α)
    (beam1 beam2 : Nat → Nat → Int) (offset : Nat)
    (d1 : K1.B = t_QL.B ∧ K1.N = t_QL.N ∧ K1.H = t_QL.H)
    (d2 : K2.B = t_QL.B ∧ K2.N = t_QL.N ∧ K2.H = t_QL.H)
    (e1 : SameDims V1 K1) (e2 : SameDims V2 K2)
    (o1 : offset < K1.S) (o2 : offset < K2.S)
    (hAk : AgreeBelow t_QL.B t_QL.N t_QL.H offset K1 K2)
    (hAv : AgreeBelow t_QL.B t_QL.N t_QL.H offset V1 V2)
    (hbeam : ∀ b, b < t_QL.B → ∀ t, t < offset →
      beam1 b t = beam2 b t ∧ 0 ≤ beam1 b t ∧ beam1 b t < t_QL.B) :
    (attn_decode ops oob freshCL freshAS t_QL t_KL t_AM t_VL K1 V1 beam1 offset).map
        (fun r => r.1) =
      (attn_decode ops oob freshCL freshAS t_QL t_KL t_AM t_VL K2 V2 beam2 offset).map
        (fun r => r.1) := by
  obtain ⟨b1, n1, h1⟩ := d1
  obtain ⟨b2, n2, h2⟩ := d2
  have f1 : V1.B = t_QL.B ∧ V1.N = t_QL.N ∧ V1.S = K1.S ∧ V1.H = t_QL.H :=
    ⟨e1.1.trans b1, e1.2.1.trans n1, e1.2.2.1, e1.2.2.2.trans h1⟩
  have f2 : V2.B = t_QL.B ∧ V2.N = t_QL.N ∧ V2.S = K2.S ∧ V2.H = t_QL.H :=
    ⟨e2.1.trans b2, e2.2.1.trans n2, e2.2.2.1, e2.2.2.2.trans h2⟩
  have g1 : K1.B = t_QL.B ∧ K1.N = t_QL.N ∧ K1.S = K1.S ∧ K1.H = t_QL.H := ⟨b1, n1, rfl, h1⟩
  have g2 : K2.B = t_QL.B ∧ K2.N = t_QL.N ∧ K2.S = K2.S ∧ K2.H = t_QL.H := ⟨b2, n2, rfl, h2⟩
  unfold attn_decode
  by_cases hS : t_QL.S = 1 ∧ t_KL.S = 1
  · rw [if_pos hS, if_pos hS]
    simp only [hS.2]
    by_cases hF : offset + 1 ≤ 256
    · simp only [hF, if_true, Option.map_some']
      have h := foldl_rel
        (fun (a c : Tensor4 α × Tensor4 α × Tensor4 α) =>
          Frame offset K1 a.1 ∧ Frame offset K2 c.1 ∧ Frame offset V1 a.2.1 ∧
            Frame offset V2 c.2.1 ∧ a.2.2 = c.2.2)
        (attn_decode_small_iter ops oob t_QL.N K1.S t_QL.H t_QL t_KL t_AM t_VL beam1 offset
          (offset + 1))
        (attn_decode_small_iter ops oob t_QL.N K2.S t_QL.H t_QL t_KL t_AM t_VL beam2 offset
          (offset + 1))
        (List.product (List.range t_QL.B) (List.range t_QL.N))
        (by
          intro bn hbn a c hac
          obtain ⟨hb, hn⟩ := (mem_pairs _ _ bn).mp hbn
          obtain ⟨A1, A2, A3, A4, A5⟩ := hac
          refine ⟨?_, ?_, ?_, ?_, ?_⟩
          · rw [small_iter_key]; exact frame_write _ _ _ _ _ _ _ _ g1 o1 _ _ hn A1
          · rw [small_iter_key]; exact frame_write _ _ _ _ _ _ _ _ g2 o2 _ _ hn A2
          · rw [small_iter_value]; exact frame_write _ _ _ _ _ _ _ _ f1 o1 _ _ hn A3
          · rw [small_iter_value]; exact frame_write _ _ _ _ _ _ _ _ f2 o2 _ _ hn A4
          · exact small_iter_out_rel ops oob t_QL.B t_QL.N t_QL.H offset t_QL t_KL t_AM t_VL
              beam1 beam2 K1 K2 V1 V2 a c bn ⟨b1, n1, h1⟩ ⟨b2, n2, h2⟩ f1 f2 o1 o2 hAk hAv
              (hbeam bn.1 hb) hn A5 A1 A2 A3 A4)
        (K1, V1, { t_QL with elem := freshCL }) (K2, V2, { t_QL with elem := freshCL })
        ⟨frame_refl _ _, frame_refl _ _, frame_refl _ _, frame_refl _ _, rfl⟩
      exact congrArg some h.2.2.2.2
    · simp only [hF, if_false, Option.map_some']
      have hl1 := foldl_rel
        (fun (a c : (Nat → Nat → Nat → R) × Tensor4 α) =>
          a.1 = c.1 ∧ Frame offset K1 a.2 ∧ Frame offset K2 c.2)
        (attn_decode_large_iter1 ops oob t_QL.N K1.S t_QL.H
          (fun b n => (rowOf t_QL.H (t_QL.elem b n 0)).map ops.to_float) t_KL t_AM beam1 offset
          (offset + 1))
        (attn_decode_large_iter1 ops oob t_QL.N K2.S t_QL.H
          (fun b n => (rowOf t_QL.H (t_QL.elem b n 0)).map ops.to_float) t_KL t_AM beam2 offset
          (offset + 1))
        (List.product (List.range t_QL.B) (List.range t_QL.N))
        (by
          intro bn hbn a c hac
          obtain ⟨hb, hn⟩ := (mem_pairs _ _ bn).mp hbn
          obtain ⟨A1, A2, A3⟩ := hac
          refine ⟨?_, ?_, ?_⟩
          · exact large_iter1_out_rel ops oob t_QL.B t_QL.N t_QL.H offset _ t_KL t_AM beam1
              beam2 K1 K2 a c bn ⟨b1, n1, h1⟩ ⟨b2, n2, h2⟩ o1 o2 hAk (hbeam bn.1 hb) hn A1 A2 A3
          · rw [large_iter1_key]; exact frame_write _ _ _ _ _ _ _ _ g1 o1 _ _ hn A2
          · rw [large_iter1_key]; exact frame_write _ _ _ _ _ _ _ _ g2 o2 _ _ hn A3)
        (freshAS, K1) (freshAS, K2) ⟨rfl, frame_refl _ _, frame_refl _ _⟩
      rw [hl1.1]
      have hl2 := foldl_rel
        (fun (a c : (Nat → Nat → List R) × Tensor4 α) =>
          a.1 = c.1 ∧ Frame offset V1 a.2 ∧ Frame offset V2 c.2)
        (attn_decode_large_iter2 ops oob t_QL.N K1.S t_QL.H
          ((List.product (List.range t_QL.B) (List.range t_QL.N)).foldl
            (attn_decode_large_iter1 ops oob t_QL.N K2.S t_QL.H
              (fun b n => (rowOf t_QL.H (t_QL.elem b n 0)).map ops.to_float) t_KL t_AM beam2
              offset (offset + 1))
            (freshAS, K2)).1
          t_VL beam1 offset (offset + 1))
        (attn_decode_large_iter2 ops oob t_QL.N K2.S t_QL.H
          ((List.product (List.range t_QL.B) (List.range t_QL.N)).foldl
            (attn_decode_large_iter1 ops oob t_QL.N K2.S t_QL.H
              (fun b n => (rowOf t_QL.H (t_QL.elem b n 0)).map ops.to_float) t_KL t_AM beam2
              offset (offset + 1))
            (freshAS, K2)).1
          t_VL beam2 offset (offset + 1))
        (List.product (List.range t_QL.B) (List.range t_QL.N))
        (by
          intro bn hbn a c hac
          obtain ⟨hb, hn⟩ := (mem_pairs _ _ bn).mp hbn
          obtain ⟨A1, A2, A3⟩ := hac
          refine ⟨?_, ?_, ?_⟩
          · exact large_iter2_out_rel ops oob t_QL.B t_QL.N t_QL.H offset _ t_VL beam1 beam2
              V1 V2 K1.S K2.S a c bn f1 f2 o1 o2 hAv (hbeam bn.1 hb) hn A1 A2 A3
          · rw [large_iter2_value]; exact frame_write _ _ _ _ _ _ _ _ f1 o1 _ _ hn A2
          · rw [large_iter2_value]; exact frame_write _ _ _ _ _ _ _ _ f2 o2 _ _ hn A3)
        ((fun b n => (rowOf t_QL.H (t_QL.elem b n 0)).map ops.to_float), V1)
        ((fun b n => (rowOf t_QL.H (t_QL.elem b n 0)).map ops.to_float), V2)
        ⟨rfl, frame_refl _ _, frame_refl _ _⟩
      rw [hl2.1]
  · rw [if_neg hS, if_neg hS]
/-- Two beam-index tables with the same valid entries in the rows below `offset` are
traced to the same table, whose entries are valid rows. -/
theorem back_trace_congr (T1 T2 : Tensor2) (oobI : Int → Int) (B offset : Nat)
    (fresh1 fresh2 : Nat → Nat → Int) (hC1 : T1.C = B) (hC2 : T2.C = B)
    (hR1 : offset ≤ T1.R) (hR2 : offset ≤ T2.R)
    (hT : ∀ t b, t < offset → b < B →
      T1.elem t b = T2.elem t b ∧ 0 ≤ T1.elem t b ∧ T1.elem t b < B)
    (b : Nat) (hb : b < B) :
    ∀ k t, t + k + 1 = offset →
      back_trace T1 oobI B offset fresh1 b t = back_trace T2 oobI B offset fresh2 b t ∧
      0 ≤ back_trace T1 oobI B offset fresh1 b t ∧
      back_trace T1 oobI B offset fresh1 b t < B := by
  intro k
  induction k with
  | zero =>
    intro t ht
    have ho : 1 ≤ offset := by omega
    have e : t = offset - 1 := by omega
    obtain ⟨a1, a2, a3⟩ := hT (offset - 1) b (by omega) hb
    rw [e, (back_trace_rec T1 oobI B offset fresh1 ho b hb).1,
      (back_trace_rec T2 oobI B offset fresh2 ho b hb).1,
      b_ptr_eq_elem T1 oobI B (offset - 1) (b : Int) hC1 (by omega) (by omega)
        (by exact_mod_cast hb),
      b_ptr_eq_elem T2 oobI B (offset - 1) (b : Int) hC2 (by omega) (by omega)
        (by exact_mod_cast hb)]
    simp only [Int.toNat_ofNat]
    exact ⟨a1, a2, a3⟩
  | succ k ih =>
    intro t ht
    have ho : 1 ≤ offset := by omega
    obtain ⟨i1, i2, i3⟩ := ih (t + 1) (by omega)
    have hw : (back_trace T1 oobI B offset fresh1 b (t + 1)).toNat < B := by omega
    obtain ⟨a1, a2, a3⟩ := hT t _ (by omega) hw
    rw [(back_trace_rec T1 oobI B offset fresh1 ho b hb).2 t (by omega),
      (back_trace_rec T2 oobI B offset fresh2 ho b hb).2 t (by omega), ← i1,
      b_ptr_eq_elem T1 oobI B t _ hC1 (by omega) i2 i3,
      b_ptr_eq_elem T2 oobI B t _ hC2 (by omega) i2 i3]
    exact ⟨a1, a2, a3⟩

theorem agreeBelow_trans {α : Type} (B N H offset : Nat) (a b c : Tensor4 α)
    (h1 : AgreeBelow B N H offset a b) (h2 : AgreeBelow B N H offset b c) :
    AgreeBelow B N H offset a c :=
  fun x n s h hx hn hs hh => (h1 x n s h hx hn hs hh).trans (h2 x n s h hx hn hs hh)

theorem agreeBelow_symm {α : Type} (B N H offset : Nat) (a b : Tensor4 α)
    (h1 : AgreeBelow B N H offset a b) : AgreeBelow B N H offset b a :=
  fun x n s h hx hn hs hh => (h1 x n s h hx hn hs hh).symm

/-- The decode branch of `self_mha`, given the results of its reallocation block and of
the decode `attn`. -/
theorem self_mha_decode_eq {α R : Type} [Zero α] (cfg : BlockCfg) (ops : DecodeTPP α R)
    (mem : Mem α R) (prefill : Tensor4 α → Tensor4 α → Mask α → Tensor4 α → Tensor4 α)
    (x : QKV α) (t_am : Mask α) (c : CacheTuple α) (hcsz : c.csz = 6) (h1 : 1 ≤ c.c3)
    (kp vp : Tensor4 α) (bi : Tensor2) (r : Tensor4 α × Tensor4 α × Tensor4 α)
    (er : kv_realloc cfg mem x.B c.c3 c.c4 c.c5 c.c2 = some (kp, vp, bi))
    (ea : attn_decode ops mem.oob mem.freshCL mem.freshAS
      (view_heads x.B x.S cfg.N cfg.H x.q) (view_heads x.B x.S cfg.N cfg.H x.k) t_am
      (view_heads x.B x.S cfg.N cfg.H x.v) kp vp
      (back_trace bi mem.oobI x.B c.c3.toNat mem.freshI) c.c3.toNat = some r) :
    self_mha cfg ops mem prefill x t_am c =
      some (MhaOut.cached (merge_heads x.B x.S cfg.N cfg.H r.1)
        (r.2.1.slice2 (c.c3 + 1).toNat) (r.2.2.slice2 (c.c3 + 1).toNat) bi (c.c3 + 1)
        r.2.1 r.2.2) := by
  have hne : ¬ (c.c3 = 0) := by omega
  have hnn : ¬ (c.c3 < 0) := by omega
  unfold self_mha self_mha_decode
  simp only [hcsz, hne, er, hnn, if_false, Option.bind, ea]
  simp
/-! ## The causal-mask loop of the prefill `attn` -/

theorem mask_fold_apply {R : Type} (neg : R) (l : List Int) :
    ∀ (AS : Int → R) (p : Int),
      l.foldl (fun m q x => if x = q then neg else m x) AS p = if p ∈ l then neg else AS p := by
  induction l with
  | nil => intro AS p; simp
  | cons a l ih =>
    intro AS p
    simp only [List.foldl_cons, ih, List.mem_cons]
    by_cases h1 : p ∈ l
    · simp [h1]
    · by_cases h2 : p = a <;> simp [h1, h2]

/-- After the causal-mask loop a memory cell holds the sentinel if the loop wrote it, and
its old value otherwise. -/
theorem causal_mask_apply {R : Type} (neg : R) (t : ScoreTile) (offset : Int)
    (AS : Int → R) (p : Int) :
    causal_mask neg t offset AS p =
      if p ∈ causal_mask_writes t offset then neg else AS p :=
  mask_fold_apply neg _ AS p

/-- Inside the tile, the entry of row `r` and column `c` is written by the causal-mask loop
exactly when its key index `sk + c` exceeds `sq + r + offset`. -/
theorem causal_mask_writes_in_tile (t : ScoreTile) (offset : Int) (r c : Nat)
    (hr : r < t.qbs) (hc : c < t.kbs) :
    ((r : Int) * t.kbs + c) ∈ causal_mask_writes t offset ↔
      (t.sq : Int) + r + offset < (t.sk : Int) + c := by
  unfold causal_mask_writes
  simp only [List.mem_flatMap, List.mem_map, List.mem_range]
  constructor
  · rintro ⟨r2, hr2, i, hi, e⟩
    have hi2 : (i : Int) < (t.sk : Int) + t.kbs - ((t.sq : Int) + r2 + offset + 1) := by
      omega
    by_cases hlt : r2 < r
    · have h1 : ((r2 : Int) + 1) * t.kbs ≤ (r : Int) * t.kbs := by
        apply mul_le_mul_of_nonneg_right
        · omega
        · omega
      have h2 : ((r2 : Int) + 1) * t.kbs = (r2 : Int) * t.kbs + t.kbs := by ring
      omega
    · have h1 : (r : Int) * t.kbs ≤ (r2 : Int) * t.kbs := by
        apply mul_le_mul_of_nonneg_right
        · omega
        · omega
      omega
  · intro h
    refine ⟨r, hr, ((t.sk : Int) + c - ((t.sq : Int) + r + offset + 1)).toNat, ?_, ?_⟩
    · omega
    · omega

theorem attn_decode_paths {α R : Type} (ops : DecodeTPP α R) (oob : Int → α)
    (freshCL : Nat → Nat → Nat → Nat → α) (freshAS : Nat → Nat → Nat → R)
    (t_QL t_KL : Tensor4 α) (t_AM : Mask α) (t_VL KC VC : Tensor4 α)
    (beam_idx : Nat → Nat → Int) (offset : Nat) :
    attn_decode ops oob freshCL freshAS t_QL t_KL t_AM t_VL KC VC beam_idx offset =
      if t_QL.S = 1 ∧ t_KL.S = 1 then
        if offset + t_KL.S ≤ 256 then
          some (attn_decode_small ops oob freshCL t_QL t_KL t_AM t_VL KC VC beam_idx offset)
        else
          some (attn_decode_large ops oob freshAS t_QL t_KL t_AM t_VL KC VC beam_idx offset)
      else none := rfl

theorem getD_getD {α : Type} (l : List α) (h : Nat) (d : α) :
    l.getD h (l.getD h d) = l.getD h d := by
  simp only [List.getD_eq_getElem?_getD]
  cases l[h]? <;> rfl

/-- One iteration of the stack path on caches that are framed by the caches before the
call writes the row computed from the caches before the call. -/
theorem small_iter_row {α R : Type} (ops : DecodeTPP α R) (oob : Int → α)
    (B N H offset : Nat) (t_QL t_KL : Tensor4 α) (t_AM : Mask α) (t_VL : Tensor4 α)
    (beam : Nat → Nat → Int) (K0 V0 : Tensor4 α)
    (st : Tensor4 α × Tensor4 α × Tensor4 α) (bn : Nat × Nat)
    (d : K0.B = B ∧ K0.N = N ∧ K0.H = H)
    (e : V0.B = B ∧ V0.N = N ∧ V0.S = K0.S ∧ V0.H = H)
    (o : offset < K0.S)
    (hbeam : ∀ t, t < offset → 0 ≤ beam bn.1 t ∧ beam bn.1 t < B)
    (hn : bn.2 < N) (F : Frame offset K0 st.1) (G : Frame offset V0 st.2.1) :
    (attn_decode_small_iter ops oob N K0.S H t_QL t_KL t_AM t_VL beam offset (offset + 1)
        st bn).2.2 =
      st.2.2.setRow H bn.1 bn.2 0
        (ops.cvt_f2b (decode_values ops oob N K0.S H t_VL beam offset (offset + 1)
          (decode_scores ops oob N K0.S H (ops.cvt_b2f (rowOf H (t_QL.elem bn.1 bn.2 0)))
            t_KL t_AM beam offset (offset + 1) K0 bn.1 bn.2) V0 bn.1 bn.2)) := by
  have h := small_iter_out_rel ops oob B N H offset t_QL t_KL t_AM t_VL beam beam K0 K0 V0 V0
    st (K0, V0, st.2.2) bn d d e e o o (fun _ _ _ _ _ _ _ _ => rfl)
    (fun _ _ _ _ _ _ _ _ => rfl) (fun t ht => ⟨rfl, hbeam t ht⟩) hn rfl F (frame_refl _ _)
    G (frame_refl _ _)
  rw [h]
  rfl

theorem map_getD {α R : Type} (f : R → α) (l : List R) (h : Nat) (d : α) (z : R)
    (hh : h < l.length) : (l.map f).getD h d = f (l.getD h z) := by
  simp [List.getD_eq_getElem?_getD, List.getElem?_map, List.getElem?_eq_getElem hh]

theorem rowOf_eq_of_getD {R : Type} (m : Nat) (f : Nat → R) (l : List R) (z : R)
    (hl : l.length = m) (hf : ∀ k, k < m → f k = l.getD k z) : rowOf m f = l := by
  apply List.ext_getElem
  · rw [rowOf_length, hl]
  · intro i h1 h2
    have hi : i < m := by omega
    simp only [rowOf, List.getElem_map, List.getElem_range]
    rw [hf i hi]
    simp [List.getD_eq_getElem?_getD, List.getElem?_eq_getElem h2]

/-- The weighted sum has `H` elements when `ScaleAddTPP(H)` returns `H` elements. -/
theorem decode_values_length {α R : Type} (ops : DecodeTPP α R) (oob : Int → α)
    (N CSk H : Nat) (t_VL : Tensor4 α) (beam : Nat → Nat → Int) (offset FSk : Nat)
    (sc : List R) (VC : Tensor4 α) (b n : Nat)
    (hsa : ∀ v acc w, v.length = H → acc.length = H →
      (ops.scale_add v acc w).length = H) :
    (decode_values ops oob N CSk H t_VL beam offset FSk sc VC b n).length = H := by
  unfold decode_values
  exact foldl_inv (fun (s : List R × Tensor4 α) => s.1.length = H)
    (value_step ops oob N CSk H t_VL beam offset b n _) (List.range FSk)
    (by
      intro sk _ s hs
      unfold value_step
      split
      · exact hsa _ _ _ (by simp [Tensor4.loadRow]) hs
      · exact hsa _ _ _ (rowOf_length _ _) hs)
    _ (List.length_replicate _ _)

/-- The score loop writing into the table `t_AS` and the score loop appending to a list
compute the same scores and the same cache. -/
theorem score_fold_update {R κ : Type} (g : κ → Nat → R × κ) (b n : Nat) (z : R)
    (as : Nat → Nat → Nat → R) (kc : κ) (m : Nat) :
    ((List.range m).foldl
        (fun (s : (Nat → Nat → Nat → R) × κ) sk =>
          ((fun b1 n1 k => if b1 = b ∧ n1 = n ∧ k = sk then (g s.2 sk).1 else s.1 b1 n1 k),
            (g s.2 sk).2))
        (as, kc)).2 =
      ((List.range m).foldl
        (fun (s : List R × κ) sk => (s.1 ++ [(g s.2 sk).1], (g s.2 sk).2)) ([], kc)).2 ∧
    ((List.range m).foldl
        (fun (s : List R × κ) sk => (s.1 ++ [(g s.2 sk).1], (g s.2 sk).2))
        ([], kc)).1.length = m ∧
    ∀ b1 n1 k,
      ((List.range m).foldl
        (fun (s : (Nat → Nat → Nat → R) × κ) sk =>
          ((fun b1 n1 k => if b1 = b ∧ n1 = n ∧ k = sk then (g s.2 sk).1 else s.1 b1 n1 k),
            (g s.2 sk).2))
        (as, kc)).1 b1 n1 k =
      if b1 = b ∧ n1 = n ∧ k < m then
        ((List.range m).foldl
          (fun (s : List R × κ) sk => (s.1 ++ [(g s.2 sk).1], (g s.2 sk).2))
          ([], kc)).1.getD k z
      else as b1 n1 k := by
  induction m with
  | zero => simp
  | succ m ih =>
    obtain ⟨h1, h2, h3⟩ := ih
    simp only [List.range_succ, List.foldl_append, List.foldl_cons, List.foldl_nil]
    rw [h1]
    refine ⟨rfl, by simp [h2], ?_⟩
    intro b1 n1 k
    by_cases hk : b1 = b ∧ n1 = n ∧ k = m
    · rw [if_pos hk, if_pos ⟨hk.1, hk.2.1, by omega⟩, hk.2.2]
      simp only [List.getD_eq_getElem?_getD]
      rw [List.getElem?_append_right (by omega), h2, Nat.sub_self]
      rfl
    · rw [if_neg hk, h3]
      by_cases hc : b1 = b ∧ n1 = n ∧ k < m
      · have hc2 : b1 = b ∧ n1 = n ∧ k < m + 1 := ⟨hc.1, hc.2.1, by omega⟩
        rw [if_pos hc, if_pos hc2]
        simp only [List.getD_eq_getElem?_getD]
        rw [List.getElem?_append_left (by omega)]
      · have hc2 : ¬ (b1 = b ∧ n1 = n ∧ k < m + 1) := by
          intro hx
          by_cases hkm : k = m
          · exact hk ⟨hx.1, hx.2.1, hkm⟩
          · exact hc ⟨hx.1, hx.2.1, by omega⟩
        rw [if_neg hc, if_neg hc2]

/-- Closed form of the output of the stack path: the element `[b][n][0][h]` of `t_CL` is the
converted weighted sum computed from the caches before the call. -/
theorem attn_decode_small_out {α R : Type} (ops : DecodeTPP α R) (oob : Int → α)
    (freshCL : Nat → Nat → Nat → Nat → α)
    (t_QL t_KL : Tensor4 α) (t_AM : Mask α) (t_VL KC VC : Tensor4 α)
    (beam : Nat → Nat → Int) (offset : Nat) (hk : t_KL.S = 1)
    (d : KC.B = t_QL.B ∧ KC.N = t_QL.N ∧ KC.H = t_QL.H) (e : SameDims VC KC)
    (o : offset < KC.S)
    (hbeam : ∀ b, b < t_QL.B → ∀ t, t < offset → 0 ≤ beam b t ∧ beam b t < t_QL.B)
    (hf2b : ∀ row, ops.cvt_f2b row = row.map ops.to_T)
    (hsa : ∀ v acc w, v.length = t_QL.H → acc.length = t_QL.H →
      (ops.scale_add v acc w).length = t_QL.H)
    (b n h : Nat) (hb : b < t_QL.B) (hn : n < t_QL.N) (hh : h < t_QL.H) :
    (attn_decode_small ops oob freshCL t_QL t_KL t_AM t_VL KC VC beam offset).1.elem b n 0 h =
      ops.to_T ((decode_values ops oob t_QL.N KC.S t_QL.H t_VL beam offset (offset + 1)
        (decode_scores ops oob t_QL.N KC.S t_QL.H
          (ops.cvt_b2f (rowOf t_QL.H (t_QL.elem b n 0))) t_KL t_AM beam offset (offset + 1)
          KC b n) VC b n).getD h ops.zero) := by
  obtain ⟨b1, n1, h1⟩ := d
  have f1 : VC.B = t_QL.B ∧ VC.N = t_QL.N ∧ VC.S = KC.S ∧ VC.H = t_QL.H :=
    ⟨e.1.trans b1, e.2.1.trans n1, e.2.2.1, e.2.2.2.trans h1⟩
  have g1 : KC.B = t_QL.B ∧ KC.N = t_QL.N ∧ KC.S = KC.S ∧ KC.H = t_QL.H := ⟨b1, n1, rfl, h1⟩
  have key := foldl_establish
    (fun (st : Tensor4 α × Tensor4 α × Tensor4 α) =>
      Frame offset KC st.1 ∧ Frame offset VC st.2.1)
    (fun (bn : Nat × Nat) (st : Tensor4 α × Tensor4 α × Tensor4 α) =>
      ∀ h, h < t_QL.H → st.2.2.elem bn.1 bn.2 0 h =
        ops.to_T ((decode_values ops oob t_QL.N KC.S t_QL.H t_VL beam offset (offset + 1)
          (decode_scores ops oob t_QL.N KC.S t_QL.H
            (ops.cvt_b2f (rowOf t_QL.H (t_QL.elem bn.1 bn.2 0))) t_KL t_AM beam offset
            (offset + 1) KC bn.1 bn.2) VC bn.1 bn.2).getD h ops.zero))
    (attn_decode_small_iter ops oob t_QL.N KC.S t_QL.H t_QL t_KL t_AM t_VL beam offset
      (offset + 1))
    (List.product (List.range t_QL.B) (List.range t_QL.N))
    (by
      intro j hj st hP
      obtain ⟨hjb, hjn⟩ := (mem_pairs _ _ j).mp hj
      obtain ⟨F, G⟩ := hP
      refine ⟨⟨?_, ?_⟩, ?_⟩
      · rw [small_iter_key]; exact frame_write _ _ _ _ _ _ _ _ g1 o _ _ hjn F
      · rw [small_iter_value]; exact frame_write _ _ _ _ _ _ _ _ f1 o _ _ hjn G
      · intro h hh
        rw [small_iter_row ops oob t_QL.B t_QL.N t_QL.H offset t_QL t_KL t_AM t_VL beam KC VC
          st j ⟨b1, n1, h1⟩ f1 o (hbeam j.1 hjb) hjn F G]
        unfold Tensor4.setRow
        dsimp only
        rw [if_pos ⟨rfl, rfl, rfl, hh⟩, hf2b]
        exact map_getD _ _ _ _ _
          (by rw [decode_values_length ops oob _ _ _ _ _ _ _ _ _ _ _ hsa]; exact hh))
    (by
      intro i j hj st hP hE h hh
      obtain ⟨hjb, hjn⟩ := (mem_pairs _ _ j).mp hj
      obtain ⟨F, G⟩ := hP
      rw [small_iter_row ops oob t_QL.B t_QL.N t_QL.H offset t_QL t_KL t_AM t_VL beam KC VC
        st j ⟨b1, n1, h1⟩ f1 o (hbeam j.1 hjb) hjn F G]
      unfold Tensor4.setRow
      dsimp only
      by_cases hc : i.1 = j.1 ∧ i.2 = j.2
      · rw [if_pos ⟨hc.1, hc.2, rfl, hh⟩, hf2b, hc.1, hc.2]
        exact map_getD _ _ _ _ _
          (by rw [decode_values_length ops oob _ _ _ _ _ _ _ _ _ _ _ hsa]; exact hh)
      · rw [if_neg (fun hx => hc ⟨hx.1, hx.2.1⟩)]
        exact hE h hh)
    (KC, VC, { t_QL with elem := freshCL }) ⟨frame_refl _ _, frame_refl _ _⟩
  unfold attn_decode_small
  simp only [hk]
  exact key.2.2 (b, n) ((mem_pairs _ _ (b, n)).mpr ⟨hb, hn⟩) h hh

/-- One iteration of the first loop nest of the heap path on a key cache framed by the
cache before the call. -/
theorem large_iter1_row {α R : Type} (ops : DecodeTPP α R) (oob : Int → α)
    (B N H offset : Nat) (XL : Nat → Nat → List R) (t_KL : Tensor4 α) (t_AM : Mask α)
    (beam : Nat → Nat → Int) (K0 : Tensor4 α)
    (st : (Nat → Nat → Nat → R) × Tensor4 α) (bn : Nat × Nat)
    (d : K0.B = B ∧ K0.N = N ∧ K0.H = H) (o : offset < K0.S)
    (hbeam : ∀ t, t < offset → 0 ≤ beam bn.1 t ∧ beam bn.1 t < B)
    (hn : bn.2 < N) (F : Frame offset K0 st.2) (b n k : Nat) :
    (attn_decode_large_iter1 ops oob N K0.S H XL t_KL t_AM beam offset (offset + 1)
        st bn).1 b n k =
      if b = bn.1 ∧ n = bn.2 ∧ k < offset + 1 then
        (decode_scores ops oob N K0.S H (XL bn.1 bn.2) t_KL t_AM beam offset (offset + 1)
          K0 bn.1 bn.2).getD k ops.zero
      else st.1 b n k := by
  have hu := (score_fold_update
    (fun kc sk => score_step ops oob N K0.S H (XL bn.1 bn.2) t_KL t_AM beam offset
      (offset + 1) bn.1 bn.2 kc sk) bn.1 bn.2 ops.zero st.1 st.2 (offset + 1)).2.2 b n k
  have hsc := score_fold_rel ops oob B N H offset (XL bn.1 bn.2)
    t_KL t_AM beam beam K0 K0 bn.1 bn.2 (fun (l : List R) _ r => l ++ [r]) d d o o
    (fun _ _ _ _ _ _ _ _ => rfl) (fun t ht => ⟨rfl, hbeam t ht⟩) hn ([], st.2) ([], K0) rfl F
    (frame_refl _ _)
  unfold attn_decode_large_iter1 decode_scores
  dsimp only at hu hsc ⊢
  rw [← hsc]
  exact hu

theorem decode_scores_length {α R : Type} (ops : DecodeTPP α R) (oob : Int → α)
    (N CSk H : Nat) (q : List R) (t_KL : Tensor4 α) (t_AM : Mask α)
    (beam : Nat → Nat → Int) (offset FSk : Nat) (KC : Tensor4 α) (b n : Nat) :
    (decode_scores ops oob N CSk H q t_KL t_AM beam offset FSk KC b n).length = FSk :=
  (score_fold_update
    (fun kc sk => score_step ops oob N CSk H q t_KL t_AM beam offset FSk b n kc sk)
    b n ops.zero (fun _ _ _ => ops.zero) KC FSk).2.1

/-- One iteration of the second loop nest of the heap path on a value cache framed by the
cache before the call. -/
theorem large_iter2_row {α R : Type} (ops : DecodeTPP α R) (oob : Int → α)
    (B N H offset : Nat) (AS : Nat → Nat → Nat → R) (t_VL : Tensor4 α)
    (beam : Nat → Nat → Int) (V0 : Tensor4 α) (C : Nat)
    (st : (Nat → Nat → List R) × Tensor4 α) (bn : Nat × Nat)
    (e : V0.B = B ∧ V0.N = N ∧ V0.S = C ∧ V0.H = H) (o : offset < C)
    (hbeam : ∀ t, t < offset → 0 ≤ beam bn.1 t ∧ beam bn.1 t < B)
    (hn : bn.2 < N) (G : Frame offset V0 st.2) (b n : Nat) :
    (attn_decode_large_iter2 ops oob N C H AS t_VL beam offset (offset + 1) st bn).1 b n =
      if b = bn.1 ∧ n = bn.2 then
        decode_values ops oob N C H t_VL beam offset (offset + 1)
          (rowOf (offset + 1) (AS bn.1 bn.2)) V0 bn.1 bn.2
      else st.1 b n := by
  have h := large_iter2_out_rel ops oob B N H offset AS t_VL beam beam V0 V0 C C st
    (st.1, V0) bn e e o o (fun _ _ _ _ _ _ _ _ => rfl) (fun t ht => ⟨rfl, hbeam t ht⟩) hn rfl
    G (frame_refl _ _)
  rw [h]
  rfl

/-- Closed form of the output of the heap path. -/
theorem attn_decode_large_out {α R : Type} (ops : DecodeTPP α R) (oob : Int → α)
    (freshAS : Nat → Nat → Nat → R)
    (t_QL t_KL : Tensor4 α) (t_AM : Mask α) (t_VL KC VC : Tensor4 α)
    (beam : Nat → Nat → Int) (offset : Nat) (hk : t_KL.S = 1)
    (d : KC.B = t_QL.B ∧ KC.N = t_QL.N ∧ KC.H = t_QL.H) (e : SameDims VC KC)
    (o : offset < KC.S)
    (hbeam : ∀ b, b < t_QL.B → ∀ t, t < offset → 0 ≤ beam b t ∧ beam b t < t_QL.B)
    (b n s h : Nat) (hb : b < t_QL.B) (hn : n < t_QL.N) :
    (attn_decode_large ops oob freshAS t_QL t_KL t_AM t_VL KC VC beam offset).1.elem b n s h =
      ops.to_T ((decode_values ops oob t_QL.N KC.S t_QL.H t_VL beam offset (offset + 1)
        (decode_scores ops oob t_QL.N KC.S t_QL.H
          ((rowOf t_QL.H (t_QL.elem b n 0)).map ops.to_float) t_KL t_AM beam offset
          (offset + 1) KC b n) VC b n).getD h ops.zero) := by
  obtain ⟨b1, n1, h1⟩ := d
  have f1 : VC.B = t_QL.B ∧ VC.N = t_QL.N ∧ VC.S = KC.S ∧ VC.H = t_QL.H :=
    ⟨e.1.trans b1, e.2.1.trans n1, e.2.2.1, e.2.2.2.trans h1⟩
  have g1 : KC.B = t_QL.B ∧ KC.N = t_QL.N ∧ KC.S = KC.S ∧ KC.H = t_QL.H := ⟨b1, n1, rfl, h1⟩
  have key1 := foldl_establish
    (fun (st : (Nat → Nat → Nat → R) × Tensor4 α) => Frame offset KC st.2)
    (fun (bn : Nat × Nat) (st : (Nat → Nat → Nat → R) × Tensor4 α) =>
      ∀ k, k < offset + 1 → st.1 bn.1 bn.2 k =
        (decode_scores ops oob t_QL.N KC.S t_QL.H
          ((rowOf t_QL.H (t_QL.elem bn.1 bn.2 0)).map ops.to_float) t_KL t_AM beam offset
          (offset + 1) KC bn.1 bn.2).getD k ops.zero)
    (attn_decode_large_iter1 ops oob t_QL.N KC.S t_QL.H
      (fun b n => (rowOf t_QL.H (t_QL.elem b n 0)).map ops.to_float) t_KL t_AM beam offset
      (offset + 1))
    (List.product (List.range t_QL.B) (List.range t_QL.N))
    (by
      intro j hj st F
      obtain ⟨hjb, hjn⟩ := (mem_pairs _ _ j).mp hj
      refine ⟨?_, ?_⟩
      · show Frame offset KC _
        rw [large_iter1_key]; exact frame_write _ _ _ _ _ _ _ _ g1 o _ _ hjn F
      · intro k hk1
        rw [large_iter1_row ops oob t_QL.B t_QL.N t_QL.H offset _ t_KL t_AM beam KC st j
          ⟨b1, n1, h1⟩ o (hbeam j.1 hjb) hjn F, if_pos ⟨rfl, rfl, hk1⟩])
    (by
      intro i j hj st F hE k hk1
      obtain ⟨hjb, hjn⟩ := (mem_pairs _ _ j).mp hj
      rw [large_iter1_row ops oob t_QL.B t_QL.N t_QL.H offset _ t_KL t_AM beam KC st j
        ⟨b1, n1, h1⟩ o (hbeam j.1 hjb) hjn F]
      by_cases hc : i.1 = j.1 ∧ i.2 = j.2
      · rw [if_pos ⟨hc.1, hc.2, hk1⟩, hc.1, hc.2]
      · rw [if_neg (fun hx => hc ⟨hx.1, hx.2.1⟩)]
        exact hE k hk1)
    (freshAS, KC) (frame_refl _ _)
  have key2 := fun AS => foldl_establish
    (fun (st : (Nat → Nat → List R) × Tensor4 α) => Frame offset VC st.2)
    (fun (bn : Nat × Nat) (st : (Nat → Nat → List R) × Tensor4 α) =>
      st.1 bn.1 bn.2 = decode_values ops oob t_QL.N KC.S t_QL.H t_VL beam offset (offset + 1)
        (rowOf (offset + 1) (AS bn.1 bn.2)) VC bn.1 bn.2)
    (attn_decode_large_iter2 ops oob t_QL.N KC.S t_QL.H AS t_VL beam offset (offset + 1))
    (List.product (List.range t_QL.B) (List.range t_QL.N))
    (by
      intro j hj st G
      obtain ⟨hjb, hjn⟩ := (mem_pairs _ _ j).mp hj
      refine ⟨?_, ?_⟩
      · show Frame offset VC _
        rw [large_iter2_value]; exact frame_write _ _ _ _ _ _ _ _ f1 o _ _ hjn G
      · show _ = _
        rw [large_iter2_row ops oob t_QL.B t_QL.N t_QL.H offset AS t_VL beam VC KC.S st j
          f1 o (hbeam j.1 hjb) hjn G, if_pos ⟨rfl, rfl⟩])
    (by
      intro i j hj st G hE
      obtain ⟨hjb, hjn⟩ := (mem_pairs _ _ j).mp hj
      show _ = _
      rw [large_iter2_row ops oob t_QL.B t_QL.N t_QL.H offset AS t_VL beam VC KC.S st j
        f1 o (hbeam j.1 hjb) hjn G]
      by_cases hc : i.1 = j.1 ∧ i.2 = j.2
      · rw [if_pos hc, hc.1, hc.2]
      · rw [if_neg hc]
        exact hE)
    ((fun b n => (rowOf t_QL.H (t_QL.elem b n 0)).map ops.to_float), VC) (frame_refl _ _)
  have hmem := (mem_pairs t_QL.B t_QL.N (b, n)).mpr ⟨hb, hn⟩
  have hAS := key1.2.2 (b, n) hmem
  unfold attn_decode_large
  simp only [hk]
  rw [(key2 _).2.2 (b, n) hmem]
  dsimp only
  rw [rowOf_eq_of_getD (offset + 1) _ _ ops.zero (decode_scores_length _ _ _ _ _ _ _ _ _ _ _ _ _
    _) hAS]

/-- Both code paths leave the caches in the same state. -/
theorem attn_decode_path_caches {α R : Type} (ops : DecodeTPP α R) (oob : Int → α)
    (freshCL : Nat → Nat → Nat → Nat → α) (freshAS : Nat → Nat → Nat → R)
    (t_QL t_KL : Tensor4 α) (t_AM : Mask α) (t_VL KC VC : Tensor4 α)
    (beam_idx : Nat → Nat → Int) (offset : Nat) (hk : t_KL.S = 1) :
    (attn_decode_small ops oob freshCL t_QL t_KL t_AM t_VL KC VC beam_idx offset).2 =
        (cache_fill t_QL.B t_QL.N KC.S t_QL.H offset t_KL KC,
          cache_fill t_QL.B t_QL.N KC.S t_QL.H offset t_VL VC) ∧
      (attn_decode_large ops oob freshAS t_QL t_KL t_AM t_VL KC VC beam_idx offset).2 =
        (cache_fill t_QL.B t_QL.N KC.S t_QL.H offset t_KL KC,
          cache_fill t_QL.B t_QL.N KC.S t_QL.H offset t_VL VC) := by
  unfold attn_decode_small attn_decode_large
  simp only [hk]
  refine ⟨Prod.ext ?_ ?_, Prod.ext ?_ ?_⟩
  · exact foldl_proj Prod.fst _ _ (fun s i => small_iter_key ops oob _ _ _ t_QL t_KL t_AM
      t_VL beam_idx offset s i) _ _
  · exact foldl_proj (fun s : Tensor4 α × Tensor4 α × Tensor4 α => s.2.1)
      (attn_decode_small_iter ops oob t_QL.N KC.S t_QL.H t_QL t_KL t_AM t_VL beam_idx offset
        (offset + 1))
      (fun c bn => c.storeRow (vlaOff t_QL.N KC.S t_QL.H (bn.1 : Int) bn.2 offset)
        (rowOf t_QL.H (t_VL.elem bn.1 bn.2 0)))
      (fun s i => small_iter_value ops oob _ _ _ t_QL t_KL t_AM t_VL beam_idx offset s i) _ _
  · exact foldl_proj Prod.snd _ _ (fun s i => large_iter1_key ops oob _ _ _ _ t_KL t_AM
      beam_idx offset s i) _ _
  · exact foldl_proj Prod.snd _ _ (fun s i => large_iter2_value ops oob _ _ _ _ t_VL
      beam_idx offset s i) _ _

/-- The output of the stack path has the shape of the query. -/
theorem attn_decode_small_dims {α R : Type} (ops : DecodeTPP α R) (oob : Int → α)
    (freshCL : Nat → Nat → Nat → Nat → α)
    (t_QL t_KL : Tensor4 α) (t_AM : Mask α) (t_VL KC VC : Tensor4 α)
    (beam_idx : Nat → Nat → Int) (offset : Nat) :
    SameDims (attn_decode_small ops oob freshCL t_QL t_KL t_AM t_VL KC VC beam_idx offset).1
      t_QL := by
  unfold attn_decode_small
  exact foldl_inv (fun (st : Tensor4 α × Tensor4 α × Tensor4 α) => SameDims st.2.2 t_QL)
    (attn_decode_small_iter ops oob t_QL.N KC.S t_QL.H t_QL t_KL t_AM t_VL beam_idx offset
      (offset + t_KL.S))
    (List.product (List.range t_QL.B) (List.range t_QL.N))
    (fun bn _ st hst => hst) _ ⟨rfl, rfl, rfl, rfl⟩

theorem mul_add_inj (H a h a2 h2 : Nat) (hh : h < H) (hh2 : h2 < H)
    (e : a * H + h = a2 * H + h2) : a = a2 ∧ h = h2 := by
  have e1 := congrArg (fun x => x / H) e
  have e2 := congrArg (fun x => x % H) e
  simp only [mul_add_div_self _ _ _ hh, mul_add_div_self _ _ _ hh2,
    mul_add_mod_self _ _ _ hh, mul_add_mod_self _ _ _ hh2] at e1 e2
  exact ⟨e1, e2⟩

/-- Content of a storage after a list of element copies: if some copy targets `p` and every
copy that targets `p` reads the value `v`, the storage holds `v` at `p`. -/
theorem apply_copies_hit {α : Type} (src : Nat → α) (p : Nat) (v : α) :
    ∀ (l : List (Nat × Nat)) (dst : Nat → α),
      (∀ w, w ∈ l → w.1 = p → src w.2 = v) →
      ((∃ w, w ∈ l ∧ w.1 = p) ∨ dst p = v) → apply_copies src l dst p = v := by
  intro l
  induction l with
  | nil =>
    intro dst _ h
    rcases h with ⟨w, hw, _⟩ | h
    · cases hw
    · exact h
  | cons a l ih =>
    intro dst hall h
    show apply_copies src l (upd dst a.1 (src a.2)) p = v
    apply ih
    · intro w hw; exact hall w (List.mem_cons_of_mem _ hw)
    · by_cases ha : a.1 = p
      · right
        simp only [upd, ha, if_true]
        exact hall a (List.mem_cons_self _ _) ha
      · rcases h with ⟨w, hw, hwp⟩ | h
        · rcases List.mem_cons.mp hw with rfl | hw2
          · exact absurd hwp ha
          · exact Or.inl ⟨w, hw2, hwp⟩
        · right
          have : ¬ (p = a.1) := fun hx => ha hx.symm
          simp only [upd, this, if_false]
          exact h

theorem mem_first_token_copies (K1 C1 C2 K2 C3 : Nat) (w : Nat × Nat) :
    w ∈ first_token_copies K1 C1 C2 K2 C3 ↔
      ∃ i j k c e, i < K1 / 4 ∧ j < C1 ∧ k < 4 ∧ c < C2 ∧ e < K2 * C3 ∧
        w = (vlaOff4 C1 C2 4 (K2 * C3) i j 0 k + c * (4 * K2 * C3) + e,
          vlaOff4 4 C1 C2 (K2 * C3) i k j 0 + c * (K2 * C3) + e) := by
  simp only [first_token_copies, cpy_tpp_copies, List.mem_flatMap, List.mem_map,
    List.mem_range]
  constructor
  · rintro ⟨i, hi, j, hj, k, hk, c, hc, e, he, rfl⟩
    exact ⟨i, j, k, c, e, hi, hj, hk, hc, he, rfl⟩
  · rintro ⟨i, j, k, c, e, hi, hj, hk, hc, he, rfl⟩
    exact ⟨i, hi, j, hj, k, hk, c, hc, e, he, rfl⟩

/-- The destination offset of a copy is the offset of `[i][j][c][k*K2 + k2][c3]` in the new
tensor, the source offset that of `[4*i + k][j][c][k2][c3]` in the input. -/
theorem first_token_dst_eq (C1 C2 K2 C3 i j k c e : Nat) :
    vlaOff4 C1 C2 4 (K2 * C3) i j 0 k + c * (4 * K2 * C3) + e =
      (((i * C1 + j) * C2 + c) * 4 + k) * (K2 * C3) + e := by
  unfold vlaOff4; ring

theorem first_token_src_eq (C1 C2 K2 C3 i j k c e : Nat) :
    vlaOff4 4 C1 C2 (K2 * C3) i k j 0 + c * (K2 * C3) + e =
      (((i * 4 + k) * C1 + j) * C2 + c) * (K2 * C3) + e := by
  unfold vlaOff4; ring

theorem first_token_dst_inj (C1 C2 KC i j k c e i2 j2 k2 c2 e2 : Nat)
    (hj : j < C1) (hk : k < 4) (hc : c < C2) (he : e < KC)
    (hj2 : j2 < C1) (hk2 : k2 < 4) (hc2 : c2 < C2) (he2 : e2 < KC)
    (h : (((i * C1 + j) * C2 + c) * 4 + k) * KC + e =
      (((i2 * C1 + j2) * C2 + c2) * 4 + k2) * KC + e2) :
    i = i2 ∧ j = j2 ∧ k = k2 ∧ c = c2 ∧ e = e2 := by
  obtain ⟨h1, e1⟩ := mul_add_inj _ _ _ _ _ he he2 h
  obtain ⟨h2, e2⟩ := mul_add_inj _ _ _ _ _ hk hk2 h1
  obtain ⟨h3, e3⟩ := mul_add_inj _ _ _ _ _ hc hc2 h2
  obtain ⟨h4, e4⟩ := mul_add_inj _ _ _ _ _ hj hj2 h3
  exact ⟨h4, e4, e2, e3, e1⟩

/-- Content of the new tensor after the copy loop, by storage offsets. -/
theorem first_token_data {α : Type} (src fresh : Nat → α) (K1 C1 C2 K2 C3 i j k c e : Nat)
    (hi : i < K1 / 4) (hj : j < C1) (hk : k < 4) (hc : c < C2) (he : e < K2 * C3) :
    apply_copies src (first_token_copies K1 C1 C2 K2 C3) fresh
        ((((i * C1 + j) * C2 + c) * 4 + k) * (K2 * C3) + e) =
      src ((((i * 4 + k) * C1 + j) * C2 + c) * (K2 * C3) + e) := by
  apply apply_copies_hit
  · intro w hw hp
    obtain ⟨i2, j2, k2, c2, e2, hi2, hj2, hk2, hc2, he2, rfl⟩ :=
      (mem_first_token_copies _ _ _ _ _ w).mp hw
    simp only [first_token_dst_eq, first_token_src_eq] at hp ⊢
    obtain ⟨r1, r2, r3, r4, r5⟩ := first_token_dst_inj C1 C2 (K2 * C3) i2 j2 k2 c2 e2 i j k c e
      hj2 hk2 hc2 he2 hj hk hc he hp
    rw [r1, r2, r3, r4, r5]
  · left
    refine ⟨_, (mem_first_token_copies _ _ _ _ _ _).mpr
      ⟨i, j, k, c, e, hi, hj, hk, hc, he, rfl⟩, ?_⟩
    exact first_token_dst_eq _ _ _ _ _ _ _ _ _

/-- Every copy of the loop nest writes inside the storage of the new tensor. -/
theorem first_token_copies_dst_lt (K1 C1 C2 K2 C3 : Nat) (w : Nat × Nat)
    (hw : w ∈ first_token_copies K1 C1 C2 K2 C3) :
    w.1 < [K1 / 4, C1, C2, 4 * K2, C3].prod := by
  obtain ⟨i, j, k, c, e, hi, hj, hk, hc, he, rfl⟩ := (mem_first_token_copies _ _ _ _ _ w).mp hw
  show vlaOff4 C1 C2 4 (K2 * C3) i j 0 k + c * (4 * K2 * C3) + e < _
  rw [first_token_dst_eq]
  have h1 := mul_add_lt i j (K1 / 4) C1 hi hj
  have h2 := mul_add_lt _ c _ C2 h1 hc
  have h3 := mul_add_lt _ k _ 4 h2 hk
  have h4 := mul_add_lt _ e _ (K2 * C3) h3 he
  have e5 : [K1 / 4, C1, C2, 4 * K2, C3].prod = K1 / 4 * C1 * C2 * 4 * (K2 * C3) := by
    simp only [List.prod_cons, List.prod_nil]; ring
  rw [e5]
  exact h4

/-- Every copy of the loop nest reads inside the storage of a rank-5 input whose first size
is a multiple of 4. -/
theorem first_token_copies_src_lt (K1 C1 C2 K2 C3 : Nat) (hK : K1 % 4 = 0) (w : Nat × Nat)
    (hw : w ∈ first_token_copies K1 C1 C2 K2 C3) :
    w.2 < [K1, C1, C2, K2, C3].prod := by
  obtain ⟨i, j, k, c, e, hi, hj, hk, hc, he, rfl⟩ := (mem_first_token_copies _ _ _ _ _ w).mp hw
  show vlaOff4 4 C1 C2 (K2 * C3) i k j 0 + c * (K2 * C3) + e < _
  rw [first_token_src_eq]
  have h0 : i * 4 + k < K1 := by omega
  have h1 := mul_add_lt _ j _ C1 h0 hj
  have h2 := mul_add_lt _ c _ C2 h1 hc
  have h4 := mul_add_lt _ e _ (K2 * C3) h2 he
  have e5 : [K1, C1, C2, K2, C3].prod = K1 * C1 * C2 * (K2 * C3) := by
    simp only [List.prod_cons, List.prod_nil]; ring
  rw [e5]
  exact h4

/-- The result of the copy loop and the reference formulation agree at every offset of the
new tensor. -/
theorem first_token_data_ref {α : Type} (src fresh : Nat → α) (K1 C1 C2 K2 C3 p : Nat)
    (hp : p < K1 / 4 * C1 * C2 * 4 * K2 * C3) :
    apply_copies src (first_token_copies K1 C1 C2 K2 C3) fresh p =
      src (((((p / C3 / K2 / 4 / C2 / C1 * 4 + p / C3 / K2 % 4) * C1 +
        p / C3 / K2 / 4 / C2 % C1) * C2 + p / C3 / K2 / 4 % C2) * K2 + p / C3 % K2) * C3 +
        p % C3) := by
  have c3pos : 0 < C3 := by
    rcases Nat.eq_zero_or_pos C3 with h | h
    · subst h; simp at hp
    · exact h
  have k2pos : 0 < K2 := by
    rcases Nat.eq_zero_or_pos K2 with h | h
    · subst h; simp at hp
    · exact h
  have c2pos : 0 < C2 := by
    rcases Nat.eq_zero_or_pos C2 with h | h
    · subst h; simp at hp
    · exact h
  have c1pos : 0 < C1 := by
    rcases Nat.eq_zero_or_pos C1 with h | h
    · subst h; simp at hp
    · exact h
  have e1 := Nat.div_add_mod' p C3
  have e2 := Nat.div_add_mod' (p / C3) K2
  have e3 := Nat.div_add_mod' (p / C3 / K2) 4
  have e4 := Nat.div_add_mod' (p / C3 / K2 / 4) C2
  have e5 := Nat.div_add_mod' (p / C3 / K2 / 4 / C2) C1
  have hi : p / C3 / K2 / 4 / C2 / C1 < K1 / 4 := by
    rw [Nat.div_lt_iff_lt_mul c1pos, Nat.div_lt_iff_lt_mul c2pos,
      Nat.div_lt_iff_lt_mul (by decide), Nat.div_lt_iff_lt_mul k2pos,
      Nat.div_lt_iff_lt_mul c3pos]
    exact hp
  have key := first_token_data src fresh K1 C1 C2 K2 C3 (p / C3 / K2 / 4 / C2 / C1)
    (p / C3 / K2 / 4 / C2 % C1) (p / C3 / K2 % 4) (p / C3 / K2 / 4 % C2)
    (p / C3 % K2 * C3 + p % C3) hi (Nat.mod_lt _ c1pos) (Nat.mod_lt _ (by decide))
    (Nat.mod_lt _ c2pos) (mul_add_lt _ _ _ _ (Nat.mod_lt _ k2pos) (Nat.mod_lt _ c3pos))
  have ed : (((p / C3 / K2 / 4 / C2 / C1 * C1 + p / C3 / K2 / 4 / C2 % C1) * C2 +
      p / C3 / K2 / 4 % C2) * 4 + p / C3 / K2 % 4) * (K2 * C3) +
      (p / C3 % K2 * C3 + p % C3) = p := by
    rw [e5, e4, e3]
    calc p / C3 / K2 * (K2 * C3) + (p / C3 % K2 * C3 + p % C3)
        = (p / C3 / K2 * K2 + p / C3 % K2) * C3 + p % C3 := by ring
      _ = p := by rw [e2, e1]
  rw [ed] at key
  rw [key]
  congr 1
  ring

/-- A fold of row-local updates over distinct, pairwise disjoint rows of a storage: every
row holds the result of its own update, computed from the content of the row before the
fold, and the storage outside the rows is unchanged. -/
theorem foldl_rows {α ι : Type} (H : Nat) (base : ι → Nat)
    (g : ι → (Nat → α) → Nat → α) (f : (Nat → α) → ι → (Nat → α)) :
    ∀ (l : List ι), l.Nodup →
      (∀ j, j ∈ l → ∀ m x, f m j x =
        if base j ≤ x ∧ x < base j + H then g j (fun i => m (base j + i)) (x - base j)
        else m x) →
      (∀ j, j ∈ l → ∀ r1 r2 : Nat → α, (∀ i, i < H → r1 i = r2 i) →
        ∀ h, h < H → g j r1 h = g j r2 h) →
      (∀ i j, i ∈ l → j ∈ l → i ≠ j → base i + H ≤ base j ∨ base j + H ≤ base i) →
      ∀ m, (∀ j, j ∈ l → ∀ h, h < H →
          l.foldl f m (base j + h) = g j (fun i => m (base j + i)) h) ∧
        (∀ x, (∀ j, j ∈ l → ¬ (base j ≤ x ∧ x < base j + H)) → l.foldl f m x = m x) := by
  intro l
  induction l with
  | nil =>
    intro _ _ _ _ m
    exact ⟨fun j hj => absurd hj (List.not_mem_nil _), fun x _ => rfl⟩
  | cons a l ih =>
    intro hnd hloc hcong hdis m
    have hnd2 := List.nodup_cons.mp hnd
    have IH := ih hnd2.2 (fun j hj => hloc j (List.mem_cons_of_mem _ hj))
      (fun j hj => hcong j (List.mem_cons_of_mem _ hj))
      (fun i j hi hj => hdis i j (List.mem_cons_of_mem _ hi) (List.mem_cons_of_mem _ hj))
      (f m a)
    have hout : ∀ j, j ∈ l → ∀ i, i < H → f m a (base j + i) = m (base j + i) := by
      intro j hj i hi
      rw [hloc a (List.mem_cons_self _ _)]
      have hne : j ≠ a := fun e => hnd2.1 (e ▸ hj)
      have hd := hdis j a (List.mem_cons_of_mem _ hj) (List.mem_cons_self _ _) hne
      rw [if_neg (by omega)]
    refine ⟨?_, ?_⟩
    · intro j hj h hh
      show l.foldl f (f m a) (base j + h) = _
      rcases List.mem_cons.mp hj with rfl | hj2
      · rw [IH.2 (base j + h) (by
          intro i hi
          have hne : i ≠ j := fun e => hnd2.1 (e ▸ hi)
          have hd := hdis i j (List.mem_cons_of_mem _ hi) (List.mem_cons_self _ _) hne
          omega)]
        rw [hloc j (List.mem_cons_self _ _), if_pos (by omega)]
        congr 1
        omega
      · rw [IH.1 j hj2 h hh]
        exact hcong j hj (fun i => f m a (base j + i)) (fun i => m (base j + i))
          (fun i hi => hout j hj2 i hi) h hh
    · intro x hx
      show l.foldl f (f m a) x = _
      rw [IH.2 x (fun j hj => hx j (List.mem_cons_of_mem _ hj)),
        hloc a (List.mem_cons_self _ _), if_neg (hx a (List.mem_cons_self _ _))]

/-- The rows of `[B][S][N][H]` visited by the rotary loops are distinct. -/
theorem rotary_rows_nodup (B S N : Nat) :
    (List.product (List.product (List.range B) (List.range S)) (List.range N)).Nodup :=
  List.Nodup.product (List.Nodup.product (List.nodup_range B) (List.nodup_range S))
    (List.nodup_range N)

theorem mem_rotary_rows (B S N : Nat) (bsn : (Nat × Nat) × Nat) :
    bsn ∈ List.product (List.product (List.range B) (List.range S)) (List.range N) ↔
      bsn.1.1 < B ∧ bsn.1.2 < S ∧ bsn.2 < N := by
  obtain ⟨⟨b, s⟩, n⟩ := bsn
  simp [List.product, and_assoc]

/-- Two distinct rows of `[B][S][N][H]` do not overlap. -/
theorem rotary_rows_disjoint (S N H : Nat) (i j : (Nat × Nat) × Nat)
    (hi : i.1.2 < S ∧ i.2 < N) (hj : j.1.2 < S ∧ j.2 < N) (hne : i ≠ j) :
    ((i.1.1 * S + i.1.2) * N + i.2) * H + H ≤ ((j.1.1 * S + j.1.2) * N + j.2) * H ∨
      ((j.1.1 * S + j.1.2) * N + j.2) * H + H ≤ ((i.1.1 * S + i.1.2) * N + i.2) * H := by
  have hr : (i.1.1 * S + i.1.2) * N + i.2 ≠ (j.1.1 * S + j.1.2) * N + j.2 := by
    intro e
    obtain ⟨e1, e2⟩ := mul_add_inj N _ _ _ _ hi.2 hj.2 e
    obtain ⟨e3, e4⟩ := mul_add_inj S _ _ _ _ hi.1 hj.1 e1
    apply hne
    obtain ⟨⟨b, s⟩, n⟩ := i
    obtain ⟨⟨b2, s2⟩, n2⟩ := j
    simp only at e2 e3 e4
    rw [e2, e3, e4]
  rcases Nat.lt_or_gt_of_ne hr with h | h
  · left
    calc _ = ((i.1.1 * S + i.1.2) * N + i.2 + 1) * H := by ring
      _ ≤ _ := Nat.mul_le_mul_right H h
  · right
    calc _ = ((j.1.1 * S + j.1.2) * N + j.2 + 1) * H := by ring
      _ ≤ _ := Nat.mul_le_mul_right H h

/-- The loop of `apply_rotary_pos_emb_gptj` over the first `m` pairs of a row. -/
theorem rotary_gptj_row {α R : Type} (ops : RotaryOps α R) (MP HR : Nat) (emb : Int → R)
    (p : Int) (base : Nat) :
    ∀ (m : Nat) (mem : Nat → α) (x : Nat),
      (List.range m).foldl (rotary_gptj_pair ops MP HR emb p base) mem x =
        if base ≤ x then gptj_rotated ops MP HR emb p m (fun i => mem (base + i)) (x - base)
        else mem x := by
  intro m
  induction m with
  | zero =>
    intro mem x
    by_cases hx : base ≤ x
    · simp only [List.range_zero, List.foldl_nil, if_pos hx, gptj_rotated, Nat.mul_zero,
        Nat.zero_le, or_true, if_true]
      congr 1; omega
    · simp only [List.range_zero, List.foldl_nil, if_neg hx]
  | succ m ih =>
    intro mem x
    rw [List.range_succ, List.foldl_append]
    simp only [List.foldl_cons, List.foldl_nil]
    have h0 := ih mem (base + 2 * m)
    have h1 := ih mem (base + (2 * m + 1))
    have hx := ih mem x
    rw [if_pos (by omega)] at h0 h1
    have e0 : gptj_rotated ops MP HR emb p m (fun i => mem (base + i)) (base + 2 * m - base) =
        mem (base + 2 * m) := by
      unfold gptj_rotated
      rw [if_pos (Or.inr (by omega))]
      congr 1; omega
    have e1 : gptj_rotated ops MP HR emb p m (fun i => mem (base + i))
        (base + (2 * m + 1) - base) = mem (base + (2 * m + 1)) := by
      unfold gptj_rotated
      rw [if_pos (Or.inr (by omega))]
      congr 1; omega
    rw [e0] at h0
    rw [e1] at h1
    generalize (List.range m).foldl (rotary_gptj_pair ops MP HR emb p base) mem = M
      at h0 h1 hx ⊢
    unfold rotary_gptj_pair
    dsimp only
    rw [h0, h1]
    by_cases hp : p ≥ (MP : Int)
    · rw [if_pos hp, hx]
      by_cases hb : base ≤ x
      · rw [if_pos hb, if_pos hb]
        unfold gptj_rotated
        rw [if_pos (Or.inl hp), if_pos (Or.inl hp)]
      · rw [if_neg hb, if_neg hb]
    · rw [if_neg hp]
      by_cases hb : base ≤ x
      · rw [if_pos hb]
        by_cases c1 : x = base + (2 * m + 1)
        · subst c1
          have d1 : (base + (2 * m + 1) - base) = 2 * m + 1 := by omega
          have d2 : (2 * m + 1) / 2 = m := by omega
          have d3 : (2 * m + 1) % 2 = 1 := by omega
          have n2 : ¬ (p ≥ (MP : Int) ∨ 2 * (m + 1) ≤ 2 * m + 1) := by
            intro hc
            rcases hc with hc | hc
            · exact hp hc
            · omega
          simp only [upd, if_true, gptj_rotated, d1, d2, d3]
          rw [if_neg n2]
          simp
        · by_cases c0 : x = base + 2 * m
          · subst c0
            have d1 : (base + 2 * m - base) = 2 * m := by omega
            have d2 : (2 * m) / 2 = m := by omega
            have d3 : (2 * m) % 2 = 0 := by omega
            have d4 : ¬ (base + 2 * m = base + (2 * m + 1)) := by omega
            have n2 : ¬ (p ≥ (MP : Int) ∨ 2 * (m + 1) ≤ 2 * m) := by
              intro hc
              rcases hc with hc | hc
              · exact hp hc
              · omega
            simp only [upd, d4, if_false, if_true, gptj_rotated, d1, d2, d3]
            rw [if_neg n2]
          · simp only [upd, c1, c0, if_false]
            rw [hx, if_pos hb]
            unfold gptj_rotated
            by_cases c2 : 2 * m ≤ x - base
            · rw [if_pos (Or.inr c2), if_pos (Or.inr (by omega))]
            · have n1 : ¬ (p ≥ (MP : Int) ∨ 2 * m ≤ x - base) := by
                intro hc
                rcases hc with hc | hc
                · exact hp hc
                · exact c2 hc
              have n2 : ¬ (p ≥ (MP : Int) ∨ 2 * (m + 1) ≤ x - base) := by
                intro hc
                rcases hc with hc | hc
                · exact hp hc
                · omega
              rw [if_neg n1, if_neg n2]
      · rw [if_neg hb]
        have c1 : ¬ (x = base + (2 * m + 1)) := by omega
        have c0 : ¬ (x = base + 2 * m) := by omega
        simp only [upd, c1, c0, if_false]
        rw [hx, if_neg hb]

theorem long_to_int_of_range (x : Int) (h1 : -2147483648 ≤ x) (h2 : x < 2147483648) :
    long_to_int x = x := by
  unfold long_to_int
  omega

/-- Closed form of `apply_rotary_pos_emb_gptj` on the rows of the tensor, when the pairs of
the rotary sub-dimension lie inside a row. -/
theorem apply_rotary_gptj_row {α R : Type} (ops : RotaryOps α R) (B S N H MP HR : Nat)
    (emb : Int → R) (pos : Nat → Int) (mem : Nat → α) (hH : 2 * ((HR + 1) / 2) ≤ H)
    (b s n h : Nat) (hb : b < B) (hs : s < S) (hn : n < N) (hh : h < H) :
    apply_rotary_pos_emb_gptj ops B S N H MP HR emb pos mem (((b * S + s) * N + n) * H + h) =
      gptj_rotated ops MP HR emb (long_to_int (pos (b * S + s))) ((HR + 1) / 2)
        (fun i => mem (((b * S + s) * N + n) * H + i)) h := by
  have key := (foldl_rows H
    (fun (bsn : (Nat × Nat) × Nat) => ((bsn.1.1 * S + bsn.1.2) * N + bsn.2) * H)
    (fun bsn row h => gptj_rotated ops MP HR emb (long_to_int (pos (bsn.1.1 * S + bsn.1.2)))
      ((HR + 1) / 2) row h)
    (fun m bsn =>
      (List.range ((HR + 1) / 2)).foldl
        (rotary_gptj_pair ops MP HR emb (long_to_int (pos (bsn.1.1 * S + bsn.1.2)))
          (((bsn.1.1 * S + bsn.1.2) * N + bsn.2) * H))
        m)
    (List.product (List.product (List.range B) (List.range S)) (List.range N))
    (rotary_rows_nodup B S N)
    (by
      intro j _ m x
      dsimp only
      rw [rotary_gptj_row]
      by_cases c1 : ((j.1.1 * S + j.1.2) * N + j.2) * H ≤ x
      · by_cases c2 : x < ((j.1.1 * S + j.1.2) * N + j.2) * H + H
        · rw [if_pos c1, if_pos ⟨c1, c2⟩]
        · rw [if_pos c1, if_neg (fun hx => c2 hx.2)]
          have hc : long_to_int (pos (j.1.1 * S + j.1.2)) ≥ (MP : Int) ∨
              2 * ((HR + 1) / 2) ≤ x - ((j.1.1 * S + j.1.2) * N + j.2) * H :=
            Or.inr (by omega)
          unfold gptj_rotated
          rw [if_pos hc]
          show m _ = m _
          congr 1; omega
      · rw [if_neg c1, if_neg (fun hx => c1 hx.1)])
    (by
      intro j _ r1 r2 hr h hh
      dsimp only
      unfold gptj_rotated
      by_cases c : long_to_int (pos (j.1.1 * S + j.1.2)) ≥ (MP : Int) ∨ 2 * ((HR + 1) / 2) ≤ h
      · rw [if_pos c, if_pos c]; exact hr h hh
      · rw [if_neg c, if_neg c]
        have hlt : h < 2 * ((HR + 1) / 2) := by
          by_contra hc
          exact c (Or.inr (by omega))
        dsimp only
        rw [hr (2 * (h / 2)) (by omega), hr (2 * (h / 2) + 1) (by omega)])
    (by
      intro i j hi hj hne
      have hi2 := (mem_rotary_rows B S N i).mp hi
      have hj2 := (mem_rotary_rows B S N j).mp hj
      exact rotary_rows_disjoint S N H i j ⟨hi2.2.1, hi2.2.2⟩ ⟨hj2.2.1, hj2.2.2⟩ hne)
    mem).1 ((b, s), n) ((mem_rotary_rows B S N ((b, s), n)).mpr ⟨hb, hs, hn⟩) h hh
  exact key

/-- The queue invariant: the pairs run so far followed by the pairs still queued are the
pairs appended so far, in order. -/
theorem pg_step_inv {ε : Type} (st : PGState ε) (a : PGStep ε) :
    (st.step a).ran ++ (st.step a).queue_ =
      st.ran ++ st.queue_ ++ PGStep.appended [a] := by
  cases a with
  | enqueue w =>
    simp [PGState.step, ProcessGroupMPI.enqueue, PGStep.appended]
  | runLoop =>
    simp only [PGState.step, ProcessGroupMPI.runLoop, PGStep.appended, List.filterMap_cons,
      List.filterMap_nil, List.append_nil]
    by_cases hs : st.stop_ = true
    · simp [hs]
    · simp only [hs, Bool.false_eq_true, if_false]
      cases hq : st.queue_ with
      | nil => simp [hq]
      | cons w rest => simp
  | destroy =>
    simp only [PGState.step, ProcessGroupMPI.destroy, PGStep.appended, List.filterMap_cons,
      List.filterMap_nil, List.append_nil]
    split <;> rfl

theorem pg_appended_append {ε : Type} (l1 l2 : List (PGStep ε)) :
    PGStep.appended (l1 ++ l2) = PGStep.appended l1 ++ PGStep.appended l2 := by
  simp [PGStep.appended, List.filterMap_append]

theorem pg_run_inv {ε : Type} (acts : List (PGStep ε)) :
    (PGState.run acts).ran ++ (PGState.run acts).queue_ = PGStep.appended acts := by
  induction acts using List.reverseRecOn with
  | nil => rfl
  | append_singleton l a ih =>
    have e : PGState.run (l ++ [a]) = (PGState.run l).step a := by
      simp [PGState.run, List.foldl_append]
    rw [e, pg_step_inv, ih, pg_appended_append]

/-- While `stop_` is not set, as many iterations of the worker loop as there are queued
pairs run all of them, in order. -/
theorem pg_drain {ε : Type} :
    ∀ (q : List ε) (st : PGState ε), st.queue_ = q → st.stop_ = false →
      ((List.replicate q.length PGStep.runLoop).foldl PGState.step st).ran = st.ran ++ q ∧
      ((List.replicate q.length PGStep.runLoop).foldl PGState.step st).queue_ = [] := by
  intro q
  induction q with
  | nil =>
    intro st hq _
    simp [hq]
  | cons w rest ih =>
    intro st hq hs
    simp only [List.length_cons, List.replicate_succ, List.foldl_cons]
    have e : st.step PGStep.runLoop = { st with queue_ := rest, ran := st.ran ++ [w] } := by
      simp [PGState.step, ProcessGroupMPI.runLoop, hs, hq]
    rw [e]
    have h := ih { st with queue_ := rest, ran := st.ran ++ [w] } rfl hs
    simpa using h

theorem filter_flatMap_eq {ι β : Type} (q : β → Bool) (g : ι → List β) :
    ∀ (l : List ι), (l.flatMap g).filter q = l.flatMap (fun x => (g x).filter q) := by
  intro l
  induction l with
  | nil => rfl
  | cons a l ih => simp only [List.flatMap_cons, List.filter_append, ih]

theorem flatMap_single {ι β : Type} (g : ι → List β) (a : ι) :
    ∀ (l : List ι), l.Nodup → a ∈ l → (∀ b, b ∈ l → b ≠ a → g b = []) →
      l.flatMap g = g a := by
  intro l
  induction l with
  | nil => intro _ ha; cases ha
  | cons x l ih =>
    intro hnd ha hnil
    have hnd2 := List.nodup_cons.mp hnd
    rw [List.flatMap_cons]
    rcases List.mem_cons.mp ha with rfl | ha2
    · have : l.flatMap g = [] := by
        rw [List.flatMap_eq_nil_iff]
        intro b hb
        exact hnil b (List.mem_cons_of_mem _ hb) (fun e => hnd2.1 (e ▸ hb))
      rw [this, List.append_nil]
    · have hx : x ≠ a := fun e => hnd2.1 (e ▸ ha2)
      rw [hnil x (List.mem_cons_self _ _) hx, List.nil_append]
      exact ih hnd2.2 ha2 (fun b hb => hnil b (List.mem_cons_of_mem _ hb))

theorem mem_loop_starts (n step s : Nat) :
    s ∈ loop_starts n step ↔ ∃ i, i < (n + step - 1) / step ∧ s = i * step := by
  simp only [loop_starts, List.mem_map, List.mem_range]
  constructor
  · rintro ⟨i, hi, rfl⟩; exact ⟨i, hi, rfl⟩
  · rintro ⟨i, hi, rfl⟩; exact ⟨i, hi, rfl⟩

theorem loop_starts_nodup (n step : Nat) (hstep : 1 ≤ step) : (loop_starts n step).Nodup := by
  unfold loop_starts
  apply List.Nodup.map _ (List.nodup_range _)
  intro a b hab
  exact Nat.eq_of_mul_eq_mul_right hstep hab

theorem fused_linear_tile_tile (epi with_bias : Bool) (Nc Ncb rows nc s1 nk : Nat)
    (c : TileCall) (hc : c ∈ fused_linear_tile epi with_bias Nc Ncb rows nc s1 nk) :
    c.tile = (s1, nk) := by
  unfold fused_linear_tile at hc
  simp only [List.mem_append, List.mem_singleton] at hc
  rcases hc with (hc | hc) | hc
  · split at hc
    · split at hc
      · rw [List.mem_singleton.mp hc]; rfl
      · rw [List.mem_singleton.mp hc]; rfl
    · cases hc
  · rw [hc]; rfl
  · split at hc
    · rw [List.mem_singleton.mp hc]; rfl
    · cases hc

theorem fused_linear_body_eq (epi with_bias : Bool) (Nc Ncb BS nc s1 nk : Nat) :
    fused_linear_body epi with_bias Nc Ncb BS nc s1 nk =
      fused_linear_tile epi with_bias Nc Ncb (tile_rows BS s1) nc s1 nk := by
  unfold fused_linear_body tile_rows
  by_cases h : s1 + 64 > BS
  · simp [h]
  · simp [h]

/-- The calls of the loop nest on one output tile are the calls of the iterations
`(nc, s1, nk)` for the contraction-block starts `nc`, in the order of the starts. -/
theorem fused_linear_calls_filter (epi with_bias : Bool) (Nc Ncb BS Nk s1 nk : Nat)
    (hs1 : s1 ∈ loop_starts BS 64) (hnk : nk < Nk) :
    (fused_linear_calls epi with_bias Nc Ncb BS Nk).filter (fun c => c.tile = (s1, nk)) =
      (loop_starts Nc Ncb).flatMap fun nc =>
        fused_linear_tile epi with_bias Nc Ncb (tile_rows BS s1) nc s1 nk := by
  unfold fused_linear_calls threaded_loop3
  rw [filter_flatMap_eq]
  congr 1
  funext nc
  rw [filter_flatMap_eq]
  rw [flatMap_single _ s1 _ (loop_starts_nodup BS 64 (by decide)) hs1]
  · rw [filter_flatMap_eq]
    rw [flatMap_single _ nk _ (List.nodup_range Nk) (List.mem_range.mpr hnk)]
    · rw [fused_linear_body_eq]
      apply List.filter_eq_self.mpr
      intro c hc
      simp [fused_linear_tile_tile _ _ _ _ _ _ _ _ c hc]
    · intro b _ hb
      rw [fused_linear_body_eq]
      apply List.filter_eq_nil_iff.mpr
      intro c hc
      simp [fused_linear_tile_tile _ _ _ _ _ _ _ _ c hc, hb]
  · intro b _ hb
    rw [filter_flatMap_eq, List.flatMap_eq_nil_iff]
    intro x _
    rw [fused_linear_body_eq]
    apply List.filter_eq_nil_iff.mpr
    intro c hc
    simp [fused_linear_tile_tile _ _ _ _ _ _ _ _ c hc, hb]

theorem flatMap_congr_mem {ι β : Type} (f g : ι → List β) :
    ∀ (l : List ι), (∀ x, x ∈ l → f x = g x) → l.flatMap f = l.flatMap g := by
  intro l
  induction l with
  | nil => intro _; rfl
  | cons a l ih =>
    intro h
    rw [List.flatMap_cons, List.flatMap_cons, h a (List.mem_cons_self _ _),
      ih (fun x hx => h x (List.mem_cons_of_mem _ hx))]

theorem flatMap_map_eq {ι κ β : Type} (f : ι → κ) (g : κ → List β) :
    ∀ (l : List ι), (l.map f).flatMap g = l.flatMap (fun x => g (f x)) := by
  intro l
  induction l with
  | nil => rfl
  | cons a l ih => simp only [List.map_cons, List.flatMap_cons, ih]

/-- The number of contraction-block starts is `j + 1` with `j * Ncb < Nc <= j * Ncb + Ncb`. -/
theorem loop_starts_count (Nc Ncb : Nat) (h1 : 1 ≤ Nc) (h2 : 1 ≤ Ncb) :
    ∃ j, (Nc + Ncb - 1) / Ncb = j + 1 ∧ j * Ncb < Nc ∧ Nc ≤ j * Ncb + Ncb := by
  have hdm := Nat.div_add_mod (Nc + Ncb - 1) Ncb
  have hmod := Nat.mod_lt (Nc + Ncb - 1) (by omega : Ncb > 0)
  have hpos : 0 < (Nc + Ncb - 1) / Ncb := Nat.div_pos (by omega) (by omega)
  obtain ⟨j, hj⟩ : ∃ j, (Nc + Ncb - 1) / Ncb = j + 1 := ⟨(Nc + Ncb - 1) / Ncb - 1, by omega⟩
  refine ⟨j, hj, ?_, ?_⟩
  · rw [hj] at hdm
    have e : Ncb * (j + 1) = j * Ncb + Ncb := by ring
    rw [e] at hdm
    omega
  · rw [hj] at hdm
    have e : Ncb * (j + 1) = j * Ncb + Ncb := by ring
    rw [e] at hdm
    omega

theorem flatMap_first_last {β : Type} (A E : List β) (c : Nat → β) (j : Nat) :
    (List.range (j + 1)).flatMap
        (fun i => (if i = 0 then A else []) ++ [c i] ++ (if i = j then E else [])) =
      A ++ (List.range (j + 1)).map c ++ E := by
  have aux : ∀ m, 1 ≤ m →
      (List.range m).flatMap (fun i => (if i = 0 then A else []) ++ [c i]) =
        A ++ (List.range m).map c := by
    intro m hm
    induction m with
    | zero => omega
    | succ m ih =>
      rcases Nat.eq_zero_or_pos m with h0 | hpos
      · subst h0
        simp [List.range_succ]
      · rw [List.range_succ, List.flatMap_append, ih hpos]
        have : ¬ (m = 0) := by omega
        simp [this]
  rw [List.range_succ, List.flatMap_append]
  have hl : (List.range j).flatMap
      (fun i => (if i = 0 then A else []) ++ [c i] ++ (if i = j then E else [])) =
      (List.range j).flatMap (fun i => (if i = 0 then A else []) ++ [c i]) := by
    apply flatMap_congr_mem
    intro x hx
    have : ¬ (x = j) := by have := List.mem_range.mp hx; omega
    simp [this]
  rw [hl]
  rcases Nat.eq_zero_or_pos j with h0 | hpos
  · subst h0
    simp
  · rw [aux j hpos]
    have : ¬ (j = 0) := by omega
    simp [this]

/-- The blocks `[nc, nc + count)` of the contraction-block starts, in order, are the
blocks `0, ..., Nc - 1`: every contraction block is covered once. -/
theorem loop_starts_partition (Nc Ncb : Nat) (h1 : 1 ≤ Nc) (h2 : 1 ≤ Ncb) :
    (loop_starts Nc Ncb).flatMap (fun nc => List.range' nc (block_count Nc Ncb nc)) =
      List.range Nc := by
  obtain ⟨j, hj, hlo, hhi⟩ := loop_starts_count Nc Ncb h1 h2
  have full : ∀ m, m ≤ j →
      (List.range m).flatMap (fun i => List.range' (i * Ncb) (block_count Nc Ncb (i * Ncb))) =
        List.range' 0 (m * Ncb) := by
    intro m hm
    induction m with
    | zero => simp
    | succ m ih =>
      rw [List.range_succ, List.flatMap_append, ih (by omega)]
      have hlt : m * Ncb + Ncb < Nc := by
        have : (m + 1) * Ncb ≤ j * Ncb := Nat.mul_le_mul_right Ncb hm
        have e : (m + 1) * Ncb = m * Ncb + Ncb := by ring
        omega
      simp only [List.flatMap_cons, List.flatMap_nil, List.append_nil, block_count, hlt,
        if_true]
      have e : (m + 1) * Ncb = m * Ncb + Ncb := by ring
      have ha := List.range'_append_1 0 (m * Ncb) Ncb
      rw [Nat.zero_add] at ha
      rw [e, ha]
      congr 1
      omega
  unfold loop_starts
  rw [flatMap_map_eq, hj, List.range_succ, List.flatMap_append, full j (Nat.le_refl _)]
  have hnl : ¬ (j * Ncb + Ncb < Nc) := by omega
  simp only [List.flatMap_cons, List.flatMap_nil, List.append_nil, block_count, hnl, if_false]
  have ha := List.range'_append_1 0 (j * Ncb) (Nc - j * Ncb)
  rw [Nat.zero_add] at ha
  rw [List.range_eq_range', ha]
  congr 1
  omega

/-- The calls on one output tile, in order: the initialisation, one accumulation for each
contraction-block start, and the epilogue. -/
theorem fused_linear_tile_trace (epi with_bias : Bool) (Nc Ncb rows s1 nk : Nat)
    (h1 : 1 ≤ Nc) (h2 : 1 ≤ Ncb) :
    ((loop_starts Nc Ncb).flatMap fun nc =>
        fused_linear_tile epi with_bias Nc Ncb rows nc s1 nk) =
      (if with_bias then [TileCall.copy_bias rows s1 nk] else [TileCall.zero rows s1 nk]) ++
        (loop_starts Nc Ncb).map
          (fun nc => TileCall.brgemm rows s1 nc nk (block_count Nc Ncb nc)) ++
        (if epi = true then [TileCall.epilogue rows s1 nk] else []) := by
  obtain ⟨j, hj, hlo, hhi⟩ := loop_starts_count Nc Ncb h1 h2
  unfold loop_starts
  rw [flatMap_map_eq, hj, List.map_map]
  rw [← flatMap_first_last _ _ _ j]
  apply flatMap_congr_mem
  intro i hi
  have hi2 := List.mem_range.mp hi
  unfold fused_linear_tile block_count
  have c0 : (i * Ncb = 0) ↔ (i = 0) := by
    constructor
    · intro h
      rcases Nat.mul_eq_zero.mp h with h | h
      · exact h
      · omega
    · intro h; rw [h, Nat.zero_mul]
  have cl : (¬ (i * Ncb + Ncb < Nc)) ↔ (i = j) := by
    constructor
    · intro h
      by_contra hne
      have hlt : i + 1 ≤ j := by omega
      have : (i + 1) * Ncb ≤ j * Ncb := Nat.mul_le_mul_right Ncb hlt
      have e : (i + 1) * Ncb = i * Ncb + Ncb := by ring
      omega
    · intro h; rw [h]; omega
  have e0 : (if i * Ncb = 0 then
        (if with_bias = true then [TileCall.copy_bias rows s1 nk]
          else [TileCall.zero rows s1 nk])
      else []) =
      (if i = 0 then
        (if with_bias = true then [TileCall.copy_bias rows s1 nk]
          else [TileCall.zero rows s1 nk])
      else []) := by
    by_cases a0 : i = 0
    · rw [if_pos a0, if_pos (c0.mpr a0)]
    · rw [if_neg a0, if_neg (fun h => a0 (c0.mp h))]
  have e1 : (if epi = true ∧ ¬ (i * Ncb + Ncb < Nc) then [TileCall.epilogue rows s1 nk]
      else []) =
      (if i = j then (if epi = true then [TileCall.epilogue rows s1 nk] else []) else []) := by
    by_cases al : i = j
    · rw [if_pos al]
      by_cases he : epi = true
      · rw [if_pos he, if_pos ⟨he, cl.mpr al⟩]
      · rw [if_neg he, if_neg (fun h => he h.1)]
    · rw [if_neg al, if_neg (fun h => al (cl.mp h.2))]
  rw [e0, e1]
  rfl

/-- The content of an element after a sequence of element updates is determined by the
updates of that element, in order. -/
theorem cell_fold {R : Type} [Add R] (p : Nat) :
    ∀ (l : List (Nat × CellOp R)) (m : Nat → R),
      l.foldl (fun m u => upd m u.1 (u.2.apply (m u.1))) m p =
        ((l.filter (fun u => u.1 = p)).map (fun u => u.2)).foldl (fun x op => op.apply x)
          (m p) := by
  intro l
  induction l with
  | nil => intro m; rfl
  | cons u l ih =>
    intro m
    rw [List.foldl_cons, ih]
    by_cases hu : u.1 = p
    · have e : (u :: l).filter (fun u => decide (u.1 = p)) =
          u :: l.filter (fun u => decide (u.1 = p)) := by
        simp [List.filter_cons, hu]
      rw [e]
      simp only [List.map_cons, List.foldl_cons, upd, hu, if_true]
    · have e : (u :: l).filter (fun u => decide (u.1 = p)) =
          l.filter (fun u => decide (u.1 = p)) := by
        simp [List.filter_cons, hu]
      have hne : ¬ (p = u.1) := fun h => hu h.symm
      rw [e]
      simp only [upd, hne, if_false]

theorem fold_add_ops {R : Type} [Semiring R] {ι : Type} (f : ι → R) :
    ∀ (l : List ι) (y : R),
      (l.map (fun nc => CellOp.add (f nc))).foldl (fun x op => op.apply x) y =
        y + (l.map f).sum := by
  intro l
  induction l with
  | nil => intro y; simp
  | cons a l ih =>
    intro y
    simp only [List.map_cons, List.foldl_cons, List.sum_cons]
    rw [ih]
    show y + f a + _ = _
    rw [add_assoc]

theorem sum_map_flatMap {R ι κ : Type} [AddMonoid R] (g : κ → R) (f : ι → List κ) :
    ∀ (l : List ι), ((l.flatMap f).map g).sum = (l.map (fun x => ((f x).map g).sum)).sum := by
  intro l
  induction l with
  | nil => rfl
  | cons a l ih =>
    simp only [List.flatMap_cons, List.map_append, List.sum_append, List.map_cons,
      List.sum_cons, ih]

theorem flatMap_filter_of {ι β : Type} (q : ι → Bool) (g : ι → List β) :
    ∀ (l : List ι), (∀ x, x ∈ l → q x = false → g x = []) →
      l.flatMap g = (l.filter q).flatMap g := by
  intro l
  induction l with
  | nil => intro _; rfl
  | cons a l ih =>
    intro h
    rw [List.flatMap_cons, ih (fun x hx => h x (List.mem_cons_of_mem _ hx))]
    by_cases ha : q a = true
    · rw [List.filter_cons_of_pos ha, List.flatMap_cons]
    · have ha2 : q a = false := by simpa using ha
      rw [List.filter_cons_of_neg ha, h a (List.mem_cons_self _ _) ha2, List.nil_append]

/-- The updates of a tile kernel that hit the element `[R0][nk0 * Hk + hk0]` of the
output. -/
theorem tile_cells_filter {R : Type} (Nk Hk rows s1 nk : Nat) (v : Nat → Nat → CellOp R)
    (R0 nk0 hk0 : Nat) (hnk : nk < Nk) (hnk0 : nk0 < Nk) (hhk0 : hk0 < Hk) :
    (tile_cells Nk Hk rows s1 nk v).filter (fun u => u.1 = (R0 * Nk + nk0) * Hk + hk0) =
      if s1 ≤ R0 ∧ R0 < s1 + rows ∧ nk = nk0 then
        [((R0 * Nk + nk0) * Hk + hk0, v (R0 - s1) hk0)]
      else [] := by
  have key : ∀ r hk, hk < Hk →
      ((s1 * Nk + nk) * Hk + r * (Nk * Hk) + hk = (R0 * Nk + nk0) * Hk + hk0 ↔
        s1 + r = R0 ∧ nk = nk0 ∧ hk = hk0) := by
    intro r hk hhk
    have e : (s1 * Nk + nk) * Hk + r * (Nk * Hk) + hk = ((s1 + r) * Nk + nk) * Hk + hk := by
      ring
    rw [e]
    constructor
    · intro h
      obtain ⟨h1, h2⟩ := mul_add_inj Hk _ _ _ _ hhk hhk0 h
      obtain ⟨h3, h4⟩ := mul_add_inj Nk _ _ _ _ hnk hnk0 h1
      exact ⟨h3, h4, h2⟩
    · rintro ⟨h1, h2, h3⟩
      rw [h1, h2, h3]
  unfold tile_cells
  rw [filter_flatMap_eq]
  by_cases hc : s1 ≤ R0 ∧ R0 < s1 + rows ∧ nk = nk0
  · rw [if_pos hc]
    obtain ⟨c1, c2, c3⟩ := hc
    rw [flatMap_single _ (R0 - s1) _ (List.nodup_range rows) (List.mem_range.mpr (by omega))]
    · rw [filter_flatMap_eq]
      rw [flatMap_single _ hk0 _ (List.nodup_range Hk) (List.mem_range.mpr hhk0)]
      · have hk := (key (R0 - s1) hk0 hhk0).mpr ⟨by omega, c3, rfl⟩
        rw [List.filter_cons_of_pos (by simpa using hk), List.filter_nil, hk]
      · intro b hb hne
        have hb2 := List.mem_range.mp hb
        rw [List.filter_cons_of_neg, List.filter_nil]
        intro h
        exact hne ((key (R0 - s1) b hb2).mp (by simpa using h)).2.2
    · intro b _ hne
      rw [filter_flatMap_eq, List.flatMap_eq_nil_iff]
      intro hk hhk
      have hhk2 := List.mem_range.mp hhk
      rw [List.filter_cons_of_neg, List.filter_nil]
      intro h
      have := ((key b hk hhk2).mp (by simpa using h)).1
      omega
  · rw [if_neg hc, List.flatMap_eq_nil_iff]
    intro r hr
    have hr2 := List.mem_range.mp hr
    rw [filter_flatMap_eq, List.flatMap_eq_nil_iff]
    intro hk hhk
    have hhk2 := List.mem_range.mp hhk
    rw [List.filter_cons_of_neg, List.filter_nil]
    intro h
    obtain ⟨k1, k2, k3⟩ := (key r hk hhk2).mp (by simpa using h)
    exact hc ⟨by omega, by omega, k2⟩

theorem fused_linear_tile_rows (epi with_bias : Bool) (Nc Ncb rows nc s1 nk : Nat)
    (c : TileCall) (hc : c ∈ fused_linear_tile epi with_bias Nc Ncb rows nc s1 nk) :
    c.rows = rows := by
  unfold fused_linear_tile at hc
  simp only [List.mem_append, List.mem_singleton] at hc
  rcases hc with (hc | hc) | hc
  · split at hc
    · split at hc
      · rw [List.mem_singleton.mp hc]; rfl
      · rw [List.mem_singleton.mp hc]; rfl
    · cases hc
  · rw [hc]; rfl
  · split at hc
    · rw [List.mem_singleton.mp hc]; rfl
    · cases hc

/-- Every call of the loop nest works on a tile `(s1, nk)` of the iteration space, with the
row count of that tile. -/
theorem mem_fused_linear_calls (epi with_bias : Bool) (Nc Ncb BS Nk : Nat) (c : TileCall)
    (hc : c ∈ fused_linear_calls epi with_bias Nc Ncb BS Nk) :
    ∃ s1 nk, s1 ∈ loop_starts BS 64 ∧ nk < Nk ∧ c.tile = (s1, nk) ∧
      c.rows = tile_rows BS s1 := by
  unfold fused_linear_calls threaded_loop3 at hc
  simp only [List.mem_flatMap, List.mem_range] at hc
  obtain ⟨nc, _, s1, hs1, nk, hnk, hc2⟩ := hc
  rw [fused_linear_body_eq] at hc2
  exact ⟨s1, nk, hs1, hnk, fused_linear_tile_tile _ _ _ _ _ _ _ _ c hc2,
    fused_linear_tile_rows _ _ _ _ _ _ _ _ c hc2⟩

/-- The updates of a call that hit an element outside the tile of the call: none. -/
theorem cells_filter_off_tile {R : Type} [Semiring R] (inp wt bias : Nat → R)
    (C Nc Hc Nk Hk : Nat) (c : TileCall) (R0 nk0 hk0 : Nat) (hnk : c.tile.2 < Nk)
    (hnk0 : nk0 < Nk) (hhk0 : hk0 < Hk)
    (hoff : ¬ (c.tile.1 ≤ R0 ∧ R0 < c.tile.1 + c.rows ∧ c.tile.2 = nk0)) :
    (TileCall.cells inp wt bias C Nc Hc Nk Hk c).filter
      (fun u => u.1 = (R0 * Nk + nk0) * Hk + hk0) = [] := by
  cases c with
  | copy_bias rows s1 nk =>
    simp only [TileCall.cells]
    rw [tile_cells_filter Nk Hk rows s1 nk _ R0 nk0 hk0 hnk hnk0 hhk0]
    exact if_neg hoff
  | zero rows s1 nk =>
    simp only [TileCall.cells]
    rw [tile_cells_filter Nk Hk rows s1 nk _ R0 nk0 hk0 hnk hnk0 hhk0]
    exact if_neg hoff
  | brgemm rows s1 nc nk count =>
    simp only [TileCall.cells]
    rw [tile_cells_filter Nk Hk rows s1 nk _ R0 nk0 hk0 hnk hnk0 hhk0]
    exact if_neg hoff
  | epilogue rows s1 nk => rfl

/-- The row block of a row `R0 < BS`. -/
theorem row_block (BS R0 : Nat) (hR : R0 < BS) :
    R0 / 64 * 64 ∈ loop_starts BS 64 ∧ R0 / 64 * 64 ≤ R0 ∧
      R0 < R0 / 64 * 64 + tile_rows BS (R0 / 64 * 64) := by
  refine ⟨(mem_loop_starts BS 64 _).mpr ⟨R0 / 64, by omega, rfl⟩, by omega, ?_⟩
  unfold tile_rows
  split <;> omega

theorem row_block_unique (BS R0 s1 : Nat) (hs1 : s1 ∈ loop_starts BS 64)
    (h1 : s1 ≤ R0) (h2 : R0 < s1 + tile_rows BS s1) : s1 = R0 / 64 * 64 := by
  obtain ⟨i, _, rfl⟩ := (mem_loop_starts BS 64 s1).mp hs1
  unfold tile_rows at h2
  split at h2 <;> omega

/-- The value accumulated by one GEMM call is the sum over its contraction blocks of the
products of the input row with the weight column. -/
theorem brgemm_acc_eq {R : Type} [Semiring R] (inp wt : Nat → R)
    (Nc Hc Hk s1 nc nk count r hk : Nat) :
    brgemm_acc inp wt Hc Hk (Nc * Hc) ((s1 * Nc + nc) * Hc) ((nk * Nc + nc) * (Hc * Hk))
        count r hk =
      ((List.range' nc count).map fun c =>
        ((List.range Hc).map fun hc =>
          inp ((s1 + r) * (Nc * Hc) + c * Hc + hc) *
            wt (((nk * Nc + c) * Hc + hc) * Hk + hk)).sum).sum := by
  unfold brgemm_acc
  rw [List.range'_eq_map_range, List.map_map]
  congr 1
  apply List.map_congr_left
  intro i _
  simp only [Function.comp]
  congr 1
  apply List.map_congr_left
  intro hc _
  have e1 : (s1 * Nc + nc) * Hc + i * Hc + r * (Nc * Hc) + hc =
      (s1 + r) * (Nc * Hc) + (nc + i) * Hc + hc := by ring
  have e2 : (nk * Nc + nc) * (Hc * Hk) + i * (Hk * Hc) + hc * Hk + hk =
      ((nk * Nc + (nc + i)) * Hc + hc) * Hk + hk := by ring
  rw [e1, e2]

/-- The updates of the element `[r][nk * Hk + hk]` made by `fc_plain`, in order: the
initialisation, then one accumulation for each contraction-block start. -/
theorem fc_plain_updates {R : Type} [Semiring R] (with_bias : Bool)
    (Ncb BS Nk Nc Hc Hk : Nat) (inp wt bias : Nat → R)
    (hNc : 1 ≤ Nc) (hNcb : 1 ≤ Ncb) (r nk hk : Nat) (hr : r < BS) (hnk : nk < Nk)
    (hhk : hk < Hk) :
    ((fused_linear_calls false with_bias Nc Ncb BS Nk).flatMap
        (TileCall.cells inp wt bias (Nc * Hc) Nc Hc Nk Hk)).filter
      (fun u => u.1 = (r * Nk + nk) * Hk + hk) =
      ((r * Nk + nk) * Hk + hk,
          if with_bias then CellOp.set (bias (nk * Hk + hk)) else CellOp.set 0) ::
        (loop_starts Nc Ncb).map fun nc =>
          ((r * Nk + nk) * Hk + hk,
            CellOp.add (brgemm_acc inp wt Hc Hk (Nc * Hc) ((r / 64 * 64 * Nc + nc) * Hc)
              ((nk * Nc + nc) * (Hc * Hk)) (block_count Nc Ncb nc) (r - r / 64 * 64) hk)) := by
  obtain ⟨hb1, hb2, hb3⟩ := row_block BS r hr
  have hin : r / 64 * 64 ≤ r ∧ r < r / 64 * 64 + tile_rows BS (r / 64 * 64) ∧ nk = nk :=
    ⟨hb2, hb3, rfl⟩
  rw [filter_flatMap_eq]
  rw [flatMap_filter_of (fun c => decide (c.tile = (r / 64 * 64, nk))) _
    (fused_linear_calls false with_bias Nc Ncb BS Nk)
    (by
      intro c hc hq
      obtain ⟨s1, nk2, hs1, hnk2, ht, hrows⟩ := mem_fused_linear_calls _ _ _ _ _ _ c hc
      apply cells_filter_off_tile inp wt bias (Nc * Hc) Nc Hc Nk Hk c r nk hk
        (by rw [ht]; exact hnk2) hnk hhk
      rw [ht, hrows]
      rintro ⟨c1, c2, c3⟩
      have e1 := row_block_unique BS r s1 hs1 c1 c2
      have hne : ¬ (c.tile = (r / 64 * 64, nk)) := by simpa using hq
      apply hne
      rw [ht]
      simp only at c3
      rw [e1, c3])]
  rw [fused_linear_calls_filter false with_bias Nc Ncb BS Nk _ nk hb1 hnk,
    fused_linear_tile_trace false with_bias Nc Ncb _ _ nk hNc hNcb]
  simp only [Bool.false_eq_true, if_false, List.append_nil, List.flatMap_append]
  rw [flatMap_map_eq]
  have hbr : ((loop_starts Nc Ncb).flatMap fun nc =>
      (TileCall.cells inp wt bias (Nc * Hc) Nc Hc Nk Hk
        (TileCall.brgemm (tile_rows BS (r / 64 * 64)) (r / 64 * 64) nc nk
          (block_count Nc Ncb nc))).filter (fun u => u.1 = (r * Nk + nk) * Hk + hk)) =
      (loop_starts Nc Ncb).map fun nc =>
        ((r * Nk + nk) * Hk + hk,
          CellOp.add (brgemm_acc inp wt Hc Hk (Nc * Hc) ((r / 64 * 64 * Nc + nc) * Hc)
            ((nk * Nc + nc) * (Hc * Hk)) (block_count Nc Ncb nc) (r - r / 64 * 64) hk)) := by
    induction (loop_starts Nc Ncb) with
    | nil => rfl
    | cons a l ih =>
      rw [List.flatMap_cons, List.map_cons, ih]
      simp only [TileCall.cells]
      rw [tile_cells_filter Nk Hk _ _ nk _ r nk hk hnk hnk hhk, if_pos hin]
      rfl
  rw [hbr]
  cases with_bias with
  | true =>
    simp only [if_true, List.flatMap_cons, List.flatMap_nil, List.append_nil, TileCall.cells]
    rw [tile_cells_filter Nk Hk _ _ nk _ r nk hk hnk hnk hhk, if_pos hin]
    rfl
  | false =>
    simp only [Bool.false_eq_true, if_false, List.flatMap_cons, List.flatMap_nil,
      List.append_nil, TileCall.cells]
    rw [tile_cells_filter Nk Hk _ _ nk _ r nk hk hnk hnk hhk, if_pos hin]
    rfl

/-! ## The worker thread and the handles -/

theorem runLoop_try_match {ε X : Type} (calls : TryCalls ε X) (w : ε) :
    MarksMatch calls (w, (runLoop_try calls w).1) := by
  unfold MarksMatch runLoop_try
  cases hr : calls.run w with
  | some e =>
    refine ⟨?_, ?_, ?_⟩
    · intro e2 h2
      cases h2
      rfl
    · intro h2; cases h2
    · intro e2 h2; cases h2
  | none =>
    cases hf : calls.finishWorkMPI w with
    | none =>
      refine ⟨?_, ?_, ?_⟩
      · intro e2 h2; cases h2
      · intro _ _; rfl
      · intro e2 _ h3; cases h3
    | some e =>
      refine ⟨?_, ?_, ?_⟩
      · intro e2 h2; cases h2
      · intro _ h3; cases h3
      · intro e2 _ h3
        cases h3
        rfl

theorem pg_destroy_ran {ε : Type} (st : PGState ε) :
    (ProcessGroupMPI.destroy st).ran = st.ran := by
  unfold ProcessGroupMPI.destroy
  split <;> rfl

theorem pg_runLoop_ran {ε : Type} (st : PGState ε) :
    (ProcessGroupMPI.runLoop st).ran =
      st.ran ++ (if st.stop_ = true then none else st.queue_.head?).toList := by
  unfold ProcessGroupMPI.runLoop
  by_cases hs : st.stop_ = true
  · simp [hs]
  · simp only [hs, Bool.false_eq_true, if_false]
    cases hq : st.queue_ with
    | nil => simp
    | cons w rest => simp

theorem pgw_step_inv {ε X : Type} (calls : TryCalls ε X) (st : PGWorker ε X)
    (a : WorkerStep ε) (h : PGWorker.Inv calls st) : PGWorker.Inv calls (st.step calls a) := by
  obtain ⟨h1, h2, h3⟩ := h
  unfold PGWorker.step
  by_cases he : st.escaped.isSome = true
  · rw [if_pos he]
    exact ⟨h1, h2, h3⟩
  · rw [if_neg he]
    cases a with
    | enqueue w => exact ⟨h1, h2, h3⟩
    | destroy =>
      refine ⟨?_, h2, h3⟩
      show (ProcessGroupMPI.destroy st.pg).ran = _
      rw [pg_destroy_ran]
      exact h1
    | take =>
      cases hc : st.current with
      | some w => simp only []; exact ⟨h1, h2, h3⟩
      | none =>
        simp only []
        rw [hc] at h1
        refine ⟨?_, h2, fun hx => absurd hx he⟩
        show (ProcessGroupMPI.runLoop st.pg).ran = _
        rw [pg_runLoop_ran, h1]
        simp
    | finish =>
      cases hc : st.current with
      | none => simp only []; exact ⟨h1, h2, h3⟩
      | some w =>
        simp only []
        rw [hc] at h1
        refine ⟨by simp [h1], ?_, fun _ => rfl⟩
        intro p hp
        simp only [List.mem_append, List.mem_singleton] at hp
        rcases hp with hp | rfl
        · exact h2 p hp
        · exact runLoop_try_match calls w

theorem pgw_run_inv {ε X : Type} (calls : TryCalls ε X) (acts : List (WorkerStep ε)) :
    PGWorker.Inv calls (PGWorker.run calls acts) := by
  unfold PGWorker.run
  apply foldl_inv (PGWorker.Inv calls) (PGWorker.step calls) acts
  · intro a _ s hs
    exact pgw_step_inv calls s a hs
  · exact ⟨rfl, fun p hp => absurd hp (List.not_mem_nil p), fun _ => rfl⟩

theorem pgw_run_snoc {ε X : Type} (calls : TryCalls ε X) (acts : List (WorkerStep ε))
    (a : WorkerStep ε) :
    PGWorker.run calls (acts ++ [a]) = (PGWorker.run calls acts).step calls a := by
  simp [PGWorker.run, List.foldl_append]

theorem pgw_finish {ε X : Type} (calls : TryCalls ε X) (st : PGWorker ε X)
    (h : PGWorker.Inv calls st) :
    (st.step calls WorkerStep.finish).marks.map Prod.fst = st.pg.ran ∧
      (st.step calls WorkerStep.finish).pg = st.pg ∧
      (st.step calls WorkerStep.finish).current = none := by
  obtain ⟨h1, -, h3⟩ := h
  unfold PGWorker.step
  by_cases he : st.escaped.isSome = true
  · rw [if_pos he]
    have hc := h3 he
    rw [hc] at h1
    exact ⟨by simp [h1], rfl, hc⟩
  · rw [if_neg he]
    cases hc : st.current with
    | none => simp only []; rw [hc] at h1; simp [h1, hc]
    | some w =>
      simp only []
      rw [hc] at h1
      simp [h1]

theorem pg_destroy_sets_stop {ε : Type} (st : PGState ε) (h0 : st.stop_ = false)
    (h1 : (ProcessGroupMPI.destroy st).stop_ = true) : st.queue_ = [] := by
  unfold ProcessGroupMPI.destroy at h1
  by_cases hq : st.queue_.isEmpty = true
  · exact List.isEmpty_iff.mp hq
  · rw [if_neg hq] at h1
    rw [h0] at h1
    exact absurd h1 (by decide)

theorem pgw_destroy_sets_stop {ε X : Type} (calls : TryCalls ε X) (st : PGWorker ε X)
    (h0 : st.pg.stop_ = false) (h1 : (st.step calls WorkerStep.destroy).pg.stop_ = true) :
    st.pg.queue_ = [] := by
  unfold PGWorker.step at h1
  by_cases he : st.escaped.isSome = true
  · rw [if_pos he, h0] at h1
    exact absurd h1 (by decide)
  · rw [if_neg he] at h1
    exact pg_destroy_sets_stop st.pg h0 h1

theorem checkSingleTensor_single (cudaAware : Bool) (t : TensorArg) :
    checkSingleTensor cudaAware [t] = checkSingleTensorHelper cudaAware t := by
  simp [checkSingleTensor]

theorem low_prec_non_sum_single (t : TensorArg) (op : ReduceOp) :
    low_prec_non_sum [t] op = true ↔
      (t.scalar_type = ScalarType.kBFloat16 ∨ t.scalar_type = ScalarType.kHalf) ∧
        op ≠ ReduceOp.SUM := by
  simp [low_prec_non_sum]

theorem allreduce_rejected (cudaAware : Bool) (st : PGState WorkEntry)
    (tensors : List TensorArg) (op : ReduceOp) (e : String)
    (h : (ProcessGroupMPI.allreduce cudaAware st tensors op).2 = Except.error e) :
    (ProcessGroupMPI.allreduce cudaAware st tensors op).1 = st := by
  unfold ProcessGroupMPI.allreduce at h ⊢
  cases hc : checkSingleTensor cudaAware tensors with
  | error e2 => rfl
  | ok u =>
    simp only [hc] at h ⊢
    by_cases hl : low_prec_non_sum tensors op = true
    · rw [if_pos hl]
    · rw [if_neg hl] at h
      cases h

theorem reduce_rejected (cudaAware : Bool) (st : PGState WorkEntry)
    (tensors : List TensorArg) (op : ReduceOp) (e : String)
    (h : (ProcessGroupMPI.reduce cudaAware st tensors op).2 = Except.error e) :
    (ProcessGroupMPI.reduce cudaAware st tensors op).1 = st := by
  unfold ProcessGroupMPI.reduce at h ⊢
  cases hc : checkSingleTensor cudaAware tensors with
  | error e2 => rfl
  | ok u =>
    simp only [hc] at h ⊢
    by_cases hl : low_prec_non_sum tensors op = true
    · rw [if_pos hl]
    · rw [if_neg hl] at h
      cases h

theorem allreduce_single (cudaAware : Bool) (st : PGState WorkEntry) (t : TensorArg)
    (op : ReduceOp) (hv : checkSingleTensorHelper cudaAware t = Except.ok ()) :
    ((∃ e, (ProcessGroupMPI.allreduce cudaAware st [t] op).2 = Except.error e) ↔
      (t.scalar_type = ScalarType.kBFloat16 ∨ t.scalar_type = ScalarType.kHalf) ∧
        op ≠ ReduceOp.SUM) ∧
    ((ProcessGroupMPI.allreduce cudaAware st [t] op).2 = Except.ok () →
      (ProcessGroupMPI.allreduce cudaAware st [t] op).1.queue_ =
        st.queue_ ++ [{ title := "mpi:all_reduce", src := [t], dst := [t], reduceOp := op }]) := by
  unfold ProcessGroupMPI.allreduce
  rw [checkSingleTensor_single, hv]
  simp only []
  by_cases hl : low_prec_non_sum [t] op = true
  · rw [if_pos hl]
    refine ⟨⟨fun _ => (low_prec_non_sum_single t op).mp hl, fun _ => ⟨_, rfl⟩⟩, ?_⟩
    intro h
    cases h
  · rw [if_neg hl]
    refine ⟨⟨?_, fun h => absurd ((low_prec_non_sum_single t op).mpr h) hl⟩, fun _ => rfl⟩
    rintro ⟨e, he⟩
    cases he

theorem reduce_single (cudaAware : Bool) (st : PGState WorkEntry) (t : TensorArg)
    (op : ReduceOp) (hv : checkSingleTensorHelper cudaAware t = Except.ok ()) :
    ((∃ e, (ProcessGroupMPI.reduce cudaAware st [t] op).2 = Except.error e) ↔
      (t.scalar_type = ScalarType.kBFloat16 ∨ t.scalar_type = ScalarType.kHalf) ∧
        op ≠ ReduceOp.SUM) ∧
    ((ProcessGroupMPI.reduce cudaAware st [t] op).2 = Except.ok () →
      (ProcessGroupMPI.reduce cudaAware st [t] op).1.queue_ =
        st.queue_ ++ [{ title := "mpi:reduce", src := [t], dst := [t], reduceOp := op }]) := by
  unfold ProcessGroupMPI.reduce
  rw [checkSingleTensor_single, hv]
  simp only []
  by_cases hl : low_prec_non_sum [t] op = true
  · rw [if_pos hl]
    refine ⟨⟨fun _ => (low_prec_non_sum_single t op).mp hl, fun _ => ⟨_, rfl⟩⟩, ?_⟩
    intro h
    cases h
  · rw [if_neg hl]
    refine ⟨⟨?_, fun h => absurd ((low_prec_non_sum_single t op).mpr h) hl⟩, fun _ => rfl⟩
    rintro ⟨e, he⟩
    cases he

/-- The loop of `createProcessGroupMPI` in closed form: it stops at the first call of
`MPI_Comm_create` that does not return 0 and sets the flag there; when the three calls
return 0 it makes them all and leaves the flag false. -/
theorem comm_create_loop_eq (rets : Nat → Int) :
    comm_create_loop rets =
      if rets 0 ≠ 0 then { groupComm_updated := true, calls := 1, broke := true }
      else if rets 1 ≠ 0 then { groupComm_updated := true, calls := 2, broke := true }
      else if rets 2 ≠ 0 then { groupComm_updated := true, calls := 3, broke := true }
      else { groupComm_updated := false, calls := 3, broke := false } := by
  unfold comm_create_loop kMaxNumRetries
  simp only [List.range_succ, List.range_zero, List.nil_append, List.cons_append,
    List.foldl_cons, List.foldl_nil]
  by_cases h0 : rets 0 = 0 <;> by_cases h1 : rets 1 = 0 <;> by_cases h2 : rets 2 = 0 <;>
    simp [h0, h1, h2]

/-- The check after the loop raises exactly when some call made by the loop did not return
`MPI_SUCCESS`, and three calls are made when all of them return `MPI_SUCCESS`. -/
theorem createProcessGroupMPI_comm_spec (rets : Nat → Int) :
    ((∃ e, (createProcessGroupMPI_comm rets).2 = Except.error e) ↔
      (rets 0 ≠ MPI_SUCCESS ∨ rets 1 ≠ MPI_SUCCESS ∨ rets 2 ≠ MPI_SUCCESS)) ∧
    (createProcessGroupMPI_comm rets).1 ≤ kMaxNumRetries ∧
    (rets 0 = MPI_SUCCESS → rets 1 = MPI_SUCCESS → rets 2 = MPI_SUCCESS →
      (createProcessGroupMPI_comm rets).1 = 3) ∧
    (rets 0 ≠ MPI_SUCCESS → (createProcessGroupMPI_comm rets).1 = 1) := by
  unfold createProcessGroupMPI_comm
  simp only [comm_create_loop_eq, MPI_CHECK, MPI_SUCCESS, kMaxNumRetries]
  by_cases h0 : rets 0 = 0 <;> by_cases h1 : rets 1 = 0 <;> by_cases h2 : rets 2 = 0 <;>
    simp [h0, h1, h2]

theorem prefill_inline_trans_iff (Sq : Nat) :
    (prefill_inline_trans Sq = true ↔ (Sq + 64 - 1) / 64 = 1) ∧
      (prefill_inline_trans Sq = true ↔ 1 ≤ Sq ∧ Sq ≤ 64) := by
  unfold prefill_inline_trans
  refine ⟨decide_eq_true_iff, ?_⟩
  rw [decide_eq_true_iff]
  constructor
  · intro h
    omega
  · intro h
    omega

theorem prefill_Skb_eq (SKB Sq : Nat) :
    prefill_Skb SKB Sq = if prefill_inline_trans Sq = true then SKB else 1024 := by
  unfold prefill_Skb prefill_inline_trans
  simp only [decide_eq_true_eq]

theorem mem_prefill_tiles (SKB VBS Sq Sk : Nat) (t : ScoreTile) :
    t ∈ prefill_tiles SKB VBS Sq Sk ↔
      t.sq ∈ loop_starts Sq 64 ∧ t.sk ∈ loop_starts Sk (prefill_Skb SKB Sq) ∧
        t.qbs = prefill_qbs Sq t.sq ∧
        t.kbs = prefill_kbs (prefill_Skb SKB Sq) (prefill_Sk_pad VBS Sk) Sk t.sk := by
  unfold prefill_tiles prefill_qbs prefill_kbs
  simp only [List.mem_flatMap, List.mem_map]
  constructor
  · rintro ⟨sq, hsq, sk, hsk, rfl⟩
    exact ⟨hsq, hsk, rfl, rfl⟩
  · rintro ⟨h1, h2, h3, h4⟩
    refine ⟨t.sq, h1, t.sk, h2, ?_⟩
    cases t
    simp only at h3 h4
    simp [h3, h4]

/-! ## Tiles of the prefill `attn` -/

theorem loop_starts_lt (n step s : Nat) (hstep : 0 < step) (h : s ∈ loop_starts n step) :
    s < n ∧ ∃ i, s = i * step := by
  obtain ⟨i, hi, rfl⟩ := (mem_loop_starts n step s).mp h
  refine ⟨?_, i, rfl⟩
  have h1 : (i + 1) * step ≤ n + step - 1 := (Nat.le_div_iff_mul_le hstep).mp hi
  have h2 : (i + 1) * step = i * step + step := by ring
  omega

theorem loop_starts_of_lt (n step i : Nat) (hstep : 0 < step) (h : i * step < n) :
    i * step ∈ loop_starts n step := by
  refine (mem_loop_starts n step _).mpr ⟨i, ?_, rfl⟩
  apply (Nat.le_div_iff_mul_le hstep).mpr
  have h2 : i.succ * step = i * step + step := Nat.succ_mul i step
  have h3 : (i + 1) * step = i * step + step := Nat.succ_mul i step
  omega

theorem div_mul_block (k step : Nat) (hstep : 0 < step) :
    k / step * step ≤ k ∧ k < k / step * step + step := by
  have h1 := Nat.div_add_mod k step
  have h2 := Nat.mod_lt k hstep
  have h3 : step * (k / step) = k / step * step := Nat.mul_comm _ _
  omega

theorem block_index_unique (step i k : Nat) (h1 : i * step ≤ k) (h2 : k < i * step + step) :
    i * step = k / step * step := by
  have hstep : 0 < step := by omega
  have e : k / step = i := by
    apply Nat.div_eq_of_lt_le
    · exact h1
    · have : (i + 1) * step = i * step + step := by ring
      omega
  rw [e]

theorem mod_of_block (step i n : Nat) (h1 : i * step ≤ n) (h2 : n < i * step + step) :
    n % step = n - i * step := by
  have hstep : 0 < step := by omega
  have e := block_index_unique step i n h1 h2
  have h3 := Nat.div_add_mod n step
  have h4 : step * (n / step) = n / step * step := Nat.mul_comm _ _
  omega

theorem prefill_Sk_pad_facts (VBS Sk : Nat) :
    Sk ≤ prefill_Sk_pad VBS Sk ∧
      (prefill_SK_ALIGN VBS ∣ Sk → prefill_Sk_pad VBS Sk = Sk) := by
  unfold prefill_Sk_pad prefill_SK_ALIGN
  by_cases h : VBS = 1
  · simp [h]
  · simp only [h, if_false]
    refine ⟨by omega, ?_⟩
    rintro ⟨c, rfl⟩
    omega

theorem key_tile_bounds (Skb Sk_pad Sk sk : Nat) (hpos : 0 < Skb) (hle : Sk ≤ Sk_pad)
    (h : sk ∈ loop_starts Sk Skb) :
    1 ≤ prefill_kbs Skb Sk_pad Sk sk ∧ sk + prefill_kbs Skb Sk_pad Sk sk ≤ Sk_pad := by
  obtain ⟨hlt, -⟩ := loop_starts_lt Sk Skb sk hpos h
  unfold prefill_kbs
  split <;> omega

theorem key_tiles_partition (Skb Sk_pad Sk : Nat) (hpos : 0 < Skb) (hle : Sk ≤ Sk_pad)
    (hfull : Skb ∣ Sk → Sk_pad = Sk) (k : Nat) (hk : k < Sk_pad) :
    ∃ sk, sk ∈ loop_starts Sk Skb ∧ sk ≤ k ∧ k < sk + prefill_kbs Skb Sk_pad Sk sk ∧
      (Sk ≤ k → Sk < sk + Skb ∧ prefill_kbs Skb Sk_pad Sk sk = Sk_pad - sk) ∧
      ∀ sk2, sk2 ∈ loop_starts Sk Skb → sk2 ≤ k →
        k < sk2 + prefill_kbs Skb Sk_pad Sk sk2 → sk2 = sk := by
  by_cases hkS : k < Sk
  · obtain ⟨b1, b2⟩ := div_mul_block k Skb hpos
    refine ⟨k / Skb * Skb, loop_starts_of_lt Sk Skb _ hpos (by omega), b1, ?_,
      fun h => absurd hkS (by omega), ?_⟩
    · unfold prefill_kbs
      split <;> omega
    · intro sk2 hm h1 h2
      obtain ⟨hlt, j, rfl⟩ := loop_starts_lt Sk Skb sk2 hpos hm
      apply block_index_unique Skb j k h1
      unfold prefill_kbs at h2
      split at h2 <;> omega
  · have hS1 : 1 ≤ Sk := by
      by_contra h0
      have e0 : Sk = 0 := by omega
      have := hfull (by rw [e0]; exact Nat.dvd_zero _)
      omega
    obtain ⟨b1, b2⟩ := div_mul_block (Sk - 1) Skb hpos
    have hpart : ¬ (Sk - (Sk - 1) / Skb * Skb ≥ Skb) := by
      intro hge
      have e : Sk = ((Sk - 1) / Skb + 1) * Skb := by
        have : ((Sk - 1) / Skb + 1) * Skb = (Sk - 1) / Skb * Skb + Skb := Nat.succ_mul _ _
        omega
      have := hfull (Dvd.intro_left ((Sk - 1) / Skb + 1) e.symm)
      omega
    have hkbs : prefill_kbs Skb Sk_pad Sk ((Sk - 1) / Skb * Skb) =
        Sk_pad - (Sk - 1) / Skb * Skb := by
      unfold prefill_kbs
      rw [if_neg hpart]
    refine ⟨(Sk - 1) / Skb * Skb, loop_starts_of_lt Sk Skb _ hpos (by omega), by omega, ?_,
      fun _ => ⟨by omega, hkbs⟩, ?_⟩
    · rw [hkbs]; omega
    · intro sk2 hm h1 h2
      obtain ⟨hlt, j, rfl⟩ := loop_starts_lt Sk Skb sk2 hpos hm
      apply block_index_unique Skb j (Sk - 1) (by omega)
      unfold prefill_kbs at h2
      split at h2 <;> omega

theorem query_tiles_partition (Sq q : Nat) (hq : q < Sq) :
    ∃ sq, sq ∈ loop_starts Sq 64 ∧ sq ≤ q ∧ q < sq + prefill_qbs Sq sq ∧
      ∀ sq2, sq2 ∈ loop_starts Sq 64 → sq2 ≤ q → q < sq2 + prefill_qbs Sq sq2 → sq2 = sq := by
  refine ⟨q / 64 * 64, (mem_loop_starts Sq 64 _).mpr ⟨q / 64, by omega, rfl⟩, by omega, ?_, ?_⟩
  · unfold prefill_qbs
    split <;> omega
  · intro sq2 hm h1 h2
    obtain ⟨i, _, rfl⟩ := (mem_loop_starts Sq 64 sq2).mp hm
    unfold prefill_qbs at h2
    split at h2 <;> omega

theorem query_tile_bounds (Sq sq : Nat) (h : sq ∈ loop_starts Sq 64) :
    1 ≤ prefill_qbs Sq sq ∧ sq + prefill_qbs Sq sq ≤ Sq ∧ prefill_qbs Sq sq ≤ 64 := by
  obtain ⟨i, _, rfl⟩ := (mem_loop_starts Sq 64 sq).mp h
  unfold prefill_qbs
  split <;> omega

theorem prefill_qbs_eq (Sq sq : Nat) (h : sq ∈ loop_starts Sq 64) :
    prefill_qbs Sq sq = if sq + 64 > Sq then Sq % 64 else 64 := by
  obtain ⟨i, _, rfl⟩ := (mem_loop_starts Sq 64 sq).mp h
  unfold prefill_qbs
  split <;> split <;> omega

theorem prefill_kbs_eq (Skb Sk_pad Sk sk : Nat) (hpos : 0 < Skb) (hle : Sk ≤ Sk_pad)
    (h : sk ∈ loop_starts Sk Skb) :
    prefill_kbs Skb Sk_pad Sk sk =
      if sk + Skb > Sk then Sk % Skb + (Sk_pad - Sk) else Skb := by
  obtain ⟨hlt, j, rfl⟩ := loop_starts_lt Sk Skb sk hpos h
  unfold prefill_kbs
  by_cases hc : j * Skb + Skb > Sk
  · rw [if_pos hc, if_neg (by omega), mod_of_block Skb j Sk (by omega) (by omega)]
    omega
  · rw [if_neg hc, if_pos (by omega)]

theorem attn_kern_selected (SKB VBS Sq Sk sq sk : Nat) (hpos : 0 < prefill_Skb SKB Sq)
    (hsq : sq ∈ loop_starts Sq 64) (hsk : sk ∈ loop_starts Sk (prefill_Skb SKB Sq)) :
    (attn_kern SKB VBS Sq Sk)[prefill_kid SKB Sq Sk sq sk]? =
      some (AttnKernels.new (prefill_qbs Sq sq)
        (prefill_kbs (prefill_Skb SKB Sq) (prefill_Sk_pad VBS Sk) Sk sk)
        (if sk + prefill_Skb SKB Sq > Sk then prefill_Sk_pad VBS Sk - Sk else 0)) ∧
    (attn_kern SKB VBS Sq Sk)[prefill_qid Sq sq * 2]? =
      some (AttnKernels.new (prefill_qbs Sq sq) (prefill_Skb SKB Sq) 0) := by
  rw [prefill_qbs_eq Sq sq hsq,
    prefill_kbs_eq _ _ Sk sk hpos (prefill_Sk_pad_facts VBS Sk).1 hsk]
  unfold attn_kern prefill_kid prefill_qid
  by_cases h1 : sq + 64 > Sq <;> by_cases h2 : sk + prefill_Skb SKB Sq > Sk <;>
    simp [h1, h2]

theorem sqb_aligned_least (n : Nat) :
    16 ∣ sqb_aligned n ∧ n ≤ sqb_aligned n ∧ ∀ m, 16 ∣ m → n ≤ m → sqb_aligned n ≤ m := by
  unfold sqb_aligned
  refine ⟨Nat.dvd_mul_left _ _, by omega, ?_⟩
  rintro m ⟨c, rfl⟩ h
  omega

theorem causal_mask_writes_columns (t : ScoreTile) (offset : Int) :
    causal_mask_writes t offset =
      (List.range t.qbs).flatMap fun (sq1 : Nat) =>
        (causal_mask_columns t offset sq1).map fun c => (sq1 : Int) * t.kbs + c := by
  unfold causal_mask_writes causal_mask_columns
  simp only [List.map_map]
  rfl

/-- The columns written in a row of the score tile are those from
`sq + sq1 + offset + 1 - sk` up to `kbs - 1`: the upper bound of the tile is respected, the
lower bound 0 is not enforced. -/
theorem mem_causal_mask_columns (t : ScoreTile) (offset : Int) (sq1 : Nat) (c : Int) :
    c ∈ causal_mask_columns t offset sq1 ↔
      (t.sq : Int) + sq1 + offset + 1 - t.sk ≤ c ∧ c < t.kbs := by
  unfold causal_mask_columns
  simp only [List.mem_map, List.mem_range]
  constructor
  · rintro ⟨i, hi, rfl⟩
    omega
  · rintro ⟨h1, h2⟩
    refine ⟨(c - ((t.sq : Int) + sq1 + offset + 1 - t.sk)).toNat, ?_, ?_⟩
    · omega
    · omega

theorem last_key_tile (Skb Sk sk sk2 : Nat) (hpos : 0 < Skb) (h : sk ∈ loop_starts Sk Skb)
    (hlast : Sk < sk + Skb) (h2 : sk2 ∈ loop_starts Sk Skb) : sk2 ≤ sk := by
  obtain ⟨-, j, rfl⟩ := loop_starts_lt Sk Skb sk hpos h
  obtain ⟨hlt2, j2, rfl⟩ := loop_starts_lt Sk Skb sk2 hpos h2
  have e : (j + 1) * Skb = j * Skb + Skb := Nat.succ_mul j Skb
  have h3 : j2 * Skb < (j + 1) * Skb := by omega
  have h4 : j2 < j + 1 := Nat.lt_of_mul_lt_mul_right h3
  exact Nat.mul_le_mul_right Skb (by omega)

theorem prefill_extend_mask_row {R : Type} (m10000 : R) (Sk Sk_pad : Nat)
    (rows : List (List R)) (hne : Sk ≠ Sk_pad) (hle : Sk ≤ Sk_pad) (i : Nat) (r : List R)
    (hi : rows[i]? = some r) (hr : r.length = Sk) :
    (prefill_extend_mask m10000 Sk Sk_pad rows)[i]? =
        some (r ++ List.replicate (Sk_pad - Sk) m10000) ∧
      (r ++ List.replicate (Sk_pad - Sk) m10000).length = Sk_pad ∧
      (∀ k, Sk ≤ k → k < Sk_pad →
        (r ++ List.replicate (Sk_pad - Sk) m10000)[k]? = some m10000) ∧
      (∀ j, j < Sk → (r ++ List.replicate (Sk_pad - Sk) m10000)[j]? = r[j]?) := by
  unfold prefill_extend_mask
  rw [if_pos hne]
  refine ⟨by simp [hi], by simp [hr]; omega, ?_, ?_⟩
  · intro k h1 h2
    rw [List.getElem?_append_right (by omega), hr]
    simp only [List.getElem?_replicate]
    rw [if_pos (by omega)]
  · intro j hj
    rw [List.getElem?_append_left (by omega)]

/-! ## Accesses of the back-tracing loop -/

theorem back_trace_row_log_fst (T : Tensor2) (oobI : Int → Int) (B offset i : Nat)
    (row : Nat → Int) :
    (back_trace_row_log T oobI B offset i row).1 = back_trace_row T oobI B offset i row := by
  unfold back_trace_row_log back_trace_row
  exact foldl_proj Prod.fst
    (fun (s : (Nat → Int) × List TraceAccess) j =>
      (upd s.1 j (b_ptr T oobI B j (s.1 (j + 1))),
        s.2 ++ [TraceAccess.beam_idx i (j + 1),
          TraceAccess.b_ptr ((j : Int) * B + s.1 (j + 1)), TraceAccess.beam_idx i j]))
    (fun r j => upd r j (b_ptr T oobI B j (r (j + 1))))
    (fun _ _ => rfl) _ _

theorem back_trace_log_fold (T : Tensor2) (oobI : Int → Int) (B offset i : Nat)
    (hC : T.C = B) (hR : offset ≤ T.R) (hi : i < B)
    (hT : ∀ t b, t < offset → b < B → 0 ≤ T.elem t b ∧ T.elem t b < B) (m : Nat) :
    m + 1 ≤ offset → ∀ s : (Nat → Int) × List TraceAccess,
      (∀ a, a ∈ s.2 → a.inside T.numel B offset = true) →
      (∀ t, m ≤ t → t < offset → 0 ≤ s.1 t ∧ s.1 t < B) →
      ∀ a, a ∈ ((List.range m).reverse.foldl
        (fun (s : (Nat → Int) × List TraceAccess) j =>
          (upd s.1 j (b_ptr T oobI B j (s.1 (j + 1))),
            s.2 ++ [TraceAccess.beam_idx i (j + 1),
              TraceAccess.b_ptr ((j : Int) * B + s.1 (j + 1)), TraceAccess.beam_idx i j]))
        s).2 → a.inside T.numel B offset = true := by
  induction m with
  | zero =>
    intro _ s h1 _ a ha
    exact h1 a ha
  | succ m ih =>
    intro hm s h1 h2
    rw [List.range_succ, List.reverse_append, List.reverse_singleton, List.singleton_append,
      List.foldl_cons]
    obtain ⟨v0, v1⟩ := h2 (m + 1) (le_refl _) (by omega)
    apply ih (by omega)
    · intro a ha
      simp only [List.mem_append, List.mem_cons, List.mem_singleton, List.not_mem_nil,
        or_false] at ha
      rcases ha with ha | rfl | rfl | rfl
      · exact h1 a ha
      · simp only [TraceAccess.inside, decide_eq_true_eq]
        exact ⟨hi, by omega⟩
      · simp only [TraceAccess.inside, decide_eq_true_eq]
        obtain ⟨w, hw⟩ := Int.eq_ofNat_of_zero_le v0
        rw [hw] at v1 ⊢
        have hwB : w < B := by exact_mod_cast v1
        have hlt : m * B + w < T.R * T.C := by
          rw [hC]; exact mul_add_lt m w T.R B (by omega) hwB
        unfold Tensor2.numel
        constructor
        · positivity
        · exact_mod_cast hlt
      · simp only [TraceAccess.inside, decide_eq_true_eq]
        exact ⟨hi, by omega⟩
    · intro t ht1 ht2
      by_cases e : t = m
      · subst e
        simp only [upd, if_true]
        rw [b_ptr_eq_elem T oobI B t _ hC (by omega) v0 v1]
        have hv : (s.1 (t + 1)).toNat < B := by omega
        exact hT t _ (by omega) hv
      · simp only [upd, if_neg e]
        exact h2 t (by omega) ht2

theorem back_trace_row_log_inside (T : Tensor2) (oobI : Int → Int) (B offset i : Nat)
    (row : Nat → Int) (ho : 1 ≤ offset) (hC : T.C = B) (hR : offset ≤ T.R) (hi : i < B)
    (hT : ∀ t b, t < offset → b < B → 0 ≤ T.elem t b ∧ T.elem t b < B) :
    ∀ a, a ∈ (back_trace_row_log T oobI B offset i row).2 →
      a.inside T.numel B offset = true := by
  unfold back_trace_row_log
  apply back_trace_log_fold T oobI B offset i hC hR hi hT (offset - 1) (by omega)
  · intro a ha
    simp only [List.mem_cons, List.mem_singleton, List.not_mem_nil, or_false] at ha
    rcases ha with rfl | rfl
    · simp only [TraceAccess.inside, decide_eq_true_eq]
      have hlt : (offset - 1) * B + i < T.R * T.C := by
        rw [hC]; exact mul_add_lt (offset - 1) i T.R B (by omega) hi
      unfold Tensor2.numel
      constructor
      · positivity
      · exact_mod_cast hlt
    · simp only [TraceAccess.inside, decide_eq_true_eq]
      exact ⟨hi, by omega⟩
  · intro t ht1 ht2
    have e : t = offset - 1 := by omega
    subst e
    simp only [upd, if_true]
    rw [b_ptr_eq_elem T oobI B (offset - 1) (i : Int) hC (by omega) (by omega)
      (by exact_mod_cast hi)]
    simp only [Int.toNat_ofNat]
    exact hT (offset - 1) i (by omega) hi


/-! ## Claims -/

/-- C1: first call of a cache-tracking session. For a cache tuple of length 6 whose
offset is 0 and a growth increment `KV_CACHE_INC_SIZE ≥ 0` (default 128), `self_mha`
returns seven tensors: the fresh `K` and `V`, key and value buffers of shape
`[B, N, S + KV_CACHE_INC_SIZE, H]` whose sequence positions `[0, S)` hold `K` and `V`, a
beam-index table of `S + KV_CACHE_INC_SIZE` rows each equal to the identity, and the
offset `S`. -/
theorem self_mha_init_spec {α R : Type} [Zero α] (cfg : BlockCfg) (ops : DecodeTPP α R)
    (mem : Mem α R) (prefill : Tensor4 α → Tensor4 α → Mask α → Tensor4 α → Tensor4 α)
    (x : QKV α) (t_am : Mask α) (t_cache : CacheTuple α)
    (hcsz : t_cache.csz = 6) (hoff : t_cache.c3 = 0) (hinc : 0 ≤ cfg.KV_CACHE_INC_SIZE) :
    ∃ t_CL t_beam_idx t_key_past t_value_past,
      self_mha cfg ops mem prefill x t_am t_cache =
        some (MhaOut.cached t_CL (view_heads x.B x.S cfg.N cfg.H x.k)
          (view_heads x.B x.S cfg.N cfg.H x.v) t_beam_idx (x.S : Int)
          t_key_past t_value_past) ∧
      (MhaOut.cached t_CL (view_heads x.B x.S cfg.N cfg.H x.k)
          (view_heads x.B x.S cfg.N cfg.H x.v) t_beam_idx (x.S : Int)
          t_key_past t_value_past).size = 7 ∧
      (t_key_past.B = x.B ∧ t_key_past.N = cfg.N ∧
        (t_key_past.S : Int) = x.S + cfg.KV_CACHE_INC_SIZE ∧ t_key_past.H = cfg.H) ∧
      (t_value_past.B = x.B ∧ t_value_past.N = cfg.N ∧
        (t_value_past.S : Int) = x.S + cfg.KV_CACHE_INC_SIZE ∧ t_value_past.H = cfg.H) ∧
      (∀ b n s h, b < x.B → n < cfg.N → s < x.S → h < cfg.H →
        t_key_past.elem b n s h = (view_heads x.B x.S cfg.N cfg.H x.k).elem b n s h ∧
        t_value_past.elem b n s h = (view_heads x.B x.S cfg.N cfg.H x.v).elem b n s h) ∧
      ((t_beam_idx.R : Int) = x.S + cfg.KV_CACHE_INC_SIZE ∧ t_beam_idx.C = x.B ∧
        ∀ t b, t < t_beam_idx.R → b < x.B → t_beam_idx.elem t b = (b : Int)) :=
  self_mha_init_step cfg ops mem prefill x t_am t_cache hcsz hoff hinc

/-- Witness of C1: the first call of a session with one token per batch row and the default
increment 128 returns seven tensors with offset 1. -/
theorem self_mha_init_spec_witness :
    ∃ out, self_mha (exCfg 128) exOps exMem exPrefill (exQKV 2 1 0) exMask exCacheEmpty =
        some out ∧ out.size = 7 ∧ out.toCache.c3 = 1 := by
  obtain ⟨t_CL, bi, kp, vp, h, hsz, -⟩ :=
    self_mha_init_spec (exCfg 128) exOps exMem exPrefill (exQKV 2 1 0) exMask exCacheEmpty
      rfl rfl (by decide)
  exact ⟨_, h, hsz, rfl⟩

/-- C2, counterexample. (1) With the growth increment `KV_CACHE_INC_SIZE = 0`, a decode step
on a full cache (offset 1, capacity 1, batch size 2) reallocates to capacity
`offset + 0 = 1`; the copy of the new key of batch row 0 to `KL_C[0][0][1]` then lands on
`KL_C[1][0][0]`, the cached key of batch row 1 at position 0: the returned buffer holds 5
there where the old buffer holds 1, and with the loop over `(b, n)` run in order the output
of batch row 1 is -11050, against -11024 for the same step on a cache of capacity 4 with
the same content, which needs no reallocation. (2) On a cache tuple whose offset 3 exceeds
its capacity 2 the copy of the old buffer into the positions `[0, 3)` of the new one raises
an error, and no buffers are returned. (3) With a beam-index entry 2 for batch size 2 the
step reads the cache row `KL_C[2][0][0]`, which lies outside the buffer, at a different
distance from its start in the reallocated buffer and in one of capacity 4: the value read,
and the output of batch row 1, follow the memory outside the buffer. -/
theorem self_mha_decode_zero_increment :
    ((self_mha (exCfg 0) exOps exMem exPrefill (exQKV 2 1 5) exMask exCacheFull).map
        (fun o => (o.toCache.c4.S, o.toCache.c4.elem 1 0 0 0, o.t_CL.elem 1 0 0)) =
        some (1, 5, -11050) ∧
      exCacheFull.c4.elem 1 0 0 0 = 1 ∧
      (self_mha (exCfg 0) exOps exMem exPrefill (exQKV 2 1 5) exMask exCacheAmple).map
        (fun o => (o.toCache.c4.S, o.toCache.c4.elem 1 0 0 0, o.t_CL.elem 1 0 0)) =
        some (4, 1, -11024)) ∧
    (self_mha (exCfg 128) exOps exMem exPrefill (exQKV 2 1 5) exMask exCacheOver).isNone =
      true ∧
    ((self_mha (exCfg 128) exOps exMemAddr exPrefill (exQKV 2 1 5) exMask exCacheBadBeam).map
        (fun o => (o.toCache.c4.S, o.t_CL.elem 1 0 0)) = some (129, 55539) ∧
      (self_mha (exCfg 128) exOps exMemAddr exPrefill (exQKV 2 1 5) exMask
          exCacheBadBeamAmple).map
        (fun o => (o.toCache.c4.S, o.t_CL.elem 1 0 0)) = some (4, -10961)) := by
  decide

/-- C2, amended: decode step of `self_mha` for a growth increment `KV_CACHE_INC_SIZE ≥ 1`
on a 6-tuple cache in a session state (`1 ≤ offset ≤ Capacity`, key and value buffers and
beam-index table of one capacity, beam entries below `offset` valid rows). If
`offset ≥ Capacity` the returned key, value and beam-index buffers have capacity
`offset + KV_CACHE_INC_SIZE`, otherwise they keep their capacity; in both cases their
entries at every sequence position (row) in `[0, offset)` equal the old buffers' entries,
and the step's output `t_CL` is the output of the same step on any other such cache tuple
`c2` with the same offset and the same entries below `offset`, in particular one with
ample capacity that needs no reallocation. -/
theorem self_mha_decode_realloc {α R : Type} [Zero α] (cfg : BlockCfg) (ops : DecodeTPP α R)
    (mem : Mem α R) (prefill : Tensor4 α → Tensor4 α → Mask α → Tensor4 α → Tensor4 α)
    (x : QKV α) (t_am : Mask α) (c c2 : CacheTuple α)
    (hv : ValidCache cfg x.B c) (hv2 : ValidCache cfg x.B c2) (hx : x.S = 1)
    (hinc : 1 ≤ cfg.KV_CACHE_INC_SIZE) (hoff : c2.c3 = c.c3)
    (hAk : AgreeBelow x.B cfg.N cfg.H c.c3.toNat c.c4 c2.c4)
    (hAv : AgreeBelow x.B cfg.N cfg.H c.c3.toNat c.c5 c2.c5)
    (hAb : ∀ t b, t < c.c3.toNat → b < x.B →
      c.c2.elem t b = c2.c2.elem t b ∧ 0 ≤ c.c2.elem t b ∧ c.c2.elem t b < x.B) :
    ∃ t_CL t_KL t_VL bi kp vp t_KL2 t_VL2 bi2 kp2 vp2,
      self_mha cfg ops mem prefill x t_am c =
        some (MhaOut.cached t_CL t_KL t_VL bi (c.c3 + 1) kp vp) ∧
      self_mha cfg ops mem prefill x t_am c2 =
        some (MhaOut.cached t_CL t_KL2 t_VL2 bi2 (c.c3 + 1) kp2 vp2) ∧
      (kp.S : Int) = (if (c.c4.S : Int) ≤ c.c3 then c.c3 + cfg.KV_CACHE_INC_SIZE
        else (c.c4.S : Int)) ∧
      vp.S = kp.S ∧ bi.R = kp.S ∧
      (∀ b n s h, b < x.B → n < cfg.N → s < c.c3.toNat → h < cfg.H →
        kp.elem b n s h = c.c4.elem b n s h ∧ vp.elem b n s h = c.c5.elem b n s h) ∧
      (∀ t b, t < c.c3.toNat → b < x.B → bi.elem t b = c.c2.elem t b) := by
  obtain ⟨kp, vp, bi, er, hS, hB, hN, hH, ⟨wB, wN, wS, wH⟩, hbR, hbC, pAk, pAv, pAb, -⟩ :=
    kv_realloc_spec cfg mem x.B c hv hinc
  obtain ⟨kq, vq, bj, er2, hS2, hB2, hN2, hH2, ⟨wB2, wN2, wS2, wH2⟩, hbR2, hbC2, qAk, qAv,
    qAb, -⟩ := kv_realloc_spec cfg mem x.B c2 hv2 hinc
  obtain ⟨hcsz, h1, hle, -⟩ := hv
  obtain ⟨hcsz2, h12, hle2, -⟩ := hv2
  rw [hoff] at er2 hS2 qAk qAv qAb h12 hle2
  have hlt : c.c3.toNat < kp.S := by
    have : c.c3 < (kp.S : Int) := by rw [hS]; split <;> omega
    omega
  have hlt2 : c.c3.toNat < kq.S := by
    have : c.c3 < (kq.S : Int) := by rw [hS2]; split <;> omega
    omega
  obtain ⟨CL, ea⟩ := attn_decode_caches ops mem.oob mem.freshCL mem.freshAS
    (view_heads x.B x.S cfg.N cfg.H x.q) (view_heads x.B x.S cfg.N cfg.H x.k) t_am
    (view_heads x.B x.S cfg.N cfg.H x.v) kp vp
    (back_trace bi mem.oobI x.B c.c3.toNat mem.freshI) c.c3.toNat hx hx
  obtain ⟨CL2, ea2⟩ := attn_decode_caches ops mem.oob mem.freshCL mem.freshAS
    (view_heads x.B x.S cfg.N cfg.H x.q) (view_heads x.B x.S cfg.N cfg.H x.k) t_am
    (view_heads x.B x.S cfg.N cfg.H x.v) kq vq
    (back_trace bj mem.oobI x.B c.c3.toNat mem.freshI) c.c3.toNat hx hx
  have hcong := attn_decode_out_congr ops mem.oob mem.freshCL mem.freshAS
    (view_heads x.B x.S cfg.N cfg.H x.q) (view_heads x.B x.S cfg.N cfg.H x.k) t_am
    (view_heads x.B x.S cfg.N cfg.H x.v) kp vp kq vq
    (back_trace bi mem.oobI x.B c.c3.toNat mem.freshI)
    (back_trace bj mem.oobI x.B c.c3.toNat mem.freshI) c.c3.toNat
    ⟨hB, hN, hH⟩ ⟨hB2, hN2, hH2⟩ ⟨wB, wN, wS, wH⟩ ⟨wB2, wN2, wS2, wH2⟩ hlt hlt2
    (agreeBelow_trans _ _ _ _ _ _ _ pAk
      (agreeBelow_trans _ _ _ _ _ _ _ hAk (agreeBelow_symm _ _ _ _ _ _ qAk)))
    (agreeBelow_trans _ _ _ _ _ _ _ pAv
      (agreeBelow_trans _ _ _ _ _ _ _ hAv (agreeBelow_symm _ _ _ _ _ _ qAv)))
    (fun b hb t ht =>
      back_trace_congr bi bj mem.oobI x.B c.c3.toNat mem.freshI mem.freshI hbC hbC2
        (by omega) (by omega)
        (fun t b ht hb => by
          obtain ⟨a1, a2, a3⟩ := hAb t b ht hb
          rw [pAb t b ht hb, qAb t b ht hb]
          exact ⟨a1, a2, a3⟩)
        b hb (c.c3.toNat - 1 - t) t (by omega))
  rw [ea, ea2] at hcong
  have hCL : CL = CL2 := by simpa using hcong
  have e1 := self_mha_decode_eq cfg ops mem prefill x t_am c hcsz h1 kp vp bi _ er ea
  have e2 := self_mha_decode_eq cfg ops mem prefill x t_am c2 hcsz2 (by rw [hoff]; exact h1)
    kq vq bj _ (by rw [hoff]; exact er2) (by rw [hoff]; exact ea2)
  rw [hoff, ← hCL] at e2
  have ek : cache_fill x.B cfg.N kp.S cfg.H c.c3.toNat (view_heads x.B x.S cfg.N cfg.H x.k) kp =
      cache_fill kp.B kp.N kp.S kp.H c.c3.toNat (view_heads x.B x.S cfg.N cfg.H x.k) kp := by
    rw [hB, hN, hH]
  have ev : cache_fill x.B cfg.N kp.S cfg.H c.c3.toNat (view_heads x.B x.S cfg.N cfg.H x.v) vp =
      cache_fill vp.B vp.N vp.S vp.H c.c3.toNat (view_heads x.B x.S cfg.N cfg.H x.v) vp := by
    rw [wB, wN, wS, wH, hB, hN, hH]
  have dk := cache_fill_dims x.B cfg.N kp.S cfg.H c.c3.toNat
    (view_heads x.B x.S cfg.N cfg.H x.k) kp
  have dv := cache_fill_dims x.B cfg.N kp.S cfg.H c.c3.toNat
    (view_heads x.B x.S cfg.N cfg.H x.v) vp
  refine ⟨_, _, _, _, _, _, _, _, _, _, _, e1, e2, ?_, ?_, ?_, ?_, pAb⟩
  · exact (congrArg (fun n : Nat => (n : Int)) dk.2.2.1).trans hS
  · exact dv.2.2.1.trans (wS.trans dk.2.2.1.symm)
  · exact hbR.trans dk.2.2.1.symm
  · intro b n s h hb hn hs hh
    have hne : ¬ s = c.c3.toNat := by omega
    constructor
    · show (cache_fill x.B cfg.N kp.S cfg.H c.c3.toNat
        (view_heads x.B x.S cfg.N cfg.H x.k) kp).elem b n s h = c.c4.elem b n s h
      rw [ek, cache_fill_elem _ _ _ hlt b n s h (by omega) (by omega) (by omega) (by omega),
        if_neg hne]
      exact pAk b n s h hb hn hs hh
    · show (cache_fill x.B cfg.N kp.S cfg.H c.c3.toNat
        (view_heads x.B x.S cfg.N cfg.H x.v) vp).elem b n s h = c.c5.elem b n s h
      rw [ev, cache_fill_elem _ _ _ (by rw [wS]; exact hlt) b n s h (by omega) (by omega)
        (by omega) (by omega), if_neg hne]
      exact pAv b n s h hb hn hs hh

/-- Witness of C2: a full cache (offset 1, capacity 1) is reallocated to capacity 129 and
the step returns the output of the same step on a cache of capacity 4 with the same
content. -/
theorem self_mha_decode_realloc_witness :
    ∃ t_CL t_KL t_VL bi kp vp t_KL2 t_VL2 bi2 kp2 vp2,
      self_mha (exCfg 128) exOps exMem exPrefill (exQKV 2 1 5) exMask exCacheFull =
        some (MhaOut.cached t_CL t_KL t_VL bi 2 kp vp) ∧
      self_mha (exCfg 128) exOps exMem exPrefill (exQKV 2 1 5) exMask exCacheAmple =
        some (MhaOut.cached t_CL t_KL2 t_VL2 bi2 2 kp2 vp2) ∧
      (kp.S : Int) = 129 := by
  obtain ⟨t_CL, t_KL, t_VL, bi, kp, vp, t_KL2, t_VL2, bi2, kp2, vp2, h1, h2, h3, -⟩ :=
    self_mha_decode_realloc (exCfg 128) exOps exMem exPrefill (exQKV 2 1 5) exMask
      exCacheFull exCacheAmple
      ⟨rfl, by decide, by decide, rfl, rfl, rfl, ⟨rfl, rfl, rfl, rfl⟩, rfl, rfl⟩
      ⟨rfl, by decide, by decide, rfl, rfl, rfl, ⟨rfl, rfl, rfl, rfl⟩, rfl, rfl⟩
      rfl (by decide) rfl
      (fun _ _ _ _ _ _ _ _ => rfl) (fun _ _ _ _ _ _ _ _ => rfl)
      (fun t b _ hb => ⟨rfl, by simp [exCacheFull, arange_expand],
        by simpa [exCacheFull, arange_expand, exQKV] using hb⟩)
  exact ⟨t_CL, t_KL, t_VL, bi, kp, vp, t_KL2, t_VL2, bi2, kp2, vp2, h1, h2, h3⟩

/-- C3, counterexample: with the growth increment `KV_CACHE_INC_SIZE = 0`, an init step
over one token (batch size 2) followed by one decode step succeeds and returns offset 2
with key buffers of capacity 1: the returned offset exceeds the returned capacity. -/
theorem session_offset_exceeds_capacity :
    (session (exCfg 0) exOps exMem exPrefill (exQKV 2 1 0) exMask exCacheEmpty
        (fun i => exQKV 2 1 (i + 1)) (fun _ => exMask) 1).map
      (fun o => (o.toCache.c3, o.toCache.c4.S)) = some (2, 1) ∧
      ¬ ((2 : Int) ≤ ((1 : Nat) : Int)) := by
  decide

/-- C3, amended: KV-cache state-machine invariant for a growth increment
`KV_CACHE_INC_SIZE ≥ 1`. Along a session (an init step over `S ≥ 1` tokens followed by
single-token decode steps, each fed the cache tuple returned by the previous step), every
step `n` succeeds, its returned offset is at most the returned capacity, the beam-index
table has exactly as many rows as the capacity, the value buffer has the capacity of the
key buffer, and the capacity returned by step `n + 1` is at least the capacity returned by
step `n`. -/
theorem session_capacity_invariant {α R : Type} [Zero α] (cfg : BlockCfg)
    (ops : DecodeTPP α R) (mem : Mem α R)
    (prefill : Tensor4 α → Tensor4 α → Mask α → Tensor4 α → Tensor4 α)
    (x0 : QKV α) (am0 : Mask α) (c0 : CacheTuple α) (xs : Nat → QKV α) (ams : Nat → Mask α)
    (hcsz : c0.csz = 6) (hoff : c0.c3 = 0) (hS : 1 ≤ x0.S)
    (hxs : ∀ i, (xs i).S = 1 ∧ (xs i).B = x0.B) (hinc : 1 ≤ cfg.KV_CACHE_INC_SIZE) (n : Nat) :
    ∃ o o2, session cfg ops mem prefill x0 am0 c0 xs ams n = some o ∧
      session cfg ops mem prefill x0 am0 c0 xs ams (n + 1) = some o2 ∧
      o.toCache.c3 ≤ (o.toCache.c4.S : Int) ∧ o.toCache.c2.R = o.toCache.c4.S ∧
      o.toCache.c5.S = o.toCache.c4.S ∧
      o.toCache.c4.S ≤ o2.toCache.c4.S ∧ o.toCache.c5.S ≤ o2.toCache.c5.S := by
  obtain ⟨o, e, -, hv, -⟩ :=
    session_inv cfg ops mem prefill x0 am0 c0 xs ams hcsz hoff hS hxs hinc n
  obtain ⟨hx1, hxB⟩ := hxs n
  have hv2 : ValidCache cfg (xs n).B o.toCache := by rw [hxB]; exact hv
  obtain ⟨t_CL, bi, kp, vp, e2, kS, -, -, -, ⟨-, -, vS, -⟩, -⟩ :=
    self_mha_decode_step cfg ops mem prefill (xs n) (ams n) o.toCache hv2 hx1 hinc
  obtain ⟨-, h1, hle, -, -, -, ⟨-, -, wS, -⟩, bR, -⟩ := hv
  have hmono : o.toCache.c4.S ≤ kp.S := by
    have : (o.toCache.c4.S : Int) ≤ (kp.S : Int) := by
      rw [kS]; split <;> omega
    omega
  have e3 : session cfg ops mem prefill x0 am0 c0 xs ams (n + 1) =
      some (MhaOut.cached t_CL (kp.slice2 (o.toCache.c3 + 1).toNat)
        (vp.slice2 (o.toCache.c3 + 1).toNat) bi (o.toCache.c3 + 1) kp vp) := by
    simp only [session, e, Option.bind]
    exact e2
  exact ⟨o, _, e, e3, hle, bR, wS, hmono, by rw [wS]; exact hmono.trans (le_of_eq vS.symm)⟩

/-- Witness of the amended C3 with the default increment 128. -/
theorem session_capacity_invariant_witness :
    ∃ o o2, session (exCfg 128) exOps exMem exPrefill (exQKV 2 1 0) exMask exCacheEmpty
        (fun i => exQKV 2 1 (i + 1)) (fun _ => exMask) 1 = some o ∧
      session (exCfg 128) exOps exMem exPrefill (exQKV 2 1 0) exMask exCacheEmpty
        (fun i => exQKV 2 1 (i + 1)) (fun _ => exMask) 2 = some o2 ∧
      o.toCache.c3 ≤ (o.toCache.c4.S : Int) ∧ o.toCache.c4.S ≤ o2.toCache.c4.S := by
  obtain ⟨o, o2, h1, h2, h3, -, -, h4, -⟩ :=
    session_capacity_invariant (exCfg 128) exOps exMem exPrefill (exQKV 2 1 0) exMask
      exCacheEmpty (fun i => exQKV 2 1 (i + 1)) (fun _ => exMask) rfl rfl (by decide)
      (fun _ => ⟨rfl, rfl⟩) (by decide) 1
  exact ⟨o, o2, h1, h2, h3, h4⟩

/-- C4: beam back-tracing in `self_mha`. For every `offset ≥ 1`, batch size `B` and
beam-index table `T` with `B` columns and at least `offset` rows, the traced table
satisfies `traced[b][offset-1] = T[offset-1][b]` for every beam row `b`, and
`traced[b][t] = b_ptr[t][traced[b][t+1]]` for every `t < offset - 1`, which is the table
entry `T[t][traced[b][t+1]]` whenever `traced[b][t+1]` is a column of the table; the
entries in `[0, offset)` are determined by these two rules alone and do not depend on the
prior content of the traced table. -/
theorem back_trace_spec (T : Tensor2) (oobI : Int → Int) (B offset : Nat)
    (fresh : Nat → Nat → Int) (ho : 1 ≤ offset) (hC : T.C = B) (hR : offset ≤ T.R) :
    (∀ b, b < B → back_trace T oobI B offset fresh b (offset - 1) = T.elem (offset - 1) b) ∧
    (∀ b, b < B → ∀ t, t + 1 < offset →
      back_trace T oobI B offset fresh b t =
          b_ptr T oobI B t (back_trace T oobI B offset fresh b (t + 1)) ∧
        (0 ≤ back_trace T oobI B offset fresh b (t + 1) →
          back_trace T oobI B offset fresh b (t + 1) < B →
          back_trace T oobI B offset fresh b t =
            T.elem t (back_trace T oobI B offset fresh b (t + 1)).toNat)) ∧
    (∀ fresh2 : Nat → Nat → Int, ∀ b, b < B → ∀ t, t < offset →
      back_trace T oobI B offset fresh b t = back_trace T oobI B offset fresh2 b t) := by
  refine ⟨?_, ?_, ?_⟩
  · intro b hb
    rw [(back_trace_rec T oobI B offset fresh ho b hb).1,
      b_ptr_eq_elem T oobI B (offset - 1) (b : Int) hC (by omega) (by omega)
        (by exact_mod_cast hb)]
    simp
  · intro b hb t ht
    have h := (back_trace_rec T oobI B offset fresh ho b hb).2 t ht
    refine ⟨h, ?_⟩
    intro h0 h1
    rw [h]
    exact b_ptr_eq_elem T oobI B t _ hC (by omega) h0 h1
  · intro fresh2 b hb t ht
    exact back_trace_fresh_irrel T oobI B offset fresh fresh2 b hb (offset - 1 - t) t (by omega)

/-- Witness of C4 on a table with three time steps and two beams swapped at step 1:
beam row 0 is traced to rows 0, 1, 0 at the time steps 2, 1, 0. -/
theorem back_trace_spec_witness :
    back_trace exBeamSwap (fun _ => 0) 2 3 (fun _ _ => 0) 0 2 = exBeamSwap.elem 2 0 ∧
      back_trace exBeamSwap (fun _ => 0) 2 3 (fun _ _ => 0) 0 1 =
        b_ptr exBeamSwap (fun _ => 0) 2 1 (back_trace exBeamSwap (fun _ => 0) 2 3 (fun _ _ => 0) 0 2) :=
  ⟨(back_trace_spec exBeamSwap (fun _ => 0) 2 3 (fun _ _ => 0) (by decide) rfl (by decide)).1 0
      (by decide),
    ((back_trace_spec exBeamSwap (fun _ => 0) 2 3 (fun _ _ => 0) (by decide) rfl
      (by decide)).2.1 0 (by decide) 1 (by decide)).1⟩

/-- C5: beam back-tracing with identity beams. If the beam-index table is the identity at
every time step in `[0, offset)`, then `traced[b][t] = b` for every beam row `b < B` and
every `t < offset`, and the row the decode step reads from a cache of batch size `B`
through `traced[b][t]` is the row `[b][n][t]` of that same batch entry. -/
theorem back_trace_identity {α : Type} (T : Tensor2) (oobI : Int → Int) (B offset : Nat)
    (fresh : Nat → Nat → Int) (hC : T.C = B) (hR : offset ≤ T.R)
    (hid : ∀ t, t < offset → ∀ b, b < B → T.elem t b = (b : Int)) :
    (∀ b, b < B → ∀ t, t < offset → back_trace T oobI B offset fresh b t = (b : Int)) ∧
    (∀ (KC : Tensor4 α) (oob : Int → α), KC.B = B →
      ∀ b, b < B → ∀ n, n < KC.N → ∀ t, t < offset → t < KC.S →
        KC.loadRow oob (vlaOff KC.N KC.S KC.H (back_trace T oobI B offset fresh b t) n t) KC.H =
          rowOf KC.H (KC.elem b n t)) := by
  have h1 : ∀ b, b < B → ∀ t, t < offset → back_trace T oobI B offset fresh b t = (b : Int) :=
    fun b hb t ht =>
      trace_identity_aux T oobI B offset fresh hC hR hid b hb (offset - 1 - t) t (by omega)
  refine ⟨h1, ?_⟩
  intro KC oob hB b hb n hn t ht hts
  rw [h1 b hb t ht]
  exact loadRow_vlaOff KC oob b n t (by omega) hn hts

/-- Witness of C5 on the identity table with four rows and two beams. -/
theorem back_trace_identity_witness :
    back_trace (arange_expand 4 2) (fun _ => 0) 2 3 (fun _ _ => 7) 1 0 = (1 : Int) :=
  (back_trace_identity (α := Int) (arange_expand 4 2) (fun _ => 0) 2 3 (fun _ _ => 7) rfl
    (by decide) (fun _ _ _ _ => rfl)).1 1 (by decide) 0 (by decide)

/-- C6, counterexample: with the growth increment `KV_CACHE_INC_SIZE = 0`, an init step
over one token (batch size 2) followed by one decode step returns offset 2 together with
a key tensor and a value tensor of sequence length 1, not 2: the returned key is the slice
`[0, 2)` of a buffer of capacity 1. A single init step over the two tokens returns keys and
values of sequence length 2. -/
theorem session_concat_zero_increment :
    (session (exCfg 0) exOps exMem exPrefill (exQKV 2 1 0) exMask exCacheEmpty
        (fun i => exQKV 2 1 (i + 1)) (fun _ => exMask) 1).map
      (fun o => (o.toCache.c3, o.toCache.c0.S, o.toCache.c1.S)) = some (2, 1, 1) ∧
    (self_mha (exCfg 0) exOps exMem exPrefill (exQKV 2 2 0) exMask exCacheEmpty).map
      (fun o => (o.toCache.c3, o.toCache.c0.S, o.toCache.c1.S)) = some (2, 2, 2) := by
  decide

/-- C6, amended: cache contents after incremental decoding, for a growth increment
`KV_CACHE_INC_SIZE ≥ 1` (default 128). For every `S ≥ 1` and `n ≥ 0`, after an init step
over the first `S` tokens of a sequence `X` followed by `n` single-token decode steps over
the tokens `S, ..., S + n - 1`, each fed the cache tuple returned by the previous step,
the returned offset is `S + n` and the returned key and value tensors have sequence length
`S + n` and hold the keys and values of the tokens in order; they have the shape and the
elements of the key and value tensors that a single init step over all `S + n` tokens
returns. -/
theorem session_concat {α R : Type} [Zero α] (cfg : BlockCfg) (ops : DecodeTPP α R)
    (mem : Mem α R) (prefill : Tensor4 α → Tensor4 α → Mask α → Tensor4 α → Tensor4 α)
    (X : QKV α) (S n : Nat) (am0 amFull : Mask α) (ams : Nat → Mask α) (c0 : CacheTuple α)
    (hcsz : c0.csz = 6) (hoff : c0.c3 = 0) (hS : 1 ≤ S)
    (hinc : 1 ≤ cfg.KV_CACHE_INC_SIZE) :
    ∃ o full,
      session cfg ops mem prefill (X.tokens 0 S) am0 c0 (fun i => X.tokens (S + i) 1) ams n =
        some o ∧
      self_mha cfg ops mem prefill (X.tokens 0 (S + n)) amFull c0 = some full ∧
      o.toCache.c3 = ((S + n : Nat) : Int) ∧ full.toCache.c3 = ((S + n : Nat) : Int) ∧
      o.toCache.c0.S = S + n ∧ o.toCache.c1.S = S + n ∧
      SameDims o.toCache.c0 full.toCache.c0 ∧ SameDims o.toCache.c1 full.toCache.c1 ∧
      (∀ b m s h, b < X.B → m < cfg.N → s < S + n → h < cfg.H →
        o.toCache.c0.elem b m s h = X.k b s (m * cfg.H + h) ∧
        o.toCache.c1.elem b m s h = X.v b s (m * cfg.H + h) ∧
        o.toCache.c0.elem b m s h = full.toCache.c0.elem b m s h ∧
        o.toCache.c1.elem b m s h = full.toCache.c1.elem b m s h) := by
  obtain ⟨o, e, -, -, hc3, ⟨kB, kN, kS, kH⟩, ⟨vB, vN, vS, vH⟩, hE⟩ :=
    session_inv cfg ops mem prefill (X.tokens 0 S) am0 c0 (fun i => X.tokens (S + i) 1) ams
      hcsz hoff hS (fun _ => ⟨rfl, rfl⟩) hinc n
  obtain ⟨t_CL, bi, kp, vp, e2, -⟩ :=
    self_mha_init_step cfg ops mem prefill (X.tokens 0 (S + n)) amFull c0 hcsz hoff (by omega)
  have hkeys : ∀ b m s h, s < S + n →
      session_keys cfg (X.tokens 0 S) (fun i => X.tokens (S + i) 1) b m s h =
        X.k b s (m * cfg.H + h) := by
    intro b m s h hs
    unfold session_keys QKV.tokens
    by_cases h1 : s < S
    · simp [h1]
    · have e1 : S + (s - S) + 0 = s := by omega
      simp only [h1, if_false, e1]
  have hvals : ∀ b m s h, s < S + n →
      session_values cfg (X.tokens 0 S) (fun i => X.tokens (S + i) 1) b m s h =
        X.v b s (m * cfg.H + h) := by
    intro b m s h hs
    unfold session_values QKV.tokens
    by_cases h1 : s < S
    · simp [h1]
    · have e1 : S + (s - S) + 0 = s := by omega
      simp only [h1, if_false, e1]
  have hfullk : ∀ b m s h,
      (view_heads (X.tokens 0 (S + n)).B (X.tokens 0 (S + n)).S cfg.N cfg.H
        (X.tokens 0 (S + n)).k).elem b m s h = X.k b s (m * cfg.H + h) := by
    intro b m s h
    simp [view_heads, QKV.tokens]
  have hfullv : ∀ b m s h,
      (view_heads (X.tokens 0 (S + n)).B (X.tokens 0 (S + n)).S cfg.N cfg.H
        (X.tokens 0 (S + n)).v).elem b m s h = X.v b s (m * cfg.H + h) := by
    intro b m s h
    simp [view_heads, QKV.tokens]
  refine ⟨o, _, e, e2, ?_, rfl, kS, vS, ⟨kB, kN, kS, kH⟩, ⟨vB, vN, vS, vH⟩, ?_⟩
  · rw [hc3]; simp [QKV.tokens]
  · intro b m s h hb hm hs hh
    obtain ⟨-, -, a3, a4⟩ := hE b m s h hb hm hs hh
    rw [hkeys b m s h hs] at a3
    rw [hvals b m s h hs] at a4
    exact ⟨a3, a4, a3.trans (hfullk b m s h).symm, a4.trans (hfullv b m s h).symm⟩

/-- Witness of C6: `S = 8`, `n = 3`, batch size 2, default increment; the returned key has
sequence length 11. -/
theorem session_concat_witness :
    ∃ o, session (exCfg 128) exOps exMem exPrefill ((exQKV 2 11 0).tokens 0 8) exMask
        exCacheEmpty (fun i => (exQKV 2 11 0).tokens (8 + i) 1) (fun _ => exMask) 3 = some o ∧
      o.toCache.c3 = 11 ∧ o.toCache.c0.S = 11 ∧
      o.toCache.c0.elem 1 0 10 0 = (exQKV 2 11 0).k 1 10 0 := by
  obtain ⟨o, full, h1, -, h2, -, h3, -, -, -, h4⟩ :=
    session_concat (exCfg 128) exOps exMem exPrefill (exQKV 2 11 0) 8 3 exMask exMask
      (fun _ => exMask) exCacheEmpty rfl rfl (by decide) (by decide)
  exact ⟨o, h1, h2, h3, (h4 1 0 10 0 (by decide) (by decide) (by decide) (by decide)).1⟩

/-- C8, counterexample: on a cache tuple of length 3 (less than 4) whose third entry is
the beam index `[1, 0]`, the returned key of batch row 0 at sequence position 0 is the past
key of batch row 1 (value 1), not the row's own past key (value 0). -/
theorem self_mha_simple_beam_indirection :
    exCache3.csz < 4 ∧
      ((self_mha (exCfg 128) exOps exMem exPrefill (exQKV 2 1 0) exMask exCache3).map
        fun o => o.toCache.c0.elem 0 0 0 0) = some 1 ∧
      exCache3.c0.elem 0 0 0 0 = 0 := by
  decide

/-- C8, amended: simple (non-beam) cache path. For every cache tuple of length 2, or of
length 3 with an empty beam-index entry, with non-empty past key and value of shape
`[B, N, S1, H]` and new key and value of sequence length `S2`, the key and value given to
the attention and returned have sequence length `S1 + S2` and entry `[b][n][i]` equals
`past[b][n][i]` for `i < S1` and `new[b][n][i - S1]` for `S1 ≤ i < S1 + S2`. -/
theorem self_mha_simple_concat {α R : Type} [Zero α] (cfg : BlockCfg) (ops : DecodeTPP α R)
    (mem : Mem α R) (prefill : Tensor4 α → Tensor4 α → Mask α → Tensor4 α → Tensor4 α)
    (x : QKV α) (t_am : Mask α) (t_cache : CacheTuple α)
    (hcsz : t_cache.csz = 2 ∨ (t_cache.csz = 3 ∧ t_cache.c2.numel = 0))
    (hk : 0 < t_cache.c0.numel) (hv : 0 < t_cache.c1.numel)
    (hkd : t_cache.c0.B = x.B ∧ t_cache.c0.N = cfg.N ∧ t_cache.c0.H = cfg.H)
    (hvd : t_cache.c1.B = x.B ∧ t_cache.c1.N = cfg.N ∧ t_cache.c1.H = cfg.H) :
    ∃ KL VL,
      self_mha cfg ops mem prefill x t_am t_cache =
        some (MhaOut.simple
          (merge_heads x.B x.S cfg.N cfg.H
            (prefill (view_heads x.B x.S cfg.N cfg.H x.q) KL t_am VL)) KL VL) ∧
      (KL.B = x.B ∧ KL.N = cfg.N ∧ KL.S = t_cache.c0.S + x.S ∧ KL.H = cfg.H) ∧
      (VL.B = x.B ∧ VL.N = cfg.N ∧ VL.S = t_cache.c1.S + x.S ∧ VL.H = cfg.H) ∧
      (∀ b n i h, b < x.B → n < cfg.N → i < t_cache.c0.S + x.S → h < cfg.H →
        KL.elem b n i h =
          if i < t_cache.c0.S then t_cache.c0.elem b n i h
          else (view_heads x.B x.S cfg.N cfg.H x.k).elem b n (i - t_cache.c0.S) h) ∧
      (∀ b n i h, b < x.B → n < cfg.N → i < t_cache.c1.S + x.S → h < cfg.H →
        VL.elem b n i h =
          if i < t_cache.c1.S then t_cache.c1.elem b n i h
          else (view_heads x.B x.S cfg.N cfg.H x.v).elem b n (i - t_cache.c1.S) h) := by
  obtain ⟨hkB, hkN, hkH⟩ := hkd
  obtain ⟨hvB, hvN, hvH⟩ := hvd
  have hbeam : (if t_cache.csz > 2 then t_cache.c2 else t_dummy_int).numel = 0 := by
    rcases hcsz with h | ⟨h, h0⟩
    · simp [h, t_dummy_int, Tensor2.numel]
    · simp [h, h0]
  have hlt : ¬ t_cache.csz > 3 := by rcases hcsz with h | ⟨h, -⟩ <;> omega
  have h0 : t_cache.csz > 0 := by rcases hcsz with h | ⟨h, -⟩ <;> omega
  have h1 : t_cache.csz > 1 := by rcases hcsz with h | ⟨h, -⟩ <;> omega
  obtain ⟨KL, eK, kB, kN, kS, kH, kE⟩ := kv_concat_direct mem.oob mem.oobI mem.freshCat
    t_cache.c0 (view_heads x.B x.S cfg.N cfg.H x.k)
    (if t_cache.csz > 2 then t_cache.c2 else t_dummy_int) hbeam hkB.symm hkN.symm hkH.symm
  obtain ⟨VL, eV, vB, vN, vS, vH, vE⟩ := kv_concat_direct mem.oob mem.oobI mem.freshCat
    t_cache.c1 (view_heads x.B x.S cfg.N cfg.H x.v)
    (if t_cache.csz > 2 then t_cache.c2 else t_dummy_int) hbeam hvB.symm hvN.symm hvH.symm
  refine ⟨KL, VL, ?_, ⟨by omega, by omega, kS, by omega⟩, ⟨by omega, by omega, vS, by omega⟩,
    ?_, ?_⟩
  · unfold self_mha self_mha_simple
    simp only [hlt, if_false, h0, h1, if_true, hk, hv, eK, eV]
    rfl
  · intro b n i h hb hn hi hh
    exact kE b n i h (by omega) (by omega) hi (by omega)
  · intro b n i h hb hn hi hh
    exact vE b n i h (by omega) (by omega) hi (by omega)

/-- Witness of the amended C8 on a cache tuple of length 2. -/
theorem self_mha_simple_concat_witness :
    ∃ KL VL, self_mha (exCfg 128) exOps exMem exPrefill (exQKV 2 1 0) exMask exCache2 =
        some (MhaOut.simple
          (merge_heads 2 1 1 1 (exPrefill (view_heads 2 1 1 1 (exQKV 2 1 0).q) KL exMask VL))
          KL VL) ∧ KL.S = 2 ∧ VL.S = 2 := by
  obtain ⟨KL, VL, h, ⟨-, -, hKS, -⟩, ⟨-, -, hVS, -⟩, -⟩ :=
    self_mha_simple_concat (exCfg 128) exOps exMem exPrefill (exQKV 2 1 0) exMask exCache2
      (Or.inl rfl) (by decide) (by decide) ⟨rfl, rfl, rfl⟩ ⟨rfl, rfl, rfl⟩
  exact ⟨KL, VL, h, hKS, hVS⟩

/-- C9, failing inputs. (1) Prefill with `Sq = 4`, `Sk = 66` (offset 62),
`SK_BLOCK_SIZE = 64` and a `float` tensor (no key padding): the loop nest visits the score
tile with `sq = 0`, `sk = 64`, 4 rows and 2 columns, whose storage is the offsets
`[0, 16 * 2)`. For query row 0 the masking loop starts at `sk1 = 63 < sk` and writes
`AS[0][-1]`, the element at offset `-1`, in front of the tile: memory outside the tile is
overwritten with the sentinel. (2) Prefill of a plain prompt with `Sq = Sk = 1100` (offset 0):
the tile with `sq = 0`, `sk = 1024`, 64 rows and 76 columns is visited and for query row 0
the loop starts at `sk1 = 1` and writes the element at offset `-1023`. -/
theorem causal_mask_writes_outside_tile :
    (({ sq := 0, sk := 64, qbs := 4, kbs := 2 } : ScoreTile) ∈ prefill_tiles 64 1 4 66 ∧
      causal_mask_writes { sq := 0, sk := 64, qbs := 4, kbs := 2 } 62 = [-1, 0, 1, 2, 3, 5] ∧
      ¬ ((0 : Int) ≤ -1 ∧ (-1 : Int) < ((sqb_aligned 4 * 2 : Nat) : Int)) ∧
      causal_mask (-1000000000 : Int) { sq := 0, sk := 64, qbs := 4, kbs := 2 } 62
        (fun _ => 0) (-1) = -1000000000) ∧
    (({ sq := 0, sk := 1024, qbs := 64, kbs := 76 } : ScoreTile) ∈
        prefill_tiles 64 1 1100 1100 ∧
      (-1023 : Int) ∈ causal_mask_writes { sq := 0, sk := 1024, qbs := 64, kbs := 76 } 0) := by
  refine ⟨by decide, by decide, ?_⟩
  unfold causal_mask_writes
  rw [List.mem_flatMap]
  exact ⟨0, List.mem_range.mpr (by decide),
    List.mem_map.mpr ⟨0, List.mem_range.mpr (by decide), by decide⟩⟩

/-- C11: the decode attention fills the caches and leaves the rest unchanged. For a query
of shape `[B, N, 1, H]`, new key and value of the same shape, key and value caches of one
shape `[B, N, Capacity, H]` and `offset < Capacity`, the call succeeds on either code path;
the returned caches keep their shape, their entries `[b][n][offset]` are the new key
`K[b][n][0]` and the new value `V[b][n][0]`, and every entry at another sequence position
is the entry of the cache before the call. -/
theorem attn_decode_cache_fill {α R : Type} (ops : DecodeTPP α R) (oob : Int → α)
    (freshCL : Nat → Nat → Nat → Nat → α) (freshAS : Nat → Nat → Nat → R)
    (t_QL t_KL : Tensor4 α) (t_AM : Mask α) (t_VL KC VC : Tensor4 α)
    (beam_idx : Nat → Nat → Int) (offset : Nat)
    (hq : t_QL.S = 1) (hk : SameDims t_KL t_QL) (_hv : SameDims t_VL t_QL)
    (hK : KC.B = t_QL.B ∧ KC.N = t_QL.N ∧ KC.H = t_QL.H) (hV : SameDims VC KC)
    (ho : offset < KC.S) :
    ∃ CL KC2 VC2,
      attn_decode ops oob freshCL freshAS t_QL t_KL t_AM t_VL KC VC beam_idx offset =
        some (CL, KC2, VC2) ∧
      SameDims KC2 KC ∧ SameDims VC2 VC ∧
      ∀ b n s h, b < KC.B → n < KC.N → s < KC.S → h < KC.H →
        KC2.elem b n s h = (if s = offset then t_KL.elem b n 0 h else KC.elem b n s h) ∧
        VC2.elem b n s h = (if s = offset then t_VL.elem b n 0 h else VC.elem b n s h) := by
  obtain ⟨CL, hCL⟩ := attn_decode_caches ops oob freshCL freshAS t_QL t_KL t_AM t_VL KC VC
    beam_idx offset hq (hk.2.2.1.trans hq)
  obtain ⟨hB, hN, hH⟩ := hK
  obtain ⟨vB, vN, vS, vH⟩ := hV
  refine ⟨CL, _, _, hCL, cache_fill_dims _ _ _ _ _ _ _, cache_fill_dims _ _ _ _ _ _ _, ?_⟩
  intro b n s h hb hn hs hh
  constructor
  · have e := cache_fill_elem offset t_KL KC ho b n s h hb hn hs hh
    rw [hB, hN, hH] at e
    exact e
  · have e := cache_fill_elem offset t_VL VC (by omega) b n s h (by omega) (by omega)
      (by omega) (by omega)
    rw [vB, vN, vS, vH, hB, hN, hH] at e
    exact e

/-- Witness of C11: a decode call with offset 2 on caches of capacity 4 for batch size 2. -/
theorem attn_decode_cache_fill_witness :
    ∃ CL KC2 VC2,
      attn_decode exOps exMem.oob exMem.freshCL exMem.freshAS exNewTok exNewTok exMask
        exNewTok exBuf exBuf (fun _ b => (b : Int)) 2 = some (CL, KC2, VC2) ∧
      KC2.elem 1 0 2 0 = 11 ∧ KC2.elem 1 0 1 0 = 101 ∧ VC2.elem 0 0 2 0 = 10 := by
  obtain ⟨CL, KC2, VC2, h1, -, -, h2⟩ :=
    attn_decode_cache_fill exOps exMem.oob exMem.freshCL exMem.freshAS exNewTok exNewTok
      exMask exNewTok exBuf exBuf (fun _ b => (b : Int)) 2 rfl ⟨rfl, rfl, rfl, rfl⟩
      ⟨rfl, rfl, rfl, rfl⟩ ⟨rfl, rfl, rfl⟩ ⟨rfl, rfl, rfl, rfl⟩ (by decide)
  refine ⟨CL, KC2, VC2, h1, ?_, ?_, ?_⟩
  · exact (h2 1 0 2 0 (by decide) (by decide) (by decide) (by decide)).1
  · exact (h2 1 0 1 0 (by decide) (by decide) (by decide) (by decide)).1
  · exact (h2 0 0 2 0 (by decide) (by decide) (by decide) (by decide)).2

/-- C12: the two code paths of the decode attention define the same function. For a query
of shape `[B, N, 1, H]`, key and value of the same shape, caches of one shape
`[B, N, Capacity, H]` with `offset < Capacity` and traced beam indices in `[0, B)`, the
stack path (taken by `attn` when `offset + 1 <= 256`) and the heap path (taken otherwise),
applied to the same arguments, return outputs of the same shape with the same elements
and leave the key and value caches in the same state. The conversions of the two paths
(`ConvertTPP` on the stack path, `Tensor::to` on the heap path) are taken to be the same
element-wise maps, and `ScaleAddTPP(H)` to return `H` elements. -/
theorem attn_decode_paths_agree {α R : Type} (ops : DecodeTPP α R) (oob : Int → α)
    (freshCL : Nat → Nat → Nat → Nat → α) (freshAS : Nat → Nat → Nat → R)
    (t_QL t_KL : Tensor4 α) (t_AM : Mask α) (t_VL KC VC : Tensor4 α)
    (beam_idx : Nat → Nat → Int) (offset : Nat)
    (hq : t_QL.S = 1) (hk : SameDims t_KL t_QL) (_hv : SameDims t_VL t_QL)
    (hK : KC.B = t_QL.B ∧ KC.N = t_QL.N ∧ KC.H = t_QL.H) (hV : SameDims VC KC)
    (ho : offset < KC.S)
    (hbeam : ∀ b, b < t_QL.B → ∀ t, t < offset →
      0 ≤ beam_idx b t ∧ beam_idx b t < t_QL.B)
    (hb2f : ∀ row, ops.cvt_b2f row = row.map ops.to_float)
    (hf2b : ∀ row, ops.cvt_f2b row = row.map ops.to_T)
    (hsa : ∀ v acc w, v.length = t_QL.H → acc.length = t_QL.H →
      (ops.scale_add v acc w).length = t_QL.H) :
    attn_decode ops oob freshCL freshAS t_QL t_KL t_AM t_VL KC VC beam_idx offset =
      some (if offset + 1 ≤ 256 then
          attn_decode_small ops oob freshCL t_QL t_KL t_AM t_VL KC VC beam_idx offset
        else attn_decode_large ops oob freshAS t_QL t_KL t_AM t_VL KC VC beam_idx offset) ∧
    SameDims (attn_decode_small ops oob freshCL t_QL t_KL t_AM t_VL KC VC beam_idx offset).1
      (attn_decode_large ops oob freshAS t_QL t_KL t_AM t_VL KC VC beam_idx offset).1 ∧
    (∀ b n s h, b < t_QL.B → n < t_QL.N → s < t_QL.S → h < t_QL.H →
      (attn_decode_small ops oob freshCL t_QL t_KL t_AM t_VL KC VC beam_idx offset).1.elem
          b n s h =
        (attn_decode_large ops oob freshAS t_QL t_KL t_AM t_VL KC VC beam_idx offset).1.elem
          b n s h) ∧
    (attn_decode_small ops oob freshCL t_QL t_KL t_AM t_VL KC VC beam_idx offset).2 =
      (attn_decode_large ops oob freshAS t_QL t_KL t_AM t_VL KC VC beam_idx offset).2 := by
  have hk1 : t_KL.S = 1 := hk.2.2.1.trans hq
  have hc := attn_decode_path_caches ops oob freshCL freshAS t_QL t_KL t_AM t_VL KC VC
    beam_idx offset hk1
  refine ⟨?_, attn_decode_small_dims ops oob freshCL t_QL t_KL t_AM t_VL KC VC beam_idx offset,
    ?_, hc.1.trans hc.2.symm⟩
  · rw [attn_decode_paths, if_pos ⟨hq, hk1⟩, hk1]
    split <;> rfl
  · intro b n s h hb hn hs hh
    have hs0 : s = 0 := by omega
    subst hs0
    rw [attn_decode_small_out ops oob freshCL t_QL t_KL t_AM t_VL KC VC beam_idx offset hk1
        hK hV ho hbeam hf2b hsa b n h hb hn hh,
      attn_decode_large_out ops oob freshAS t_QL t_KL t_AM t_VL KC VC beam_idx offset hk1
        hK hV ho hbeam b n 0 h hb hn, hb2f]

/-- Witness of C12: both paths on a decode call with offset 2, batch size 2 and caches of
capacity 4. -/
theorem attn_decode_paths_agree_witness :
    (attn_decode_small exOps exMem.oob exMem.freshCL exNewTok exNewTok exMask exNewTok
        exBuf exBuf (fun b _ => (b : Int)) 2).1.elem 1 0 0 0 =
      (attn_decode_large exOps exMem.oob exMem.freshAS exNewTok exNewTok exMask exNewTok
        exBuf exBuf (fun b _ => (b : Int)) 2).1.elem 1 0 0 0 ∧
    (attn_decode_small exOps exMem.oob exMem.freshCL exNewTok exNewTok exMask exNewTok
        exBuf exBuf (fun b _ => (b : Int)) 2).2 =
      (attn_decode_large exOps exMem.oob exMem.freshAS exNewTok exNewTok exMask exNewTok
        exBuf exBuf (fun b _ => (b : Int)) 2).2 := by
  obtain ⟨-, -, h1, h2⟩ :=
    attn_decode_paths_agree exOps exMem.oob exMem.freshCL exMem.freshAS exNewTok exNewTok
      exMask exNewTok exBuf exBuf (fun b _ => (b : Int)) 2 rfl ⟨rfl, rfl, rfl, rfl⟩
      ⟨rfl, rfl, rfl, rfl⟩ ⟨rfl, rfl, rfl⟩ ⟨rfl, rfl, rfl, rfl⟩ (by decide)
      (fun b hb _ _ => ⟨Int.ofNat_nonneg b, Int.ofNat_lt.mpr hb⟩)
      (fun row => (List.map_id row).symm) (fun row => (List.map_id row).symm)
      (fun v acc w hv ha => by
        show (List.zipWith _ v acc).length = _
        rw [List.length_zipWith, hv, ha, Nat.min_self])
  exact ⟨h1 1 0 0 0 (by decide) (by decide) (by decide) (by decide), h2⟩

/-- C15: first-token weight regrouping preserves the logical weight. For a rank-5 weight `t`
of shape `[K1, C1, C2, K2, C3]` with `K1` divisible by 4, `wt_tensor_for_first_token`
returns a new tensor of shape `[K1/4, C1, C2, 4*K2, C3]` with
`result[i][j][c][k*K2 + k2][c3] = t[4*i + k][j][c][k2][c3]`; the result has the shape and
the elements of the reference `view(...).permute(0, 2, 3, 1, 4, 5)`, it has as many
elements as `t`, and every element of `t` occurs in it. -/
theorem wt_tensor_for_first_token_regroup {α : Type} (fresh : Nat → α) (t : FlatTensor α)
    (K1 C1 C2 K2 C3 : Nat) (hs : t.sizes = [K1, C1, C2, K2, C3]) (hK : K1 % 4 = 0) :
    (wt_tensor_for_first_token fresh t).is_input = false ∧
    (wt_tensor_for_first_token fresh t).tensor.sizes = [K1 / 4, C1, C2, 4 * K2, C3] ∧
    (∀ i j c k k2 c3, i < K1 / 4 → k < 4 → j < C1 → c < C2 → k2 < K2 → c3 < C3 →
      (wt_tensor_for_first_token fresh t).tensor.get5 i j c (k * K2 + k2) c3 =
        t.get5 (4 * i + k) j c k2 c3) ∧
    (first_token_ref t).sizes = (wt_tensor_for_first_token fresh t).tensor.sizes ∧
    (∀ p, p < (wt_tensor_for_first_token fresh t).tensor.numel →
      (wt_tensor_for_first_token fresh t).tensor.data p = (first_token_ref t).data p) ∧
    (wt_tensor_for_first_token fresh t).tensor.numel = t.numel ∧
    (∀ a j c k2 c3, a < K1 → j < C1 → c < C2 → k2 < K2 → c3 < C3 →
      t.get5 a j c k2 c3 =
        (wt_tensor_for_first_token fresh t).tensor.get5 (a / 4) j c (a % 4 * K2 + k2) c3) := by
  have hd : ¬ (t.dim < 5) := by simp [FlatTensor.dim, hs]
  have s0 : t.size 0 = K1 := by simp [FlatTensor.size, hs]
  have s1 : t.size 1 = C1 := by simp [FlatTensor.size, hs]
  have s2 : t.size 2 = C2 := by simp [FlatTensor.size, hs]
  have s3 : t.size 3 = K2 := by simp [FlatTensor.size, hs]
  have s4 : t.size 4 = C3 := by simp [FlatTensor.size, hs]
  have hr : wt_tensor_for_first_token fresh t =
      { is_input := false,
        tensor :=
          { sizes := [K1 / 4, C1, C2, 4 * K2, C3],
            data := apply_copies t.data (first_token_copies K1 C1 C2 K2 C3) fresh } } := by
    unfold wt_tensor_for_first_token
    rw [if_neg hd]
    simp only [s0, s1, s2, s3, s4, hK, ne_eq, not_true_eq_false, if_false]
  have hget : ∀ i j c k k2 c3, i < K1 / 4 → k < 4 → j < C1 → c < C2 → k2 < K2 → c3 < C3 →
      (wt_tensor_for_first_token fresh t).tensor.get5 i j c (k * K2 + k2) c3 =
        t.get5 (4 * i + k) j c k2 c3 := by
    intro i j c k k2 c3 hi hk hj hc hk2 hc3
    rw [hr]
    have key := first_token_data t.data fresh K1 C1 C2 K2 C3 i j k c (k2 * C3 + c3) hi hj hk hc
      (mul_add_lt _ _ _ _ hk2 hc3)
    simp only [FlatTensor.get5, FlatTensor.size, List.getD_cons_succ, List.getD_cons_zero,
      idx5, hs]
    have e1 : (((i * C1 + j) * C2 + c) * (4 * K2) + (k * K2 + k2)) * C3 + c3 =
        (((i * C1 + j) * C2 + c) * 4 + k) * (K2 * C3) + (k2 * C3 + c3) := by ring
    have e2 : ((((4 * i + k) * C1 + j) * C2 + c) * K2 + k2) * C3 + c3 =
        (((i * 4 + k) * C1 + j) * C2 + c) * (K2 * C3) + (k2 * C3 + c3) := by ring
    rw [e1, e2]
    exact key
  refine ⟨by rw [hr], by rw [hr], hget, ?_, ?_, ?_, ?_⟩
  · rw [hr]
    simp only [first_token_ref, s0, s1, s2, s3, s4]
  · intro p hp
    rw [hr] at hp ⊢
    simp only [FlatTensor.numel, List.prod_cons, List.prod_nil] at hp
    simp only [first_token_ref, s0, s1, s2, s3, s4]
    exact first_token_data_ref t.data fresh K1 C1 C2 K2 C3 p
      (by
        have e : K1 / 4 * C1 * C2 * 4 * K2 * C3 = K1 / 4 * (C1 * (C2 * (4 * K2 * (C3 * 1)))) := by
          ring
        rw [e]; exact hp)
  · rw [hr]
    simp only [FlatTensor.numel, hs, List.prod_cons, List.prod_nil]
    have e : K1 = K1 / 4 * 4 := by omega
    calc K1 / 4 * (C1 * (C2 * (4 * K2 * (C3 * 1))))
        = K1 / 4 * 4 * (C1 * (C2 * (K2 * (C3 * 1)))) := by ring
      _ = K1 * (C1 * (C2 * (K2 * (C3 * 1)))) := by rw [← e]
  · intro a j c k2 c3 ha hj hc hk2 hc3
    rw [hget (a / 4) j c (a % 4) k2 c3 (by omega) (Nat.mod_lt _ (by decide)) hj hc hk2 hc3]
    congr 1
    omega

/-- Witness of C15: a weight of shape `[8, 1, 2, 1, 2]` is regrouped to `[2, 1, 2, 4, 2]`,
and the element `[1][0][1][2][1]` of the result is the element `[6][0][1][0][1]` of the
input, stored at offset 27. -/
theorem wt_tensor_for_first_token_regroup_witness :
    (wt_tensor_for_first_token (fun _ => -1) exWt).tensor.sizes = [2, 1, 2, 4, 2] ∧
      (wt_tensor_for_first_token (fun _ => -1) exWt).tensor.get5 1 0 1 2 1 = 27 := by
  obtain ⟨-, h1, h2, -⟩ :=
    wt_tensor_for_first_token_regroup (fun _ => (-1 : Int)) exWt 8 1 2 1 2 rfl (by decide)
  refine ⟨h1, ?_⟩
  have h := h2 1 0 1 2 0 1 (by decide) (by decide) (by decide) (by decide) (by decide)
    (by decide)
  exact h.trans (by decide)

/-- C16: pass-through of `wt_tensor_for_first_token`. The function returns its argument
itself, with its shape and contents, exactly when the rank is below 5 or the first size is
not divisible by 4. In every other case it returns the new allocation of shape
`[K1/4, C1, C2, 4*K2, C3]`, and every write of the copy loop lands inside the storage of
that allocation, so the storage of the argument is not written. -/
theorem wt_tensor_for_first_token_passthrough {α : Type} (fresh : Nat → α)
    (t : FlatTensor α) :
    ((wt_tensor_for_first_token fresh t).is_input = true ↔
      (t.dim < 5 ∨ t.size 0 % 4 ≠ 0)) ∧
    ((wt_tensor_for_first_token fresh t).is_input = true →
      (wt_tensor_for_first_token fresh t).tensor = t) ∧
    ((wt_tensor_for_first_token fresh t).is_input = false →
      (wt_tensor_for_first_token fresh t).tensor.sizes =
        [t.size 0 / 4, t.size 1, t.size 2, 4 * t.size 3, t.size 4] ∧
      (wt_tensor_for_first_token fresh t).tensor.data =
        apply_copies t.data
          (first_token_copies (t.size 0) (t.size 1) (t.size 2) (t.size 3) (t.size 4)) fresh ∧
      ∀ w, w ∈ first_token_copies (t.size 0) (t.size 1) (t.size 2) (t.size 3) (t.size 4) →
        w.1 < (wt_tensor_for_first_token fresh t).tensor.numel) := by
  unfold wt_tensor_for_first_token
  by_cases hd : t.dim < 5
  · simp [hd]
  · by_cases hK : t.size 0 % 4 = 0
    · simp only [hd, hK, if_false, ne_eq, not_true_eq_false, or_self, iff_false,
        Bool.false_eq_true, false_implies, true_and, forall_true_left, FlatTensor.numel]
      exact fun w hw => first_token_copies_dst_lt _ _ _ _ _ w hw
    · simp [hd, hK]

/-- Witness of C16: a rank-4 weight is returned as it is. -/
theorem wt_tensor_for_first_token_passthrough_witness :
    (wt_tensor_for_first_token (fun _ => -1) exWt4).tensor = exWt4 :=
  (wt_tensor_for_first_token_passthrough (fun _ => (-1 : Int)) exWt4).2.1 rfl

/-- C17, counterexample: (1) with a table of rotary width `HR = 1` and rows of two
features, the loop runs for `h = 0` and rewrites the pair `(in[0], in[1])`: the feature at
index 1, which is not below `HR`, changes from 5 to 8. (2) With a table of one position
(`MP = 1`, rotary width 2) and the entry `2^32` in `t_pos`, which is not below `MP`, the code
narrows the entry to `int p = 0` and rotates the row `(3, 5)` to `(-5, 3)` with the table
row 0. -/
theorem rotary_gptj_odd_width_wide_position :
    (apply_rotary_pos_emb_gptj exRot 1 1 1 2 1 1 (fun _ => 1) (fun _ => 0) exRow 1 = 8 ∧
      exRow 1 = 5) ∧
    (¬ ((4294967296 : Int) < ((1 : Nat) : Int)) ∧ long_to_int 4294967296 = 0 ∧
      apply_rotary_pos_emb_gptj exRot 1 1 1 2 1 2 exEmb (fun _ => 4294967296) exRow 0 = -5 ∧
      apply_rotary_pos_emb_gptj exRot 1 1 1 2 1 2 exEmb (fun _ => 4294967296) exRow 1 = 3 ∧
      exRow 0 = 3) := by
  decide

/-- C17, amended: interleaved (GPT-J) rotary embedding for a rotary width `HR` whose pairs
fit into a head (`HR` rounded up to an even number is at most `H`). For every token
`(b, s)` and every head `n`, with `p` the entry `pos[b][s]` converted to a 32-bit `int` as
the code does (`p = pos[b][s]` whenever `-2^31 ≤ pos[b][s] < 2^31`): if `p < MP`, each pair
`(x, y) = (in[h], in[h+1])` with `h = 2 * h2 < HR` is replaced by
`(x*cos - y*sin, y*cos + x*sin)` with `sin = table[p][h/2]` and
`cos = table[p][HR/2 + h/2]`; if `p >= MP`, every feature of the row is unchanged; the
features at index `>= HR`, and `>= HR + 1` when `HR` is odd, are unchanged in every
case. -/
theorem rotary_gptj_spec {α R : Type} (ops : RotaryOps α R) (B S N H MP HR : Nat)
    (emb : Int → R) (pos : Nat → Int) (mem : Nat → α)
    (hH : 2 * ((HR + 1) / 2) ≤ H)
    (b s n : Nat) (hb : b < B) (hs : s < S) (hn : n < N) :
    (long_to_int (pos (b * S + s)) < (MP : Int) → ∀ h2, 2 * h2 < HR →
      apply_rotary_pos_emb_gptj ops B S N H MP HR emb pos mem
          (((b * S + s) * N + n) * H + 2 * h2) =
        ops.ofF (ops.sub
          (ops.mul (ops.toF (mem (((b * S + s) * N + n) * H + 2 * h2)))
            (emb_pos_gptj emb HR (long_to_int (pos (b * S + s))) (HR / 2 + h2)))
          (ops.mul (ops.toF (mem (((b * S + s) * N + n) * H + (2 * h2 + 1))))
            (emb_pos_gptj emb HR (long_to_int (pos (b * S + s))) h2))) ∧
      apply_rotary_pos_emb_gptj ops B S N H MP HR emb pos mem
          (((b * S + s) * N + n) * H + (2 * h2 + 1)) =
        ops.ofF (ops.add
          (ops.mul (ops.toF (mem (((b * S + s) * N + n) * H + (2 * h2 + 1))))
            (emb_pos_gptj emb HR (long_to_int (pos (b * S + s))) (HR / 2 + h2)))
          (ops.mul (ops.toF (mem (((b * S + s) * N + n) * H + 2 * h2)))
            (emb_pos_gptj emb HR (long_to_int (pos (b * S + s))) h2)))) ∧
    (long_to_int (pos (b * S + s)) ≥ (MP : Int) → ∀ h, h < H →
      apply_rotary_pos_emb_gptj ops B S N H MP HR emb pos mem
          (((b * S + s) * N + n) * H + h) = mem (((b * S + s) * N + n) * H + h)) ∧
    (∀ h, HR + HR % 2 ≤ h → h < H →
      apply_rotary_pos_emb_gptj ops B S N H MP HR emb pos mem
          (((b * S + s) * N + n) * H + h) = mem (((b * S + s) * N + n) * H + h)) ∧
    (-2147483648 ≤ pos (b * S + s) → pos (b * S + s) < 2147483648 →
      long_to_int (pos (b * S + s)) = pos (b * S + s)) := by
  have key := fun h hh => apply_rotary_gptj_row ops B S N H MP HR emb pos mem hH b s n h hb hs
    hn hh
  refine ⟨?_, ?_, ?_, fun h1 h2 => long_to_int_of_range _ h1 h2⟩
  · intro hp h2 hh2
    have n1 : ¬ (long_to_int (pos (b * S + s)) ≥ (MP : Int) ∨ 2 * ((HR + 1) / 2) ≤ 2 * h2) := by
      intro hc
      rcases hc with hc | hc
      · omega
      · omega
    have n2 : ¬ (long_to_int (pos (b * S + s)) ≥ (MP : Int) ∨ 2 * ((HR + 1) / 2) ≤ 2 * h2 + 1) := by
      intro hc
      rcases hc with hc | hc
      · omega
      · omega
    have d1 : 2 * h2 / 2 = h2 := by omega
    have d2 : 2 * h2 % 2 = 0 := by omega
    have d3 : (2 * h2 + 1) / 2 = h2 := by omega
    have d4 : (2 * h2 + 1) % 2 = 1 := by omega
    constructor
    · rw [key (2 * h2) (by omega)]
      unfold gptj_rotated
      rw [if_neg n1]
      simp only [d1, d2, if_true]
    · rw [key (2 * h2 + 1) (by omega)]
      unfold gptj_rotated
      rw [if_neg n2]
      simp only [d3, d4, one_ne_zero, if_false]
  · intro hp h hh
    rw [key h hh]
    unfold gptj_rotated
    rw [if_pos (Or.inl hp)]
  · intro h h1 hh
    rw [key h hh]
    have c : long_to_int (pos (b * S + s)) ≥ (MP : Int) ∨ 2 * ((HR + 1) / 2) ≤ h := Or.inr (by omega)
    unfold gptj_rotated
    rw [if_pos c]

/-- Witness of C17: rotary width 2, one token at position 0 with `sin = 1`, `cos = 0`; the
pair `(3, 5)` becomes `(-5, 3)`. -/
theorem rotary_gptj_spec_witness :
    apply_rotary_pos_emb_gptj exRot 1 1 1 2 1 2 exEmb (fun _ => 0) exRow 0 = -5 ∧
      apply_rotary_pos_emb_gptj exRot 1 1 1 2 1 2 exEmb (fun _ => 0) exRow 1 = 3 := by
  have h := (rotary_gptj_spec exRot 1 1 1 2 1 2 exEmb (fun _ => 0) exRow (by decide)
    0 0 0 (by decide) (by decide) (by decide)).1 (by decide) 0 (by decide)
  exact ⟨h.1.trans (by decide), h.2.trans (by decide)⟩

/-- Round trip of the interleaved rotary embedding when the float operations are read as
the operations of a commutative ring and the conversions as the identity. For a rotary width
`HR` whose pairs fit into a head and two tables such that, at the position `p < MP` of
every token and for each pair index, the second table holds the negated sin entry and the
same cos entry as the first and `sin^2 + cos^2 = 1`: the loop nest of
`apply_rotary_pos_emb_gptj` run with the first table and then with the second restores
every element. The statement is about the algebra of the loop nest; the program rounds
every product, difference and sum and every stored element, which a ring does not do. -/
theorem rotary_gptj_round_trip {R : Type} [CommRing R] (B S N H MP HR : Nat)
    (emb1 emb2 : Int → R) (pos : Nat → Int) (mem : Nat → R)
    (hH : 2 * ((HR + 1) / 2) ≤ H)
    (htab : ∀ b s, b < B → s < S → long_to_int (pos (b * S + s)) < (MP : Int) → ∀ h2, 2 * h2 < HR →
      emb_pos_gptj emb2 HR (long_to_int (pos (b * S + s))) h2 = - emb_pos_gptj emb1 HR (long_to_int (pos (b * S + s))) h2 ∧
      emb_pos_gptj emb2 HR (long_to_int (pos (b * S + s))) (HR / 2 + h2) =
        emb_pos_gptj emb1 HR (long_to_int (pos (b * S + s))) (HR / 2 + h2) ∧
      emb_pos_gptj emb1 HR (long_to_int (pos (b * S + s))) h2 ^ 2 +
        emb_pos_gptj emb1 HR (long_to_int (pos (b * S + s))) (HR / 2 + h2) ^ 2 = 1)
    (b s n h : Nat) (hb : b < B) (hs : s < S) (hn : n < N) (hh : h < H) :
    apply_rotary_pos_emb_gptj (ringRotaryOps R) B S N H MP HR emb2 pos
        (apply_rotary_pos_emb_gptj (ringRotaryOps R) B S N H MP HR emb1 pos mem)
        (((b * S + s) * N + n) * H + h) =
      mem (((b * S + s) * N + n) * H + h) := by
  have key1 := fun h hh => apply_rotary_gptj_row (ringRotaryOps R) B S N H MP HR emb1 pos mem
    hH b s n h hb hs hn hh
  rw [apply_rotary_gptj_row (ringRotaryOps R) B S N H MP HR emb2 pos _ hH b s n h hb hs hn hh]
  unfold gptj_rotated
  by_cases c : long_to_int (pos (b * S + s)) ≥ (MP : Int) ∨ 2 * ((HR + 1) / 2) ≤ h
  · rw [if_pos c]
    dsimp only
    rw [key1 h hh]
    unfold gptj_rotated
    rw [if_pos c]
  · rw [if_neg c]
    have hp : long_to_int (pos (b * S + s)) < (MP : Int) := by
      by_contra hc
      exact c (Or.inl (by omega))
    have hlt : h < 2 * ((HR + 1) / 2) := by
      by_contra hc
      exact c (Or.inr (by omega))
    have n1 : ¬ (long_to_int (pos (b * S + s)) ≥ (MP : Int) ∨ 2 * ((HR + 1) / 2) ≤ 2 * (h / 2)) := by
      intro hc
      rcases hc with hc | hc
      · omega
      · omega
    have n2 : ¬ (long_to_int (pos (b * S + s)) ≥ (MP : Int) ∨ 2 * ((HR + 1) / 2) ≤ 2 * (h / 2) + 1) := by
      intro hc
      rcases hc with hc | hc
      · omega
      · omega
    obtain ⟨t1, t2, t3⟩ := htab b s hb hs hp (h / 2) (by omega)
    have d1 : 2 * (h / 2) / 2 = h / 2 := by omega
    have d2 : 2 * (h / 2) % 2 = 0 := by omega
    have d3 : (2 * (h / 2) + 1) / 2 = h / 2 := by omega
    have d4 : (2 * (h / 2) + 1) % 2 = 1 := by omega
    dsimp only
    rw [key1 (2 * (h / 2)) (by omega), key1 (2 * (h / 2) + 1) (by omega)]
    unfold gptj_rotated
    rw [if_neg n1, if_neg n2]
    simp only [d1, d2, d3, d4, if_true, one_ne_zero, if_false, ringRotaryOps, id, t1, t2]
    by_cases par : h % 2 = 0
    · rw [if_pos par]
      have e : 2 * (h / 2) = h := by omega
      rw [e]
      linear_combination (mem (((b * S + s) * N + n) * H + h)) * t3
    · rw [if_neg par]
      have e : 2 * (h / 2) + 1 = h := by omega
      rw [e]
      linear_combination (mem (((b * S + s) * N + n) * H + h)) * t3

/-- An instance of the round trip over the integers: the row `(3, 5)` rotated with
`sin = 1`, `cos = 0` and then with `sin = -1`, `cos = 0` is `(3, 5)` again. -/
theorem rotary_gptj_round_trip_witness :
    apply_rotary_pos_emb_gptj (ringRotaryOps Int) 1 1 1 2 1 2 exEmbNeg (fun _ => 0)
        (apply_rotary_pos_emb_gptj (ringRotaryOps Int) 1 1 1 2 1 2 exEmb (fun _ => 0) exRow)
        1 = exRow 1 :=
  rotary_gptj_round_trip 1 1 1 2 1 2 exEmb exEmbNeg (fun _ => 0) exRow (by decide)
    (fun b s _ _ _ h2 hh2 => by
      have e : h2 = 0 := by omega
      subst e
      simp [emb_pos_gptj, exEmb, exEmbNeg, long_to_int])
    0 0 0 1 (by decide) (by decide) (by decide) (by decide)

/-- C20: work-queue FIFO. In the step model of the queue of `ProcessGroupMPI` (an enqueue
step appends a pair at the back, a worker-loop step removes the front pair and runs it),
after every interleaving of steps the pairs run so far followed by the pairs still queued
are the pairs appended so far, in the order of the appends: the `i`-th pair run is the
`i`-th pair appended and no pair is run twice; and when the worker keeps running (`stop_`
not set), after as many further loop steps as there are queued pairs every appended pair
has been run, none skipped. -/
theorem work_queue_fifo {ε : Type} (acts : List (PGStep ε)) :
    (PGState.run acts).ran ++ (PGState.run acts).queue_ = PGStep.appended acts ∧
    (PGState.run acts).ran = (PGStep.appended acts).take (PGState.run acts).ran.length ∧
    (∀ i, i < (PGState.run acts).ran.length →
      (PGState.run acts).ran[i]? = (PGStep.appended acts)[i]?) ∧
    ((PGState.run acts).stop_ = false →
      (PGState.run
        (acts ++ List.replicate (PGState.run acts).queue_.length PGStep.runLoop)).ran =
        PGStep.appended acts) := by
  have h := pg_run_inv acts
  refine ⟨h, ?_, ?_, ?_⟩
  · rw [← h, List.take_left']
    rfl
  · intro i hi
    rw [← h, List.getElem?_append_left hi]
  · intro hs
    have e : PGState.run
        (acts ++ List.replicate (PGState.run acts).queue_.length PGStep.runLoop) =
        (List.replicate (PGState.run acts).queue_.length PGStep.runLoop).foldl PGState.step
          (PGState.run acts) := by
      simp [PGState.run, List.foldl_append]
    rw [e, (pg_drain (PGState.run acts).queue_ (PGState.run acts) rfl hs).1, h]

/-- Witness of C20: two appends, one loop step, a third append; the worker has run the first
pair, and two more loop steps run the other two in the order of the appends. -/
theorem work_queue_fifo_witness :
    (PGState.run [PGStep.enqueue 10, PGStep.enqueue 20, PGStep.runLoop,
        PGStep.enqueue 30]).ran = [10] ∧
      (PGState.run ([PGStep.enqueue 10, PGStep.enqueue 20, PGStep.runLoop,
        PGStep.enqueue 30] ++ List.replicate 2 PGStep.runLoop)).ran = [10, 20, 30] := by
  have h := work_queue_fifo [PGStep.enqueue 10, PGStep.enqueue 20, PGStep.runLoop,
    PGStep.enqueue 30]
  exact ⟨h.2.1.trans (by decide), (h.2.2.2 rfl).trans (by decide)⟩

/-- C14: tile schedule of the fused linear layers (`fc_plain`, `fc_mul`, `fc_add_scale`,
`fc_add2_scale`, `fc_gelu`, `fc_silu`, `fc_relu`, `qkv_gemm`). For `Nc ≥ 1`, a chunk size
`Ncb ≥ 1` and every output tile (row-block start `s1`, output block `nk`), the calls of the
loop nest on the tile are, in this order: one initialisation (bias copy when the bias is
non-empty, zero otherwise), one accumulation for each block start `0, Ncb, 2*Ncb, ...`
below `Nc`, and the epilogue, once, after the last accumulation (for the functions that
have one). The block starts are the multiples of `Ncb` below `Nc`; the blocks
`[nc, nc + count)` passed to the GEMM at the starts are, in order, the blocks
`0, ..., Nc - 1`, so every contraction block is accumulated once and the counts sum to
`Nc`. -/
theorem fused_linear_tile_schedule (epi with_bias : Bool) (Nc Ncb BS Nk s1 nk : Nat)
    (hNc : 1 ≤ Nc) (hNcb : 1 ≤ Ncb) (hs1 : s1 ∈ loop_starts BS 64) (hnk : nk < Nk) :
    (fused_linear_calls epi with_bias Nc Ncb BS Nk).filter (fun c => c.tile = (s1, nk)) =
      (if with_bias then [TileCall.copy_bias (tile_rows BS s1) s1 nk]
        else [TileCall.zero (tile_rows BS s1) s1 nk]) ++
        (loop_starts Nc Ncb).map
          (fun nc => TileCall.brgemm (tile_rows BS s1) s1 nc nk (block_count Nc Ncb nc)) ++
        (if epi = true then [TileCall.epilogue (tile_rows BS s1) s1 nk] else []) ∧
    (∀ nc, nc ∈ loop_starts Nc Ncb ↔ ∃ i, nc = i * Ncb ∧ nc < Nc) ∧
    (loop_starts Nc Ncb).flatMap (fun nc => List.range' nc (block_count Nc Ncb nc)) =
      List.range Nc ∧
    ((loop_starts Nc Ncb).map (block_count Nc Ncb)).sum = Nc := by
  have hpart := loop_starts_partition Nc Ncb hNc hNcb
  refine ⟨?_, ?_, hpart, ?_⟩
  · rw [fused_linear_calls_filter epi with_bias Nc Ncb BS Nk s1 nk hs1 hnk,
      fused_linear_tile_trace epi with_bias Nc Ncb (tile_rows BS s1) s1 nk hNc hNcb]
  · intro nc
    obtain ⟨j, hj, hlo, hhi⟩ := loop_starts_count Nc Ncb hNc hNcb
    rw [mem_loop_starts, hj]
    constructor
    · rintro ⟨i, hi, rfl⟩
      refine ⟨i, rfl, ?_⟩
      have : i * Ncb ≤ j * Ncb := Nat.mul_le_mul_right Ncb (by omega)
      omega
    · rintro ⟨i, rfl, hlt⟩
      refine ⟨i, ?_, rfl⟩
      by_contra hge
      have : (j + 1) * Ncb ≤ i * Ncb := Nat.mul_le_mul_right Ncb (by omega)
      have e : (j + 1) * Ncb = j * Ncb + Ncb := by ring
      omega
  · have hlen := congrArg List.length hpart
    rw [List.length_flatMap, List.length_range] at hlen
    have e : (loop_starts Nc Ncb).map (block_count Nc Ncb) =
        (loop_starts Nc Ncb).map
          (List.length ∘ fun nc => List.range' nc (block_count Nc Ncb nc)) := by
      apply List.map_congr_left
      intro nc _
      simp
    rw [e]
    exact hlen

/-- Witness of C14: `Nc = 5` contraction blocks in chunks of `Ncb = 2`, `BS = 70` rows and
the remainder tile `(s1, nk) = (64, 1)` of a function with bias and epilogue. -/
theorem fused_linear_tile_schedule_witness :
    (fused_linear_calls true true 5 2 70 2).filter (fun c => c.tile = (64, 1)) =
      [TileCall.copy_bias 6 64 1, TileCall.brgemm 6 64 0 1 2, TileCall.brgemm 6 64 2 1 2,
        TileCall.brgemm 6 64 4 1 1, TileCall.epilogue 6 64 1] :=
  (fused_linear_tile_schedule true true 5 2 70 2 64 1 (by decide) (by decide) (by decide)
    (by decide)).1.trans rfl

/-- The affine map of `fc_plain` when the float operations are read as the operations of a
semiring. For an input of shape `[B, S, C]`, a blocked weight `W` of shape
`[Nk, Nc, Hc, Hk]` with `C = Nc * Hc` and `Nc ≥ 1`, every row `r < B * S` and every output
feature `nk * Hk + hk`:
`out[r][nk*Hk + hk] = bias[nk*Hk + hk] + sum over nc < Nc and hc < Hc of
in[r][nc*Hc + hc] * W[nk][nc][hc][hk]`, with the bias term 0 when the bias tensor is empty.
The statement covers every row count `B * S` (a multiple of 64 or not) and both settings
of `large_cache_opt`, where the contraction blocks are processed in chunks of
`NCB_BLOCK_SIZE ≥ 1`. It is about the data movement of the loop nest (which elements of
the input and of the weight reach which output element); the program accumulates in
floating point, once per chunk, and its rounded result depends on the chunking. -/
theorem fc_plain_affine {R : Type} [Semiring R] (large_cache_opt : Bool)
    (NCB_BLOCK_SIZE B S Nk Nc Hc Hk bias_numel : Nat) (inp wt bias out : Nat → R)
    (hNc : 1 ≤ Nc) (hNcb : large_cache_opt = true → 1 ≤ NCB_BLOCK_SIZE)
    (r nk hk : Nat) (hr : r < B * S) (hnk : nk < Nk) (hhk : hk < Hk) :
    fc_plain large_cache_opt NCB_BLOCK_SIZE B S (Nc * Hc) Nk Nc Hk bias_numel inp wt bias out
        (r * (Nk * Hk) + (nk * Hk + hk)) =
      (if bias_numel > 0 then bias (nk * Hk + hk) else 0) +
        ((List.range Nc).map fun nc =>
          ((List.range Hc).map fun hc =>
            inp (r * (Nc * Hc) + (nc * Hc + hc)) *
              wt (((nk * Nc + nc) * Hc + hc) * Hk + hk)).sum).sum := by
  have hdiv : Nc * Hc / Nc = Hc := Nat.mul_div_cancel_left Hc (by omega)
  have hNcb2 : 1 ≤ (if large_cache_opt = true then NCB_BLOCK_SIZE else Nc) := by
    by_cases hl : large_cache_opt = true
    · rw [if_pos hl]; exact hNcb hl
    · rw [if_neg hl]; exact hNc
  have hoff : r * (Nk * Hk) + (nk * Hk + hk) = (r * Nk + nk) * Hk + hk := by ring
  have hrow : r / 64 * 64 + (r - r / 64 * 64) = r := by omega
  unfold fc_plain
  simp only [hdiv]
  rw [hoff, cell_fold,
    fc_plain_updates (decide (bias_numel > 0)) _ (B * S) Nk Nc Hc Hk inp wt bias hNc hNcb2 r nk
      hk hr hnk hhk]
  simp only [List.map_cons, List.foldl_cons, List.map_map, Function.comp_def]
  rw [fold_add_ops]
  congr 1
  · by_cases hb : bias_numel > 0
    · simp [hb, CellOp.apply]
    · simp [hb, CellOp.apply]
  · rw [← loop_starts_partition Nc _ hNc hNcb2, sum_map_flatMap]
    congr 1
    apply List.map_congr_left
    intro nc _
    rw [brgemm_acc_eq, hrow]
    congr 1
    apply List.map_congr_left
    intro c _
    congr 1
    apply List.map_congr_left
    intro hc _
    congr 2
    ring

/-- An instance of the affine map over the integers: two rows, two contraction blocks of
one element, one output block of two features, bias `(10, 20)`:
`out[1][1] = 20 + 3 * 2 + 4 * 4 = 42`. -/
theorem fc_plain_affine_witness :
    fc_plain false 64 1 2 2 1 2 2 2 (fun p => (p : Int) + 1) (fun p => (p : Int) + 1)
        (fun p => 10 * ((p : Int) + 1)) (fun _ => 0) 3 = 42 :=
  (fc_plain_affine false 64 1 2 1 2 1 2 2 (fun p => (p : Int) + 1) (fun p => (p : Int) + 1)
    (fun p => 10 * ((p : Int) + 1)) (fun _ => 0) (by decide) (fun h => by decide) 1 0 1
    (by decide) (by decide) (by decide)).trans (by decide)

/-- C21, counterexample: one pair is queued whose run function returns and whose
`finishWorkMPI` throws (the call is inside the `try` block). The worker calls
`finishWorkMPI` and then, in the handler, `finishWorkMPIError` with the caught exception on
the same handle: two completion calls, both kinds, after a run that returned normally. -/
theorem completion_twice_when_finish_throws :
    (PGWorker.run
        ({ run := fun _ => none, finishWorkMPI := fun _ => some "markCompleted",
           finishWorkMPIError := fun _ _ => none } : TryCalls Nat String)
        [WorkerStep.enqueue 10, WorkerStep.take, WorkerStep.finish]).marks =
      [(10, [Mark.finishWorkMPI, Mark.finishWorkMPIError "markCompleted"])] := by
  decide

/-- C21, amended: completion of the handles. Along every interleaving of the producers,
the worker thread and `destroy`, and for every outcome of the calls made in the `try`
statement: the pairs taken from the queue by `runLoop` are, in order, the pairs whose `try`
statement has finished, followed by the pair still in flight, and a pair in flight is
finished by the next step of the worker; on the handle of a finished pair the worker has
made `finishWorkMPIError` alone, with the thrown exception, when the run function threw,
`finishWorkMPI` alone when the run function and `finishWorkMPI` returned, and
`finishWorkMPI` followed by `finishWorkMPIError` when the run function returned and
`finishWorkMPI` threw; so there is at least one call in every case, and exactly one, of
the kind given by the outcome of the run function, whenever `finishWorkMPI` returns
normally; and `destroy` changes `stop_` from false to true only in a state whose queue is
empty. -/
theorem exactly_once_completion {ε X : Type} (calls : TryCalls ε X)
    (acts : List (WorkerStep ε)) :
    (PGWorker.run calls acts).pg.ran =
        (PGWorker.run calls acts).marks.map Prod.fst ++
          (PGWorker.run calls acts).current.toList ∧
      (∀ p, p ∈ (PGWorker.run calls acts).marks →
        (∀ e, calls.run p.1 = some e → p.2 = [Mark.finishWorkMPIError e]) ∧
        (calls.run p.1 = none → calls.finishWorkMPI p.1 = none →
          p.2 = [Mark.finishWorkMPI]) ∧
        (∀ e, calls.run p.1 = none → calls.finishWorkMPI p.1 = some e →
          p.2 = [Mark.finishWorkMPI, Mark.finishWorkMPIError e]) ∧
        p.2 ≠ [] ∧
        (calls.finishWorkMPI p.1 = none → p.2.length = 1)) ∧
      ((PGWorker.run calls (acts ++ [WorkerStep.finish])).marks.map Prod.fst =
          (PGWorker.run calls acts).pg.ran ∧
        (PGWorker.run calls (acts ++ [WorkerStep.finish])).pg.ran =
          (PGWorker.run calls acts).pg.ran) ∧
      ((PGWorker.run calls acts).pg.stop_ = false →
        (PGWorker.run calls (acts ++ [WorkerStep.destroy])).pg.stop_ = true →
        (PGWorker.run calls acts).pg.queue_ = []) := by
  have hinv := pgw_run_inv calls acts
  refine ⟨hinv.1, ?_, ?_, ?_⟩
  · intro p hp
    obtain ⟨m1, m2, m3⟩ := hinv.2.1 p hp
    refine ⟨m1, m2, m3, ?_, ?_⟩
    · cases hr : calls.run p.1 with
      | some e => rw [m1 e hr]; exact List.cons_ne_nil _ _
      | none =>
        cases hf : calls.finishWorkMPI p.1 with
        | none => rw [m2 hr hf]; exact List.cons_ne_nil _ _
        | some e => rw [m3 e hr hf]; exact List.cons_ne_nil _ _
    · intro hf
      cases hr : calls.run p.1 with
      | some e => rw [m1 e hr]; rfl
      | none => rw [m2 hr hf]; rfl
  · rw [pgw_run_snoc]
    obtain ⟨a, b, -⟩ := pgw_finish calls _ hinv
    exact ⟨a, by rw [b]⟩
  · intro h0 h1
    rw [pgw_run_snoc] at h1
    exact pgw_destroy_sets_stop calls _ h0 h1

/-- Witness of C21: two pairs are queued, the run function of the second throws and every
`finishWorkMPI` returns; after two iterations of the worker the first handle has received
`finishWorkMPI` alone and the second `finishWorkMPIError` alone, and a `destroy` issued
while the second pair is still queued does not set `stop_`. -/
theorem exactly_once_completion_witness :
    (PGWorker.run
        ({ run := fun w => if w = 20 then some "failed" else none,
           finishWorkMPI := fun _ => none,
           finishWorkMPIError := fun _ _ => none } : TryCalls Nat String)
        [WorkerStep.enqueue 10, WorkerStep.enqueue 20, WorkerStep.take, WorkerStep.finish,
          WorkerStep.destroy, WorkerStep.take, WorkerStep.finish]).marks =
        [(10, [Mark.finishWorkMPI]), (20, [Mark.finishWorkMPIError "failed"])] ∧
      (PGWorker.run
        ({ run := fun w => if w = 20 then some "failed" else none,
           finishWorkMPI := fun _ => none,
           finishWorkMPIError := fun _ _ => none } : TryCalls Nat String)
        [WorkerStep.enqueue 10, WorkerStep.enqueue 20, WorkerStep.take, WorkerStep.finish,
          WorkerStep.destroy, WorkerStep.take, WorkerStep.finish]).pg.ran = [10, 20] := by
  have h := exactly_once_completion
    ({ run := fun w => if w = 20 then some "failed" else none,
       finishWorkMPI := fun _ => none,
       finishWorkMPIError := fun _ _ => none } : TryCalls Nat String)
    [WorkerStep.enqueue 10, WorkerStep.enqueue 20, WorkerStep.take, WorkerStep.finish,
      WorkerStep.destroy, WorkerStep.take, WorkerStep.finish]
  refine ⟨by decide, h.1.trans (by decide)⟩

/-- C22: destroying a pending asynchronous handle is fatal. The destructor of `AsyncWork`
terminates the program exactly when `request_` is not `MPI_REQUEST_NULL`; a handle on which
`isCompleted` returned true, or on which `wait` returned (with `MPI_Wait` setting the
request it completed to `MPI_REQUEST_NULL`, as MPI does for a request that is not
persistent), is destroyed without termination, while after `isCompleted` returned false
the destructor terminates; and `isSuccess` raises an error exactly when `request_` is not
`MPI_REQUEST_NULL`, that is, before completion. -/
theorem async_work_destroy {Req : Type} :
    (∀ w : AsyncWork Req, w.dtor = true ↔ w.request_ ≠ none) ∧
      (∀ (MPI_Test : Req → Int × Option Req × Int) (w : AsyncWork Req),
        (w.isCompleted MPI_Test).2 = Except.ok true → (w.isCompleted MPI_Test).1.dtor = false) ∧
      (∀ (MPI_Test : Req → Int × Option Req × Int) (w : AsyncWork Req),
        (w.isCompleted MPI_Test).2 = Except.ok false → (w.isCompleted MPI_Test).1.dtor = true) ∧
      (∀ (MPI_Wait : Req → Int × Option Req × Int) (w : AsyncWork Req),
        (∀ r, (MPI_Wait r).1 = MPI_SUCCESS → (MPI_Wait r).2.1 = none) →
        (w.wait MPI_Wait).2 = Except.ok true → (w.wait MPI_Wait).1.dtor = false) ∧
      (∀ w : AsyncWork Req, (∃ e, w.isSuccess = Except.error e) ↔ w.request_ ≠ none) := by
  refine ⟨?_, ?_, ?_, ?_, ?_⟩
  · intro w
    unfold AsyncWork.dtor
    cases w.request_ <;> simp
  · intro T w h
    unfold AsyncWork.isCompleted at h ⊢
    cases hr : w.request_ with
    | none => simp [AsyncWork.dtor, hr]
    | some r =>
      simp only [hr] at h ⊢
      cases hc : MPI_CHECK (T r).1 with
      | error e => simp [hc] at h
      | ok u =>
        simp only [hc] at h ⊢
        cases hq : (T r).2.1 with
        | some r2 => simp [hq] at h
        | none =>
          simp only [hq, Option.isSome_none, Bool.false_eq_true, if_false]
          split <;> simp [AsyncWork.dtor]
  · intro T w h
    unfold AsyncWork.isCompleted at h ⊢
    cases hr : w.request_ with
    | none => simp [hr] at h
    | some r =>
      simp only [hr] at h ⊢
      cases hc : MPI_CHECK (T r).1 with
      | error e => simp [hc] at h
      | ok u =>
        simp only [hc] at h ⊢
        cases hq : (T r).2.1 with
        | some r2 => simp [AsyncWork.dtor]
        | none =>
          simp only [hq, Option.isSome_none, Bool.false_eq_true, if_false] at h
          split at h <;> simp at h
  · intro W w hW h
    unfold AsyncWork.wait at h ⊢
    cases hr : w.request_ with
    | none => simp [AsyncWork.dtor, hr]
    | some r =>
      simp only [hr] at h ⊢
      cases hc : MPI_CHECK (W r).1 with
      | error e => simp [hc] at h
      | ok u =>
        have hs : (W r).1 = MPI_SUCCESS := by
          unfold MPI_CHECK at hc
          by_contra hne
          rw [if_pos hne] at hc
          cases hc
        simp only [hc] at h ⊢
        split
        · simp [AsyncWork.dtor, hW r hs]
        · simp [AsyncWork.dtor, hW r hs]
  · intro w
    unfold AsyncWork.isSuccess
    cases w.request_ <;> simp

/-- Witness of C22: a pending handle whose `MPI_Wait` completes the request is destroyed
without termination after `wait`. -/
theorem async_work_destroy_witness :
    (({ request_ := some 7, MPI_ERROR := 0, exception_ := none } : AsyncWork Nat).wait
        (fun _ => (0, none, 0))).1.dtor = false ∧
      ({ request_ := some 7, MPI_ERROR := 0, exception_ := none } : AsyncWork Nat).dtor = true :=
  ⟨async_work_destroy.2.2.2.1 (fun _ => (0, none, 0))
      { request_ := some 7, MPI_ERROR := 0, exception_ := none } (fun _ _ => rfl) rfl,
    (async_work_destroy.1 { request_ := some 7, MPI_ERROR := 0, exception_ := none }).mpr
      (by simp)⟩

/-- C23: unsupported collective invocations are rejected at the call site.
`allreduce_coalesced` and `reduce_scatter` raise an error for every input; `allreduce` and
`reduce` on a single tensor that passes `checkSingleTensor` raise an error exactly when the
tensor's type is `BFloat16` or `Half` and the reduction operator is not `SUM`, and
otherwise append one pair to the work queue; and whenever one of the four functions raises
an error, the state of the group, its work queue included, is as before the call. -/
theorem unsupported_collectives_rejected (cudaAware : Bool) (st : PGState WorkEntry) :
    (∀ tensors op, ∃ e, ProcessGroupMPI.allreduce_coalesced st tensors op = (st, Except.error e)) ∧
      (∀ outs ins op, ∃ e, ProcessGroupMPI.reduce_scatter st outs ins op = (st, Except.error e)) ∧
      (∀ t op, checkSingleTensor cudaAware [t] = Except.ok () →
        (((∃ e, (ProcessGroupMPI.allreduce cudaAware st [t] op).2 = Except.error e) ↔
            (t.scalar_type = ScalarType.kBFloat16 ∨ t.scalar_type = ScalarType.kHalf) ∧
              op ≠ ReduceOp.SUM) ∧
          ((∃ e, (ProcessGroupMPI.reduce cudaAware st [t] op).2 = Except.error e) ↔
            (t.scalar_type = ScalarType.kBFloat16 ∨ t.scalar_type = ScalarType.kHalf) ∧
              op ≠ ReduceOp.SUM) ∧
          ((ProcessGroupMPI.allreduce cudaAware st [t] op).2 = Except.ok () →
            (ProcessGroupMPI.allreduce cudaAware st [t] op).1.queue_ =
              st.queue_ ++
                [{ title := "mpi:all_reduce", src := [t], dst := [t], reduceOp := op }]) ∧
          ((ProcessGroupMPI.reduce cudaAware st [t] op).2 = Except.ok () →
            (ProcessGroupMPI.reduce cudaAware st [t] op).1.queue_ =
              st.queue_ ++ [{ title := "mpi:reduce", src := [t], dst := [t], reduceOp := op }]))) ∧
      (∀ tensors op e,
        (ProcessGroupMPI.allreduce cudaAware st tensors op).2 = Except.error e →
          (ProcessGroupMPI.allreduce cudaAware st tensors op).1 = st) ∧
      (∀ tensors op e,
        (ProcessGroupMPI.reduce cudaAware st tensors op).2 = Except.error e →
          (ProcessGroupMPI.reduce cudaAware st tensors op).1 = st) := by
  refine ⟨fun _ _ => ⟨_, rfl⟩, fun _ _ _ => ⟨_, rfl⟩, ?_, ?_, ?_⟩
  · intro t op hv
    rw [checkSingleTensor_single] at hv
    exact ⟨(allreduce_single cudaAware st t op hv).1, (reduce_single cudaAware st t op hv).1,
      (allreduce_single cudaAware st t op hv).2, (reduce_single cudaAware st t op hv).2⟩
  · intro tensors op e h
    exact allreduce_rejected cudaAware st tensors op e h
  · intro tensors op e h
    exact reduce_rejected cudaAware st tensors op e h

/-- Witness of C23: `allreduce` with `MAX` on a `BFloat16` tensor is rejected and leaves the
queue empty; with `SUM` it appends one pair. -/
theorem unsupported_collectives_rejected_witness :
    (∃ e, (ProcessGroupMPI.allreduce false (PGState.init WorkEntry)
        [exTensor ScalarType.kBFloat16] ReduceOp.MAX).2 = Except.error e) ∧
      (ProcessGroupMPI.allreduce false (PGState.init WorkEntry)
        [exTensor ScalarType.kBFloat16] ReduceOp.MAX).1.queue_ = [] ∧
      (ProcessGroupMPI.allreduce false (PGState.init WorkEntry)
        [exTensor ScalarType.kBFloat16] ReduceOp.SUM).1.queue_ =
        [{ title := "mpi:all_reduce", src := [exTensor ScalarType.kBFloat16],
           dst := [exTensor ScalarType.kBFloat16], reduceOp := ReduceOp.SUM }] := by
  have h := unsupported_collectives_rejected false (PGState.init WorkEntry)
  have h1 := (h.2.2.1 (exTensor ScalarType.kBFloat16) ReduceOp.MAX rfl).1.mpr
    ⟨Or.inl rfl, by decide⟩
  obtain ⟨e, he⟩ := h1
  refine ⟨⟨e, he⟩, ?_, ?_⟩
  · rw [h.2.2.2.1 _ _ e he]
    rfl
  · exact (h.2.2.1 (exTensor ScalarType.kBFloat16) ReduceOp.SUM rfl).2.2.1 rfl

/-- C30, failing inputs: communicator creation retry. The loop of `createProcessGroupMPI`
tests the value returned by `MPI_Comm_create` as a condition, which holds for a value other
than `MPI_SUCCESS = 0`. (1) When every call returns `MPI_SUCCESS`, the first success does not
stop the loop: all `kMaxNumRetries = 3` calls are made, and no error is raised. (2) When the
first call fails and the later ones would succeed, the loop stops after that one call and
`MPI_CHECK(groupComm_updated)` raises the error, without a retry. -/
theorem comm_create_retry_inverted :
    createProcessGroupMPI_comm (fun _ => MPI_SUCCESS) = (3, Except.ok ()) ∧
      createProcessGroupMPI_comm (fun k => if k = 0 then 1 else MPI_SUCCESS) =
        (1, Except.error "MPI error") := by
  constructor <;> rfl

/-- C29, failing input: `BrgemmExtTPP` and the output transform for FP32 output. The
constructor resets its parameter `c_trans`, not the member of the same name (for
enumerators `XFORM_N2V_TPP` and `XFORM_NONE_TPP` that differ): an object constructed for
float32 output with `c_trans = XFORM_N2V_TPP` keeps `XFORM_N2V_TPP` as its stored flag,
while its inner GEMM is built with the caller's `beta` and its `xform` and `add` members
stay default-constructed; `operator()` then runs the GEMM into the temporary `tmp_C` and
calls `xform` (and `add` when `beta` is not 0), whereas an object constructed with
`XFORM_NONE_TPP` passes `C` to the GEMM and makes no other call. The two objects do not
behave alike. -/
theorem brgemm_ext_fp32_keeps_n2v {X R : Type} [DecidableEq X] [DecidableEq R] [Zero R]
    (E : XformEnum X) (hE : E.XFORM_N2V_TPP ≠ E.XFORM_NONE_TPP)
    (M N K str_a str_b : Nat) (beta : R) (a_trans unroll_hint : Int) :
    (BrgemmExtTPP.new E true M N K str_a str_b beta E.XFORM_N2V_TPP a_trans
        unroll_hint).c_trans = E.XFORM_N2V_TPP ∧
      (BrgemmExtTPP.new E true M N K str_a str_b beta E.XFORM_N2V_TPP a_trans
        unroll_hint).brgemm =
        some { M := M, N := N, K := K, str_a := str_a, str_b := str_b, beta := beta,
               a_trans := a_trans, unroll_hint := unroll_hint } ∧
      (BrgemmExtTPP.new E true M N K str_a str_b beta E.XFORM_N2V_TPP a_trans
        unroll_hint).xform = none ∧
      (BrgemmExtTPP.new E true M N K str_a str_b beta E.XFORM_N2V_TPP a_trans
        unroll_hint).add = none ∧
      (BrgemmExtTPP.new E true M N K str_a str_b beta E.XFORM_N2V_TPP a_trans
        unroll_hint).call E =
        ExtCall.brgemm ExtBuf.tmp_C ::
          (if beta = 0 then [ExtCall.xform ExtBuf.tmp_C ExtBuf.C]
           else [ExtCall.xform ExtBuf.tmp_C ExtBuf.tmp,
             ExtCall.add ExtBuf.C ExtBuf.tmp ExtBuf.C]) ∧
      (BrgemmExtTPP.new E true M N K str_a str_b beta E.XFORM_NONE_TPP a_trans
        unroll_hint).call E = [ExtCall.brgemm ExtBuf.C] ∧
      (BrgemmExtTPP.new E true M N K str_a str_b beta E.XFORM_N2V_TPP a_trans
        unroll_hint).call E ≠
        (BrgemmExtTPP.new E true M N K str_a str_b beta E.XFORM_NONE_TPP a_trans
          unroll_hint).call E := by
  have e1 : (BrgemmExtTPP.new E true M N K str_a str_b beta E.XFORM_N2V_TPP a_trans
      unroll_hint).call E =
      ExtCall.brgemm ExtBuf.tmp_C ::
        (if beta = 0 then [ExtCall.xform ExtBuf.tmp_C ExtBuf.C]
         else [ExtCall.xform ExtBuf.tmp_C ExtBuf.tmp,
           ExtCall.add ExtBuf.C ExtBuf.tmp ExtBuf.C]) := by
    simp [BrgemmExtTPP.call, BrgemmExtTPP.new, hE]
  have e2 : (BrgemmExtTPP.new E true M N K str_a str_b beta E.XFORM_NONE_TPP a_trans
      unroll_hint).call E = [ExtCall.brgemm ExtBuf.C] := by
    simp [BrgemmExtTPP.call, BrgemmExtTPP.new]
  refine ⟨rfl, ?_, ?_, ?_, e1, e2, ?_⟩
  · simp [BrgemmExtTPP.new]
  · simp [BrgemmExtTPP.new]
  · simp [BrgemmExtTPP.new]
  · rw [e1, e2]
    intro h
    cases h

/-- An instance of C29: with the enumerators numbered 0 and 2 and `beta = 1`, the object
built for float32 output with `XFORM_N2V_TPP` runs the GEMM into `tmp_C`, then `xform` and
`add`. -/
theorem brgemm_ext_fp32_keeps_n2v_witness :
    (BrgemmExtTPP.new ({ XFORM_NONE_TPP := 0, XFORM_N2V_TPP := 2 } : XformEnum Nat) true
        4 4 4 16 16 (1 : Int) 2 0 1).call { XFORM_NONE_TPP := 0, XFORM_N2V_TPP := 2 } =
      [ExtCall.brgemm ExtBuf.tmp_C, ExtCall.xform ExtBuf.tmp_C ExtBuf.tmp,
        ExtCall.add ExtBuf.C ExtBuf.tmp ExtBuf.C] :=
  (brgemm_ext_fp32_keeps_n2v ({ XFORM_NONE_TPP := 0, XFORM_N2V_TPP := 2 } : XformEnum Nat)
    (by decide) 4 4 4 16 16 (1 : Int) 0 1).2.2.2.2.1.trans (by decide)

/-- C24, counterexample: with the default `SK_BLOCK_SIZE`, a query of 10 rows fits in one query
tile, the transposition is done inline and the key tile size is 64, not 1024; a query of
100 rows does not fit, the transposition is done ahead of the tile loop and the key tile
size is 1024, not 64. -/
theorem prefill_inline_key_tile :
    prefill_inline_trans 10 = true ∧ prefill_Skb (SK_BLOCK_SIZE none) 10 = 64 ∧
      prefill_inline_trans 100 = false ∧ prefill_Skb (SK_BLOCK_SIZE none) 100 = 1024 := by
  decide

/-- C24, amended: prefill tile-size choice. The query tile size is 64: the query tiles
start at the multiples of 64 below `Sq` and have `min 64 (Sq - sq)` rows. The key tile size
is the configured key-block size `SK_BLOCK_SIZE` (default 64) when the key transpose is
done inline per tile and 1024 otherwise, and the key tiles start at multiples of it; the
inline transpose is selected exactly when `ceil(Sq / 64) = 1`, that is, when
`1 ≤ Sq ≤ 64`. -/
theorem prefill_tile_size_choice (SKB VBS Sq Sk : Nat) :
    (prefill_inline_trans Sq = true ↔ (Sq + 64 - 1) / 64 = 1) ∧
      (prefill_inline_trans Sq = true ↔ 1 ≤ Sq ∧ Sq ≤ 64) ∧
      prefill_Skb SKB Sq = (if prefill_inline_trans Sq = true then SKB else 1024) ∧
      SK_BLOCK_SIZE none = 64 ∧
      (∀ t, t ∈ prefill_tiles SKB VBS Sq Sk →
        (∃ i, t.sq = i * 64) ∧ t.sq < Sq ∧ t.qbs = min 64 (Sq - t.sq) ∧
          (∃ j, t.sk = j * prefill_Skb SKB Sq)) := by
  refine ⟨(prefill_inline_trans_iff Sq).1, (prefill_inline_trans_iff Sq).2,
    prefill_Skb_eq SKB Sq, rfl, ?_⟩
  intro t ht
  obtain ⟨h1, h2, h3, -⟩ := (mem_prefill_tiles SKB VBS Sq Sk t).mp ht
  obtain ⟨i, hi, e⟩ := (mem_loop_starts Sq 64 t.sq).mp h1
  obtain ⟨j, -, e2⟩ := (mem_loop_starts Sk _ t.sk).mp h2
  refine ⟨⟨i, e⟩, by omega, ?_, ⟨j, e2⟩⟩
  rw [h3]
  unfold prefill_qbs
  split <;> omega

/-- Witness of C24: for a query of 10 rows and the default key-block size the key tile
size is 64, and for 100 rows it is 1024. -/
theorem prefill_tile_size_choice_witness :
    prefill_Skb 64 10 = 64 ∧ prefill_Skb 64 100 = 1024 :=
  ⟨(prefill_tile_size_choice 64 1 10 10).2.2.1.trans (by decide),
    (prefill_tile_size_choice 64 1 100 100).2.2.1.trans (by decide)⟩

/-- C25: tile-plan selection matches the tile shape. For `Sq ≥ 1`, `Sk ≥ 1` and a key tile
size `Skb ≥ 1` that is a multiple of the key alignment `SK_ALIGN`: every query position
below `Sq` lies in exactly one query tile and every query tile lies inside `[0, Sq)`; every
key position below `Sk_pad` lies in exactly one key tile and every key tile lies inside
`[0, Sk_pad)`; for every tile visited by the prefill loop the instance `attn_kern[kid]`
with `kid = qid * 2 + (sk + Skb > Sk)` was constructed with the tile's row count, which is
64 or `Sq % 64` for the last partial tile, and with the tile's column count, which is `Skb`
or `Sk % Skb + pad` for the last partial tile; both counts are positive, so an instance
constructed for zero rows or columns is never selected, and the member `Sqb_aligned` of
the selected instance, as of `attn_kern[qid * 2]`, is set; and an instance's `Sqb_aligned`
is the least multiple of 16 that is at least its row count. -/
theorem prefill_tile_plan (SKB VBS Sq Sk : Nat) (hSq : 1 ≤ Sq) (hSk : 1 ≤ Sk)
    (hpos : 0 < prefill_Skb SKB Sq)
    (hal : prefill_SK_ALIGN VBS ∣ prefill_Skb SKB Sq) :
    (∀ q, q < Sq → ∃ sq, sq ∈ loop_starts Sq 64 ∧ sq ≤ q ∧ q < sq + prefill_qbs Sq sq ∧
      ∀ sq2, sq2 ∈ loop_starts Sq 64 → sq2 ≤ q → q < sq2 + prefill_qbs Sq sq2 → sq2 = sq) ∧
    (∀ sq, sq ∈ loop_starts Sq 64 → sq + prefill_qbs Sq sq ≤ Sq) ∧
    (∀ k, k < prefill_Sk_pad VBS Sk →
      ∃ sk, sk ∈ loop_starts Sk (prefill_Skb SKB Sq) ∧ sk ≤ k ∧
        k < sk + prefill_kbs (prefill_Skb SKB Sq) (prefill_Sk_pad VBS Sk) Sk sk ∧
        ∀ sk2, sk2 ∈ loop_starts Sk (prefill_Skb SKB Sq) → sk2 ≤ k →
          k < sk2 + prefill_kbs (prefill_Skb SKB Sq) (prefill_Sk_pad VBS Sk) Sk sk2 →
          sk2 = sk) ∧
    (∀ sk, sk ∈ loop_starts Sk (prefill_Skb SKB Sq) →
      sk + prefill_kbs (prefill_Skb SKB Sq) (prefill_Sk_pad VBS Sk) Sk sk ≤
        prefill_Sk_pad VBS Sk) ∧
    (prefill_tiles SKB VBS Sq Sk ≠ [] ∧
      ∀ t, t ∈ prefill_tiles SKB VBS Sq Sk →
        ∃ ak, (attn_kern SKB VBS Sq Sk)[prefill_kid SKB Sq Sk t.sq t.sk]? = some ak ∧
          ak.Sqb = t.qbs ∧ ak.Skb = t.kbs ∧
          (t.qbs = 64 ∧ t.sq + 64 ≤ Sq ∨ t.qbs = Sq % 64 ∧ Sq < t.sq + 64) ∧
          (t.kbs = prefill_Skb SKB Sq ∧ t.sk + prefill_Skb SKB Sq ≤ Sk ∨
            t.kbs = Sk % prefill_Skb SKB Sq + (prefill_Sk_pad VBS Sk - Sk) ∧
              Sk < t.sk + prefill_Skb SKB Sq) ∧
          0 < ak.Sqb ∧ 0 < ak.Skb ∧
          ak.Sqb_aligned = some (sqb_aligned t.qbs) ∧
          ∃ a0, (attn_kern SKB VBS Sq Sk)[prefill_qid Sq t.sq * 2]? = some a0 ∧
            a0.Sqb_aligned = some (sqb_aligned t.qbs)) ∧
    (∀ ak, ak ∈ attn_kern SKB VBS Sq Sk → ∀ a, ak.Sqb_aligned = some a →
      16 ∣ a ∧ ak.Sqb ≤ a ∧ ∀ m, 16 ∣ m → ak.Sqb ≤ m → a ≤ m) := by
  have hle := (prefill_Sk_pad_facts VBS Sk).1
  have hfull : prefill_Skb SKB Sq ∣ Sk → prefill_Sk_pad VBS Sk = Sk := fun h =>
    (prefill_Sk_pad_facts VBS Sk).2 (Dvd.dvd.trans hal h)
  refine ⟨fun q hq => query_tiles_partition Sq q hq,
    fun sq h => (query_tile_bounds Sq sq h).2.1, ?_,
    fun sk h => (key_tile_bounds _ _ Sk sk hpos hle h).2, ⟨?_, ?_⟩, ?_⟩
  · intro k hk
    obtain ⟨sk, h1, h2, h3, -, h5⟩ := key_tiles_partition _ _ Sk hpos hle hfull k hk
    exact ⟨sk, h1, h2, h3, h5⟩
  · intro hnil
    have hm : (⟨0, 0, prefill_qbs Sq 0,
        prefill_kbs (prefill_Skb SKB Sq) (prefill_Sk_pad VBS Sk) Sk 0⟩ : ScoreTile) ∈
        prefill_tiles SKB VBS Sq Sk := by
      refine (mem_prefill_tiles SKB VBS Sq Sk _).mpr ⟨?_, ?_, rfl, rfl⟩
      · exact (mem_loop_starts Sq 64 0).mpr ⟨0, by omega, rfl⟩
      · have := loop_starts_of_lt Sk (prefill_Skb SKB Sq) 0 hpos (by omega)
        simpa using this
    rw [hnil] at hm
    exact absurd hm (List.not_mem_nil _)
  · intro t ht
    obtain ⟨h1, h2, h3, h4⟩ := (mem_prefill_tiles SKB VBS Sq Sk t).mp ht
    obtain ⟨s1, s2⟩ := attn_kern_selected SKB VBS Sq Sk t.sq t.sk hpos h1 h2
    obtain ⟨q1, q2, q3⟩ := query_tile_bounds Sq t.sq h1
    obtain ⟨k1, k2⟩ := key_tile_bounds _ (prefill_Sk_pad VBS Sk) Sk t.sk hpos hle h2
    have hq := prefill_qbs_eq Sq t.sq h1
    have hk := prefill_kbs_eq _ (prefill_Sk_pad VBS Sk) Sk t.sk hpos hle h2
    refine ⟨_, s1, h3.symm, h4.symm, ?_, ?_, q1, k1, ?_, _, s2, ?_⟩
    · rw [h3, hq]
      split <;> omega
    · rw [h4, hk]
      split
      · exact Or.inr ⟨rfl, by omega⟩
      · exact Or.inl ⟨rfl, by omega⟩
    · unfold AttnKernels.new
      simp only []
      rw [if_neg (by omega), h3]
    · unfold AttnKernels.new
      simp only []
      rw [if_neg (by omega), h3]
  · intro ak hak a ha
    have hform : ∀ x y z, (AttnKernels.new x y z).Sqb_aligned = some a →
        16 ∣ a ∧ (AttnKernels.new x y z).Sqb ≤ a ∧
          ∀ m, 16 ∣ m → (AttnKernels.new x y z).Sqb ≤ m → a ≤ m := by
      intro x y z hxa
      unfold AttnKernels.new at hxa ⊢
      simp only [] at hxa ⊢
      split at hxa
      · cases hxa
      · cases hxa
        exact sqb_aligned_least x
    unfold attn_kern at hak
    simp only [List.mem_cons, List.mem_singleton, List.not_mem_nil, or_false] at hak
    rcases hak with rfl | rfl | rfl | rfl <;> exact hform _ _ _ ha

/-- Witness of C25: a bfloat16 prompt of 70 tokens (`Sk_pad = 128`, `Skb = 1024`). The
tile of the last 6 query rows selects `attn_kern[3]`, constructed for 6 rows and 128
columns, whose aligned row count is 16. -/
theorem prefill_tile_plan_witness :
    ∃ ak, (attn_kern 64 2 70 70)[prefill_kid 64 70 70 64 0]? = some ak ∧ ak.Sqb = 6 ∧
      ak.Skb = 128 ∧ ak.Sqb_aligned = some 16 := by
  obtain ⟨ak, h1, h2, h3, -, -, -, -, h4, -⟩ :=
    (prefill_tile_plan 64 2 70 70 (by decide) (by decide) (by decide)
      (by decide)).2.2.2.2.1.2 ⟨64, 0, 6, 128⟩ (by decide)
  exact ⟨ak, h1, h2, h3, h4.trans (by decide)⟩

/-- C26, failing inputs: causal-mask writes and the score tile. The masking loop starts at
`sk1 = sq + sq1 + offset + 1` whatever the start `sk` of the key tile. For a prompt of 10
tokens after 60 cached ones (`Sq = 10`, `Sk = 70`, key tiles of 64 columns) the tile at
`sk = 64` has 6 columns and row 0 writes the columns -3, -2, -1 before the columns 0 to 5;
for a plain prompt of 1030 tokens (key tiles of 1024 columns) row 0 of the tile at
`sk = 1024` writes the column -1023. The written column indices are not all in
`[0, kbs)`. -/
theorem causal_mask_columns_negative :
    ({ sq := 0, sk := 64, qbs := 10, kbs := 6 } : ScoreTile) ∈ prefill_tiles 64 1 10 70 ∧
      causal_mask_columns { sq := 0, sk := 64, qbs := 10, kbs := 6 } 60 0 =
        [-3, -2, -1, 0, 1, 2, 3, 4, 5] ∧
      ({ sq := 0, sk := 1024, qbs := 64, kbs := 6 } : ScoreTile) ∈
        prefill_tiles 64 1 1030 1030 ∧
      (-1023 : Int) ∈ causal_mask_columns { sq := 0, sk := 1024, qbs := 64, kbs := 6 } 0 0 := by
  refine ⟨by decide, by decide, ?_, ?_⟩
  · refine (mem_prefill_tiles 64 1 1030 1030 _).mpr ⟨?_, ?_, by decide, by decide⟩
    · exact (mem_loop_starts 1030 64 0).mpr ⟨0, by decide, rfl⟩
    · exact (mem_loop_starts 1030 _ 1024).mpr ⟨1, by decide, by decide⟩
  · exact (mem_causal_mask_columns _ 0 0 (-1023)).mpr ⟨by decide, by decide⟩

/-- C27, counterexample: with `SK_BLOCK_SIZE = 32`, a reduced-precision type (`VBS = 2`, key
alignment 64) and a prompt of 32 tokens, the padded key length is 64 and the prefill loop
visits one tile, which has the 32 columns of the key tile size: the padded key positions
32 to 63 lie in no key tile, and the last key tile does not have `Sk_pad - sk = 64`
columns. -/
theorem prefill_padded_keys_outside_tiles :
    prefill_Sk_pad 2 32 = 64 ∧
      prefill_tiles 32 2 32 32 = [{ sq := 0, sk := 0, qbs := 32, kbs := 32 }] := by
  decide

/-- C27, amended: padded key positions never contribute, for a key tile size `Skb ≥ 1` that
is a multiple of the key alignment `SK_ALIGN` (as for the default `SK_BLOCK_SIZE = 64` and
for 1024). For every query row `q < Sq` and every padded key position `k` with
`Sk ≤ k < Sk_pad`: `q + offset ≤ Sk - 1 < k`; the prefill loop visits a tile that holds
the score entry for `(q, k)`; every such tile is a last key tile, with
`Sk_pad - sk` columns, ending at `Sk_pad`, and the masking loop writes the causal sentinel
to the entry; and `Sk ≠ Sk_pad`, so that every mask row of `Sk` entries is extended to
`Sk_pad` entries, with the value -10000 at the padded position and the given values
below `Sk`. -/
theorem prefill_padded_keys_masked {R : Type} (neg m10000 : R) (SKB VBS Sq Sk : Nat)
    (hpos : 0 < prefill_Skb SKB Sq) (hal : prefill_SK_ALIGN VBS ∣ prefill_Skb SKB Sq)
    (q k : Nat) (hq : q < Sq) (hk1 : Sk ≤ k) (hk2 : k < prefill_Sk_pad VBS Sk) :
    ((q : Int) + ((Sk : Int) - Sq) ≤ (Sk : Int) - 1 ∧ (Sk : Int) - 1 < k) ∧
    (∃ t, t ∈ prefill_tiles SKB VBS Sq Sk ∧ t.sq ≤ q ∧ q < t.sq + t.qbs ∧ t.sk ≤ k ∧
      k < t.sk + t.kbs) ∧
    (∀ t, t ∈ prefill_tiles SKB VBS Sq Sk → t.sq ≤ q → q < t.sq + t.qbs → t.sk ≤ k →
      k < t.sk + t.kbs →
      (∀ sk2, sk2 ∈ loop_starts Sk (prefill_Skb SKB Sq) → sk2 ≤ t.sk) ∧
        t.kbs = prefill_Sk_pad VBS Sk - t.sk ∧ t.sk + t.kbs = prefill_Sk_pad VBS Sk ∧
        (((q - t.sq : Nat) : Int) * t.kbs + ((k - t.sk : Nat) : Int)) ∈
          causal_mask_writes t ((Sk : Int) - Sq) ∧
        ∀ AS : Int → R,
          causal_mask neg t ((Sk : Int) - Sq) AS
            (((q - t.sq : Nat) : Int) * t.kbs + ((k - t.sk : Nat) : Int)) = neg) ∧
    (Sk ≠ prefill_Sk_pad VBS Sk ∧
      ∀ (rows : List (List R)) (i : Nat) (r : List R), rows[i]? = some r → r.length = Sk →
        ∃ r2, (prefill_extend_mask m10000 Sk (prefill_Sk_pad VBS Sk) rows)[i]? = some r2 ∧
          r2.length = prefill_Sk_pad VBS Sk ∧ r2[k]? = some m10000 ∧
          ∀ j, j < Sk → r2[j]? = r[j]?) := by
  have hle := (prefill_Sk_pad_facts VBS Sk).1
  have hfull : prefill_Skb SKB Sq ∣ Sk → prefill_Sk_pad VBS Sk = Sk := fun h =>
    (prefill_Sk_pad_facts VBS Sk).2 (Dvd.dvd.trans hal h)
  obtain ⟨sk0, m0, a1, a2, a3, a4⟩ := key_tiles_partition _ _ Sk hpos hle hfull k hk2
  obtain ⟨a5, a6⟩ := a3 hk1
  obtain ⟨sq0, n0, b1, b2, b3⟩ := query_tiles_partition Sq q hq
  refine ⟨⟨by omega, by omega⟩, ?_, ?_, ⟨by omega, ?_⟩⟩
  · refine ⟨⟨sq0, sk0, prefill_qbs Sq sq0,
      prefill_kbs (prefill_Skb SKB Sq) (prefill_Sk_pad VBS Sk) Sk sk0⟩,
      (mem_prefill_tiles SKB VBS Sq Sk _).mpr ⟨n0, m0, rfl, rfl⟩, b1, b2, a1, a2⟩
  · intro t ht c1 c2 c3 c4
    obtain ⟨h1, h2, h3, h4⟩ := (mem_prefill_tiles SKB VBS Sq Sk t).mp ht
    have e : t.sk = sk0 := a4 t.sk h2 c3 (by rw [← h4]; exact c4)
    have hk : t.kbs = prefill_Sk_pad VBS Sk - t.sk := by rw [h4, e, a6]
    have hin : (((q - t.sq : Nat) : Int) * t.kbs + ((k - t.sk : Nat) : Int)) ∈
        causal_mask_writes t ((Sk : Int) - Sq) := by
      apply (causal_mask_writes_in_tile t ((Sk : Int) - Sq) (q - t.sq) (k - t.sk)
        (by omega) (by omega)).mpr
      omega
    refine ⟨?_, hk, by omega, hin, ?_⟩
    · intro sk2 hs2
      rw [e]
      exact last_key_tile _ Sk sk0 sk2 hpos m0 a5 hs2
    · intro AS
      rw [causal_mask_apply, if_pos hin]
  · intro rows i r hi hr
    obtain ⟨e1, e2, e3, e4⟩ :=
      prefill_extend_mask_row m10000 Sk (prefill_Sk_pad VBS Sk) rows (by omega) hle i r hi hr
    exact ⟨_, e1, e2, e3 k hk1 hk2, e4⟩

/-- Witness of C27: a bfloat16 prompt of 70 tokens with the default key-block size
(`Sk_pad = 128`, `Skb = 1024`). The padded key position 100 lies in the tile of 128
columns, and the mask row of 70 entries is extended to 128 entries. -/
theorem prefill_padded_keys_masked_witness :
    (∃ t, t ∈ prefill_tiles 64 2 70 70 ∧ t.sq ≤ 3 ∧ 3 < t.sq + t.qbs ∧ t.sk ≤ 100 ∧
      100 < t.sk + t.kbs) ∧
      ∃ r2, (prefill_extend_mask (-10000 : Int) 70 (prefill_Sk_pad 2 70)
          [List.replicate 70 0])[0]? = some r2 ∧ r2.length = prefill_Sk_pad 2 70 ∧
        r2[100]? = some (-10000) := by
  have h := prefill_padded_keys_masked (-1000000000 : Int) (-10000 : Int) 64 2 70 70
    (by decide) (by decide) 3 100 (by decide) (by decide) (by decide)
  refine ⟨h.2.1, ?_⟩
  obtain ⟨r2, h1, h2, h3, -⟩ := h.2.2.2.2 [List.replicate 70 0] 0 (List.replicate 70 0) rfl
    (by simp)
  exact ⟨r2, h1, h2, h3⟩

/-- C28: traced beam indices are valid cache rows. For `offset ≥ 1` and a beam-index table
with `B` columns and at least `offset` rows whose entries in the rows `[0, offset)` all lie
in `[0, B)`: every entry `traced[b][t]` (`b < B`, `t < offset`) produced by the
back-tracing loop lies in `[0, B)`; every access made by the loop, to the storage of the
table and to the new table of shape `[B, offset]`, is inside its table; and for a cache
with `B` batch rows and capacity at least `offset`, the row `KL_C[traced[b][t]][n][t]` read
by the decode attention is a row of the cache, whatever lies outside its storage. -/
theorem back_trace_valid_rows {α : Type} (T : Tensor2) (oobI : Int → Int) (B offset : Nat)
    (fresh : Nat → Nat → Int) (ho : 1 ≤ offset) (hC : T.C = B) (hR : offset ≤ T.R)
    (hT : ∀ t b, t < offset → b < B → 0 ≤ T.elem t b ∧ T.elem t b < B) :
    (∀ b, b < B → ∀ t, t < offset →
      0 ≤ back_trace T oobI B offset fresh b t ∧ back_trace T oobI B offset fresh b t < B) ∧
    (∀ a, a ∈ back_trace_log T oobI B offset fresh → a.inside T.numel B offset = true) ∧
    (∀ b, b < B →
      (back_trace_row_log T oobI B offset b (fresh b)).1 = back_trace T oobI B offset fresh b) ∧
    (∀ (KC : Tensor4 α) (oob : Int → α), KC.B = B → offset ≤ KC.S →
      ∀ b, b < B → ∀ n, n < KC.N → ∀ t, t < offset →
        (back_trace T oobI B offset fresh b t).toNat < KC.B ∧
        KC.loadRow oob (vlaOff KC.N KC.S KC.H (back_trace T oobI B offset fresh b t) n t) KC.H =
          rowOf KC.H (KC.elem (back_trace T oobI B offset fresh b t).toNat n t)) := by
  have hval : ∀ b, b < B → ∀ t, t < offset →
      0 ≤ back_trace T oobI B offset fresh b t ∧ back_trace T oobI B offset fresh b t < B := by
    intro b hb t ht
    exact (back_trace_congr T T oobI B offset fresh fresh hC hC hR hR
      (fun t b ht hb => ⟨rfl, hT t b ht hb⟩) b hb (offset - 1 - t) t (by omega)).2
  refine ⟨hval, ?_, ?_, ?_⟩
  · intro a ha
    unfold back_trace_log at ha
    obtain ⟨i, hi, hai⟩ := List.mem_flatMap.mp ha
    exact back_trace_row_log_inside T oobI B offset i (fresh i) ho hC hR
      (List.mem_range.mp hi) hT a hai
  · intro b hb
    rw [back_trace_row_log_fst, back_trace_eq T oobI B offset fresh b hb]
  · intro KC oob hB hS b hb n hn t ht
    obtain ⟨v0, v1⟩ := hval b hb t ht
    have hlt : (back_trace T oobI B offset fresh b t).toNat < KC.B := by omega
    refine ⟨hlt, ?_⟩
    have h := loadRow_vlaOff KC oob (back_trace T oobI B offset fresh b t).toNat n t hlt hn
      (by omega)
    rw [Int.toNat_of_nonneg v0] at h
    exact h

/-- Witness of C28 on the table with three time steps and two beams swapped at step 1: the
entry traced for beam row 0 at time step 0 is a row of the cache, and every access of the
loop nest is inside its table. -/
theorem back_trace_valid_rows_witness :
    0 ≤ back_trace exBeamSwap (fun _ => 0) 2 3 (fun _ _ => 0) 0 0 ∧
      back_trace exBeamSwap (fun _ => 0) 2 3 (fun _ _ => 0) 0 0 < 2 ∧
      ∀ a, a ∈ back_trace_log exBeamSwap (fun _ => 0) 2 3 (fun _ _ => 0) →
        a.inside exBeamSwap.numel 2 3 = true := by
  have h := back_trace_valid_rows (α := Int) exBeamSwap (fun _ => 0) 2 3 (fun _ _ => 0)
    (by decide) rfl (by decide)
    (by
      intro t b ht hb
      simp only [exBeamSwap]
      split <;> omega)
  exact ⟨(h.1 0 (by decide) 0 (by decide)).1, (h.1 0 (by decide) 0 (by decide)).2, h.2.1⟩

end TppLlm
